import Mathlib

/-!
# The connected-components split and evolver of `evolve_cc.c` (huayno)

A shallow embedding of `split_cc`, of the two verifiers `split_cc_verify` and
`split_cc_verify_ts`, and of one frame of `evolve_cc2`, with the data they work on,
followed by the properties of the split, of the verifiers and of the frame.

Conventions of the embedding.

* `DOUBLE` values are rationals: the split only compares time steps with `<=`.
* A `struct particle *` is an `Option ℤ`: `none` is `NULL`, `some a` is the address
  `a` counted in particles.  The particle store is a function from addresses to
  particle records, so a view may sit inside a larger buffer.
* `UINT` counters are naturals (`ℕ`).  `s.n - s.nzero` is the only subtraction of counters
  that could wrap; it does not when `nzero <= n`, which every well-formed view has.  The test
  of the Kepler shortcut of `evolve_cc2`, which is made before any check of the view, reads the
  difference with the wrap of `UINT`, whose width is a parameter of the build.
* Loops with a data-dependent number of passes take a fuel argument; running out
  of fuel is an outcome of its own, distinct from every `ENDRUN`.
* The calls of `timestep_ij` and the `SWAP`s of a run of `split_cc` are listed, in program
  order, by companion functions (`probe_loop_events` up to `split_cc_events`) that follow the
  loops of the split pass by pass and advance the state with the functions of the split.
* The functions that `evolve_cc.c` calls and does not define (`timestep_ij`, `drift`,
  `kick`, the leaf integrators, the centre-of-mass helpers, `verify_split_zeromass`) are
  parameters; a frame of `evolve_cc2` records the calls it issues, with their arguments.

All definitions come first, the theorems after them.
-/

namespace EvolveCC

set_option linter.unusedVariables false

set_option linter.unnecessarySeqFocus false

/-! # Definitions -/

/-! ## Data model -/

abbrev DOUBLE := ℚ

/-- A `struct particle *`; `none` is `NULL`. -/
abbrev Ptr := Option ℤ

/-- Modelled from the spec: `struct particle` is declared in `evolve.h`; the record has
a stable integer identity, a mass, a position and a velocity. -/
structure particle where
  id : ℕ
  mass : DOUBLE
  pos : DOUBLE × DOUBLE × DOUBLE
  vel : DOUBLE × DOUBLE × DOUBLE

/-- The particle store: the record held at every address. -/
abbrev Mem := ℤ → particle

/-- Modelled from the spec: `struct sys` is declared in `evolve.h`.  The fields are listed in
the order in which `IS_ZEROSYS` reads them; `next_cc` is `none` for `NULL` and otherwise
holds the node it points to. -/
inductive sys where
  | mk (n nzero : ℕ) (part last : Ptr) (next_cc : Option sys) (zeropart lastzero : Ptr) : sys

namespace sys

def n : sys → ℕ
  | mk n _ _ _ _ _ _ => n

def nzero : sys → ℕ
  | mk _ nzero _ _ _ _ _ => nzero

def part : sys → Ptr
  | mk _ _ part _ _ _ _ => part

def last : sys → Ptr
  | mk _ _ _ last _ _ _ => last

def next_cc : sys → Option sys
  | mk _ _ _ _ next_cc _ _ => next_cc

def zeropart : sys → Ptr
  | mk _ _ _ _ _ zeropart _ => zeropart

def lastzero : sys → Ptr
  | mk _ _ _ _ _ _ lastzero => lastzero

def set_n (v : ℕ) : sys → sys
  | mk _ nz p l nx zp lz => mk v nz p l nx zp lz

def set_nzero (v : ℕ) : sys → sys
  | mk n _ p l nx zp lz => mk n v p l nx zp lz

def set_part (v : Ptr) : sys → sys
  | mk n nz _ l nx zp lz => mk n nz v l nx zp lz

def set_last (v : Ptr) : sys → sys
  | mk n nz p _ nx zp lz => mk n nz p v nx zp lz

def set_next_cc (v : Option sys) : sys → sys
  | mk n nz p l _ zp lz => mk n nz p l v zp lz

def set_zeropart (v : Ptr) : sys → sys
  | mk n nz p l nx _ lz => mk n nz p l nx v lz

def set_lastzero (v : Ptr) : sys → sys
  | mk n nz p l nx zp _ => mk n nz p l nx zp v

end sys

/-- The zero view `zerosys`: every field zero or `NULL`. -/
def zerosys : sys := sys.mk 0 0 none none none none none

/-- The macro `IS_ZEROSYS(SYS)`. -/
def IS_ZEROSYS (s : sys) : Bool :=
  s.n == 0 && s.nzero == 0 && s.part.isNone && s.last.isNone && s.next_cc.isNone &&
    s.zeropart.isNone && s.lastzero.isNone

/-- The address a pointer holds; `NULL` is read as address `0`.  The split never computes
with a `NULL` pointer: every use is guarded by a test against `NULL`. -/
def Ptr.addr (p : Ptr) : ℤ := p.getD 0

/-- Pointer arithmetic `p + k`. -/
def Ptr.add (p : Ptr) (k : ℤ) : Ptr := p.map (fun a => a + k)

/-- Modelled from the spec: the accessor macro `GETPART(s, i)` of `evolve.h`: indices
`0 .. n-nzero-1` map into the massive range, `n-nzero .. n-1` into the massless range. -/
def GETPART (s : sys) (i : ℕ) : ℤ :=
  if i < s.n - s.nzero then s.part.addr + i else s.zeropart.addr + (i - (s.n - s.nzero) : ℕ)

/-- Modelled from the spec: the macro `SWAP(a, b, type)` of `evolve.h`, on the two records held at
addresses `a` and `b`. -/
def SWAP (mem : Mem) (a b : ℤ) : Mem :=
  fun x => if x = a then mem b else if x = b then mem a else mem x

/-- Modelled from the spec: the macro `SIGN(x)` of `evolve.h`, the sign of `dt` as an `int`. -/
def SIGN (x : DOUBLE) : ℤ := if 0 < x then 1 else if x < 0 then -1 else 0

/-- The counters of `diag` that the split and the evolver update. -/
structure diagnostics where
  tstep : ℤ → ℕ
  tcount : ℤ → ℕ
  ntasks : ℤ → ℕ
  taskcount : ℤ → ℕ
  deepsteps : ℕ
  simtime : DOUBLE

/-- The update `diag->tcount[clevel] += k`. -/
def diagnostics.tcount_add (d : diagnostics) (clevel : ℤ) (k : ℕ) : diagnostics :=
  { d with tcount := fun l => if l = clevel then d.tcount l + k else d.tcount l }

/-- The update `diag->tstep[clevel]++`. -/
def diagnostics.tstep_incr (d : diagnostics) (clevel : ℤ) : diagnostics :=
  { d with tstep := fun l => if l = clevel then d.tstep l + 1 else d.tstep l }

/-- The `ENDRUN` calls of `split_cc`, in source order. -/
inductive endrun where
  | not_right        -- "This does not look right..."
  | consistency      -- "consistency error in split_cc"
  | impossible       -- "impossible"
  | no_active        -- "no active, while stack still >0"
  | unexpected       -- "unexpected"
  | count_mismatch   -- "split_cc particle count mismatch"
  deriving DecidableEq, Repr

/-- How a run ends: normally, in an `ENDRUN` (with the particle store as it is at that
moment), or by exhausting the fuel of the embedding. -/
inductive outcome (α : Type) where
  | ok (a : α) : outcome α
  | fatal (msg : endrun) (mem : Mem) : outcome α
  | out_of_fuel : outcome α

/-- The local `struct particle **active`. -/
inductive active_ref where
  | NULL
  | comp_next
  | compzero_next
  deriving DecidableEq, Repr

/-- The locals of `split_cc` together with the particle store, the diagnostics and the list
headed by `c`.  `c_next` always points at the terminal node of that list and is not stored.
`active`, `comp_size`, `compzero_size` and `stack_size` are uninitialised in the source; they
are assigned before they are first read, and start here as `NULL` and `0`. -/
structure split_state where
  mem : Mem
  diag : diagnostics
  c : sys
  processed : ℕ
  active : active_ref
  comp_next : Ptr
  compzero_next : Ptr
  comp_size : ℕ
  compzero_size : ℕ
  stack_next : Ptr
  stackzero_next : Ptr
  stack_size : ℕ
  rest_next : Ptr
  restzero_next : Ptr

/-- What `split_cc` leaves behind on a normal return; `processed` is the final value of the
local counter. -/
structure split_out where
  c : sys
  r : sys
  mem : Mem
  diag : diagnostics
  processed : ℕ

/-! ## The split -/

/-- The state of one probing `for` loop: the store, the stack cursor of the range
(`stack_next` or `stackzero_next`), `stack_size` and the diagnostics. -/
structure probe_state where
  mem : Mem
  next : ℤ
  stack_size : ℕ
  diag : diagnostics

/-- The loop `for (struct particle *i = stack_next; i <= rest_next; i++)` of `split_cc`
(and its copy on `stackzero_next`), `k` passes from `i` on; `act` is the address `*active`. -/
def probe_loop (ts : particle → particle → ℤ → DOUBLE) (dir : ℤ) (dt : DOUBLE) (clevel : ℤ)
    (act : ℤ) : ℕ → ℤ → probe_state → probe_state
  | 0, _, p => p
  | k + 1, i, p =>
    let d := p.diag.tcount_add clevel 1
    if ts (p.mem act) (p.mem i) dir ≤ dt then
      probe_loop ts dir dt clevel act k (i + 1)
        { mem := SWAP p.mem p.next i, next := p.next + 1, stack_size := p.stack_size + 1,
          diag := d }
    else
      probe_loop ts dir dt clevel act k (i + 1) { p with diag := d }

/-- The address `*active`. -/
def active_addr (a : active_ref) (st : split_state) : ℤ :=
  match a with
  | .comp_next => st.comp_next.addr
  | .compzero_next => st.compzero_next.addr
  | .NULL => 0

/-- The choice of `active` at the head of a pass of the inner loop. -/
def select_active (st : split_state) : active_ref :=
  if st.stack_next ≠ none ∧ st.stack_next.addr - st.comp_next.addr > 0 then .comp_next
  else if st.stackzero_next ≠ none ∧ st.stackzero_next.addr - st.compzero_next.addr > 0 then
    .compzero_next
  else .NULL

/-- The block `if (stack_next != NULL) { for (i = stack_next; i <= rest_next; i++) ... }`. -/
def probe_massive (ts : particle → particle → ℤ → DOUBLE) (dir : ℤ) (dt : DOUBLE) (clevel : ℤ)
    (act : ℤ) (st : split_state) : split_state :=
  if st.stack_next ≠ none then
    let p := probe_loop ts dir dt clevel act
      (st.rest_next.addr - st.stack_next.addr + 1).toNat st.stack_next.addr
      ⟨st.mem, st.stack_next.addr, st.stack_size, st.diag⟩
    { st with mem := p.mem, stack_next := some p.next, stack_size := p.stack_size,
              diag := p.diag }
  else st

/-- The block `if (stackzero_next != NULL) { for (i = stackzero_next; i <= restzero_next;
i++) ... }`. -/
def probe_massless (ts : particle → particle → ℤ → DOUBLE) (dir : ℤ) (dt : DOUBLE)
    (clevel : ℤ) (act : ℤ) (st : split_state) : split_state :=
  if st.stackzero_next ≠ none then
    let p := probe_loop ts dir dt clevel act
      (st.restzero_next.addr - st.stackzero_next.addr + 1).toNat st.stackzero_next.addr
      ⟨st.mem, st.stackzero_next.addr, st.stack_size, st.diag⟩
    { st with mem := p.mem, stackzero_next := some p.next, stack_size := p.stack_size,
              diag := p.diag }
  else st

/-- The pop at the end of a pass of the inner loop: `(*active)++`, the size counters and
`stack_size--`.  The pass has ended in `ENDRUN` before this point when `active` is `NULL`. -/
def pop_stack (st : split_state) : split_state :=
  let st1 : split_state :=
    match st.active with
    | .comp_next => { st with comp_next := st.comp_next.add 1 }
    | .compzero_next => { st with compzero_next := st.compzero_next.add 1 }
    | .NULL => st
  let st2 : split_state :=
    if st.active = .compzero_next then { st1 with compzero_size := st1.compzero_size + 1 }
    else st1
  { st2 with comp_size := st2.comp_size + 1, stack_size := st2.stack_size - 1 }

/-- One pass of the loop `while (stack_size > 0)` of `split_cc`. -/
def inner_pass (ts : particle → particle → ℤ → DOUBLE) (dir : ℤ) (dt : DOUBLE) (clevel : ℤ)
    (st : split_state) : outcome split_state :=
  let active := select_active st
  if active = .NULL then .fatal .no_active st.mem
  else
    let act := active_addr active st
    let st1 : split_state := { st with active := active }
    let st2 := probe_massive ts dir dt clevel act st1
    let st3 := probe_massless ts dir dt clevel act st2
    .ok (pop_stack st3)

/-- The loop `while (stack_size > 0)` of `split_cc`. -/
def inner_loop (ts : particle → particle → ℤ → DOUBLE) (dir : ℤ) (dt : DOUBLE) (clevel : ℤ) :
    ℕ → split_state → outcome split_state
  | 0, st => if st.stack_size > 0 then .out_of_fuel else .ok st
  | fuel + 1, st =>
    if st.stack_size > 0 then
      match inner_pass ts dir dt clevel st with
      | .ok st1 => inner_loop ts dir dt clevel fuel st1
      | .fatal msg mem => .fatal msg mem
      | .out_of_fuel => .out_of_fuel
    else .ok st

/-- A write through `c_next`, which points at the terminal node of the list headed by `c`. -/
def at_c_next (f : sys → sys) : sys → sys
  | .mk n nz p l none zp lz => f (.mk n nz p l none zp lz)
  | .mk n nz p l (some nx) zp lz => .mk n nz p l (some (at_c_next f nx)) zp lz

/-- The branch `if (comp_size > 1)` of `split_cc`: the node at `c_next` is filled in, a fresh
node is linked behind it and set to `zerosys`. -/
def emit_component (st : split_state) : split_state :=
  { st with c := at_c_next (fun node =>
      let n1 : sys := (node.set_n st.comp_size).set_nzero st.compzero_size
      let n2 : sys :=
        if st.comp_size - st.compzero_size > 0 then
          (n1.set_part (st.comp_next.add (-((st.comp_size - st.compzero_size : ℕ) : ℤ)))).set_last
            (st.comp_next.add (-1))
        else n1
      let n3 : sys :=
        if st.compzero_size > 0 then
          (n2.set_zeropart (st.compzero_next.add (-(st.compzero_size : ℤ)))).set_lastzero
            (st.compzero_next.add (-1))
        else n2
      let n4 : sys := if n3.part = none then n3.set_part n3.zeropart else n3
      n4.set_next_cc (some zerosys)) st.c }

/-- The `else` branch of `if (comp_size > 1)`: the lone particle is swapped to the end of
the unvisited zone of its range and the cursors are backed up. -/
def demote_to_rest (st : split_state) : split_state :=
  if st.active = .comp_next then
    let comp_next := st.comp_next.add (-1)
    { st with comp_next := comp_next,
              mem := SWAP st.mem comp_next.addr st.rest_next.addr,
              rest_next := st.rest_next.add (-1),
              stack_next := st.stack_next.add (-1) }
  else
    let compzero_next := st.compzero_next.add (-1)
    { st with compzero_next := compzero_next,
              mem := SWAP st.mem compzero_next.addr st.restzero_next.addr,
              restzero_next := st.restzero_next.add (-1),
              stackzero_next := st.stackzero_next.add (-1) }

/-- The start-up of the stack at the head of a pass of the outer loop. -/
def startup_stack (st : split_state) : split_state :=
  let st1 : split_state := { st with comp_size := 0, compzero_size := 0 }
  let st2 : split_state :=
    if st1.stack_next ≠ none ∧ st1.stack_next.addr < st1.rest_next.addr + 1 then
      { st1 with stack_next := st1.stack_next.add 1, stack_size := 1 }
    else st1
  if st2.comp_next = st2.stack_next ∧ st2.stackzero_next ≠ none ∧
      st2.stackzero_next.addr < st2.restzero_next.addr + 1 then
    { st2 with stackzero_next := st2.stackzero_next.add 1, stack_size := 1 }
  else st2

/-- One pass of the loop `while (processed < s.n)` of `split_cc`. -/
def outer_pass (ts : particle → particle → ℤ → DOUBLE) (dir : ℤ) (dt : DOUBLE) (clevel : ℤ)
    (fuel : ℕ) (st : split_state) : outcome split_state :=
  if st.stack_next ≠ st.comp_next then .fatal .consistency st.mem
  else if st.stackzero_next ≠ st.compzero_next then .fatal .consistency st.mem
  else
    let st1 := startup_stack st
    if st1.stack_next = st1.comp_next ∧ st1.stackzero_next = st1.compzero_next then
      .fatal .impossible st1.mem
    else
      match inner_loop ts dir dt clevel fuel st1 with
      | .ok st2 =>
        let st3 : split_state := { st2 with processed := st2.processed + st2.comp_size }
        if st3.comp_size > 1 then .ok (emit_component st3) else .ok (demote_to_rest st3)
      | .fatal msg mem => .fatal msg mem
      | .out_of_fuel => .out_of_fuel

/-- The loop `while (processed < s.n)` of `split_cc`. -/
def outer_loop (ts : particle → particle → ℤ → DOUBLE) (dir : ℤ) (dt : DOUBLE) (clevel : ℤ)
    (n : ℕ) (fuel : ℕ) : ℕ → split_state → outcome split_state
  | 0, st => if st.processed < n then .out_of_fuel else .ok st
  | k + 1, st =>
    if st.processed < n then
      match outer_pass ts dir dt clevel fuel st with
      | .ok st1 => outer_loop ts dir dt clevel n fuel k st1
      | .fatal msg mem => .fatal msg mem
      | .out_of_fuel => .out_of_fuel
    else .ok st

/-- The locals of `split_cc` as the outer loop is entered. -/
def split_init (s : sys) (mem : Mem) (diag : diagnostics) : split_state :=
  let stack_next : Ptr := if s.n - s.nzero > 0 then s.part else none
  let rest_next : Ptr := if s.n - s.nzero > 0 then s.last else none
  let stackzero_next : Ptr := if s.nzero > 0 then s.zeropart else none
  let restzero_next : Ptr := if s.nzero > 0 then s.lastzero else none
  { mem := mem, diag := diag, c := zerosys, processed := 0, active := .NULL,
    comp_next := stack_next, compzero_next := stackzero_next,
    comp_size := 0, compzero_size := 0,
    stack_next := stack_next, stackzero_next := stackzero_next, stack_size := 0,
    rest_next := rest_next, restzero_next := restzero_next }

/-- The rest system `r` as `split_cc` builds it after the outer loop. -/
def make_rest (s : sys) (st : split_state) : sys :=
  let r0 : sys := zerosys
  let r1 : sys :=
    if st.rest_next ≠ none then r0.set_n (s.last.addr - st.rest_next.addr).toNat else r0
  let r2 : sys :=
    if st.restzero_next ≠ none then
      r1.set_nzero (s.lastzero.addr - st.restzero_next.addr).toNat
    else r1
  let r3 : sys := r2.set_n (r2.n + r2.nzero)
  let r4 : sys :=
    if r3.n - r3.nzero > 0 then (r3.set_part (st.rest_next.add 1)).set_last s.last else r3
  let r5 : sys :=
    if r4.nzero > 0 then (r4.set_zeropart (st.restzero_next.add 1)).set_lastzero s.lastzero
    else r4
  if r5.part = none then r5.set_part r5.zeropart else r5

/-- The code of `split_cc` behind the outer loop. -/
def split_finish (s : sys) (st : split_state) : outcome split_out :=
  if st.stack_next ≠ none ∧ st.stack_next ≠ st.rest_next.add 1 then .fatal .unexpected st.mem
  else if st.stackzero_next ≠ none ∧ st.stackzero_next ≠ st.restzero_next.add 1 then
    .fatal .unexpected st.mem
  else if st.processed ≠ s.n then .fatal .count_mismatch st.mem
  else .ok ⟨st.c, make_rest s st, st.mem, st.diag, st.processed⟩

/-- The function `split_cc(clevel, s, c, r, dt)`.  `ts` is `timestep_ij`; `fuel` bounds the
number of passes of the outer loop and of each run of the inner loop. -/
def split_cc (ts : particle → particle → ℤ → DOUBLE) (fuel : ℕ) (clevel : ℤ) (s : sys)
    (dt : DOUBLE) (mem : Mem) (diag : diagnostics) : outcome split_out :=
  let dir := SIGN dt
  let dt := |dt|
  let diag := diag.tstep_incr clevel
  if s.n ≤ 1 then .fatal .not_right mem
  else
    match outer_loop ts dir dt clevel s.n fuel fuel (split_init s mem diag) with
    | .ok st => split_finish s st
    | .fatal msg mem1 => .fatal msg mem1
    | .out_of_fuel => .out_of_fuel

/-! ## Permutations of the store -/

/-- The store `m1` is `m` read through a permutation of the addresses in `S`. -/
def MemPerm (S : ℤ → Prop) (m m1 : Mem) : Prop :=
  ∃ π : Equiv.Perm ℤ, (∀ x, ¬ S x → π x = x) ∧ ∀ x, m1 x = m (π x)

/-! ## Cursors -/

/-- The two address ranges of the view that is split: base and length of the massive range
and of the massless range. -/
structure Geo where
  P : ℤ
  nm : ℕ
  Z : ℤ
  nz : ℕ

/-- The ranges of a view. -/
def geo (s : sys) : Geo := ⟨s.part.addr, s.n - s.nzero, s.zeropart.addr, s.nzero⟩

/-- The two ranges do not overlap. -/
def Geo.Disj (G : Geo) : Prop :=
  G.nm = 0 ∨ G.nz = 0 ∨ G.P + G.nm ≤ G.Z ∨ G.Z + G.nz ≤ G.P

/-- The addresses at offsets `a .. b-1` of the massive range and at offsets `c .. d-1` of the
massless range. -/
def Geo.zone (G : Geo) (a b c d : ℕ) (x : ℤ) : Prop :=
  (G.P + a ≤ x ∧ x < G.P + b) ∨ (G.Z + c ≤ x ∧ x < G.Z + d)

/-- A cursor into a range of `N` particles: `NULL` when the range is empty. -/
def lp (N : ℕ) (x : ℤ) : Ptr := if 0 < N then some x else none

/-- The zones of the two ranges, by size: emitted, visited, stack and rest, for the massive
range and for the massless range. -/
structure Cnt where
  em : ℕ
  vm : ℕ
  km : ℕ
  rm : ℕ
  ez : ℕ
  vz : ℕ
  kz : ℕ
  rz : ℕ

/-- The cursors of `split_cc` sit at the borders of the zones. -/
structure Cur (G : Geo) (g : Cnt) (st : split_state) : Prop where
  comp_next : st.comp_next = lp G.nm (G.P + g.em + g.vm)
  stack_next : st.stack_next = lp G.nm (G.P + g.em + g.vm + g.km)
  rest_next : st.rest_next = lp G.nm (G.P + G.nm - 1 - g.rm)
  bound : g.em + g.vm + g.km + g.rm ≤ G.nm
  compzero_next : st.compzero_next = lp G.nz (G.Z + g.ez + g.vz)
  stackzero_next : st.stackzero_next = lp G.nz (G.Z + g.ez + g.vz + g.kz)
  restzero_next : st.restzero_next = lp G.nz (G.Z + G.nz - 1 - g.rz)
  boundzero : g.ez + g.vz + g.kz + g.rz ≤ G.nz
  processed : st.processed = g.em + g.rm + g.ez + g.rz

/-- The address of the particle at the head of the stack. -/
def Cnt.act (G : Geo) (g : Cnt) : ℤ :=
  if 0 < g.km then G.P + g.em + g.vm else G.Z + g.ez + g.vz

/-- The zones after `jm` massive and `jz` massless particles have been pushed. -/
def Cnt.push (g : Cnt) (jm jz : ℕ) : Cnt := { g with km := g.km + jm, kz := g.kz + jz }

/-- The zones after the head of the stack has been popped from the massive (`true`) or the
massless (`false`) range. -/
def Cnt.pop (g : Cnt) (massive : Bool) : Cnt :=
  if massive then { g with vm := g.vm + 1, km := g.km - 1 }
  else { g with vz := g.vz + 1, kz := g.kz - 1 }

/-! ## The invariant of the split -/

/-- The edge relation of the time-step graph on particle records:
`timestep_ij(p, q, dir) <= dt`. -/
def fast (ts : particle → particle → ℤ → DOUBLE) (dir : ℤ) (dt : DOUBLE)
    (p q : particle) : Prop :=
  ts p q dir ≤ dt

/-- The edge between the particles held at two addresses. -/
def Ed (E : particle → particle → Prop) (mem : Mem) (i j : ℤ) : Prop :=
  E (mem i) (mem j)

/-- No edge in at least one direction between the particles at two addresses. -/
def Sep2 (E : particle → particle → Prop) (mem : Mem) (i j : ℤ) : Prop :=
  ¬ Ed E mem i j ∨ ¬ Ed E mem j i

/-- One step of a chain inside the set of addresses `S`: an edge between two different
addresses of `S`. -/
def ChainStep (E : particle → particle → Prop) (mem : Mem) (S : ℤ → Prop) (a b : ℤ) : Prop :=
  S a ∧ S b ∧ a ≠ b ∧ Ed E mem a b

/-- Every address of `S` is reached from one address of `S` by a chain of edges inside `S`. -/
def Conn (E : particle → particle → Prop) (mem : Mem) (S : ℤ → Prop) : Prop :=
  ∃ s0, S s0 ∧ ∀ j, S j → Relation.ReflTransGen (ChainStep E mem S) s0 j

/-- A component that has been emitted: offset and size of its massive span, offset and size
of its massless span. -/
structure Blk where
  a : ℕ
  vm : ℕ
  b : ℕ
  vz : ℕ

/-- The addresses of an emitted component. -/
def Blk.has (G : Geo) (q : Blk) (x : ℤ) : Prop :=
  G.zone q.a (q.a + q.vm) q.b (q.b + q.vz) x

/-- The components lie one behind the other in both ranges, from offsets `a`, `b` up to offsets
`e`, `f`, and each has at least two particles. -/
def Tiled : ℕ → ℕ → List Blk → ℕ → ℕ → Prop
  | a, b, [], e, f => a = e ∧ b = f
  | a, b, q :: t, e, f => q.a = a ∧ q.b = b ∧ 2 ≤ q.vm + q.vz ∧ Tiled (a + q.vm) (b + q.vz) t e f

/-- The node of the list headed by `c` for an emitted component. -/
def compNode (G : Geo) (q : Blk) (next : Option sys) : sys :=
  .mk (q.vm + q.vz) q.vz
    (if 0 < q.vm then some (G.P + q.a) else if 0 < q.vz then some (G.Z + q.b) else none)
    (if 0 < q.vm then some (G.P + q.a + q.vm - 1) else none)
    next
    (if 0 < q.vz then some (G.Z + q.b) else none)
    (if 0 < q.vz then some (G.Z + q.b + q.vz - 1) else none)

/-- The list headed by `c` for the components emitted so far; it ends in `zerosys`. -/
def linkCC (G : Geo) : List Blk → sys
  | [] => zerosys
  | q :: t => compNode G q (some (linkCC G t))

/-- The addresses of the massive range of the view, in order. -/
def Geo.laneM (G : Geo) : List ℤ := (List.range G.nm).map (fun (i : ℕ) => G.P + (i : ℤ))

/-- The addresses of the massless range of the view, in order. -/
def Geo.laneZ (G : Geo) : List ℤ := (List.range G.nz).map (fun (i : ℕ) => G.Z + (i : ℤ))

/-- The store `m` holds, in each of the two ranges, the particles that `m0` holds there, in
some order, and agrees with `m0` outside the two ranges. -/
structure LanesPerm (G : Geo) (m0 m : Mem) : Prop where
  frame : ∀ x, ¬ G.zone 0 G.nm 0 G.nz x → m x = m0 x
  massive : (G.laneM.map m).Perm (G.laneM.map m0)
  massless : (G.laneZ.map m).Perm (G.laneZ.map m0)

/-! ## The zones and the invariant -/

/-- The finished addresses: emitted components and rest. -/
def Done (G : Geo) (g : Cnt) (x : ℤ) : Prop :=
  G.zone 0 g.em 0 g.ez x ∨ G.zone (G.nm - g.rm) G.nm (G.nz - g.rz) G.nz x

/-- The addresses that are not finished: current component and unvisited zone. -/
def Live (G : Geo) (g : Cnt) (x : ℤ) : Prop :=
  G.zone g.em (G.nm - g.rm) g.ez (G.nz - g.rz) x

/-- The visited (popped) addresses of the current component. -/
def Vis (G : Geo) (g : Cnt) (x : ℤ) : Prop :=
  G.zone g.em (g.em + g.vm) g.ez (g.ez + g.vz) x

/-- The unvisited addresses. -/
def Unv (G : Geo) (g : Cnt) (x : ℤ) : Prop :=
  G.zone (g.em + g.vm + g.km) (G.nm - g.rm) (g.ez + g.vz + g.kz) (G.nz - g.rz) x

/-- The addresses of the current component: visited and stack. -/
def CurZ (G : Geo) (g : Cnt) (x : ℤ) : Prop :=
  G.zone g.em (g.em + g.vm + g.km) g.ez (g.ez + g.vz + g.kz) x

/-- No edge from a finished particle to one that is not finished. -/
def SepAct (E : particle → particle → Prop) (G : Geo) (g : Cnt) (m : Mem) : Prop :=
  ∀ i j, Done G g i → Live G g j → ¬ Ed E m i j

/-- Two finished particles are in one component or not joined in at least one direction. -/
def SepFin (E : particle → particle → Prop) (G : Geo) (g : Cnt) (L : List Blk) (m : Mem) :
    Prop :=
  ∀ i j, Done G g i → Done G g j → i ≠ j → (∃ q ∈ L, q.has G i ∧ q.has G j) ∨ Sep2 E m i j

/-- Every emitted component is connected. -/
def ConnAll (E : particle → particle → Prop) (G : Geo) (L : List Blk) (m : Mem) : Prop :=
  ∀ q ∈ L, Conn E m (q.has G)

/-- No edge from a visited particle of the current component to an unvisited one. -/
def SepVis (E : particle → particle → Prop) (G : Geo) (g : Cnt) (m : Mem) : Prop :=
  ∀ i j, Vis G g i → Unv G g j → ¬ Ed E m i j

/-- The current component, visited and stack, is connected. -/
def ConnCur (E : particle → particle → Prop) (G : Geo) (g : Cnt) (m : Mem) : Prop :=
  0 < g.vm + g.km + g.vz + g.kz → Conn E m (CurZ G g)

/-- The invariant of `split_cc`, between two passes of the inner loop.  `g` gives the zones,
`L` the components emitted so far and `m0` is the store at the call. -/
structure Inv (E : particle → particle → Prop) (G : Geo) (m0 : Mem) (g : Cnt) (L : List Blk)
    (st : split_state) : Prop where
  cur : Cur G g st
  clist : st.c = linkCC G L
  tiled : Tiled 0 0 L g.em g.ez
  lanes : LanesPerm G m0 st.mem
  perm : MemPerm (G.zone 0 G.nm 0 G.nz) m0 st.mem
  sepAct : SepAct E G g st.mem
  sepFin : SepFin E G g L st.mem
  connAll : ConnAll E G L st.mem
  sepVis : SepVis E G g st.mem
  connCur : ConnCur E G g st.mem

/-- The counters of the inner loop and the last choice of `active`. -/
structure InnerX (g : Cnt) (st : split_state) : Prop where
  stack_size : st.stack_size = g.km + g.kz
  comp_size : st.comp_size = g.vm + g.vz
  compzero_size : st.compzero_size = g.vz
  active : 1 ≤ g.vm + g.vz →
    (st.active = .comp_next ∧ 1 ≤ g.vm) ∨ (st.active = .compzero_next ∧ 1 ≤ g.vz)

/-- How the zones change in one pass of the inner loop that pushes `jm` and `jz` particles
and pops the particle at address `a`. -/
structure PopRel (G : Geo) (g g1 : Cnt) (jm jz : ℕ) (a : ℤ) : Prop where
  hb : g.em + g.vm + g.km + g.rm ≤ G.nm
  hbz : g.ez + g.vz + g.kz + g.rz ≤ G.nz
  hb1 : g1.em + g1.vm + g1.km + g1.rm ≤ G.nm
  hbz1 : g1.ez + g1.vz + g1.kz + g1.rz ≤ G.nz
  em : g1.em = g.em
  rm : g1.rm = g.rm
  ez : g1.ez = g.ez
  rz : g1.rz = g.rz
  mkk : g1.vm + g1.km = g.vm + g.km + jm
  zk : g1.vz + g1.kz = g.vz + g.kz + jz
  pop : (0 < g.km ∧ g1.vm = g.vm + 1 ∧ g1.vz = g.vz ∧ a = G.P + g.em + g.vm) ∨
    (g.km = 0 ∧ 0 < g.kz ∧ g1.vm = g.vm ∧ g1.vz = g.vz + 1 ∧ a = G.Z + g.ez + g.vz)

/-! ## The outer loop -/

/-- The zones at the head of a pass of the outer loop: no current component. -/
def Cnt.Head (g : Cnt) : Prop := g.vm = 0 ∧ g.km = 0 ∧ g.vz = 0 ∧ g.kz = 0

/-- The zones after the start-up of the stack: the seed is the leftmost particle of the
massive range that is not finished, or of the massless range when there is none. -/
def Cnt.seed (G : Geo) (g : Cnt) : Cnt :=
  if g.em + g.rm < G.nm then { g with km := 1 } else { g with kz := 1 }

/-- The zones once the current component has been emitted. -/
def Cnt.emitted (g : Cnt) : Cnt :=
  ⟨g.em + g.vm, 0, 0, g.rm, g.ez + g.vz, 0, 0, g.rz⟩

/-- The component that is emitted. -/
def Cnt.blk (g : Cnt) : Blk := ⟨g.em, g.vm, g.ez, g.vz⟩

/-- The zones once the lone particle has been moved to the rest. -/
def Cnt.demoted (g : Cnt) : Cnt :=
  if 1 ≤ g.vm then ⟨g.em, 0, 0, g.rm + 1, g.ez, 0, 0, g.rz⟩
  else ⟨g.em, 0, 0, g.rm, g.ez, 0, 0, g.rz + 1⟩

/-- The address of the lone particle of a trivial component. -/
def Cnt.seedAddr (G : Geo) (g : Cnt) : ℤ := if 1 ≤ g.vm then G.P + g.em else G.Z + g.ez

/-- The address it is swapped to: the last address of its range that is not in the rest. -/
def Cnt.restAddr (G : Geo) (g : Cnt) : ℤ :=
  if 1 ≤ g.vm then G.P + G.nm - 1 - g.rm else G.Z + G.nz - 1 - g.rz

/-- How the zones change when the lone particle at `σ` is swapped to `ρ` and joins the
rest. -/
structure DemRel (G : Geo) (g g1 : Cnt) (σ ρ : ℤ) : Prop where
  hb : g.em + g.vm + g.km + g.rm ≤ G.nm
  hbz : g.ez + g.vz + g.kz + g.rz ≤ G.nz
  km : g.km = 0
  kz : g.kz = 0
  head : g1.Head
  cases : (g.vm = 1 ∧ g.vz = 0 ∧ g1.em = g.em ∧ g1.rm = g.rm + 1 ∧ g1.ez = g.ez ∧
      g1.rz = g.rz ∧ σ = G.P + g.em ∧ ρ = G.P + G.nm - 1 - g.rm) ∨
    (g.vm = 0 ∧ g.vz = 1 ∧ g1.em = g.em ∧ g1.rm = g.rm ∧ g1.ez = g.ez ∧
      g1.rz = g.rz + 1 ∧ σ = G.Z + g.ez ∧ ρ = G.Z + G.nz - 1 - g.rz)

/-! ## The whole split -/

/-- The layout invariants of a view that `split_cc` relies on: the counts are consistent, a
range that is not empty is given by its first and last address, and the two ranges do not
overlap.  A contiguous view (`zeropart == last + 1`) is a special case. -/
def WF (s : sys) : Prop :=
  s.nzero ≤ s.n ∧
  (0 < s.n - s.nzero → s.part ≠ none ∧ s.last = s.part.add (((s.n - s.nzero : ℕ) : ℤ) - 1)) ∧
  (0 < s.nzero → s.zeropart ≠ none ∧ s.lastzero = s.zeropart.add ((s.nzero : ℤ) - 1)) ∧
  (geo s).Disj

instance (s : sys) : Decidable (WF s) := by
  unfold WF Geo.Disj; infer_instance

/-- The zones before the first pass of the outer loop. -/
def Cnt.zero : Cnt := ⟨0, 0, 0, 0, 0, 0, 0, 0⟩

/-- What the split guarantees on a normal return.  `g` gives the sizes of the emitted zones
and of the rest, `L` the emitted components, `m0` is the store at the call. -/
structure SplitRes (E : particle → particle → Prop) (G : Geo) (m0 : Mem) (g : Cnt)
    (L : List Blk) (out : split_out) : Prop where
  head : g.Head
  fullm : g.em + g.rm = G.nm
  fullz : g.ez + g.rz = G.nz
  c_eq : out.c = linkCC G L
  r_eq : out.r = compNode G ⟨g.em, g.rm, g.ez, g.rz⟩ none
  processed : out.processed = G.nm + G.nz
  tiled : Tiled 0 0 L g.em g.ez
  lanes : LanesPerm G m0 out.mem
  perm : MemPerm (G.zone 0 G.nm 0 G.nz) m0 out.mem
  sepFin : SepFin E G g L out.mem
  connAll : ConnAll E G L out.mem

/-! ## Views as lists of addresses -/

/-- The views of a list of components, as every loop
`for (ci = c; !IS_ZEROSYS(ci); ci = ci->next_cc)` of the source visits them.  A list that does
not end in `zerosys` makes that loop read through `NULL`; here it ends the list. -/
def ccViews : sys → List sys
  | .mk n nz p l none zp lz =>
    if IS_ZEROSYS (.mk n nz p l none zp lz) then [] else [.mk n nz p l none zp lz]
  | .mk n nz p l (some nx) zp lz => .mk n nz p l (some nx) zp lz :: ccViews nx

/-- The addresses of the particles of a view, in the order of `GETPART`. -/
def sysPos (v : sys) : List ℤ := (List.range v.n).map (GETPART v)

/-- The particles of a view, in the order of `GETPART`. -/
def sysParts (mem : Mem) (v : sys) : List particle := (sysPos v).map mem

/-- The addresses of an emitted component, massive span first. -/
def blkPos (G : Geo) (q : Blk) : List ℤ :=
  (List.range q.vm).map (fun (i : ℕ) => G.P + q.a + (i : ℤ)) ++
    (List.range q.vz).map (fun (i : ℕ) => G.Z + q.b + (i : ℤ))

/-- The nodes of the list headed by `c`, one for each emitted component. -/
def nodesOf (G : Geo) : List Blk → List sys
  | [] => []
  | q :: t => compNode G q (some (linkCC G t)) :: nodesOf G t

/-- Order of the emitted components inside the two ranges. -/
def Blk.before (q r : Blk) : Prop := q.a + q.vm ≤ r.a ∧ q.b + q.vz ≤ r.b

/-! ## The result of the split, view by view -/

/-- The rest, as a span of each range. -/
def Cnt.rblk (g : Cnt) : Blk := ⟨g.em, g.rm, g.ez, g.rz⟩

/-- One step of an undirected chain inside the set of addresses `S`: two different addresses
of `S` joined by an edge in one direction or the other. -/
def UStep (E : particle → particle → Prop) (mem : Mem) (S : ℤ → Prop) (a b : ℤ) : Prop :=
  S a ∧ S b ∧ a ≠ b ∧ (Ed E mem a b ∨ Ed E mem b a)

/-! ## Contiguity, input checks -/

/-- A check of the result of a run: it holds when the run returns normally with a result that
passes `P`. -/
def outcome.check {α : Type} (P : α → Bool) : outcome α → Bool
  | .ok a => P a
  | .fatal _ _ => false
  | .out_of_fuel => false

/-- A particle record with the given id and mass, at rest at the origin. -/
def mkParticle (id : ℕ) (mass : DOUBLE) : particle := ⟨id, mass, (0, 0, 0), (0, 0, 0)⟩

/-- A store whose particle at address `a` has id `a`; the addresses in `zero` hold massless
particles, all others particles of mass `1`. -/
def idStore (zero : List ℤ) : Mem := fun a => mkParticle a.toNat (if a ∈ zero then 0 else 1)

/-- A symmetric time-step function: `tight` for the pairs of ids listed in `pairs`, in either
order, and `slow` for every other pair. -/
def pairTs (pairs : List (ℕ × ℕ)) (tight slow : DOUBLE) : particle → particle → ℤ → DOUBLE :=
  fun p q _ => if (p.id, q.id) ∈ pairs ∨ (q.id, p.id) ∈ pairs then tight else slow

/-- Diagnostics with every counter at zero. -/
def diag0 : diagnostics := ⟨fun _ => 0, fun _ => 0, fun _ => 0, fun _ => 0, 0, 0⟩

/-- A contiguous view of `n` particles from address `0`, the last `nzero` of them massless. -/
def viewAt0 (n nzero : ℕ) : sys :=
  .mk n nzero (if 0 < n - nzero then some 0 else if 0 < nzero then some 0 else none)
    (if 0 < n - nzero then some (((n - nzero : ℕ) : ℤ) - 1) else none) none
    (if 0 < nzero then some ((n - nzero : ℕ) : ℤ) else none)
    (if 0 < nzero then some ((n : ℤ) - 1) else none)

/-- A view of one massive particle at address `0` and one massless particle at address `5`:
its two ranges are not adjacent. -/
def gapView : sys := .mk 2 1 (some 0) (some 0) none (some 5) (some 5)

/-! ## Termination -/

/-- The states in which a run of the outer loop from `st0` is at the head of a pass. -/
inductive OuterReach (ts : particle → particle → ℤ → DOUBLE) (dir : ℤ) (dt : DOUBLE)
    (clevel : ℤ) (fuel : ℕ) (n : ℕ) (st0 : split_state) : split_state → Prop where
  | init : OuterReach ts dir dt clevel fuel n st0 st0
  | step {st st1 : split_state} : OuterReach ts dir dt clevel fuel n st0 st →
      st.processed < n → outer_pass ts dir dt clevel fuel st = .ok st1 →
      OuterReach ts dir dt clevel fuel n st0 st1

/-- The states in which a run of the inner loop, in some pass of the outer loop run from `st0`,
is at the head of a pass. -/
inductive InnerReach (ts : particle → particle → ℤ → DOUBLE) (dir : ℤ) (dt : DOUBLE)
    (clevel : ℤ) (fuel : ℕ) (n : ℕ) (st0 : split_state) : split_state → Prop where
  | start {st : split_state} : OuterReach ts dir dt clevel fuel n st0 st →
      st.processed < n → InnerReach ts dir dt clevel fuel n st0 (startup_stack st)
  | step {st st1 : split_state} : InnerReach ts dir dt clevel fuel n st0 st →
      st.stack_size > 0 → inner_pass ts dir dt clevel st = .ok st1 →
      InnerReach ts dir dt clevel fuel n st0 st1

/-! ## Instances of the claims -/

/-- The time-step function of a chain of six particles: only neighbours are tight. -/
def chainTs : particle → particle → ℤ → DOUBLE :=
  pairTs [(0, 1), (1, 2), (2, 3), (3, 4), (4, 5)] (1 / 100) 1

/-- The time-step function in which only the particles of ids `0` and `1` are tight. -/
def oneTightTs : particle → particle → ℤ → DOUBLE := pairTs [(0, 1)] (1 / 100) 1

/-- The ids of the particles of a view, in the order of the view. -/
def sysIds (m : Mem) (v : sys) : List ℕ := (sysParts m v).map particle.id

/-! ## The verifiers of a split -/

/-- The `ENDRUN` calls of `split_cc_verify` and `split_cc_verify_ts`, and the end of the run
inside the helper `verify_split_zeromass`. -/
inductive verify_end where
  | zeromass       -- inside `verify_split_zeromass`
  | corrupted      -- "data structure corrupted"
  | cc_underflow   -- "split_cc_verify_ts C-C timestep underflow"
  | cr_underflow   -- "split_cc_verify_ts C-R timestep underflow"
  | rr_underflow   -- "split_cc_verify_ts R-R timestep underflow"
  deriving DecidableEq, Repr

/-- A `for` loop over the elements of a list, with the variables of the loop in `σ`; the body
may end the run. -/
def foldE {α σ ε : Type} : List α → σ → (σ → α → Except ε σ) → Except ε σ
  | [], s, _ => .ok s
  | a :: t, s, f =>
    match f s a with
    | .ok s1 => foldE t s1 f
    | .error e => .error e

/-- A `for` loop without variables of its own. -/
def loopE {α ε : Type} (l : List α) (f : α → Except ε Unit) : Except ε Unit :=
  foldE l () (fun _ a => f a)

/-- The loop `for (k = 0; k < v.n; k++) if (p->id == pk->id) particle_found += 1;` of
`split_cc_verify`. -/
def count_found (mem : Mem) (pid : ℕ) (v : sys) (found : ℕ) : ℕ :=
  (List.range v.n).foldl (fun f k => if pid = (mem (GETPART v k)).id then f + 1 else f) found

/-- The body of the loop of `split_cc_verify` over the components `cj`; the variables of the
loop are `pcount_check` and `particle_found`.  The helper `verify_split_zeromass` of `evolve.h`
is the parameter `zm`: it returns on the views on which `zm` is `true`.  The counters are
naturals: `cj->n-cj->nzero` is the difference of C on the views with `nzero <= n`. -/
def verify_cc (zm : Mem → sys → Bool) (mem : Mem) (pid : ℕ) (acc : ℕ × ℕ) (cj : sys) :
    Except verify_end (ℕ × ℕ) :=
  if zm mem cj = false then .error .zeromass
  else
    let pcount_check := acc.1 + cj.n
    let particle_found := count_found mem pid cj acc.2
    if cj.n - cj.nzero > 0 ∧ some (GETPART cj (cj.n - cj.nzero - 1)) ≠ cj.last then
      .error .corrupted
    else if cj.nzero > 0 ∧ some (GETPART cj (cj.n - 1)) ≠ cj.lastzero then
      .error .corrupted
    else .ok (pcount_check, particle_found)

/-- The body of the loop of `split_cc_verify` over the particles `i` of the snapshot `s`, whose
particles are read in the store `smem`; it yields the new value of `pcount_check`. -/
def verify_particle (zm : Mem → sys → Bool) (smem : Mem) (s : sys) (mem : Mem) (c r : sys)
    (pcount_check : ℕ) (i : ℕ) : Except verify_end ℕ :=
  let p := smem (GETPART s i)
  match foldE (ccViews c) (0, 0) (verify_cc zm mem p.id) with
  | .error e => .error e
  | .ok (pc, found) =>
    if zm mem r = false then .error .zeromass
    else
      let particle_found := count_found mem p.id r found
      if particle_found ≠ 1 then .error .corrupted else .ok pc

/-- The function `split_cc_verify(clevel, s, c, r)`.  The snapshot `s` is a view of the store
`smem`, the split `c`, `r` one of the store `mem`. -/
def split_cc_verify (zm : Mem → sys → Bool) (smem : Mem) (s : sys) (mem : Mem) (c r : sys) :
    Except verify_end Unit :=
  match foldE (List.range s.n) 0 (verify_particle zm smem s mem c r) with
  | .error e => .error e
  | .ok pcount_check => if pcount_check + r.n ≠ s.n then .error .corrupted else .ok ()

/-- The three loop nests of `split_cc_verify_ts(clevel, c, r, dt)`.  The test `ci == cj` on
two nodes of the list is the test of their positions in the list. -/
def split_cc_verify_ts (ts : particle → particle → ℤ → DOUBLE) (mem : Mem) (c r : sys)
    (dt : DOUBLE) : Except verify_end Unit :=
  let dir := SIGN dt
  let dt := |dt|
  let cs := (ccViews c).enum
  match loopE cs (fun ci => loopE (List.range ci.2.n) (fun i => loopE cs (fun cj =>
      if ci.1 = cj.1 then .ok ()
      else loopE (List.range cj.2.n) (fun j =>
        if dt > ts (mem (GETPART ci.2 i)) (mem (GETPART cj.2 j)) dir then .error .cc_underflow
        else .ok ())))) with
  | .error e => .error e
  | .ok _ =>
    match loopE cs (fun ci => loopE (List.range ci.2.n) (fun i =>
        loopE (List.range r.n) (fun j =>
          if ts (mem (GETPART ci.2 i)) (mem (GETPART r j)) dir < dt then .error .cr_underflow
          else .ok ()))) with
    | .error e => .error e
    | .ok _ =>
      loopE (List.range r.n) (fun i => loopE (List.range r.n) (fun j =>
        if i = j then .ok ()
        else if ts (mem (GETPART r i)) (mem (GETPART r j)) dir < dt then .error .rr_underflow
        else .ok ()))

/-- What `split_cc_verify` checks of one component `cj` whatever the particle looked for: the
helper `verify_split_zeromass` returns, and the `last` and `lastzero` pointers are the
addresses of the last massive and the last massless particle. -/
def viewOk (zm : Mem → sys → Bool) (mem : Mem) (cj : sys) : Prop :=
  zm mem cj = true ∧
    (0 < cj.n - cj.nzero → cj.last = some (GETPART cj (cj.n - cj.nzero - 1))) ∧
    (0 < cj.nzero → cj.lastzero = some (GETPART cj (cj.n - 1)))

/-- How often the id `pid` occurs among the particles of the views `vs`. -/
def idCount (mem : Mem) (pid : ℕ) (vs : List sys) : ℕ :=
  (vs.flatMap (sysParts mem)).countP (fun q => decide (pid = q.id))

/-- What one pass of the loop of `split_cc_verify` over the particles checks. -/
def particleOk (zm : Mem → sys → Bool) (smem : Mem) (s : sys) (mem : Mem) (c r : sys)
    (i : ℕ) : Prop :=
  (∀ cj ∈ ccViews c, viewOk zm mem cj) ∧ zm mem r = true ∧
    idCount mem (smem (GETPART s i)).id (ccViews c ++ [r]) = 1

/-! ## One frame of the evolver -/

/-- Modelled from the spec: the integrator tags that `inttype` ranges over.  The header
`evolve.h`, whose enumeration declares them, is not among the sources.  The tags are the eight
of the configuration list of the spec, which are the tags that `evolve_cc.c` names, and
`other k` for any further value of `inttype`. -/
inductive inttag where
  | CC | CCC | CC_KEPLER | CCC_KEPLER | CC_BS | CCC_BS | CC_BSA | CCC_BSA
  | other (k : ℕ)
  deriving DecidableEq, Repr

/-- The calls that a frame of `evolve_cc2` issues on particles, with their arguments: the
macro `CHECK_TIMESTEP`, the leaf integrators, the centre-of-mass helpers, `split_cc`, the
calls of `evolve_cc2` itself, `drift`, `kick` and `free_sys`.  The verifiers, which only
read, and `malloc`, `free`, `printf` and the logging macros are not recorded.  In
`evolve_cc2 .. task` the flag `task` tells whether the call is dispatched as an OpenMP task,
where it runs on a scratch copy `lsys` of the component that is copied back afterwards. -/
inductive call where
  | CHECK_TIMESTEP (etime stime dt : DOUBLE) (clevel : ℤ)
  | evolve_kepler (clevel : ℤ) (s : sys) (stime etime dt : DOUBLE)
  | evolve_bs (clevel : ℤ) (s : sys) (stime etime dt : DOUBLE)
  | evolve_bs_adaptive (clevel : ℤ) (s : sys) (stime etime dt : DOUBLE) (flag : ℤ)
  | system_center_of_mass (s : sys)
  | move_system (s : sys) (dir : ℤ)
  | split_cc (clevel : ℤ) (s : sys) (dt : DOUBLE)
  | evolve_cc2 (clevel : ℤ) (s : sys) (stime etime dt : DOUBLE) (inttype : inttag)
      (recenter : ℤ) (task : Bool)
  | drift (clevel : ℤ) (s : sys) (etime dt : DOUBLE)
  | kick (clevel : ℤ) (s1 s2 : sys) (dt : DOUBLE)
  | free_sys (s : Option sys)

/-- The function or macro that a call names. -/
inductive call_kind where
  | CHECK_TIMESTEP | evolve_kepler | evolve_bs | evolve_bs_adaptive | system_center_of_mass
  | move_system | split_cc | evolve_cc2 | drift | kick | free_sys
  deriving DecidableEq, Repr

/-- The function or macro that a call names. -/
def call.kind : call → call_kind
  | .CHECK_TIMESTEP .. => .CHECK_TIMESTEP
  | .evolve_kepler .. => .evolve_kepler
  | .evolve_bs .. => .evolve_bs
  | .evolve_bs_adaptive .. => .evolve_bs_adaptive
  | .system_center_of_mass .. => .system_center_of_mass
  | .move_system .. => .move_system
  | .split_cc .. => .split_cc
  | .evolve_cc2 .. => .evolve_cc2
  | .drift .. => .drift
  | .kick .. => .kick
  | .free_sys .. => .free_sys

/-- What is fixed when `evolve_cc.c` is compiled and linked: the flags `_OPENMP` and
`CONSISTENCY_CHECKS` (the flag `CC2_SPLIT_SHORTCUTS` is off), the width in bits of the type
`UINT` of `evolve.h`, the functions `timestep_ij` and `verify_split_zeromass`, and what each
call of a function outside the file does to the particle store. -/
structure build where
  OPENMP : Bool
  CONSISTENCY_CHECKS : Bool
  UINT_BITS : ℕ
  timestep_ij : particle → particle → ℤ → DOUBLE
  verify_split_zeromass : Mem → sys → Bool
  effect : call → Mem → Mem

/-- The calls issued so far by a frame of `evolve_cc2`, the particle store and the
diagnostics. -/
structure frame_out where
  trace : List call
  mem : Mem
  diag : diagnostics

/-- How a frame of `evolve_cc2` ends other than by returning: in an `ENDRUN` of `split_cc`, in
one of a verifier, or by exhausting the fuel of the embedding. -/
inductive frame_stop where
  | split (msg : endrun)
  | verify (e : verify_end)
  | no_fuel

/-- A call of a function outside the file, or of `evolve_cc2` itself: it is recorded, and
changes the store as the build says. -/
def ext (B : build) (k : call) (st : frame_out) : frame_out :=
  { st with trace := st.trace ++ [k], mem := B.effect k st.mem }

/-- The constant `BS_SUBSYS_SIZE`. -/
def BS_SUBSYS_SIZE : ℕ := 10

/-- The macro `TASKCONDITION`, `(nc > 1 && s.n>BS_SUBSYS_SIZE)`: it reads the variables `nc`
and `s` of the frame in which it stands. -/
def TASKCONDITION (nc : ℕ) (s : sys) : Bool := decide (nc > 1) && decide (s.n > BS_SUBSYS_SIZE)

/-- The test `inttype==CCC || inttype==CCC_KEPLER || inttype==CCC_BS || inttype==CCC_BSA`. -/
def is_ccc (inttype : inttag) : Bool :=
  decide (inttype = .CCC) || decide (inttype = .CCC_KEPLER) || decide (inttype = .CCC_BS) ||
    decide (inttype = .CCC_BSA)

/-- The updates `diag->ntasks[clevel]++; diag->taskcount[clevel]+=k;`. -/
def diagnostics.task_add (d : diagnostics) (clevel : ℤ) (k : ℕ) : diagnostics :=
  { d with
    ntasks := fun l => if l = clevel then d.ntasks l + 1 else d.ntasks l
    taskcount := fun l => if l = clevel then d.taskcount l + k else d.taskcount l }

/-- The body of the two loops of `evolve_cc2` that evolve every component `ci` over half a
step, from `t0` to `t1`. -/
def evolve_child (B : build) (clevel : ℤ) (s : sys) (nc : ℕ) (t0 t1 h : DOUBLE)
    (inttype : inttag) (recentersub : ℤ) (st : frame_out) (ci : sys) : frame_out :=
  if B.OPENMP && TASKCONDITION nc s then
    ext B (.evolve_cc2 (clevel + 1) ci t0 t1 h inttype recentersub true)
      { st with diag := st.diag.task_add clevel ci.n }
  else ext B (.evolve_cc2 (clevel + 1) ci t0 t1 h inttype recentersub false) st

/-- The loop nest `kick ci <-> cj` of `evolve_cc2`; the test `ci != cj` on two nodes of the
list is the test of their positions in the list. -/
def kick_cc (B : build) (clevel : ℤ) (dt : DOUBLE) (cs : List (ℕ × sys)) (st : frame_out) :
    frame_out :=
  cs.foldl (fun st1 ci => cs.foldl (fun st2 cj =>
    if ci.1 ≠ cj.1 then ext B (.kick clevel ci.2 cj.2 dt) st2 else st2) st1) st

/-- The loop `kick c <-> rest` of `evolve_cc2`. -/
def kick_cr (B : build) (clevel : ℤ) (dt : DOUBLE) (r : sys) (cs : List sys) (st : frame_out) :
    frame_out :=
  cs.foldl (fun st1 ci => ext B (.kick clevel ci r dt) (ext B (.kick clevel r ci dt) st1)) st

/-- The part of `evolve_cc2` between its two loops over the components: the drifts of the rest
and the kicks, with every operation on the rest under the test `r.n>0`. -/
def rest_and_kicks (B : build) (clevel : ℤ) (stime etime dt : DOUBLE) (c r : sys)
    (st4 : frame_out) : frame_out :=
  let cs := ccViews c
  let st5 := if r.n > 0 then ext B (.drift clevel r (stime + dt / 2) (dt / 2)) st4 else st4
  let st6 := kick_cc B clevel dt cs.enum st5
  let st7 := if r.n > 0 then kick_cr B clevel dt r cs st6 else st6
  let st8 := if r.n > 0 then ext B (.kick clevel r r dt) st7 else st7
  if r.n > 0 then ext B (.drift clevel r etime (dt / 2)) st8 else st8

/-- The part of `evolve_cc2` that follows the split of `s` into `c` and `r`; `ccc` is the
value of `recenter && (inttype==CCC || ..)`. -/
def evolve_cc2_scheme (B : build) (clevel : ℤ) (s : sys) (stime etime dt : DOUBLE)
    (inttype : inttag) (ccc : Bool) (c r : sys) (st : frame_out) : frame_out :=
  let st3 : frame_out :=
    if IS_ZEROSYS c then
      { st with diag := { st.diag with deepsteps := st.diag.deepsteps + 1,
                                       simtime := st.diag.simtime + dt } }
    else st
  let cs := ccViews c
  let nc := cs.length
  let recentersub : ℤ := if nc > 1 ∨ r.n > 0 then 1 else 0
  let st4 := cs.foldl
    (evolve_child B clevel s nc stime (stime + dt / 2) (dt / 2) inttype recentersub) st3
  let st9 := rest_and_kicks B clevel stime etime dt c r st4
  let st10 := cs.foldl
    (evolve_child B clevel s nc (stime + dt / 2) etime (dt / 2) inttype recentersub) st9
  let st11 := if ccc then ext B (.move_system s 1) st10 else st10
  ext B (.free_sys c.next_cc) st11

/-- The two verifiers that `evolve_cc2` runs after the split under `CONSISTENCY_CHECKS`; the
snapshot `s_before_split` is the view `s` of the store `smem` before the split. -/
def consistency_checks (B : build) (smem : Mem) (s : sys) (dt : DOUBLE) (o : split_out) :
    Except verify_end Unit :=
  if B.CONSISTENCY_CHECKS then
    match split_cc_verify B.verify_split_zeromass smem s o.mem o.c o.r with
    | .error e => .error e
    | .ok _ => split_cc_verify_ts B.timestep_ij o.mem o.c o.r dt
  else .ok ()

/-- The difference `a - b` of two `UINT` values of `bits` bits: it wraps when `b > a`. -/
def UINT_sub (bits : ℕ) (a b : ℕ) : ℕ := (a + (2 ^ bits - b % 2 ^ bits)) % 2 ^ bits

/-- The function `evolve_cc2(clevel, s, stime, etime, dt, inttype, recenter)`, one frame of
it: the calls of `evolve_cc2` that it makes are recorded, not run.  The difference
`s.n-s.nzero` of the first test is the difference of `UINT`. -/
def evolve_cc2 (B : build) (fuel : ℕ) (clevel : ℤ) (s : sys) (stime etime dt : DOUBLE)
    (inttype : inttag) (recenter : ℤ) (mem : Mem) (diag : diagnostics) :
    Except frame_stop frame_out :=
  let st0 : frame_out := ext B (.CHECK_TIMESTEP etime stime dt clevel) ⟨[], mem, diag⟩
  if (s.n = 2 ∨ UINT_sub B.UINT_BITS s.n s.nzero ≤ 1) ∧
      (inttype = .CCC_KEPLER ∨ inttype = .CC_KEPLER) then
    .ok (ext B (.evolve_kepler clevel s stime etime dt) st0)
  else if s.n ≤ BS_SUBSYS_SIZE ∧ (inttype = .CCC_BS ∨ inttype = .CC_BS) then
    .ok (ext B (.evolve_bs clevel s stime etime dt) st0)
  else if s.n ≤ BS_SUBSYS_SIZE ∧ (inttype = .CCC_BSA ∨ inttype = .CC_BSA) then
    .ok (ext B (.evolve_bs_adaptive clevel s stime etime dt 1) st0)
  else
    let ccc : Bool := decide (recenter ≠ 0) && is_ccc inttype
    let st1 : frame_out :=
      if ccc then ext B (.move_system s (-1)) (ext B (.system_center_of_mass s) st0) else st0
    match split_cc B.timestep_ij fuel clevel s dt st1.mem st1.diag with
    | .fatal msg _ => .error (.split msg)
    | .out_of_fuel => .error .no_fuel
    | .ok o =>
      match consistency_checks B st1.mem s dt o with
      | .error e => .error (.verify e)
      | .ok _ =>
        .ok (evolve_cc2_scheme B clevel s stime etime dt inttype ccc o.c o.r
          ⟨st1.trace ++ [.split_cc clevel s dt], o.mem, o.diag⟩)

/-- The value of `recentersub` in a frame whose split gave `c` and `r`. -/
def recentersub_of (c r : sys) : ℤ := if (ccViews c).length > 1 ∨ r.n > 0 then 1 else 0

/-- The calls of `evolve_cc2_scheme` in the order of the steps of the scheme: the first half
steps of the components, then, with the operations on the rest only when `r.n > 0`, the
drift of the rest, the kicks between every ordered pair of two components, the kicks between
the rest and every component, the kick of the rest on itself and its second drift, then the
second half steps, the move back of the centre of mass when `ccc` holds, and `free_sys`.
Every half step is a task or not as `task` says. -/
def schedule (clevel : ℤ) (s : sys) (stime etime dt : DOUBLE) (inttype : inttag)
    (task ccc : Bool) (c r : sys) : List call :=
  (ccViews c).map (fun ci => call.evolve_cc2 (clevel + 1) ci stime (stime + dt / 2) (dt / 2)
      inttype (recentersub_of c r) task) ++
    (if r.n > 0 then [call.drift clevel r (stime + dt / 2) (dt / 2)] else []) ++
    (ccViews c).enum.flatMap (fun ci => (ccViews c).enum.flatMap (fun cj =>
      if ci.1 ≠ cj.1 then [call.kick clevel ci.2 cj.2 dt] else [])) ++
    (if r.n > 0 then
      (ccViews c).flatMap (fun ci => [call.kick clevel r ci dt, call.kick clevel ci r dt]) ++
        [call.kick clevel r r dt, call.drift clevel r etime (dt / 2)]
    else []) ++
    (ccViews c).map (fun ci => call.evolve_cc2 (clevel + 1) ci (stime + dt / 2) etime (dt / 2)
      inttype (recentersub_of c r) task) ++
    (if ccc then [call.move_system s 1] else []) ++
    [call.free_sys c.next_cc]

/-- The calls of a frame of `evolve_cc2` before the split, when no shortcut is taken. -/
def prologue (clevel : ℤ) (s : sys) (stime etime dt : DOUBLE) (ccc : Bool) : List call :=
  [call.CHECK_TIMESTEP etime stime dt clevel] ++
    (if ccc then [call.system_center_of_mass s, call.move_system s (-1)] else []) ++
    [call.split_cc clevel s dt]

/-- The kinds of the leaf integrators. -/
def call_kind.is_leaf : call_kind → Bool
  | .evolve_kepler => true
  | .evolve_bs => true
  | .evolve_bs_adaptive => true
  | _ => false

/-- A build for the evaluation of frames: the consistency checks are on, `UINT` has 32 bits,
`verify_split_zeromass` returns on every view, and the calls outside the file leave the
particle store as it is. -/
def evalBuild (openmp : Bool) (ts : particle → particle → ℤ → DOUBLE) : build :=
  ⟨openmp, true, 32, ts, fun _ _ => true, fun _ m => m⟩

/-- A check of the result of a frame: it holds when the frame returns with a result that
passes `P`. -/
def frame_check (P : frame_out → Bool) : Except frame_stop frame_out → Bool
  | .ok a => P a
  | .error _ => false

/-- A half step of a component of at most `BS_SUBSYS_SIZE` particles that is dispatched as a
task. -/
def call.small_task : call → Bool
  | .evolve_cc2 _ ci _ _ _ _ _ true => decide (ci.n ≤ BS_SUBSYS_SIZE)
  | _ => false

/-- A check of the result of a verifier: it holds when the verifier returns. -/
def verify_check : Except verify_end Unit → Bool
  | .ok _ => true
  | .error _ => false

/-! ## Splits of connected views, empty results -/

/-- The node in which the list headed by `c` ends. -/
def lastNode : sys → sys
  | .mk n nz p l none zp lz => .mk n nz p l none zp lz
  | .mk _ _ _ _ (some nx) _ _ => lastNode nx

/-! ## The direction of time -/

/-- The two time-step functions, each with its direction, give the same value on the
particles held at any two addresses of `S`. -/
def Agree (ts ts1 : particle → particle → ℤ → DOUBLE) (dir dir1 : ℤ) (S : ℤ → Prop)
    (m : Mem) : Prop :=
  ∀ x y, S x → S y → ts (m x) (m y) dir = ts1 (m x) (m y) dir1

/-- A time-step function that is reversible on the particles of ids below `100` only: for
the others it gives the direction itself. -/
def farTs : particle → particle → ℤ → DOUBLE :=
  fun p q d => if 100 ≤ p.id ∨ 100 ≤ q.id then (d : DOUBLE) else pairTs [(0, 1)] (1 / 100) 1 p q d

/-! ## Order and tiling of the split -/

/-- The addresses of the massive span of a view, in order. -/
def massivePos (v : sys) : List ℤ :=
  (List.range (v.n - v.nzero)).map (fun (i : ℕ) => v.part.addr + (i : ℤ))

/-- The addresses of the massless span of a view, in order. -/
def masslessPos (v : sys) : List ℤ :=
  (List.range v.nzero).map (fun (i : ℕ) => v.zeropart.addr + (i : ℤ))

/-- The views of a list lie one behind the other in both ranges: the massive span of a view
that has massive particles runs from where the spans before it have ended, from address `pm`
on, and the last one ends just before `em`; likewise the massless spans from `pz` to `ez`. -/
def Spans : ℤ → ℤ → List sys → ℤ → ℤ → Prop
  | pm, pz, [], em, ez => pm = em ∧ pz = ez
  | pm, pz, v :: t, em, ez =>
    v.nzero ≤ v.n ∧
    (0 < v.n - v.nzero →
      v.part = some pm ∧ v.last = some (pm + ((v.n - v.nzero : ℕ) : ℤ) - 1)) ∧
    (0 < v.nzero → v.zeropart = some pz ∧ v.lastzero = some (pz + (v.nzero : ℤ) - 1)) ∧
    Spans (pm + ((v.n - v.nzero : ℕ) : ℤ)) (pz + (v.nzero : ℤ)) t em ez

/-- The time-step function of two disjoint binaries: the particles of ids `0` and `1` are
tight, and so are those of ids `2` and `3`. -/
def twoBinariesTs : particle → particle → ℤ → DOUBLE := pairTs [(0, 1), (2, 3)] (1 / 100) 1

/-! ## The calls of the time-step function and the swaps of a split -/

/-- What `split_cc` does with the particles, in program order: a call of `timestep_ij` on the
records `p` and `q`, or a `SWAP` of the records at the addresses `a` and `b`. -/
inductive split_event where
  | probe (p q : particle) : split_event
  | swap (a b : ℤ) : split_event

/-- The two particles of a call of `timestep_ij`. -/
def split_event.probed : split_event → Option (particle × particle)
  | .probe p q => some (p, q)
  | .swap _ _ => none

/-- The addresses that an event writes to. -/
def split_event.written : split_event → List ℤ
  | .probe _ _ => []
  | .swap a b => [a, b]

/-- The events of one probing `for` loop, `k` passes from `i` on: each pass calls
`timestep_ij(*active, i, dir)` and swaps `*stack_next` with `*i` when the particle at `i` is
within the step. -/
def probe_loop_events (ts : particle → particle → ℤ → DOUBLE) (dir : ℤ) (dt : DOUBLE)
    (clevel : ℤ) (act : ℤ) : ℕ → ℤ → probe_state → List split_event
  | 0, _, _ => []
  | k + 1, i, p =>
    let d := p.diag.tcount_add clevel 1
    if ts (p.mem act) (p.mem i) dir ≤ dt then
      .probe (p.mem act) (p.mem i) :: .swap p.next i ::
        probe_loop_events ts dir dt clevel act k (i + 1)
          { mem := SWAP p.mem p.next i, next := p.next + 1, stack_size := p.stack_size + 1,
            diag := d }
    else
      .probe (p.mem act) (p.mem i) ::
        probe_loop_events ts dir dt clevel act k (i + 1) { p with diag := d }

/-- The events of the probe of the massive range. -/
def probe_massive_events (ts : particle → particle → ℤ → DOUBLE) (dir : ℤ) (dt : DOUBLE)
    (clevel : ℤ) (act : ℤ) (st : split_state) : List split_event :=
  if st.stack_next ≠ none then
    probe_loop_events ts dir dt clevel act
      (st.rest_next.addr - st.stack_next.addr + 1).toNat st.stack_next.addr
      ⟨st.mem, st.stack_next.addr, st.stack_size, st.diag⟩
  else []

/-- The events of the probe of the massless range. -/
def probe_massless_events (ts : particle → particle → ℤ → DOUBLE) (dir : ℤ) (dt : DOUBLE)
    (clevel : ℤ) (act : ℤ) (st : split_state) : List split_event :=
  if st.stackzero_next ≠ none then
    probe_loop_events ts dir dt clevel act
      (st.restzero_next.addr - st.stackzero_next.addr + 1).toNat st.stackzero_next.addr
      ⟨st.mem, st.stackzero_next.addr, st.stack_size, st.diag⟩
  else []

/-- The events of one pass of the loop `while (stack_size > 0)`: the probe of the massive
range, then the probe of the massless range in the store that the first probe has left. -/
def inner_pass_events (ts : particle → particle → ℤ → DOUBLE) (dir : ℤ) (dt : DOUBLE)
    (clevel : ℤ) (st : split_state) : List split_event :=
  let active := select_active st
  if active = .NULL then []
  else
    let act := active_addr active st
    let st1 : split_state := { st with active := active }
    let st2 := probe_massive ts dir dt clevel act st1
    probe_massive_events ts dir dt clevel act st1 ++
      probe_massless_events ts dir dt clevel act st2

/-- The events of the loop `while (stack_size > 0)`. -/
def inner_loop_events (ts : particle → particle → ℤ → DOUBLE) (dir : ℤ) (dt : DOUBLE)
    (clevel : ℤ) : ℕ → split_state → List split_event
  | 0, _ => []
  | fuel + 1, st =>
    if st.stack_size > 0 then
      match inner_pass ts dir dt clevel st with
      | .ok st1 =>
        inner_pass_events ts dir dt clevel st ++ inner_loop_events ts dir dt clevel fuel st1
      | .fatal _ _ => inner_pass_events ts dir dt clevel st
      | .out_of_fuel => inner_pass_events ts dir dt clevel st
    else []

/-- The swap of the `else` branch of `if (comp_size > 1)`, read before the cursors are backed
up: `SWAP(*comp_next, *rest_next)` after `comp_next--`, or its copy on the massless range. -/
def demote_events (st : split_state) : List split_event :=
  if st.active = .comp_next then [.swap (st.comp_next.add (-1)).addr st.rest_next.addr]
  else [.swap (st.compzero_next.add (-1)).addr st.restzero_next.addr]

/-- The events of one pass of the loop `while (processed < s.n)`. -/
def outer_pass_events (ts : particle → particle → ℤ → DOUBLE) (dir : ℤ) (dt : DOUBLE)
    (clevel : ℤ) (fuel : ℕ) (st : split_state) : List split_event :=
  if st.stack_next ≠ st.comp_next then []
  else if st.stackzero_next ≠ st.compzero_next then []
  else
    let st1 := startup_stack st
    if st1.stack_next = st1.comp_next ∧ st1.stackzero_next = st1.compzero_next then []
    else
      match inner_loop ts dir dt clevel fuel st1 with
      | .ok st2 =>
        let st3 : split_state := { st2 with processed := st2.processed + st2.comp_size }
        inner_loop_events ts dir dt clevel fuel st1 ++
          (if st3.comp_size > 1 then [] else demote_events st3)
      | .fatal _ _ => inner_loop_events ts dir dt clevel fuel st1
      | .out_of_fuel => inner_loop_events ts dir dt clevel fuel st1

/-- The events of the loop `while (processed < s.n)`. -/
def outer_loop_events (ts : particle → particle → ℤ → DOUBLE) (dir : ℤ) (dt : DOUBLE)
    (clevel : ℤ) (n : ℕ) (fuel : ℕ) : ℕ → split_state → List split_event
  | 0, _ => []
  | k + 1, st =>
    if st.processed < n then
      match outer_pass ts dir dt clevel fuel st with
      | .ok st1 =>
        outer_pass_events ts dir dt clevel fuel st ++
          outer_loop_events ts dir dt clevel n fuel k st1
      | .fatal _ _ => outer_pass_events ts dir dt clevel fuel st
      | .out_of_fuel => outer_pass_events ts dir dt clevel fuel st
    else []

/-- The calls of `timestep_ij` and the swaps of one call of `split_cc`, in program order. -/
def split_cc_events (ts : particle → particle → ℤ → DOUBLE) (fuel : ℕ) (clevel : ℤ) (s : sys)
    (dt : DOUBLE) (mem : Mem) (diag : diagnostics) : List split_event :=
  let dir := SIGN dt
  let dt := |dt|
  let diag := diag.tstep_incr clevel
  if s.n ≤ 1 then []
  else outer_loop_events ts dir dt clevel s.n fuel fuel (split_init s mem diag)

/-- The unvisited addresses, in the order in which a pass of the inner loop probes them. -/
def unvList (G : Geo) (g : Cnt) : List ℤ :=
  (List.range (G.nm - g.rm - (g.em + g.vm + g.km))).map
      (fun (j : ℕ) => G.P + ((g.em + g.vm + g.km : ℕ) : ℤ) + (j : ℤ)) ++
    (List.range (G.nz - g.rz - (g.ez + g.vz + g.kz))).map
      (fun (j : ℕ) => G.Z + ((g.ez + g.vz + g.kz : ℕ) : ℤ) + (j : ℤ))

/-- The addresses of the particles that have been popped from the stack: the emitted
components, the visited part of the current component and the rest. -/
def Popped (G : Geo) (g : Cnt) (x : ℤ) : Prop :=
  G.zone 0 (g.em + g.vm) 0 (g.ez + g.vz) x ∨ G.zone (G.nm - g.rm) G.nm (G.nz - g.rz) G.nz x

/-- The store `m` is the store `m0` of the call read through a permutation of the two ranges,
under which the first particle of every pair of `PL`, a pair of addresses at the call, now
sits at a popped address. -/
def Tracked (G : Geo) (m0 : Mem) (g : Cnt) (m : Mem) (PL : List (ℤ × ℤ)) : Prop :=
  ∃ π : Equiv.Perm ℤ, (∀ x, ¬ G.zone 0 G.nm 0 G.nz x → π x = x) ∧ (∀ x, m x = m0 (π x)) ∧
    ∀ ab ∈ PL, ∃ x, Popped G g x ∧ π x = ab.1

/-- Two pairs of addresses are the same unordered pair. -/
def samePair (p q : ℤ × ℤ) : Prop := (p.1 = q.1 ∧ p.2 = q.2) ∨ (p.1 = q.2 ∧ p.2 = q.1)

/-- A list of pairs of addresses of the two ranges: no pair of an address with itself, and no
unordered pair twice. -/
def ProbesOk (G : Geo) (PL : List (ℤ × ℤ)) : Prop :=
  (∀ ab ∈ PL, G.zone 0 G.nm 0 G.nz ab.1 ∧ G.zone 0 G.nm 0 G.nz ab.2 ∧ ab.1 ≠ ab.2) ∧
    PL.Pairwise (fun p q => ¬ samePair p q)

/-- What a stretch of the run with the events `evs` has done, when the pairs `PL` had been
probed before it: it has probed the pairs `PL1`, given by the addresses that the two particles
had at the call, has counted them in `tcount[clevel]`, and has swapped inside the two ranges
only. -/
structure EvRes (G : Geo) (m0 : Mem) (clevel : ℤ) (evs : List split_event)
    (PL PL1 : List (ℤ × ℤ)) (d d1 : diagnostics) (g1 : Cnt) (m1 : Mem) : Prop where
  diag : d1 = d.tcount_add clevel PL1.length
  probes : evs.filterMap split_event.probed = PL1.map (fun ab => (m0 ab.1, m0 ab.2))
  writes : ∀ e ∈ evs, ∀ x ∈ e.written, G.zone 0 G.nm 0 G.nz x
  tracked : Tracked G m0 g1 m1 (PL ++ PL1)
  ok : ProbesOk G (PL ++ PL1)

/-- No two particles of the two ranges are within the step of one another, in either order. -/
def NoFast (E : particle → particle → Prop) (G : Geo) (m0 : Mem) : Prop :=
  ∀ x y, G.zone 0 G.nm 0 G.nz x → G.zone 0 G.nm 0 G.nz y → x ≠ y → ¬ E (m0 x) (m0 y)

/-- The calls of `timestep_ij` of one call of `split_cc`, in program order, each with the two
particle records it is called on. -/
def split_cc_probes (ts : particle → particle → ℤ → DOUBLE) (fuel : ℕ) (clevel : ℤ) (s : sys)
    (dt : DOUBLE) (mem : Mem) (diag : diagnostics) : List (particle × particle) :=
  (split_cc_events ts fuel clevel s dt mem diag).filterMap split_event.probed

/-- The addresses that one call of `split_cc` writes to, in program order. -/
def split_cc_writes (ts : particle → particle → ℤ → DOUBLE) (fuel : ℕ) (clevel : ℤ) (s : sys)
    (dt : DOUBLE) (mem : Mem) (diag : diagnostics) : List ℤ :=
  (split_cc_events ts fuel clevel s dt mem diag).flatMap split_event.written

/-! ## Instances of the claims -/

/-- The time-step function in which the particle of id `0` is tight with those of ids `1`
and `2`, and no other pair is. -/
def starTs : particle → particle → ℤ → DOUBLE := pairTs [(0, 1), (0, 2)] (1 / 100) 1

/-- A view of two massive particles at the addresses `0`, `1` and two massless particles at
the addresses `5`, `6`: three addresses of the store lie between its two ranges. -/
def gapView4 : sys := .mk 4 2 (some 0) (some 1) none (some 5) (some 6)

/-! # Theorems -/

/-! ## Permutations of the store -/

theorem perm_maps_into {S : ℤ → Prop} {π : Equiv.Perm ℤ} (f : ∀ x, ¬ S x → π x = x)
    {x : ℤ} (hx : S x) : S (π x) := by
  by_contra hn
  have h1 : π (π x) = π x := f _ hn
  have h2 : π x = x := π.injective h1
  rw [h2] at hn
  exact hn hx

theorem MemPerm.refl (S : ℤ → Prop) (m : Mem) : MemPerm S m m :=
  ⟨1, fun _ _ => rfl, fun _ => rfl⟩

theorem MemPerm.trans {S : ℤ → Prop} {a b c : Mem} (h1 : MemPerm S a b) (h2 : MemPerm S b c) :
    MemPerm S a c := by
  obtain ⟨π1, f1, e1⟩ := h1
  obtain ⟨π2, f2, e2⟩ := h2
  refine ⟨π1 * π2, fun x hx => ?_, fun x => ?_⟩
  · simp [Equiv.Perm.mul_apply, f2 x hx, f1 x hx]
  · simp [Equiv.Perm.mul_apply, e2 x, e1]

theorem MemPerm.mono {S T : ℤ → Prop} {a b : Mem} (h : MemPerm S a b)
    (hST : ∀ x, S x → T x) : MemPerm T a b := by
  obtain ⟨π, f, e⟩ := h
  exact ⟨π, fun x hx => f x (fun hs => hx (hST x hs)), e⟩

theorem MemPerm.swap {S : ℤ → Prop} (m : Mem) {a b : ℤ} (ha : S a) (hb : S b) :
    MemPerm S m (SWAP m a b) := by
  refine ⟨Equiv.swap a b, fun x hx => ?_, fun x => ?_⟩
  · apply Equiv.swap_apply_of_ne_of_ne
    · rintro rfl; exact hx ha
    · rintro rfl; exact hx hb
  · unfold SWAP
    by_cases h1 : x = a
    · subst h1; simp
    · by_cases h2 : x = b
      · subst h2; simp [h1]
      · simp [h1, h2, Equiv.swap_apply_of_ne_of_ne h1 h2]

theorem MemPerm.frame {S : ℤ → Prop} {a b : Mem} (h : MemPerm S a b) {x : ℤ} (hx : ¬ S x) :
    b x = a x := by
  obtain ⟨π, f, e⟩ := h
  rw [e x, f x hx]

theorem MemPerm.maps {S : ℤ → Prop} {a b : Mem} (h : MemPerm S a b) {x : ℤ} (hx : S x) :
    ∃ y, S y ∧ b x = a y := by
  obtain ⟨π, f, e⟩ := h
  exact ⟨π x, perm_maps_into f hx, e x⟩

theorem MemPerm.maps_sub {S T : ℤ → Prop} {a b : Mem} (h : MemPerm S a b)
    (hST : ∀ x, S x → T x) {x : ℤ} (hx : T x) : ∃ y, T y ∧ b x = a y := by
  by_cases hs : S x
  · obtain ⟨y, hy, e⟩ := h.maps hs
    exact ⟨y, hST y hy, e⟩
  · exact ⟨x, hx, h.frame hs⟩

theorem MemPerm.list_perm {S : ℤ → Prop} {a b : Mem} (h : MemPerm S a b) {L : List ℤ}
    (hL : L.Nodup) (hS : ∀ x, S x → x ∈ L) : (L.map b).Perm (L.map a) := by
  obtain ⟨π, f, e⟩ := h
  have hmap : L.map b = (L.map π).map a := by
    simp [List.map_map, Function.comp_def, e]
  rw [hmap]
  apply List.Perm.map
  rw [List.perm_ext_iff_of_nodup (hL.map π.injective) hL]
  intro y
  constructor
  · intro hy
    obtain ⟨x, hx, rfl⟩ := List.mem_map.1 hy
    by_cases hs : S x
    · exact hS _ (perm_maps_into f hs)
    · rw [f x hs]; exact hx
  · intro hy
    refine List.mem_map.2 ⟨π.symm y, ?_, by simp⟩
    by_cases hs : S (π.symm y)
    · exact hS _ hs
    · have h1 := f _ hs
      simp at h1
      rw [← h1]; exact hy

/-! ## The probing loop -/

theorem tcount_add_add (d : diagnostics) (l : ℤ) (a b : ℕ) :
    (d.tcount_add l a).tcount_add l b = d.tcount_add l (a + b) := by
  unfold diagnostics.tcount_add
  simp only [diagnostics.mk.injEq, true_and, and_true]
  funext x
  by_cases h : x = l <;> simp [h, Nat.add_assoc]

theorem tcount_add_zero (d : diagnostics) (l : ℤ) : d.tcount_add l 0 = d := by
  unfold diagnostics.tcount_add
  simp

/-- What one probing loop does: it pushes `j` particles, all of them within the step of the
active particle, permutes the store inside the probed range only, and leaves behind the
cursor only particles beyond the step. -/
theorem probe_loop_spec (ts : particle → particle → ℤ → DOUBLE) (dir : ℤ) (dt : DOUBLE)
    (clevel : ℤ) (act : ℤ) :
    ∀ (k : ℕ) (i : ℤ) (p : probe_state), p.next ≤ i → (act < p.next ∨ i + k ≤ act) →
      ∃ j : ℕ,
        (probe_loop ts dir dt clevel act k i p).next = p.next + j ∧
        (probe_loop ts dir dt clevel act k i p).stack_size = p.stack_size + j ∧
        p.next + j ≤ i + k ∧
        (probe_loop ts dir dt clevel act k i p).diag = p.diag.tcount_add clevel k ∧
        MemPerm (fun x => p.next ≤ x ∧ x < i + k) p.mem
          (probe_loop ts dir dt clevel act k i p).mem ∧
        (∀ x, p.next ≤ x → x < p.next + j →
          ts (p.mem act) ((probe_loop ts dir dt clevel act k i p).mem x) dir ≤ dt) ∧
        ((∀ x, p.next ≤ x → x < i → ¬ ts (p.mem act) (p.mem x) dir ≤ dt) →
          ∀ x, p.next + j ≤ x → x < i + k →
            ¬ ts (p.mem act) ((probe_loop ts dir dt clevel act k i p).mem x) dir ≤ dt) := by
  intro k
  induction k with
  | zero =>
    intro i p h1 _
    refine ⟨0, by simp [probe_loop], by simp [probe_loop], by simpa using h1,
      by simp [probe_loop, tcount_add_zero], MemPerm.refl _ _, ?_, ?_⟩
    · intro x hx1 hx2; simp at hx2; omega
    · intro H x hx1 hx2
      simp only [probe_loop]
      exact H x (by simpa using hx1) (by simpa using hx2)
  | succ k ih =>
    intro i p h1 hact
    by_cases hE : ts (p.mem act) (p.mem i) dir ≤ dt
    · -- the particle at `i` is pushed
      have hstep : probe_loop ts dir dt clevel act (k + 1) i p =
          probe_loop ts dir dt clevel act k (i + 1)
            { mem := SWAP p.mem p.next i, next := p.next + 1, stack_size := p.stack_size + 1,
              diag := p.diag.tcount_add clevel 1 } := by
        simp [probe_loop, hE]
      obtain ⟨j, e1, e2, e3, e4, e5, e6, e7⟩ := ih (i + 1)
        { mem := SWAP p.mem p.next i, next := p.next + 1, stack_size := p.stack_size + 1,
          diag := p.diag.tcount_add clevel 1 } (by simp; omega) (by simp; omega)
      simp only at e1 e2 e3 e4 e5 e6 e7
      have hact1 : SWAP p.mem p.next i act = p.mem act := by
        unfold SWAP
        have : act ≠ p.next := by omega
        have : act ≠ i := by omega
        simp [*]
      have hsw : MemPerm (fun x => p.next ≤ x ∧ x < i + (k + 1 : ℕ)) p.mem
          (SWAP p.mem p.next i) :=
        MemPerm.swap _ ⟨le_refl _, by push_cast; omega⟩ ⟨h1, by push_cast; omega⟩
      rw [hstep]
      refine ⟨j + 1, by rw [e1]; push_cast; ring, by rw [e2]; ring, by push_cast; omega,
        by rw [e4, tcount_add_add, Nat.add_comm], ?_, ?_, ?_⟩
      · exact hsw.trans (e5.mono (fun x hx => ⟨by omega, by push_cast; omega⟩))
      · intro x hx1 hx2
        by_cases hx : x = p.next
        · subst hx
          rw [e5.frame (by simp)]
          simpa [SWAP] using hE
        · have := e6 x (by omega) (by push_cast at hx2; omega)
          rwa [hact1] at this
      · intro H x hx1 hx2
        have := e7 (fun y hy1 hy2 => by
          rw [hact1]
          by_cases hy : y = i
          · subst hy
            have hlt : p.next < y := by omega
            have : SWAP p.mem p.next y y = p.mem p.next := by
              unfold SWAP; simp [ne_of_gt hlt]
            rw [this]
            exact H p.next (le_refl _) hlt
          · have : SWAP p.mem p.next i y = p.mem y := by
              unfold SWAP
              have : y ≠ p.next := by omega
              simp [*]
            rw [this]
            exact H y (by omega) (by omega)) x (by push_cast at hx1; omega)
          (by push_cast at hx2; omega)
        rwa [hact1] at this
    · -- the particle at `i` stays
      have hstep : probe_loop ts dir dt clevel act (k + 1) i p =
          probe_loop ts dir dt clevel act k (i + 1)
            { p with diag := p.diag.tcount_add clevel 1 } := by
        simp [probe_loop, hE]
      obtain ⟨j, e1, e2, e3, e4, e5, e6, e7⟩ := ih (i + 1)
        { p with diag := p.diag.tcount_add clevel 1 } (by simp; omega) (by simp; omega)
      simp only at e1 e2 e3 e4 e5 e6 e7
      rw [hstep]
      refine ⟨j, e1, e2, by push_cast; omega, by rw [e4, tcount_add_add, Nat.add_comm], ?_,
        e6, ?_⟩
      · exact e5.mono (fun x hx => ⟨hx.1, by push_cast; omega⟩)
      · intro H x hx1 hx2
        exact e7 (fun y hy1 hy2 => by
          by_cases hy : y = i
          · subst hy; exact hE
          · exact H y hy1 (by omega)) x hx1 (by push_cast at hx2; omega)

/-! ## Cursors -/

theorem select_active_spec {G : Geo} {g : Cnt} {st : split_state} (hc : Cur G g st)
    (hpos : 0 < g.km + g.kz) :
    select_active st = (if 0 < g.km then .comp_next else .compzero_next) ∧
      active_addr (select_active st) st = g.act G := by
  obtain ⟨h1, h2, _, h4, h5, h6, _, h8, _⟩ := hc
  by_cases hk : 0 < g.km
  · have hn : 0 < G.nm := by omega
    simp [select_active, active_addr, Cnt.act, h1, h2, lp, hn, hk, Ptr.addr]
  · have hkz : 0 < g.kz := by omega
    have hn : 0 < G.nz := by omega
    have hk0 : g.km = 0 := by omega
    by_cases hm : 0 < G.nm <;>
      simp [select_active, active_addr, Cnt.act, h1, h2, h5, h6, lp, hn, hm, hk0, hkz, Ptr.addr]

/-- The probe of the massive range. -/
theorem probe_massive_spec (ts : particle → particle → ℤ → DOUBLE) (dir : ℤ) (dt : DOUBLE)
    (clevel : ℤ) (act : ℤ) {G : Geo} {g : Cnt} {st : split_state} (hc : Cur G g st)
    (hact : 0 < G.nm → act < G.P + (g.em + g.vm + g.km : ℕ) ∨ G.P + G.nm - g.rm ≤ act) :
    ∃ j : ℕ,
      Cur G { g with km := g.km + j } (probe_massive ts dir dt clevel act st) ∧
      (probe_massive ts dir dt clevel act st).diag =
        st.diag.tcount_add clevel (G.nm - g.rm - (g.em + g.vm + g.km)) ∧
      (probe_massive ts dir dt clevel act st).stack_size = st.stack_size + j ∧
      (probe_massive ts dir dt clevel act st).c = st.c ∧
      (probe_massive ts dir dt clevel act st).active = st.active ∧
      (probe_massive ts dir dt clevel act st).comp_size = st.comp_size ∧
      (probe_massive ts dir dt clevel act st).compzero_size = st.compzero_size ∧
      MemPerm (fun x => G.P + (g.em + g.vm + g.km : ℕ) ≤ x ∧ x < G.P + G.nm - g.rm) st.mem
        (probe_massive ts dir dt clevel act st).mem ∧
      (∀ x, G.P + (g.em + g.vm + g.km : ℕ) ≤ x → x < G.P + (g.em + g.vm + g.km + j : ℕ) →
        ts (st.mem act) ((probe_massive ts dir dt clevel act st).mem x) dir ≤ dt) ∧
      (∀ x, G.P + (g.em + g.vm + g.km + j : ℕ) ≤ x → x < G.P + G.nm - g.rm →
        ¬ ts (st.mem act) ((probe_massive ts dir dt clevel act st).mem x) dir ≤ dt) := by
  obtain ⟨h1, h2, h3, h4, h5, h6, h7, h8, h9⟩ := hc
  by_cases hn : 0 < G.nm
  · have hk : (st.rest_next.addr - st.stack_next.addr + 1).toNat =
        G.nm - g.rm - (g.em + g.vm + g.km) := by
      simp [h2, h3, lp, hn, Ptr.addr]; omega
    obtain ⟨j, e1, e2, e3, e4, e5, e6, e7⟩ := probe_loop_spec ts dir dt clevel act
      (G.nm - g.rm - (g.em + g.vm + g.km)) (G.P + g.em + g.vm + g.km)
      ⟨st.mem, G.P + g.em + g.vm + g.km, st.stack_size, st.diag⟩ (le_refl _)
      (by simp only; rcases hact hn with h | h
          · left; push_cast at h; omega
          · right; omega)
    simp only at e1 e2 e3 e4 e5 e6 e7
    have hpm : probe_massive ts dir dt clevel act st =
        { st with
          mem := (probe_loop ts dir dt clevel act (G.nm - g.rm - (g.em + g.vm + g.km))
            (G.P + g.em + g.vm + g.km)
            ⟨st.mem, G.P + g.em + g.vm + g.km, st.stack_size, st.diag⟩).mem,
          stack_next := some (G.P + g.em + g.vm + g.km + j),
          stack_size := st.stack_size + j,
          diag := st.diag.tcount_add clevel (G.nm - g.rm - (g.em + g.vm + g.km)) } := by
      unfold probe_massive
      rw [hk]
      simp only [h2, lp, hn, if_true, Ptr.addr, Option.getD_some, e1, e2, e4]
      simp
    rw [hpm]
    refine ⟨j, ⟨by simpa using h1, by simp [lp, hn]; ring, by simpa using h3,
      by simp only; omega, by simpa using h5, by simpa using h6, by simpa using h7,
      by simpa using h8, by simpa using h9⟩, rfl, rfl, rfl, rfl, rfl, rfl, ?_, ?_, ?_⟩
    · exact e5.mono (fun x hx => ⟨by push_cast; omega, by omega⟩)
    · intro x hx1 hx2
      exact e6 x (by push_cast at hx1; omega) (by push_cast at hx2; omega)
    · intro x hx1 hx2
      exact e7 (fun y hy1 hy2 => by omega) x (by push_cast at hx1; omega) (by omega)
  · have hn0 : G.nm = 0 := by omega
    have hpm : probe_massive ts dir dt clevel act st = st := by
      simp [probe_massive, h2, lp, hn]
    rw [hpm]
    refine ⟨0, ⟨h1, by simpa using h2, h3, by simpa using h4, h5, h6, h7, h8, h9⟩,
      by simp [hn0, tcount_add_zero], rfl, rfl, rfl, rfl, rfl, MemPerm.refl _ _, ?_, ?_⟩
    · intro x hx1 hx2; omega
    · intro x hx1 hx2; omega

/-- The probe of the massless range. -/
theorem probe_massless_spec (ts : particle → particle → ℤ → DOUBLE) (dir : ℤ) (dt : DOUBLE)
    (clevel : ℤ) (act : ℤ) {G : Geo} {g : Cnt} {st : split_state} (hc : Cur G g st)
    (hact : 0 < G.nz → act < G.Z + (g.ez + g.vz + g.kz : ℕ) ∨ G.Z + G.nz - g.rz ≤ act) :
    ∃ j : ℕ,
      Cur G { g with kz := g.kz + j } (probe_massless ts dir dt clevel act st) ∧
      (probe_massless ts dir dt clevel act st).diag =
        st.diag.tcount_add clevel (G.nz - g.rz - (g.ez + g.vz + g.kz)) ∧
      (probe_massless ts dir dt clevel act st).stack_size = st.stack_size + j ∧
      (probe_massless ts dir dt clevel act st).c = st.c ∧
      (probe_massless ts dir dt clevel act st).active = st.active ∧
      (probe_massless ts dir dt clevel act st).comp_size = st.comp_size ∧
      (probe_massless ts dir dt clevel act st).compzero_size = st.compzero_size ∧
      MemPerm (fun x => G.Z + (g.ez + g.vz + g.kz : ℕ) ≤ x ∧ x < G.Z + G.nz - g.rz) st.mem
        (probe_massless ts dir dt clevel act st).mem ∧
      (∀ x, G.Z + (g.ez + g.vz + g.kz : ℕ) ≤ x → x < G.Z + (g.ez + g.vz + g.kz + j : ℕ) →
        ts (st.mem act) ((probe_massless ts dir dt clevel act st).mem x) dir ≤ dt) ∧
      (∀ x, G.Z + (g.ez + g.vz + g.kz + j : ℕ) ≤ x → x < G.Z + G.nz - g.rz →
        ¬ ts (st.mem act) ((probe_massless ts dir dt clevel act st).mem x) dir ≤ dt) := by
  obtain ⟨h1, h2, h3, h4, h5, h6, h7, h8, h9⟩ := hc
  by_cases hn : 0 < G.nz
  · have hk : (st.restzero_next.addr - st.stackzero_next.addr + 1).toNat =
        G.nz - g.rz - (g.ez + g.vz + g.kz) := by
      simp [h6, h7, lp, hn, Ptr.addr]; omega
    obtain ⟨j, e1, e2, e3, e4, e5, e6, e7⟩ := probe_loop_spec ts dir dt clevel act
      (G.nz - g.rz - (g.ez + g.vz + g.kz)) (G.Z + g.ez + g.vz + g.kz)
      ⟨st.mem, G.Z + g.ez + g.vz + g.kz, st.stack_size, st.diag⟩ (le_refl _)
      (by simp only; rcases hact hn with h | h
          · left; push_cast at h; omega
          · right; omega)
    simp only at e1 e2 e3 e4 e5 e6 e7
    have hpm : probe_massless ts dir dt clevel act st =
        { st with
          mem := (probe_loop ts dir dt clevel act (G.nz - g.rz - (g.ez + g.vz + g.kz))
            (G.Z + g.ez + g.vz + g.kz)
            ⟨st.mem, G.Z + g.ez + g.vz + g.kz, st.stack_size, st.diag⟩).mem,
          stackzero_next := some (G.Z + g.ez + g.vz + g.kz + j),
          stack_size := st.stack_size + j,
          diag := st.diag.tcount_add clevel (G.nz - g.rz - (g.ez + g.vz + g.kz)) } := by
      unfold probe_massless
      rw [hk]
      simp only [h6, lp, hn, if_true, Ptr.addr, Option.getD_some, e1, e2, e4]
      simp
    rw [hpm]
    refine ⟨j, ⟨by simpa using h1, by simpa using h2, by simpa using h3,
      by simpa using h4, by simpa using h5, by simp [lp, hn]; ring, by simpa using h7,
      by simp only; omega, by simpa using h9⟩, rfl, rfl, rfl, rfl, rfl, rfl, ?_, ?_, ?_⟩
    · exact e5.mono (fun x hx => ⟨by push_cast; omega, by omega⟩)
    · intro x hx1 hx2
      exact e6 x (by push_cast at hx1; omega) (by push_cast at hx2; omega)
    · intro x hx1 hx2
      exact e7 (fun y hy1 hy2 => by omega) x (by push_cast at hx1; omega) (by omega)
  · have hn0 : G.nz = 0 := by omega
    have hpm : probe_massless ts dir dt clevel act st = st := by
      simp [probe_massless, h6, lp, hn]
    rw [hpm]
    refine ⟨0, ⟨h1, h2, h3, h4, h5, by simpa using h6, h7, by simpa using h8, h9⟩,
      by simp [hn0, tcount_add_zero], rfl, rfl, rfl, rfl, rfl, MemPerm.refl _ _, ?_, ?_⟩
    · intro x hx1 hx2; omega
    · intro x hx1 hx2; omega

theorem pop_stack_spec {G : Geo} {g : Cnt} {st : split_state} (hc : Cur G g st)
    (b : Bool) (ha : st.active = if b then .comp_next else .compzero_next)
    (hk : if b then 0 < g.km else 0 < g.kz) :
    Cur G (g.pop b) (pop_stack st) ∧
      (pop_stack st).stack_size = st.stack_size - 1 ∧
      (pop_stack st).comp_size = st.comp_size + 1 ∧
      (pop_stack st).compzero_size = st.compzero_size + (if b then 0 else 1) ∧
      (pop_stack st).c = st.c ∧ (pop_stack st).active = st.active ∧
      (pop_stack st).mem = st.mem ∧ (pop_stack st).diag = st.diag := by
  obtain ⟨h1, h2, h3, h4, h5, h6, h7, h8, h9⟩ := hc
  cases b
  · simp only [Bool.false_eq_true, if_false] at ha hk
    have hn : 0 < G.nz := by omega
    refine ⟨⟨?_, ?_, ?_, ?_, ?_, ?_, ?_, ?_, ?_⟩, ?_⟩
    all_goals simp [pop_stack, ha, Cnt.pop, h1, h2, h3, h5, h6, h7, h9, lp, hn, Ptr.add]
    all_goals omega
  · simp only [if_true] at ha hk
    have hn : 0 < G.nm := by omega
    refine ⟨⟨?_, ?_, ?_, ?_, ?_, ?_, ?_, ?_, ?_⟩, ?_⟩
    all_goals simp [pop_stack, ha, Cnt.pop, h1, h2, h3, h5, h6, h7, h9, lp, hn, Ptr.add]
    all_goals omega

/-- One pass of the inner loop never ends in `ENDRUN` while the stack is not empty: it probes
both ranges from the head of the stack and pops that head. -/
theorem inner_pass_spec (ts : particle → particle → ℤ → DOUBLE) (dir : ℤ) (dt : DOUBLE)
    (clevel : ℤ) {G : Geo} (hD : G.Disj) {g : Cnt} {st : split_state} (hc : Cur G g st)
    (hs : st.stack_size = g.km + g.kz) (hpos : 0 < g.km + g.kz) :
    ∃ (jm jz : ℕ) (st1 : split_state) (m1 : Mem),
      inner_pass ts dir dt clevel st = .ok st1 ∧
      Cur G ((g.push jm jz).pop (decide (0 < g.km))) st1 ∧
      st1.stack_size = g.km + jm + (g.kz + jz) - 1 ∧
      st1.comp_size = st.comp_size + 1 ∧
      st1.compzero_size = st.compzero_size + (if 0 < g.km then 0 else 1) ∧
      st1.c = st.c ∧
      st1.active = (if 0 < g.km then .comp_next else .compzero_next) ∧
      st1.diag = st.diag.tcount_add clevel
        ((G.nm - g.rm - (g.em + g.vm + g.km)) + (G.nz - g.rz - (g.ez + g.vz + g.kz))) ∧
      MemPerm (G.zone (g.em + g.vm + g.km) (G.nm - g.rm) 0 0) st.mem m1 ∧
      MemPerm (G.zone 0 0 (g.ez + g.vz + g.kz) (G.nz - g.rz)) m1 st1.mem ∧
      (∀ x, G.zone (g.em + g.vm + g.km) (g.em + g.vm + g.km + jm)
              (g.ez + g.vz + g.kz) (g.ez + g.vz + g.kz + jz) x →
        ts (st.mem (g.act G)) (st1.mem x) dir ≤ dt) ∧
      (∀ x, G.zone (g.em + g.vm + g.km + jm) (G.nm - g.rm)
              (g.ez + g.vz + g.kz + jz) (G.nz - g.rz) x →
        ¬ ts (st.mem (g.act G)) (st1.mem x) dir ≤ dt) := by
  obtain ⟨hsel, haddr⟩ := select_active_spec hc hpos
  have hb := hc.bound
  have hbz := hc.boundzero
  have hc0 : Cur G g { st with active := select_active st } :=
    ⟨hc.1, hc.2, hc.3, hc.4, hc.5, hc.6, hc.7, hc.8, hc.9⟩
  -- the active particle lies outside both probed zones
  have hactm : 0 < G.nm → g.act G < G.P + (g.em + g.vm + g.km : ℕ) ∨
      G.P + G.nm - g.rm ≤ g.act G := by
    intro hn
    unfold Cnt.act
    unfold Geo.Disj at hD
    split_ifs with hk
    · left; push_cast; omega
    · push_cast; omega
  have hactz : 0 < G.nz → g.act G < G.Z + (g.ez + g.vz + g.kz : ℕ) ∨
      G.Z + G.nz - g.rz ≤ g.act G := by
    intro hn
    unfold Cnt.act
    unfold Geo.Disj at hD
    split_ifs with hk
    · push_cast; omega
    · left; push_cast; omega
  obtain ⟨jm, c1, d1, s1, k1, a1, z1, w1, p1, e1, n1⟩ :=
    probe_massive_spec ts dir dt clevel (g.act G) hc0 hactm
  obtain ⟨jz, c2, d2, s2, k2, a2, z2, w2, p2, e2, n2⟩ :=
    probe_massless_spec ts dir dt clevel (g.act G) c1 hactz
  have hc1b := c1.bound
  have hc2b := c2.boundzero
  simp only at hc1b hc2b
  obtain ⟨c3, s3, z3, w3, k3, a3, m3, d3⟩ := pop_stack_spec c2 (decide (0 < g.km))
    (by rw [a2, a1]; simp only [hsel]; by_cases h : 0 < g.km <;> simp [h])
    (by by_cases h : 0 < g.km <;> simp [h] <;> omega)
  have hact_ne : select_active st ≠ .NULL := by
    rw [hsel]; split_ifs <;> simp
  have hrun : inner_pass ts dir dt clevel st = .ok (pop_stack (probe_massless ts dir dt clevel
      (g.act G) (probe_massive ts dir dt clevel (g.act G)
        { st with active := select_active st }))) := by
    unfold inner_pass
    simp only [hact_ne, if_false, haddr]
  have hframe1 : (probe_massive ts dir dt clevel (g.act G)
      { st with active := select_active st }).mem (g.act G) = st.mem (g.act G) := by
    rw [p1.frame]
    intro h
    by_cases hn : 0 < G.nm
    · rcases hactm hn with h' | h' <;> omega
    · omega
  refine ⟨jm, jz, _, (probe_massive ts dir dt clevel (g.act G)
    { st with active := select_active st }).mem, hrun, ?_, ?_, ?_, ?_, ?_, ?_, ?_, ?_, ?_, ?_, ?_⟩
  · exact c3
  · rw [s3, s2, s1]; simp only [hs]; omega
  · rw [z3, z2, z1]
  · rw [w3, w2, w1]; by_cases h : 0 < g.km <;> simp [h]
  · rw [k3, k2, k1]
  · rw [a3, a2, a1]; exact hsel
  · rw [d3, d2, d1, tcount_add_add]
  · exact p1.mono (fun x hx => Or.inl ⟨by push_cast at hx ⊢; omega, by push_cast at hx ⊢; omega⟩)
  · rw [m3]
    exact p2.mono (fun x hx => Or.inr ⟨by push_cast at hx ⊢; omega, by push_cast at hx ⊢; omega⟩)
  · intro x hx
    rw [m3]
    rcases hx with hx | hx
    · have hxz : ¬ (G.Z + (g.ez + g.vz + g.kz : ℕ) ≤ x ∧ x < G.Z + G.nz - g.rz) := by
        unfold Geo.Disj at hD; push_cast at hx ⊢; omega
      rw [p2.frame hxz]
      exact e1 x (by push_cast at hx ⊢; omega) (by push_cast at hx ⊢; omega)
    · have := e2 x (by push_cast at hx ⊢; omega) (by push_cast at hx ⊢; omega)
      rwa [hframe1] at this
  · intro x hx
    rw [m3]
    rcases hx with hx | hx
    · have hxz : ¬ (G.Z + (g.ez + g.vz + g.kz : ℕ) ≤ x ∧ x < G.Z + G.nz - g.rz) := by
        unfold Geo.Disj at hD; push_cast at hx ⊢; omega
      rw [p2.frame hxz]
      exact n1 x (by push_cast at hx ⊢; omega) (by push_cast at hx ⊢; omega)
    · have := n2 x (by push_cast at hx ⊢; omega) (by push_cast at hx ⊢; omega)
      rwa [hframe1] at this

/-! ## The invariant of the split -/

theorem Conn.congr {E : particle → particle → Prop} {m m1 : Mem} {S T : ℤ → Prop}
    (h : Conn E m S) (hm : ∀ x, S x → m1 x = m x) (hST : ∀ x, S x ↔ T x) : Conn E m1 T := by
  obtain ⟨s0, hs0, hr⟩ := h
  refine ⟨s0, (hST _).1 hs0, fun j hj => ?_⟩
  refine Relation.ReflTransGen.mono ?_ (hr j ((hST _).2 hj))
  rintro a b ⟨ha, hb, hab, he⟩
  refine ⟨(hST _).1 ha, (hST _).1 hb, hab, ?_⟩
  unfold Ed at he ⊢
  rw [hm a ha, hm b hb]; exact he

theorem Tiled.append : ∀ (L : List Blk) (a b e f : ℕ) (q : Blk), Tiled a b L e f →
    q.a = e → q.b = f → 2 ≤ q.vm + q.vz → Tiled a b (L ++ [q]) (e + q.vm) (f + q.vz)
  | [], a, b, e, f, q, h, ha, hb, h2 => by
    obtain ⟨h1, h3⟩ := h
    subst h1 h3
    exact ⟨ha, hb, h2, rfl, rfl⟩
  | p :: t, a, b, e, f, q, h, ha, hb, h2 => by
    obtain ⟨h1, h3, h4, h5⟩ := h
    exact ⟨h1, h3, h4, Tiled.append t _ _ e f q h5 ha hb h2⟩

theorem Tiled.le : ∀ (L : List Blk) (a b e f : ℕ), Tiled a b L e f → a ≤ e ∧ b ≤ f
  | [], a, b, e, f, h => by obtain ⟨h1, h3⟩ := h; omega
  | p :: t, a, b, e, f, h => by
    obtain ⟨_, _, _, h5⟩ := h
    have := Tiled.le t _ _ e f h5
    omega

theorem Tiled.mem : ∀ (L : List Blk) (a b e f : ℕ), Tiled a b L e f → ∀ q ∈ L,
    a ≤ q.a ∧ q.a + q.vm ≤ e ∧ b ≤ q.b ∧ q.b + q.vz ≤ f ∧ 2 ≤ q.vm + q.vz
  | [], _, _, _, _, _, q, hq => by simp at hq
  | p :: t, a, b, e, f, h, q, hq => by
    obtain ⟨h1, h3, h4, h5⟩ := h
    rcases List.mem_cons.1 hq with rfl | hq
    · have := Tiled.le t _ _ e f h5
      omega
    · have := Tiled.mem t _ _ e f h5 q hq
      omega

theorem at_c_next_linkCC (G : Geo) (f : sys → sys) (q : Blk)
    (hf : f zerosys = compNode G q (some zerosys)) :
    ∀ L : List Blk, at_c_next f (linkCC G L) = linkCC G (L ++ [q])
  | [] => by
    simp only [linkCC, List.nil_append]
    rw [← hf]
    rfl
  | p :: t => by
    have ih := at_c_next_linkCC G f q hf t
    simp only [linkCC, List.cons_append, compNode, at_c_next, ih]
    rfl

theorem Geo.mem_laneM (G : Geo) (x : ℤ) : x ∈ G.laneM ↔ G.P ≤ x ∧ x < G.P + G.nm := by
  unfold Geo.laneM
  simp only [List.mem_map, List.mem_range]
  constructor
  · rintro ⟨i, hi, rfl⟩; omega
  · rintro ⟨h1, h2⟩; exact ⟨(x - G.P).toNat, by omega, by omega⟩

theorem Geo.mem_laneZ (G : Geo) (x : ℤ) : x ∈ G.laneZ ↔ G.Z ≤ x ∧ x < G.Z + G.nz := by
  unfold Geo.laneZ
  simp only [List.mem_map, List.mem_range]
  constructor
  · rintro ⟨i, hi, rfl⟩; omega
  · rintro ⟨h1, h2⟩; exact ⟨(x - G.Z).toNat, by omega, by omega⟩

theorem Geo.nodup_laneM (G : Geo) : G.laneM.Nodup :=
  (List.nodup_range G.nm).map (fun a b h => by simpa using h)

theorem Geo.nodup_laneZ (G : Geo) : G.laneZ.Nodup :=
  (List.nodup_range G.nz).map (fun a b h => by simpa using h)

theorem LanesPerm.same (G : Geo) (m : Mem) : LanesPerm G m m :=
  ⟨fun _ _ => rfl, List.Perm.refl _, List.Perm.refl _⟩

theorem LanesPerm.step_m {G : Geo} (hD : G.Disj) {m0 m m1 : Mem} (h : LanesPerm G m0 m)
    {S : ℤ → Prop} (hp : MemPerm S m m1) (hS : ∀ x, S x → G.P ≤ x ∧ x < G.P + G.nm) :
    LanesPerm G m0 m1 := by
  refine ⟨fun x hx => ?_, ?_, ?_⟩
  · rw [hp.frame, h.frame x hx]
    intro hs
    exact hx (Or.inl (by have := hS x hs; push_cast; omega))
  · exact (hp.list_perm G.nodup_laneM (fun x hx => (G.mem_laneM x).2 (hS x hx))).trans h.massive
  · have : G.laneZ.map m1 = G.laneZ.map m := by
      apply List.map_congr_left
      intro x hx
      apply hp.frame
      intro hs
      have h1 := hS x hs
      have h2 := (G.mem_laneZ x).1 hx
      unfold Geo.Disj at hD
      omega
    rw [this]; exact h.massless

theorem LanesPerm.step_z {G : Geo} (hD : G.Disj) {m0 m m1 : Mem} (h : LanesPerm G m0 m)
    {S : ℤ → Prop} (hp : MemPerm S m m1) (hS : ∀ x, S x → G.Z ≤ x ∧ x < G.Z + G.nz) :
    LanesPerm G m0 m1 := by
  refine ⟨fun x hx => ?_, ?_, ?_⟩
  · rw [hp.frame, h.frame x hx]
    intro hs
    exact hx (Or.inr (by have := hS x hs; push_cast; omega))
  · have : G.laneM.map m1 = G.laneM.map m := by
      apply List.map_congr_left
      intro x hx
      apply hp.frame
      intro hs
      have h1 := hS x hs
      have h2 := (G.mem_laneM x).1 hx
      unfold Geo.Disj at hD
      omega
    rw [this]; exact h.massive
  · exact (hp.list_perm G.nodup_laneZ (fun x hx => (G.mem_laneZ x).2 (hS x hx))).trans h.massless

/-! ## The zones and the invariant -/

theorem popRel_of_spec {G : Geo} {g : Cnt} {jm jz : ℕ}
    (hb : g.em + g.vm + g.km + g.rm ≤ G.nm) (hbz : g.ez + g.vz + g.kz + g.rz ≤ G.nz)
    (hb1 : ((g.push jm jz).pop (decide (0 < g.km))).em +
      ((g.push jm jz).pop (decide (0 < g.km))).vm +
      ((g.push jm jz).pop (decide (0 < g.km))).km +
      ((g.push jm jz).pop (decide (0 < g.km))).rm ≤ G.nm)
    (hbz1 : ((g.push jm jz).pop (decide (0 < g.km))).ez +
      ((g.push jm jz).pop (decide (0 < g.km))).vz +
      ((g.push jm jz).pop (decide (0 < g.km))).kz +
      ((g.push jm jz).pop (decide (0 < g.km))).rz ≤ G.nz) (hpos : 0 < g.km + g.kz) :
    PopRel G g ((g.push jm jz).pop (decide (0 < g.km))) jm jz (g.act G) := by
  by_cases hk : 0 < g.km
  · refine ⟨hb, hbz, hb1, hbz1, ?_, ?_, ?_, ?_, ?_, ?_, ?_⟩ <;>
      simp [Cnt.push, Cnt.pop, Cnt.act, hk] <;> omega
  · refine ⟨hb, hbz, hb1, hbz1, ?_, ?_, ?_, ?_, ?_, ?_, ?_⟩ <;>
      simp [Cnt.push, Cnt.pop, Cnt.act, hk] <;> omega

theorem step_sepAct {E : particle → particle → Prop} {G : Geo} (hD : G.Disj) {g g1 : Cnt}
    {jm jz : ℕ} {a : ℤ} (hR : PopRel G g g1 jm jz a) {m m1 : Mem} (hU : MemPerm (Unv G g) m m1)
    (hS : SepAct E G g m) : SepAct E G g1 m1 := by
  obtain ⟨hb, hbz, _, _, q1, q2, q3, q4, _, _, _⟩ := hR
  intro i j hi hj
  unfold Done at hi
  unfold Live at hj
  rw [q1, q2, q3, q4] at hi hj
  unfold Geo.Disj at hD
  obtain ⟨y, hy, e⟩ := hU.maps_sub (T := Live G g)
    (fun x hx => by unfold Unv Geo.zone at hx; unfold Live Geo.zone; omega) hj
  have := hS i y hi hy
  unfold Ed at this ⊢
  rw [e, hU.frame (x := i) (by unfold Geo.zone at hi; unfold Unv Geo.zone; omega)]
  exact this

theorem step_sepFin {E : particle → particle → Prop} {G : Geo} (hD : G.Disj) {g g1 : Cnt}
    {jm jz : ℕ} {a : ℤ} (hR : PopRel G g g1 jm jz a) {L : List Blk} {m m1 : Mem}
    (hU : MemPerm (Unv G g) m m1) (hS : SepFin E G g L m) : SepFin E G g1 L m1 := by
  obtain ⟨hb, hbz, _, _, q1, q2, q3, q4, _, _, _⟩ := hR
  intro i j hi hj hij
  unfold Done at hi hj
  rw [q1, q2, q3, q4] at hi hj
  unfold Geo.Disj at hD
  rcases hS i j hi hj hij with h | h
  · exact Or.inl h
  · right
    unfold Sep2 Ed at h ⊢
    rw [hU.frame (x := i) (by unfold Geo.zone at hi; unfold Unv Geo.zone; omega),
      hU.frame (x := j) (by unfold Geo.zone at hj; unfold Unv Geo.zone; omega)]
    exact h

theorem step_connAll {E : particle → particle → Prop} {G : Geo} (hD : G.Disj) {g : Cnt}
    (hb : g.em + g.vm + g.km + g.rm ≤ G.nm) (hbz : g.ez + g.vz + g.kz + g.rz ≤ G.nz)
    {L : List Blk} (hT : Tiled 0 0 L g.em g.ez) {m m1 : Mem}
    (hU : MemPerm (Live G g) m m1) (hS : ConnAll E G L m) : ConnAll E G L m1 := by
  intro q hq
  have hm := Tiled.mem L 0 0 g.em g.ez hT q hq
  refine (hS q hq).congr (fun x hx => hU.frame ?_) (fun x => Iff.rfl)
  unfold Blk.has Geo.zone at hx
  unfold Geo.Disj at hD
  unfold Live Geo.zone
  omega

theorem unv_sub_live {G : Geo} {g : Cnt} (x : ℤ) (hx : Unv G g x) : Live G g x := by
  unfold Unv Geo.zone at hx; unfold Live Geo.zone; omega

theorem step_sepVis {E : particle → particle → Prop} {G : Geo} (hD : G.Disj) {g g1 : Cnt}
    {jm jz : ℕ} {a : ℤ} (hR : PopRel G g g1 jm jz a) {m m1 : Mem} (hU : MemPerm (Unv G g) m m1)
    (hn : ∀ x, G.zone (g.em + g.vm + g.km + jm) (G.nm - g.rm) (g.ez + g.vz + g.kz + jz)
      (G.nz - g.rz) x → ¬ E (m a) (m1 x))
    (hS : SepVis E G g m) : SepVis E G g1 m1 := by
  obtain ⟨hb, hbz, hb1, hbz1, q1, q2, q3, q4, q5, q6, q7⟩ := hR
  intro i j hi hj
  unfold Vis at hi
  unfold Unv at hj
  unfold Geo.Disj at hD
  have hj' : G.zone (g.em + g.vm + g.km + jm) (G.nm - g.rm) (g.ez + g.vz + g.kz + jz)
      (G.nz - g.rz) j := by
    unfold Geo.zone at hj ⊢; omega
  by_cases hia : i = a
  · have := hn j hj'
    unfold Ed
    rw [hia, hU.frame (x := a) (by unfold Unv Geo.zone; omega)]
    exact this
  · have hi' : Vis G g i := by
      unfold Geo.zone at hi; unfold Vis Geo.zone; omega
    obtain ⟨y, hy, e⟩ := hU.maps (x := j) (by unfold Geo.zone at hj; unfold Unv Geo.zone; omega)
    have := hS i y hi' hy
    unfold Ed at this ⊢
    rw [e, hU.frame (x := i) (by unfold Vis Geo.zone at hi'; unfold Unv Geo.zone; omega)]
    exact this

theorem step_connCur {E : particle → particle → Prop} {G : Geo} (hD : G.Disj) {g g1 : Cnt}
    {jm jz : ℕ} {a : ℤ} (hR : PopRel G g g1 jm jz a) {m m1 : Mem} (hU : MemPerm (Unv G g) m m1)
    (he : ∀ x, G.zone (g.em + g.vm + g.km) (g.em + g.vm + g.km + jm)
      (g.ez + g.vz + g.kz) (g.ez + g.vz + g.kz + jz) x → E (m a) (m1 x))
    (hS : ConnCur E G g m) : ConnCur E G g1 m1 := by
  obtain ⟨hb, hbz, hb1, hbz1, q1, q2, q3, q4, q5, q6, q7⟩ := hR
  intro _
  unfold Geo.Disj at hD
  obtain ⟨s0, hs0, hr⟩ := hS (by omega)
  have hsub : ∀ x, CurZ G g x → CurZ G g1 x := by
    intro x hx; unfold CurZ Geo.zone at hx ⊢; omega
  have hfix : ∀ x, CurZ G g x → m1 x = m x := by
    intro x hx
    apply hU.frame
    unfold CurZ Geo.zone at hx; unfold Unv Geo.zone; omega
  have hold : ∀ x, CurZ G g x →
      Relation.ReflTransGen (ChainStep E m1 (CurZ G g1)) s0 x := by
    intro x hx
    refine Relation.ReflTransGen.mono ?_ (hr x hx)
    rintro u v ⟨hu, hv, huv, hed⟩
    refine ⟨hsub u hu, hsub v hv, huv, ?_⟩
    unfold Ed at hed ⊢
    rw [hfix u hu, hfix v hv]
    exact hed
  refine ⟨s0, hsub s0 hs0, fun j hj => ?_⟩
  by_cases hjo : CurZ G g j
  · exact hold j hjo
  · have hact : CurZ G g a := by
      unfold CurZ Geo.zone; omega
    have hjp : G.zone (g.em + g.vm + g.km) (g.em + g.vm + g.km + jm)
        (g.ez + g.vz + g.kz) (g.ez + g.vz + g.kz + jz) j := by
      unfold CurZ Geo.zone at hj hjo; unfold Geo.zone; omega
    refine Relation.ReflTransGen.tail (hold _ hact) ⟨hsub _ hact, hj, ?_, ?_⟩
    · rintro rfl; exact hjo hact
    · have := he j hjp
      unfold Ed
      rw [hfix a hact]
      exact this

/-- One pass of the inner loop keeps the invariant. -/
theorem inner_pass_inv (ts : particle → particle → ℤ → DOUBLE) (dir : ℤ) (dt : DOUBLE)
    (clevel : ℤ) {G : Geo} (hD : G.Disj) {m0 : Mem} {g : Cnt} {L : List Blk}
    {st : split_state} (hI : Inv (fast ts dir dt) G m0 g L st) (hX : InnerX g st)
    (hpos : 0 < g.km + g.kz) :
    ∃ (jm jz : ℕ) (st1 : split_state),
      inner_pass ts dir dt clevel st = .ok st1 ∧
      Inv (fast ts dir dt) G m0 ((g.push jm jz).pop (decide (0 < g.km))) L st1 ∧
      InnerX ((g.push jm jz).pop (decide (0 < g.km))) st1 ∧
      st1.diag = st.diag.tcount_add clevel
        ((G.nm - g.rm - (g.em + g.vm + g.km)) + (G.nz - g.rz - (g.ez + g.vz + g.kz))) := by
  obtain ⟨jm, jz, st1, m1, hrun, c1, s1, z1, w1, k1, a1, d1, p1, p2, e1, n1⟩ :=
    inner_pass_spec ts dir dt clevel hD hI.cur hX.stack_size hpos
  have hR := popRel_of_spec hI.cur.bound hI.cur.boundzero c1.bound c1.boundzero hpos
  have hb := hI.cur.bound
  have hbz := hI.cur.boundzero
  have hU : MemPerm (Unv G g) st.mem st1.mem :=
    (p1.mono (fun x hx => by unfold Geo.zone at hx; unfold Unv Geo.zone; omega)).trans
      (p2.mono (fun x hx => by unfold Geo.zone at hx; unfold Unv Geo.zone; omega))
  refine ⟨jm, jz, st1, hrun, ⟨c1, by rw [k1]; exact hI.clist, ?_, ?_, ?_, ?_, ?_, ?_, ?_, ?_⟩,
    ⟨?_, ?_, ?_, ?_⟩, d1⟩
  · rw [hR.em, hR.ez]; exact hI.tiled
  · refine LanesPerm.step_z hD (LanesPerm.step_m hD hI.lanes p1 ?_) p2 ?_
    · intro x hx; unfold Geo.zone at hx; omega
    · intro x hx; unfold Geo.zone at hx; omega
  · exact hI.perm.trans (hU.mono (fun x hx => by
      unfold Unv Geo.zone at hx; unfold Geo.zone; omega))
  · exact step_sepAct hD hR hU hI.sepAct
  · exact step_sepFin hD hR hU hI.sepFin
  · exact step_connAll hD hb hbz hI.tiled (hU.mono unv_sub_live) hI.connAll
  · exact step_sepVis hD hR hU n1 hI.sepVis
  · exact step_connCur hD hR hU e1 hI.connCur
  · rw [s1]; by_cases hk : 0 < g.km <;> simp [Cnt.push, Cnt.pop, hk] <;> omega
  · rw [z1, hX.comp_size]; by_cases hk : 0 < g.km <;> simp [Cnt.push, Cnt.pop, hk] <;> omega
  · rw [w1, hX.compzero_size]; by_cases hk : 0 < g.km <;> simp [Cnt.push, Cnt.pop, hk]
  · intro _
    rw [a1]
    by_cases hk : 0 < g.km <;> simp [Cnt.push, Cnt.pop, hk]

/-- The inner loop ends, with an empty stack, when the fuel covers the particles that are not
yet finished or visited. -/
theorem inner_loop_inv (ts : particle → particle → ℤ → DOUBLE) (dir : ℤ) (dt : DOUBLE)
    (clevel : ℤ) {G : Geo} (hD : G.Disj) {m0 : Mem} {L : List Blk} :
    ∀ (fuel : ℕ) (g : Cnt) (st : split_state), Inv (fast ts dir dt) G m0 g L st → InnerX g st →
      (G.nm - g.em - g.rm - g.vm) + (G.nz - g.ez - g.rz - g.vz) ≤ fuel →
      ∃ (g1 : Cnt) (st1 : split_state),
        inner_loop ts dir dt clevel fuel st = .ok st1 ∧
        Inv (fast ts dir dt) G m0 g1 L st1 ∧ InnerX g1 st1 ∧
        g1.km = 0 ∧ g1.kz = 0 ∧ g1.em = g.em ∧ g1.rm = g.rm ∧ g1.ez = g.ez ∧ g1.rz = g.rz ∧
        g.vm + g.vz ≤ g1.vm + g1.vz ∧ (0 < g.km + g.kz → 1 ≤ g1.vm + g1.vz) := by
  intro fuel
  induction fuel with
  | zero =>
    intro g st hI hX hf
    have hb := hI.cur.bound
    have hbz := hI.cur.boundzero
    have hs := hX.stack_size
    refine ⟨g, st, ?_, hI, hX, by omega, by omega, rfl, rfl, rfl, rfl, le_refl _, by omega⟩
    have : ¬ st.stack_size > 0 := by omega
    simp [inner_loop, this]
  | succ fuel ih =>
    intro g st hI hX hf
    by_cases hpos : 0 < g.km + g.kz
    · obtain ⟨jm, jz, st1, hrun, hI1, hX1, _⟩ := inner_pass_inv ts dir dt clevel hD hI hX hpos
      have hR := popRel_of_spec hI.cur.bound hI.cur.boundzero hI1.cur.bound hI1.cur.boundzero hpos
      obtain ⟨hb, hbz, hb1, hbz1, q1, q2, q3, q4, q5, q6, q7⟩ := hR
      obtain ⟨g2, st2, hrun2, hI2, hX2, k1, k2, r1, r2, r3, r4, r5, r6⟩ :=
        ih _ st1 hI1 hX1 (by omega)
      refine ⟨g2, st2, ?_, hI2, hX2, k1, k2, by omega, by omega, by omega, by omega, by omega,
        by omega⟩
      have hs : st.stack_size > 0 := by rw [hX.stack_size]; exact hpos
      simp [inner_loop, hs, hrun, hrun2]
    · have hs := hX.stack_size
      refine ⟨g, st, ?_, hI, hX, by omega, by omega, rfl, rfl, rfl, rfl, le_refl _, by omega⟩
      have : ¬ st.stack_size > 0 := by omega
      simp [inner_loop, this]

/-! ## The outer loop -/

theorem lp_congr (N : ℕ) {x y : ℤ} (h : x = y) : lp N x = lp N y := by rw [h]

theorem startup_spec {G : Geo} {g : Cnt} {st : split_state} (hc : Cur G g st) (h0 : g.Head)
    (hlt : g.em + g.rm + g.ez + g.rz < G.nm + G.nz) :
    Cur G (g.seed G) (startup_stack st) ∧
      (startup_stack st).stack_size = 1 ∧
      (startup_stack st).comp_size = 0 ∧
      (startup_stack st).compzero_size = 0 ∧
      (startup_stack st).mem = st.mem ∧
      (startup_stack st).c = st.c ∧
      (startup_stack st).diag = st.diag ∧
      ¬ ((startup_stack st).stack_next = (startup_stack st).comp_next ∧
          (startup_stack st).stackzero_next = (startup_stack st).compzero_next) := by
  obtain ⟨h1, h2, h3, h4, h5, h6, h7, h8, h9⟩ := hc
  obtain ⟨z1, z2, z3, z4⟩ := h0
  simp only [z1, z2, z3, z4, Nat.cast_zero, add_zero] at h1 h2 h5 h6
  by_cases hs : g.em + g.rm < G.nm
  · have hn : 0 < G.nm := by omega
    have e1 : startup_stack st =
        { st with comp_size := 0, compzero_size := 0,
                  stack_next := some (G.P + g.em + 1), stack_size := 1 } := by
      unfold startup_stack
      simp only [h1, h2, h3, lp, hn, if_true, Ptr.addr, Ptr.add, Option.map_some',
        Option.getD_some]
      have c1 : G.P + ↑g.em < G.P + ↑G.nm - 1 - ↑g.rm + 1 := by omega
      simp [c1]
    rw [e1]
    refine ⟨⟨?_, ?_, ?_, ?_, ?_, ?_, ?_, ?_, ?_⟩, rfl, rfl, rfl, rfl, rfl, rfl, ?_⟩
    all_goals simp only [Cnt.seed, hs, if_true, z1, z2, z3, z4, Nat.cast_zero, add_zero,
      Nat.cast_one]
    · exact h1
    · simp [lp, hn]
    · exact h3
    · omega
    · exact h5
    · exact h6
    · exact h7
    · omega
    · exact h9
    · simp [h1, lp, hn]
  · have hz : g.ez + g.rz < G.nz := by omega
    have hn : 0 < G.nz := by omega
    have e1 : startup_stack st =
        { st with comp_size := 0, compzero_size := 0,
                  stackzero_next := some (G.Z + g.ez + 1), stack_size := 1 } := by
      unfold startup_stack
      have c3 : G.Z + ↑g.ez < G.Z + ↑G.nz - 1 - ↑g.rz + 1 := by omega
      by_cases hm : 0 < G.nm
      · simp only [h1, h2, h3, h5, h6, h7, lp, hn, hm, if_true, Ptr.addr, Ptr.add,
          Option.map_some', Option.getD_some]
        have c1 : ¬ (G.P + ↑g.em < G.P + ↑G.nm - 1 - ↑g.rm + 1) := by omega
        simp [c1, c3]
      · simp only [h1, h2, h3, h5, h6, h7, lp, hn, hm, if_true, if_false, Ptr.addr, Ptr.add,
          Option.map_some', Option.getD_some]
        simp [c3]
    rw [e1]
    refine ⟨⟨?_, ?_, ?_, ?_, ?_, ?_, ?_, ?_, ?_⟩, rfl, rfl, rfl, rfl, rfl, rfl, ?_⟩
    all_goals simp only [Cnt.seed, hs, if_false, z1, z2, z3, z4, Nat.cast_zero, add_zero,
      Nat.cast_one]
    · exact h1
    · exact h2
    · exact h3
    · omega
    · exact h5
    · simp [lp, hn]
    · exact h7
    · omega
    · exact h9
    · simp [h5, lp, hn]

theorem seed_rel {G : Geo} {g : Cnt} (h0 : g.Head)
    (hb : g.em + g.vm + g.km + g.rm ≤ G.nm) (hbz : g.ez + g.vz + g.kz + g.rz ≤ G.nz)
    (hlt : g.em + g.rm + g.ez + g.rz < G.nm + G.nz) :
    (g.seed G).em = g.em ∧ (g.seed G).rm = g.rm ∧ (g.seed G).ez = g.ez ∧
      (g.seed G).rz = g.rz ∧ (g.seed G).vm = 0 ∧ (g.seed G).vz = 0 ∧
      (g.seed G).km + (g.seed G).kz = 1 ∧
      (g.seed G).em + (g.seed G).km + (g.seed G).rm ≤ G.nm ∧
      (g.seed G).ez + (g.seed G).kz + (g.seed G).rz ≤ G.nz := by
  obtain ⟨z1, z2, z3, z4⟩ := h0
  unfold Cnt.seed
  split_ifs with hs <;> simp <;> omega

/-- The start-up of the stack keeps the invariant. -/
theorem startup_inv {E : particle → particle → Prop} {G : Geo} (hD : G.Disj) {m0 : Mem}
    {g : Cnt} {L : List Blk} {st : split_state} (hI : Inv E G m0 g L st) (h0 : g.Head)
    (hlt : g.em + g.rm + g.ez + g.rz < G.nm + G.nz) :
    Inv E G m0 (g.seed G) L (startup_stack st) ∧ InnerX (g.seed G) (startup_stack st) := by
  obtain ⟨c1, s1, z1, w1, e1, k1, d1, _⟩ := startup_spec hI.cur h0 hlt
  obtain ⟨q1, q2, q3, q4, q5, q6, q7, q8, q9⟩ :=
    seed_rel h0 hI.cur.bound hI.cur.boundzero hlt
  unfold Geo.Disj at hD
  refine ⟨⟨c1, by rw [k1]; exact hI.clist, by rw [q1, q3]; exact hI.tiled,
    by rw [e1]; exact hI.lanes, by rw [e1]; exact hI.perm, ?_, ?_, by rw [e1]; exact hI.connAll,
    ?_, ?_⟩, ⟨by rw [s1]; omega, by rw [z1]; omega, by rw [w1]; omega, fun h => by omega⟩⟩
  · intro i j hi hj
    rw [e1]
    unfold Done at hi; unfold Live at hj
    rw [q1, q2, q3, q4] at hi hj
    exact hI.sepAct i j hi hj
  · intro i j hi hj hij
    rw [e1]
    unfold Done at hi hj
    rw [q1, q2, q3, q4] at hi hj
    exact hI.sepFin i j hi hj hij
  · intro i j hi hj
    exfalso
    unfold Vis Geo.zone at hi
    omega
  · intro _
    have hex : ∃ s0, CurZ G (g.seed G) s0 := by
      by_cases hk : 0 < (g.seed G).km
      · exact ⟨G.P + g.em, by unfold CurZ Geo.zone; omega⟩
      · exact ⟨G.Z + g.ez, by unfold CurZ Geo.zone; omega⟩
    obtain ⟨s0, hs0⟩ := hex
    refine ⟨s0, hs0, fun j hj => ?_⟩
    have : j = s0 := by
      unfold CurZ Geo.zone at hs0 hj
      omega
    rw [this]

theorem emit_spec {G : Geo} {g : Cnt} {L : List Blk} {st : split_state} (hc : Cur G g st)
    (hk : g.km = 0 ∧ g.kz = 0) (hs : st.comp_size = g.vm + g.vz)
    (hz : st.compzero_size = g.vz) (hl : st.c = linkCC G L) :
    Cur G g.emitted (emit_component { st with processed := st.processed + st.comp_size }) ∧
      (emit_component { st with processed := st.processed + st.comp_size }).c =
        linkCC G (L ++ [g.blk]) ∧
      (emit_component { st with processed := st.processed + st.comp_size }).mem = st.mem ∧
      (emit_component { st with processed := st.processed + st.comp_size }).diag = st.diag := by
  obtain ⟨h1, h2, h3, h4, h5, h6, h7, h8, h9⟩ := hc
  obtain ⟨k1, k2⟩ := hk
  refine ⟨⟨?_, ?_, ?_, ?_, ?_, ?_, ?_, ?_, ?_⟩, ?_, rfl, rfl⟩
  · simp only [emit_component, Cnt.emitted, h1]; exact lp_congr _ (by push_cast; ring)
  · simp only [emit_component, Cnt.emitted, h2, k1]; exact lp_congr _ (by push_cast; ring)
  · simp only [emit_component, Cnt.emitted, h3]
  · simp only [Cnt.emitted]; omega
  · simp only [emit_component, Cnt.emitted, h5]; exact lp_congr _ (by push_cast; ring)
  · simp only [emit_component, Cnt.emitted, h6, k2]; exact lp_congr _ (by push_cast; ring)
  · simp only [emit_component, Cnt.emitted, h7]
  · simp only [Cnt.emitted]; omega
  · simp only [emit_component, Cnt.emitted, h9, hs]; omega
  · simp only [emit_component, hl]
    apply at_c_next_linkCC
    simp only [hs, hz, h1, h5, Nat.add_sub_cancel]
    by_cases hm : 0 < g.vm <;> by_cases hzz : 0 < g.vz
    · have hn : 0 < G.nm := by omega
      have hn2 : 0 < G.nz := by omega
      simp [zerosys, sys.set_n, sys.set_nzero, sys.set_part, sys.set_last, sys.set_zeropart,
        sys.set_lastzero, sys.set_next_cc, sys.part, sys.zeropart, compNode, Cnt.blk, lp, hn,
        hn2, hm, hzz, Ptr.add]
      refine ⟨by ring, by ring⟩
    · have hn : 0 < G.nm := by omega
      simp [zerosys, sys.set_n, sys.set_nzero, sys.set_part, sys.set_last, sys.set_zeropart,
        sys.set_lastzero, sys.set_next_cc, sys.part, sys.zeropart, compNode, Cnt.blk, lp, hn,
        hm, hzz, Ptr.add]
      try ring
    · have hn2 : 0 < G.nz := by omega
      have : g.vm = 0 := by omega
      simp [zerosys, sys.set_n, sys.set_nzero, sys.set_part, sys.set_last, sys.set_zeropart,
        sys.set_lastzero, sys.set_next_cc, sys.part, sys.zeropart, compNode, Cnt.blk, lp,
        hn2, hm, hzz, Ptr.add, this]
      try ring
    · have e1 : g.vm = 0 := by omega
      have e2 : g.vz = 0 := by omega
      simp [zerosys, sys.set_n, sys.set_nzero, sys.set_part, sys.set_last, sys.set_zeropart,
        sys.set_lastzero, sys.set_next_cc, sys.part, sys.zeropart, compNode, Cnt.blk, e1, e2]

theorem emit_sepAct {E : particle → particle → Prop} {G : Geo} {g : Cnt} {m : Mem}
    (hb : g.em + g.vm + g.km + g.rm ≤ G.nm) (hbz : g.ez + g.vz + g.kz + g.rz ≤ G.nz)
    (hk : g.km = 0 ∧ g.kz = 0) (hA : SepAct E G g m) (hV : SepVis E G g m) :
    SepAct E G g.emitted m := by
  intro i j hi hj
  by_cases hd : Done G g i
  · refine hA i j hd ?_
    unfold Live Cnt.emitted Geo.zone at hj; unfold Live Geo.zone; dsimp only at hj; omega
  · refine hV i j ?_ ?_
    · unfold Done Cnt.emitted Geo.zone at hi; unfold Done Geo.zone at hd
      unfold Vis Geo.zone; dsimp only at hi; omega
    · unfold Live Cnt.emitted Geo.zone at hj; unfold Unv Geo.zone; dsimp only at hj; omega

theorem emit_sepFin {E : particle → particle → Prop} {G : Geo} {g : Cnt} {L : List Blk}
    {m : Mem} (hb : g.em + g.vm + g.km + g.rm ≤ G.nm) (hbz : g.ez + g.vz + g.kz + g.rz ≤ G.nz)
    (hk : g.km = 0 ∧ g.kz = 0) (hA : SepAct E G g m) (hF : SepFin E G g L m) :
    SepFin E G g.emitted (L ++ [g.blk]) m := by
  have hcl : ∀ x, Done G g.emitted x → Done G g x ∨ (Vis G g x ∧ Live G g x) := by
    intro x hx
    unfold Done Cnt.emitted Geo.zone at hx; unfold Done Vis Live Geo.zone
    dsimp only at hx; omega
  intro i j hi hj hij
  rcases hcl i hi with h1 | ⟨h1, h1'⟩ <;> rcases hcl j hj with h2 | ⟨h2, h2'⟩
  · rcases hF i j h1 h2 hij with ⟨q, hq, hh⟩ | h
    · exact Or.inl ⟨q, List.mem_append_left _ hq, hh⟩
    · exact Or.inr h
  · exact Or.inr (Or.inl (hA i j h1 h2'))
  · exact Or.inr (Or.inr (hA j i h2 h1'))
  · exact Or.inl ⟨g.blk, List.mem_append_right _ (List.mem_singleton.2 rfl), h1, h2⟩

theorem emit_connAll {E : particle → particle → Prop} {G : Geo} {g : Cnt} {L : List Blk}
    {m : Mem} (hk : g.km = 0 ∧ g.kz = 0) (h2 : 2 ≤ g.vm + g.vz) (hC : ConnAll E G L m)
    (hK : ConnCur E G g m) : ConnAll E G (L ++ [g.blk]) m := by
  intro q hq
  rcases List.mem_append.1 hq with h | h
  · exact hC q h
  · rw [List.mem_singleton.1 h]
    refine (hK (by omega)).congr (fun _ _ => rfl) (fun x => ?_)
    unfold CurZ Blk.has Cnt.blk Geo.zone
    dsimp only
    constructor <;> intro hx <;> omega

/-- Emitting the current component keeps the invariant. -/
theorem emit_inv {E : particle → particle → Prop} {G : Geo} {m0 : Mem} {g : Cnt}
    {L : List Blk} {st : split_state} (hI : Inv E G m0 g L st) (hX : InnerX g st)
    (hk : g.km = 0 ∧ g.kz = 0) (h2 : 2 ≤ g.vm + g.vz) :
    Inv E G m0 g.emitted (L ++ [g.blk])
      (emit_component { st with processed := st.processed + st.comp_size }) := by
  obtain ⟨c1, l1, e1, d1⟩ := emit_spec hI.cur hk hX.comp_size hX.compzero_size hI.clist
  refine ⟨c1, l1, Tiled.append L 0 0 g.em g.ez g.blk hI.tiled rfl rfl h2,
    by rw [e1]; exact hI.lanes, by rw [e1]; exact hI.perm, ?_, ?_, ?_, ?_, ?_⟩
  · rw [e1]; exact emit_sepAct hI.cur.bound hI.cur.boundzero hk hI.sepAct hI.sepVis
  · rw [e1]; exact emit_sepFin hI.cur.bound hI.cur.boundzero hk hI.sepAct hI.sepFin
  · rw [e1]; exact emit_connAll hk h2 hI.connAll hI.connCur
  · intro i j hi hj
    exfalso
    unfold Vis Cnt.emitted Geo.zone at hi
    dsimp only at hi
    omega
  · intro h
    exfalso
    unfold Cnt.emitted at h
    dsimp only at h
    omega

theorem emitted_head (g : Cnt) : g.emitted.Head := ⟨rfl, rfl, rfl, rfl⟩

theorem demote_spec {G : Geo} {g : Cnt} {st : split_state} (hc : Cur G g st)
    (hk : g.km = 0 ∧ g.kz = 0) (h1 : g.vm + g.vz = 1) (hs : st.comp_size = g.vm + g.vz)
    (ha : (st.active = .comp_next ∧ 1 ≤ g.vm) ∨ (st.active = .compzero_next ∧ 1 ≤ g.vz)) :
    Cur G g.demoted (demote_to_rest { st with processed := st.processed + st.comp_size }) ∧
      (demote_to_rest { st with processed := st.processed + st.comp_size }).c = st.c ∧
      (demote_to_rest { st with processed := st.processed + st.comp_size }).mem =
        SWAP st.mem (g.seedAddr G) (g.restAddr G) ∧
      (demote_to_rest { st with processed := st.processed + st.comp_size }).diag = st.diag := by
  obtain ⟨c1, c2, c3, c4, c5, c6, c7, c8, c9⟩ := hc
  obtain ⟨k1, k2⟩ := hk
  rcases ha with ⟨ha, hv⟩ | ⟨ha, hv⟩
  · have hn : 0 < G.nm := by omega
    have hvm : g.vm = 1 := by omega
    have hvz : g.vz = 0 := by omega
    have hd : g.demoted = ⟨g.em, 0, 0, g.rm + 1, g.ez, 0, 0, g.rz⟩ := by
      simp [Cnt.demoted, hv]
    have e1 : g.seedAddr G = G.P + g.em := by simp [Cnt.seedAddr, hv]
    have e2 : g.restAddr G = G.P + G.nm - 1 - g.rm := by simp [Cnt.restAddr, hv]
    rw [hd, e1, e2]
    simp only [hvm, hvz, k1, k2, Nat.cast_zero, Nat.cast_one, add_zero] at c1 c2 c5 c6
    refine ⟨⟨?_, ?_, ?_, ?_, ?_, ?_, ?_, ?_, ?_⟩, ?_, ?_, ?_⟩
    all_goals simp only [demote_to_rest, ha, if_true, c1, c2, c3, c5, c6, c7, c9, hs, lp, hn,
      Ptr.add, Ptr.addr, Option.map_some', Option.getD_some, Nat.cast_zero, Nat.cast_add,
      Nat.cast_one, add_zero]
    · congr 1; ring
    · congr 1; ring
    · congr 1; ring
    · omega
    · omega
    · omega
    · ring_nf
  · have hn : 0 < G.nz := by omega
    have hvm : g.vm = 0 := by omega
    have hvz : g.vz = 1 := by omega
    have hv' : ¬ 1 ≤ g.vm := by omega
    have hd : g.demoted = ⟨g.em, 0, 0, g.rm, g.ez, 0, 0, g.rz + 1⟩ := by
      simp [Cnt.demoted, hvm]
    have e1 : g.seedAddr G = G.Z + g.ez := by simp [Cnt.seedAddr, hvm]
    have e2 : g.restAddr G = G.Z + G.nz - 1 - g.rz := by simp [Cnt.restAddr, hvm]
    rw [hd, e1, e2]
    simp only [hvm, hvz, k1, k2, Nat.cast_zero, Nat.cast_one, add_zero] at c1 c2 c5 c6
    have hne : ¬ (active_ref.compzero_next = active_ref.comp_next) := by decide
    refine ⟨⟨?_, ?_, ?_, ?_, ?_, ?_, ?_, ?_, ?_⟩, ?_, ?_, ?_⟩
    all_goals simp only [demote_to_rest, ha, hne, if_false, c1, c2, c3, c5, c6, c7, c9, hs, lp,
      hn, if_true, Ptr.add, Ptr.addr, Option.map_some', Option.getD_some, Nat.cast_zero,
      Nat.cast_add, Nat.cast_one, add_zero]
    · omega
    · congr 1; ring
    · congr 1; ring
    · congr 1; ring
    · omega
    · omega
    · ring_nf

theorem SWAP_left (m : Mem) (a b : ℤ) : SWAP m a b a = m b := by simp [SWAP]

theorem SWAP_right (m : Mem) (a b : ℤ) : SWAP m a b b = m a := by
  unfold SWAP
  by_cases h : b = a
  · simp [h]
  · simp [h]

theorem SWAP_other (m : Mem) {a b x : ℤ} (h1 : x ≠ a) (h2 : x ≠ b) : SWAP m a b x = m x := by
  simp [SWAP, h1, h2]

theorem demRel_of {G : Geo} {g : Cnt} (hb : g.em + g.vm + g.km + g.rm ≤ G.nm)
    (hbz : g.ez + g.vz + g.kz + g.rz ≤ G.nz) (hk : g.km = 0 ∧ g.kz = 0)
    (h1 : g.vm + g.vz = 1) : DemRel G g g.demoted (g.seedAddr G) (g.restAddr G) := by
  refine ⟨hb, hbz, hk.1, hk.2, ?_, ?_⟩
  · unfold Cnt.demoted Cnt.Head; split_ifs <;> simp
  · by_cases hv : 1 ≤ g.vm
    · left; simp [Cnt.demoted, Cnt.seedAddr, Cnt.restAddr, hv]; omega
    · right; simp [Cnt.demoted, Cnt.seedAddr, Cnt.restAddr, hv]; omega

theorem demote_live {G : Geo} {g g1 : Cnt} {σ ρ : ℤ} (hR : DemRel G g g1 σ ρ) :
    Live G g σ ∧ Live G g ρ := by
  obtain ⟨hb, hbz, k1, k2, ⟨z1, z2, z3, z4⟩, hc⟩ := hR
  unfold Live Geo.zone
  omega

theorem demote_vis {G : Geo} {g g1 : Cnt} {σ ρ : ℤ} (hR : DemRel G g g1 σ ρ) :
    Vis G g σ := by
  obtain ⟨hb, hbz, k1, k2, ⟨z1, z2, z3, z4⟩, hc⟩ := hR
  unfold Vis Geo.zone
  omega

theorem demote_unv {G : Geo} {g g1 : Cnt} {σ ρ : ℤ} (hR : DemRel G g g1 σ ρ) (h : σ ≠ ρ) :
    Unv G g ρ := by
  obtain ⟨hb, hbz, k1, k2, ⟨z1, z2, z3, z4⟩, hc⟩ := hR
  unfold Unv Geo.zone
  omega

theorem demote_done_cases {G : Geo} (hD : G.Disj) {g g1 : Cnt} {σ ρ : ℤ}
    (hR : DemRel G g g1 σ ρ) (x : ℤ) (hx : Done G g1 x) :
    x = ρ ∨ (Done G g x ∧ x ≠ σ ∧ x ≠ ρ) := by
  obtain ⟨hb, hbz, k1, k2, ⟨z1, z2, z3, z4⟩, hc⟩ := hR
  unfold Geo.Disj at hD
  unfold Done Geo.zone at hx ⊢
  rcases hc with hc | hc <;> omega

theorem demote_live_cases {G : Geo} (hD : G.Disj) {g g1 : Cnt} {σ ρ : ℤ}
    (hR : DemRel G g g1 σ ρ) (x : ℤ) (hx : Live G g1 x) :
    x ≠ ρ ∧ Live G g x ∧ (x = σ ∨ Unv G g x) := by
  obtain ⟨hb, hbz, k1, k2, ⟨z1, z2, z3, z4⟩, hc⟩ := hR
  unfold Geo.Disj at hD
  unfold Live Geo.zone at hx
  unfold Live Unv Geo.zone
  rcases hc with hc | hc <;> omega

theorem demote_sepAct {E : particle → particle → Prop} {G : Geo} (hD : G.Disj) {g g1 : Cnt}
    {σ ρ : ℤ} (hR : DemRel G g g1 σ ρ) {m : Mem} (hA : SepAct E G g m)
    (hV : SepVis E G g m) : SepAct E G g1 (SWAP m σ ρ) := by
  intro i j hi hj
  obtain ⟨hjr, hjl, hju⟩ := demote_live_cases hD hR j hj
  -- the particle now at `j` was at `y`
  have hy : ∃ y, SWAP m σ ρ j = m y ∧ Live G g y ∧ Unv G g y := by
    by_cases hjs : j = σ
    · refine ⟨ρ, by rw [hjs, SWAP_left], (demote_live hR).2, ?_⟩
      exact demote_unv hR (fun h => hjr (hjs.trans h))
    · refine ⟨j, SWAP_other m hjs hjr, hjl, ?_⟩
      rcases hju with h | h
      · exact absurd h hjs
      · exact h
  obtain ⟨y, e, hy1, hy2⟩ := hy
  unfold Ed
  rw [e]
  rcases demote_done_cases hD hR i hi with hir | ⟨hd, his, hir⟩
  · rw [hir, SWAP_right]
    exact hV σ y (demote_vis hR) hy2
  · rw [SWAP_other m his hir]
    exact hA i y hd hy1

theorem demote_sepFin {E : particle → particle → Prop} {G : Geo} (hD : G.Disj) {g g1 : Cnt}
    {σ ρ : ℤ} (hR : DemRel G g g1 σ ρ) {L : List Blk} {m : Mem} (hA : SepAct E G g m)
    (hF : SepFin E G g L m) : SepFin E G g1 L (SWAP m σ ρ) := by
  have hlive := (demote_live hR).1
  intro i j hi hj hij
  rcases demote_done_cases hD hR i hi with h1 | ⟨h1, a1, b1⟩ <;>
    rcases demote_done_cases hD hR j hj with h2 | ⟨h2, a2, b2⟩
  · exact absurd (h1.trans h2.symm) hij
  · right; right
    unfold Ed; rw [h1, SWAP_right, SWAP_other m a2 b2]
    exact hA j σ h2 hlive
  · right; left
    unfold Ed; rw [h2, SWAP_right, SWAP_other m a1 b1]
    exact hA i σ h1 hlive
  · rcases hF i j h1 h2 hij with h | h
    · exact Or.inl h
    · right
      unfold Sep2 Ed at h ⊢
      rw [SWAP_other m a1 b1, SWAP_other m a2 b2]; exact h

theorem demote_lanes {G : Geo} (hD : G.Disj) {g g1 : Cnt} {σ ρ : ℤ} (hR : DemRel G g g1 σ ρ)
    {m0 m : Mem} (hL : LanesPerm G m0 m) : LanesPerm G m0 (SWAP m σ ρ) := by
  obtain ⟨hb, hbz, k1, k2, ⟨z1, z2, z3, z4⟩, hc⟩ := hR
  have hsw : MemPerm (fun x => x = σ ∨ x = ρ) m (SWAP m σ ρ) :=
    MemPerm.swap m (Or.inl rfl) (Or.inr rfl)
  rcases hc with hc | hc
  · exact LanesPerm.step_m hD hL hsw (fun x hx => by omega)
  · exact LanesPerm.step_z hD hL hsw (fun x hx => by omega)

/-- Moving the lone particle to the rest keeps the invariant. -/
theorem demote_inv {E : particle → particle → Prop} {G : Geo} (hD : G.Disj) {m0 : Mem}
    {g : Cnt} {L : List Blk} {st : split_state} (hI : Inv E G m0 g L st) (hX : InnerX g st)
    (hk : g.km = 0 ∧ g.kz = 0) (h1 : g.vm + g.vz = 1) :
    Inv E G m0 g.demoted L
      (demote_to_rest { st with processed := st.processed + st.comp_size }) := by
  obtain ⟨c1, l1, e1, d1⟩ := demote_spec hI.cur hk h1 hX.comp_size (hX.active (by omega))
  have hR := demRel_of hI.cur.bound hI.cur.boundzero hk h1
  obtain ⟨hl1, hl2⟩ := demote_live hR
  have hsw : MemPerm (Live G g) st.mem (SWAP st.mem (g.seedAddr G) (g.restAddr G)) :=
    MemPerm.swap _ hl1 hl2
  have hb := hI.cur.bound
  have hbz := hI.cur.boundzero
  obtain ⟨z1, z2, z3, z4⟩ := hR.head
  have hem : g.demoted.em = g.em ∧ g.demoted.ez = g.ez := by
    unfold Cnt.demoted; split_ifs <;> simp
  refine ⟨c1, by rw [l1]; exact hI.clist, by rw [hem.1, hem.2]; exact hI.tiled, ?_, ?_, ?_, ?_,
    ?_, ?_, ?_⟩
  · rw [e1]; exact demote_lanes hD hR hI.lanes
  · rw [e1]
    exact hI.perm.trans (hsw.mono (fun x hx => by
      unfold Live Geo.zone at hx; unfold Geo.zone; omega))
  · rw [e1]; exact demote_sepAct hD hR hI.sepAct hI.sepVis
  · rw [e1]; exact demote_sepFin hD hR hI.sepAct hI.sepFin
  · rw [e1]; exact step_connAll hD hb hbz hI.tiled hsw hI.connAll
  · intro i j hi hj
    exfalso
    unfold Vis Geo.zone at hi
    omega
  · intro h
    exfalso
    omega

/-- One pass of the outer loop never ends in `ENDRUN` and keeps the invariant: it emits a
component of at least two particles or moves one particle to the rest. -/
theorem outer_pass_inv (ts : particle → particle → ℤ → DOUBLE) (dir : ℤ) (dt : DOUBLE)
    (clevel : ℤ) {G : Geo} (hD : G.Disj) {m0 : Mem} {g : Cnt} {L : List Blk}
    {st : split_state} (fuel : ℕ) (hI : Inv (fast ts dir dt) G m0 g L st) (h0 : g.Head)
    (hlt : st.processed < G.nm + G.nz) (hf : G.nm + G.nz ≤ fuel) :
    ∃ (g1 : Cnt) (L1 : List Blk) (st1 : split_state),
      outer_pass ts dir dt clevel fuel st = .ok st1 ∧
      Inv (fast ts dir dt) G m0 g1 L1 st1 ∧ g1.Head ∧
      ((∃ q : Blk, L1 = L ++ [q] ∧ 2 ≤ q.vm + q.vz ∧
          st1.processed = st.processed + (q.vm + q.vz)) ∨
        (L1 = L ∧ st1.processed = st.processed + 1)) ∧
      st1.processed = st.processed + st1.comp_size ∧ 1 ≤ st1.comp_size := by
  have hp := hI.cur.processed
  have hlt' : g.em + g.rm + g.ez + g.rz < G.nm + G.nz := by omega
  obtain ⟨z1, z2, z3, z4⟩ := h0
  have hcons1 : st.stack_next = st.comp_next := by
    rw [hI.cur.stack_next, hI.cur.comp_next, z2]; simp
  have hcons2 : st.stackzero_next = st.compzero_next := by
    rw [hI.cur.stackzero_next, hI.cur.compzero_next, z4]; simp
  obtain ⟨_, _, _, _, _, _, _, himp⟩ := startup_spec hI.cur ⟨z1, z2, z3, z4⟩ hlt'
  obtain ⟨hI1, hX1⟩ := startup_inv hD hI ⟨z1, z2, z3, z4⟩ hlt'
  obtain ⟨q1, q2, q3, q4, q5, q6, q7, q8, q9⟩ :=
    seed_rel ⟨z1, z2, z3, z4⟩ hI.cur.bound hI.cur.boundzero hlt'
  obtain ⟨g2, st2, hrun, hI2, hX2, k1, k2, r1, r2, r3, r4, r5, r6⟩ :=
    inner_loop_inv ts dir dt clevel hD fuel (g.seed G) (startup_stack st) hI1 hX1 (by omega)
  have hsz := hX2.comp_size
  have hge : 1 ≤ g2.vm + g2.vz := r6 (by omega)
  have hp2 := hI2.cur.processed
  by_cases hbig : st2.comp_size > 1
  · refine ⟨g2.emitted, L ++ [g2.blk],
      emit_component { st2 with processed := st2.processed + st2.comp_size }, ?_,
      emit_inv hI2 hX2 ⟨k1, k2⟩ (by omega), emitted_head g2, Or.inl ⟨g2.blk, rfl, ?_, ?_⟩,
      ?_, ?_⟩
    · unfold outer_pass
      simp [hcons1, hcons2, himp, hrun, hbig]
    · show 2 ≤ g2.vm + g2.vz
      omega
    · have := (emit_inv hI2 hX2 ⟨k1, k2⟩ (by omega)).cur.processed
      rw [this]
      show (g2.em + g2.vm) + g2.rm + (g2.ez + g2.vz) + g2.rz = st.processed + (g2.vm + g2.vz)
      omega
    · have := (emit_inv hI2 hX2 ⟨k1, k2⟩ (by omega)).cur.processed
      rw [this]
      show (g2.em + g2.vm) + g2.rm + (g2.ez + g2.vz) + g2.rz = st.processed + st2.comp_size
      omega
    · show 1 ≤ st2.comp_size
      omega
  · have h1 : g2.vm + g2.vz = 1 := by omega
    refine ⟨g2.demoted, L,
      demote_to_rest { st2 with processed := st2.processed + st2.comp_size }, ?_,
      demote_inv hD hI2 hX2 ⟨k1, k2⟩ h1, (demRel_of hI2.cur.bound hI2.cur.boundzero ⟨k1, k2⟩ h1).head,
      Or.inr ⟨rfl, ?_⟩, ?_, ?_⟩
    · unfold outer_pass
      simp [hcons1, hcons2, himp, hrun, hbig]
    · have := (demote_inv hD hI2 hX2 ⟨k1, k2⟩ h1).cur.processed
      rw [this]
      unfold Cnt.demoted
      split_ifs <;> simp <;> omega
    · have hcs : (demote_to_rest
          { st2 with processed := st2.processed + st2.comp_size }).comp_size =
          st2.comp_size := by
        unfold demote_to_rest; split_ifs <;> rfl
      have := (demote_inv hD hI2 hX2 ⟨k1, k2⟩ h1).cur.processed
      rw [this, hcs]
      unfold Cnt.demoted
      split_ifs <;> simp <;> omega
    · have hcs : (demote_to_rest
          { st2 with processed := st2.processed + st2.comp_size }).comp_size =
          st2.comp_size := by
        unfold demote_to_rest; split_ifs <;> rfl
      rw [hcs]
      omega

/-- The outer loop ends, with every particle processed, when the fuel covers the particles
of the view. -/
theorem outer_loop_inv (ts : particle → particle → ℤ → DOUBLE) (dir : ℤ) (dt : DOUBLE)
    (clevel : ℤ) {G : Geo} (hD : G.Disj) {m0 : Mem} (fuel : ℕ) (hf : G.nm + G.nz ≤ fuel) :
    ∀ (k : ℕ) (g : Cnt) (L : List Blk) (st : split_state),
      Inv (fast ts dir dt) G m0 g L st → g.Head → G.nm + G.nz - st.processed ≤ k →
      ∃ (g1 : Cnt) (L1 : List Blk) (st1 : split_state),
        outer_loop ts dir dt clevel (G.nm + G.nz) fuel k st = .ok st1 ∧
        Inv (fast ts dir dt) G m0 g1 L1 st1 ∧ g1.Head ∧ st1.processed = G.nm + G.nz := by
  intro k
  induction k with
  | zero =>
    intro g L st hI h0 hk
    have hp := hI.cur.processed
    have hb := hI.cur.bound
    have hbz := hI.cur.boundzero
    have hnlt : ¬ st.processed < G.nm + G.nz := by omega
    refine ⟨g, L, st, by simp [outer_loop, hnlt], hI, h0, by omega⟩
  | succ k ih =>
    intro g L st hI h0 hk
    have hp := hI.cur.processed
    have hb := hI.cur.bound
    have hbz := hI.cur.boundzero
    by_cases hlt : st.processed < G.nm + G.nz
    · obtain ⟨g1, L1, st1, hrun, hI1, h1, hprog, _, _⟩ :=
        outer_pass_inv ts dir dt clevel hD fuel hI h0 hlt hf
      have hk1 : G.nm + G.nz - st1.processed ≤ k := by
        rcases hprog with ⟨q, _, hq, e⟩ | ⟨_, e⟩ <;> omega
      obtain ⟨g2, L2, st2, hrun2, hI2, h2, hp2⟩ := ih g1 L1 st1 hI1 h1 hk1
      exact ⟨g2, L2, st2, by simp [outer_loop, hlt, hrun, hrun2], hI2, h2, hp2⟩
    · refine ⟨g, L, st, by simp [outer_loop, hlt], hI, h0, by omega⟩

/-! ## The whole split -/

theorem init_cur {s : sys} (hwf : WF s) (mem : Mem) (diag : diagnostics) :
    Cur (geo s) Cnt.zero (split_init s mem diag) := by
  obtain ⟨h1, h2, h3, _⟩ := hwf
  refine ⟨?_, ?_, ?_, ?_, ?_, ?_, ?_, ?_, ?_⟩
  all_goals simp only [split_init, Cnt.zero, geo, Nat.cast_zero, add_zero, sub_zero]
  · by_cases hm : 0 < s.n - s.nzero
    · obtain ⟨a, b⟩ := h2 hm
      obtain ⟨p, hp⟩ := Option.ne_none_iff_exists'.1 a
      simp [lp, hm, hp, Ptr.addr]
    · simp [lp, hm]
  · by_cases hm : 0 < s.n - s.nzero
    · obtain ⟨a, b⟩ := h2 hm
      obtain ⟨p, hp⟩ := Option.ne_none_iff_exists'.1 a
      simp [lp, hm, hp, Ptr.addr]
    · simp [lp, hm]
  · by_cases hm : 0 < s.n - s.nzero
    · obtain ⟨a, b⟩ := h2 hm
      obtain ⟨p, hp⟩ := Option.ne_none_iff_exists'.1 a
      simp [lp, hm, hp, b, Ptr.addr, Ptr.add]
      ring
    · simp [lp, hm]
  · omega
  · by_cases hm : 0 < s.nzero
    · obtain ⟨a, b⟩ := h3 hm
      obtain ⟨p, hp⟩ := Option.ne_none_iff_exists'.1 a
      simp [lp, hm, hp, Ptr.addr]
    · simp [lp, hm]
  · by_cases hm : 0 < s.nzero
    · obtain ⟨a, b⟩ := h3 hm
      obtain ⟨p, hp⟩ := Option.ne_none_iff_exists'.1 a
      simp [lp, hm, hp, Ptr.addr]
    · simp [lp, hm]
  · by_cases hm : 0 < s.nzero
    · obtain ⟨a, b⟩ := h3 hm
      obtain ⟨p, hp⟩ := Option.ne_none_iff_exists'.1 a
      simp [lp, hm, hp, b, Ptr.addr, Ptr.add]
      ring
    · simp [lp, hm]
  · omega

/-- The invariant holds as the outer loop is entered. -/
theorem init_inv (E : particle → particle → Prop) {s : sys} (hwf : WF s) (mem : Mem)
    (diag : diagnostics) : Inv E (geo s) mem Cnt.zero [] (split_init s mem diag) := by
  refine ⟨init_cur hwf mem diag, rfl, ⟨rfl, rfl⟩, LanesPerm.same _ _, MemPerm.refl _ _, ?_, ?_,
    ?_, ?_, ?_⟩
  · intro i j hi hj
    exfalso
    unfold Done Cnt.zero Geo.zone at hi
    dsimp only at hi
    omega
  · intro i j hi hj hij
    exfalso
    unfold Done Cnt.zero Geo.zone at hi
    dsimp only at hi
    omega
  · intro q hq
    simp at hq
  · intro i j hi hj
    exfalso
    unfold Vis Cnt.zero Geo.zone at hi
    dsimp only at hi
    omega
  · intro h
    exfalso
    unfold Cnt.zero at h
    dsimp only at h
    omega

theorem make_rest_eq {s : sys} (hwf : WF s) {g : Cnt} {st : split_state}
    (hc : Cur (geo s) g st) (h0 : g.Head) (hm : g.em + g.rm = (geo s).nm)
    (hz : g.ez + g.rz = (geo s).nz) :
    make_rest s st = compNode (geo s) ⟨g.em, g.rm, g.ez, g.rz⟩ none := by
  obtain ⟨w1, w2, w3, _⟩ := hwf
  obtain ⟨c1, c2, c3, c4, c5, c6, c7, c8, c9⟩ := hc
  have em : (geo s).nm = s.n - s.nzero := rfl
  have ez : (geo s).nz = s.nzero := rfl
  have eP : (geo s).P = s.part.addr := rfl
  have eZ : (geo s).Z = s.zeropart.addr := rfl
  have hlast : 0 < s.n - s.nzero → s.last.addr = (geo s).P + (geo s).nm - 1 := by
    intro h
    obtain ⟨a, b⟩ := w2 h
    obtain ⟨p, hp⟩ := Option.ne_none_iff_exists'.1 a
    simp [b, hp, Ptr.addr, Ptr.add, geo]; ring
  have hlastz : 0 < s.nzero → s.lastzero.addr = (geo s).Z + (geo s).nz - 1 := by
    intro h
    obtain ⟨a, b⟩ := w3 h
    obtain ⟨p, hp⟩ := Option.ne_none_iff_exists'.1 a
    simp [b, hp, Ptr.addr, Ptr.add, geo]; ring
  have hlast' : 0 < s.n - s.nzero → s.last = some ((geo s).P + (geo s).nm - 1) := by
    intro h
    obtain ⟨a, b⟩ := w2 h
    obtain ⟨p, hp⟩ := Option.ne_none_iff_exists'.1 a
    simp [b, hp, Ptr.addr, Ptr.add, geo]; ring
  have hlastz' : 0 < s.nzero → s.lastzero = some ((geo s).Z + (geo s).nz - 1) := by
    intro h
    obtain ⟨a, b⟩ := w3 h
    obtain ⟨p, hp⟩ := Option.ne_none_iff_exists'.1 a
    simp [b, hp, Ptr.addr, Ptr.add, geo]; ring
  -- the sizes of the rest, as the pointer differences give them
  have hrn : (if st.rest_next ≠ none then
      zerosys.set_n (s.last.addr - st.rest_next.addr).toNat else zerosys) = zerosys.set_n g.rm := by
    by_cases h : 0 < (geo s).nm
    · rw [c3]; simp only [lp, h, if_true]
      rw [hlast (by rw [← em]; exact h)]
      simp [Ptr.addr]
    · have : g.rm = 0 := by omega
      rw [c3]; simp [lp, h, this, zerosys, sys.set_n]
  unfold make_rest
  simp only [hrn]
  have hrz : (if st.restzero_next ≠ none then
      (zerosys.set_n g.rm).set_nzero (s.lastzero.addr - st.restzero_next.addr).toNat
      else zerosys.set_n g.rm) = (zerosys.set_n g.rm).set_nzero g.rz := by
    by_cases h : 0 < (geo s).nz
    · rw [c7]; simp only [lp, h, if_true]
      rw [hlastz (by rw [← ez]; exact h)]
      simp [Ptr.addr]
    · have : g.rz = 0 := by omega
      rw [c7]; simp [lp, h, this, zerosys, sys.set_n, sys.set_nzero]
  simp only [hrz]
  simp only [zerosys, sys.set_n, sys.set_nzero, sys.n, sys.nzero, Nat.add_sub_cancel]
  by_cases hrm : 0 < g.rm <;> by_cases hrzz : 0 < g.rz
  · have h1 : 0 < (geo s).nm := by omega
    have h2 : 0 < (geo s).nz := by omega
    rw [hlast' (by rw [← em]; exact h1), hlastz' (by rw [← ez]; exact h2), c3, c7]
    simp [lp, h1, h2, hrm, hrzz, sys.set_part, sys.set_last, sys.set_zeropart,
      sys.set_lastzero, sys.part, sys.zeropart, sys.nzero, compNode, Ptr.add]
    repeat' constructor
    all_goals omega
  · have h1 : 0 < (geo s).nm := by omega
    have h0z : g.rz = 0 := by omega
    rw [hlast' (by rw [← em]; exact h1), c3]
    simp [lp, h1, hrm, h0z, sys.set_part, sys.set_last, sys.set_zeropart,
      sys.set_lastzero, sys.part, sys.zeropart, sys.nzero, compNode, Ptr.add]
    repeat' constructor
    all_goals omega
  · have h2 : 0 < (geo s).nz := by omega
    have h0m : g.rm = 0 := by omega
    rw [hlastz' (by rw [← ez]; exact h2), c7]
    simp [lp, h2, hrzz, h0m, sys.set_part, sys.set_last, sys.set_zeropart,
      sys.set_lastzero, sys.part, sys.zeropart, sys.nzero, compNode, Ptr.add]
    repeat' constructor
    all_goals omega
  · have h0m : g.rm = 0 := by omega
    have h0z : g.rz = 0 := by omega
    simp [h0m, h0z, sys.set_part, sys.set_last, sys.set_zeropart,
      sys.set_lastzero, sys.part, sys.zeropart, sys.nzero, compNode]

theorem geo_total {s : sys} (hwf : WF s) : (geo s).nm + (geo s).nz = s.n := by
  have := hwf.1
  show s.n - s.nzero + s.nzero = s.n
  omega

theorem split_finish_ok {E : particle → particle → Prop} {s : sys} (hwf : WF s) {m0 : Mem}
    {g : Cnt} {L : List Blk} {st : split_state} (hI : Inv E (geo s) m0 g L st) (h0 : g.Head)
    (hp : st.processed = (geo s).nm + (geo s).nz) :
    ∃ out, split_finish s st = .ok out ∧ SplitRes E (geo s) m0 g L out ∧
      out.diag = st.diag := by
  have hb := hI.cur.bound
  have hbz := hI.cur.boundzero
  have hpr := hI.cur.processed
  obtain ⟨z1, z2, z3, z4⟩ := h0
  have hm : g.em + g.rm = (geo s).nm := by omega
  have hz : g.ez + g.rz = (geo s).nz := by omega
  have h1 : st.stack_next = st.rest_next.add 1 := by
    rw [hI.cur.stack_next, hI.cur.rest_next]
    by_cases h : 0 < (geo s).nm
    · simp [lp, h, Ptr.add]; omega
    · simp [lp, h, Ptr.add]
  have h2 : st.stackzero_next = st.restzero_next.add 1 := by
    rw [hI.cur.stackzero_next, hI.cur.restzero_next]
    by_cases h : 0 < (geo s).nz
    · simp [lp, h, Ptr.add]; omega
    · simp [lp, h, Ptr.add]
  have h3 : st.processed = s.n := by rw [hp]; exact geo_total hwf
  refine ⟨⟨st.c, make_rest s st, st.mem, st.diag, st.processed⟩, ?_, ?_, rfl⟩
  · unfold split_finish
    simp [h1, h2, h3]
  · exact ⟨⟨z1, z2, z3, z4⟩, hm, hz, hI.clist, make_rest_eq hwf hI.cur ⟨z1, z2, z3, z4⟩ hm hz,
      hp, hI.tiled, hI.lanes, hI.perm, hI.sepFin, hI.connAll⟩

/-- On a well-formed view of at least two particles and with fuel for every particle, the
split returns normally.  The result is described by `SplitRes`. -/
theorem split_cc_main (ts : particle → particle → ℤ → DOUBLE) (fuel : ℕ) (clevel : ℤ)
    (s : sys) (dt : DOUBLE) (mem : Mem) (diag : diagnostics) (hwf : WF s) (hn : 2 ≤ s.n)
    (hfuel : s.n ≤ fuel) :
    ∃ (out : split_out) (L : List Blk) (g : Cnt),
      split_cc ts fuel clevel s dt mem diag = .ok out ∧
      SplitRes (fast ts (SIGN dt) |dt|) (geo s) mem g L out := by
  have htot := geo_total hwf
  obtain ⟨g1, L1, st1, hrun, hI1, h1, hp1⟩ :=
    outer_loop_inv ts (SIGN dt) |dt| clevel hwf.2.2.2 fuel (by omega) fuel Cnt.zero []
      (split_init s mem (diag.tstep_incr clevel))
      (init_inv _ hwf mem _) ⟨rfl, rfl, rfl, rfl⟩ (by omega)
  obtain ⟨out, hfin, hres, _⟩ := split_finish_ok hwf hI1 h1 hp1
  refine ⟨out, L1, g1, ?_, hres⟩
  unfold split_cc
  have hn1 : ¬ s.n ≤ 1 := by omega
  rw [htot] at hrun
  simp only [hn1, if_false, hrun, hfin]

/-! ## Views as lists of addresses -/

theorem ccViews_linkCC (G : Geo) : ∀ L : List Blk, ccViews (linkCC G L) = nodesOf G L
  | [] => by simp [linkCC, zerosys, ccViews, IS_ZEROSYS, sys.n, sys.nzero, sys.part, sys.last,
      sys.next_cc, sys.zeropart, sys.lastzero, nodesOf]
  | q :: t => by
    simp only [linkCC, compNode, ccViews, nodesOf]
    rw [ccViews_linkCC G t]

theorem sysPos_split (v : sys) (h : v.nzero ≤ v.n) :
    sysPos v = (List.range (v.n - v.nzero)).map (fun (i : ℕ) => v.part.addr + (i : ℤ)) ++
      (List.range v.nzero).map (fun (i : ℕ) => v.zeropart.addr + (i : ℤ)) := by
  unfold sysPos
  have hn : v.n = (v.n - v.nzero) + v.nzero := by omega
  conv_lhs => rw [hn, List.range_add, List.map_append, List.map_map]
  congr 1
  · apply List.map_congr_left
    intro i hi
    have := List.mem_range.1 hi
    simp [GETPART, this]
  · apply List.map_congr_left
    intro i hi
    simp [GETPART]

theorem sysPos_compNode (G : Geo) (q : Blk) (nx : Option sys) :
    sysPos (compNode G q nx) = blkPos G q := by
  rw [sysPos_split _ (by simp [compNode, sys.n, sys.nzero])]
  unfold blkPos
  simp only [compNode, sys.n, sys.nzero, sys.part, sys.zeropart, Nat.add_sub_cancel]
  congr 1
  · apply List.map_congr_left
    intro i hi
    have := List.mem_range.1 hi
    have h0 : 0 < q.vm := by omega
    simp [h0, Ptr.addr]
  · apply List.map_congr_left
    intro i hi
    have := List.mem_range.1 hi
    have h0 : 0 < q.vz := by omega
    simp [h0, Ptr.addr]

theorem mem_blkPos (G : Geo) (q : Blk) (x : ℤ) : x ∈ blkPos G q ↔ q.has G x := by
  unfold blkPos Blk.has Geo.zone
  simp only [List.mem_append, List.mem_map, List.mem_range]
  constructor
  · rintro (⟨i, hi, rfl⟩ | ⟨i, hi, rfl⟩)
    · left; push_cast; omega
    · right; push_cast; omega
  · rintro (⟨h1, h2⟩ | ⟨h1, h2⟩)
    · left; exact ⟨(x - (G.P + q.a)).toNat, by push_cast at h2; omega, by omega⟩
    · right; exact ⟨(x - (G.Z + q.b)).toNat, by push_cast at h2; omega, by omega⟩

theorem nodup_blkPos (G : Geo) (hD : G.Disj) (q : Blk) (h1 : q.a + q.vm ≤ G.nm)
    (h2 : q.b + q.vz ≤ G.nz) : (blkPos G q).Nodup := by
  unfold blkPos
  refine List.Nodup.append ?_ ?_ ?_
  · exact (List.nodup_range _).map (fun a b h => by simpa using h)
  · exact (List.nodup_range _).map (fun a b h => by simpa using h)
  · intro x hx hy
    simp only [List.mem_map, List.mem_range] at hx hy
    obtain ⟨i, hi, rfl⟩ := hx
    obtain ⟨j, hj, e⟩ := hy
    unfold Geo.Disj at hD
    omega

theorem mem_nodesOf (G : Geo) : ∀ (L : List Blk) (v : sys), v ∈ nodesOf G L →
    ∃ q ∈ L, ∃ nx, v = compNode G q nx
  | [], v, h => by simp [nodesOf] at h
  | q :: t, v, h => by
    simp only [nodesOf, List.mem_cons] at h
    rcases h with h | h
    · exact ⟨q, List.mem_cons_self _ _, _, h⟩
    · obtain ⟨q', hq', nx, e⟩ := mem_nodesOf G t v h
      exact ⟨q', List.mem_cons_of_mem _ hq', nx, e⟩

theorem nodesOf_flatMap (G : Geo) : ∀ L : List Blk,
    (nodesOf G L).flatMap sysPos = L.flatMap (blkPos G)
  | [] => rfl
  | q :: t => by
    simp only [nodesOf, List.flatMap_cons, sysPos_compNode, nodesOf_flatMap G t]

theorem Tiled.pairwise : ∀ (L : List Blk) (a b e f : ℕ), Tiled a b L e f →
    L.Pairwise Blk.before
  | [], _, _, _, _, _ => List.Pairwise.nil
  | p :: t, a, b, e, f, h => by
    obtain ⟨h1, h3, h4, h5⟩ := h
    refine List.Pairwise.cons (fun r hr => ?_) (Tiled.pairwise t _ _ e f h5)
    have := Tiled.mem t _ _ e f h5 r hr
    unfold Blk.before
    omega

theorem Tiled.cover : ∀ (L : List Blk) (a b e f : ℕ), Tiled a b L e f → ∀ (G : Geo) (x : ℤ),
    G.zone a e b f x → ∃ q ∈ L, q.has G x
  | [], a, b, e, f, h, G, x, hx => by
    obtain ⟨h1, h3⟩ := h
    unfold Geo.zone at hx
    omega
  | p :: t, a, b, e, f, h, G, x, hx => by
    obtain ⟨h1, h3, h4, h5⟩ := h
    by_cases hp : p.has G x
    · exact ⟨p, List.mem_cons_self _ _, hp⟩
    · obtain ⟨q, hq, hh⟩ := Tiled.cover t _ _ e f h5 G x (by
        unfold Blk.has Geo.zone at hp
        unfold Geo.zone at hx ⊢
        omega)
      exact ⟨q, List.mem_cons_of_mem _ hq, hh⟩

/-- Two components that appear one before the other in a range share no address. -/
theorem before_disjoint {G : Geo} (hD : G.Disj) {q r : Blk} (h : q.before r)
    (hr1 : r.a + r.vm ≤ G.nm) (hr2 : r.b + r.vz ≤ G.nz) (x : ℤ) (hq : q.has G x)
    (hx : r.has G x) : False := by
  unfold Blk.before at h
  unfold Geo.Disj at hD
  unfold Blk.has Geo.zone at hq hx
  omega

theorem Tiled.nodup (G : Geo) (hD : G.Disj) : ∀ (L : List Blk) (a b e f : ℕ),
    Tiled a b L e f → e ≤ G.nm → f ≤ G.nz → (L.flatMap (blkPos G)).Nodup
  | [], _, _, _, _, _, _, _ => by simp
  | p :: t, a, b, e, f, h, he, hf => by
    have hpw := Tiled.pairwise (p :: t) a b e f h
    have hmem := Tiled.mem (p :: t) a b e f h
    obtain ⟨h1, h3, h4, h5⟩ := h
    have hp := hmem p (List.mem_cons_self _ _)
    simp only [List.flatMap_cons]
    refine List.Nodup.append (nodup_blkPos G hD p (by omega) (by omega))
      (Tiled.nodup G hD t _ _ e f h5 he hf) ?_
    intro x hx hy
    obtain ⟨r, hr, hxr⟩ := List.mem_flatMap.1 hy
    have hrm := hmem r (List.mem_cons_of_mem _ hr)
    exact before_disjoint hD (List.rel_of_pairwise_cons hpw hr) (by omega) (by omega) x
      ((mem_blkPos G p x).1 hx) ((mem_blkPos G r x).1 hxr)

/-- An address lies in at most one emitted component. -/
theorem Tiled.unique (G : Geo) (hD : G.Disj) {L : List Blk} {e f : ℕ}
    (h : Tiled 0 0 L e f) (he : e ≤ G.nm) (hf : f ≤ G.nz) {q r : Blk} (hq : q ∈ L)
    (hr : r ∈ L) {x : ℤ} (hxq : q.has G x) (hxr : r.has G x) : q = r := by
  have hpw := Tiled.pairwise L 0 0 e f h
  have hmq := Tiled.mem L 0 0 e f h q hq
  have hmr := Tiled.mem L 0 0 e f h r hr
  have hall := List.Pairwise.forall_of_forall
    (R := fun a b : Blk => a = b ∨ a.before b ∨ b.before a) (l := L)
    (fun a b hab => by
      rcases hab with h | h | h
      · exact Or.inl h.symm
      · exact Or.inr (Or.inr h)
      · exact Or.inr (Or.inl h))
    (fun a _ => Or.inl rfl) (hpw.imp (fun h => Or.inr (Or.inl h)))
  rcases hall hq hr with h1 | h1 | h1
  · exact h1
  · exact (before_disjoint hD h1 (by omega) (by omega) x hxq hxr).elim
  · exact (before_disjoint hD h1 (by omega) (by omega) x hxr hxq).elim

/-! ## The result of the split, view by view -/

theorem sysPos_input {s : sys} (hwf : WF s) : sysPos s = (geo s).laneM ++ (geo s).laneZ := by
  rw [sysPos_split s hwf.1]
  rfl

theorem mem_sysPos_input {s : sys} (hwf : WF s) (x : ℤ) :
    x ∈ sysPos s ↔ (geo s).zone 0 (geo s).nm 0 (geo s).nz x := by
  rw [sysPos_input hwf, List.mem_append, Geo.mem_laneM, Geo.mem_laneZ]
  unfold Geo.zone
  constructor <;> intro h <;> omega

theorem SplitRes.views {E : particle → particle → Prop} {G : Geo} {m0 : Mem} {g : Cnt}
    {L : List Blk} {out : split_out} (h : SplitRes E G m0 g L out) :
    ccViews out.c = nodesOf G L ∧ sysPos out.r = blkPos G g.rblk := by
  constructor
  · rw [h.c_eq, ccViews_linkCC]
  · rw [h.r_eq, sysPos_compNode]; rfl

theorem SplitRes.done_iff {E : particle → particle → Prop} {G : Geo} {m0 : Mem} {g : Cnt}
    {L : List Blk} {out : split_out} (h : SplitRes E G m0 g L out) (x : ℤ) :
    Done G g x ↔ G.zone 0 G.nm 0 G.nz x := by
  have h1 := h.fullm
  have h2 := h.fullz
  unfold Done Geo.zone
  constructor <;> intro hx <;> omega

theorem SplitRes.blk_or_rest {E : particle → particle → Prop} {G : Geo} {m0 : Mem} {g : Cnt}
    {L : List Blk} {out : split_out} (h : SplitRes E G m0 g L out) (x : ℤ)
    (hx : G.zone 0 G.nm 0 G.nz x) : (∃ q ∈ L, q.has G x) ∨ g.rblk.has G x := by
  have h1 := h.fullm
  have h2 := h.fullz
  by_cases hr : g.rblk.has G x
  · exact Or.inr hr
  · left
    refine Tiled.cover L 0 0 g.em g.ez h.tiled G x ?_
    unfold Cnt.rblk Blk.has Geo.zone at hr
    unfold Geo.zone at hx ⊢
    dsimp only at hr
    omega

theorem SplitRes.blk_done {E : particle → particle → Prop} {G : Geo} {m0 : Mem} {g : Cnt}
    {L : List Blk} {out : split_out} (h : SplitRes E G m0 g L out) {q : Blk} (hq : q ∈ L)
    {x : ℤ} (hx : q.has G x) : G.zone 0 g.em 0 g.ez x := by
  have := Tiled.mem L 0 0 g.em g.ez h.tiled q hq
  unfold Blk.has Geo.zone at hx
  unfold Geo.zone
  omega

theorem SplitRes.rest_not_blk {E : particle → particle → Prop} {G : Geo} (hD : G.Disj)
    {m0 : Mem} {g : Cnt} {L : List Blk} {out : split_out} (h : SplitRes E G m0 g L out)
    {x : ℤ} (hr : g.rblk.has G x) (hz : G.zone 0 g.em 0 g.ez x) : False := by
  have h1 := h.fullm
  have h2 := h.fullz
  unfold Geo.Disj at hD
  unfold Cnt.rblk Blk.has Geo.zone at hr
  unfold Geo.zone at hz
  dsimp only at hr
  omega

theorem SplitRes.rest_zone {E : particle → particle → Prop} {G : Geo}
    {m0 : Mem} {g : Cnt} {L : List Blk} {out : split_out} (h : SplitRes E G m0 g L out)
    {x : ℤ} (hr : g.rblk.has G x) : G.zone (G.nm - g.rm) G.nm (G.nz - g.rz) G.nz x := by
  have h1 := h.fullm
  have h2 := h.fullz
  unfold Cnt.rblk Blk.has Geo.zone at hr
  unfold Geo.zone
  dsimp only at hr
  omega

/-- The addresses of the emitted views and of the rest are the addresses of the view that
was split, each one once. -/
theorem SplitRes.positions_perm {E : particle → particle → Prop} {G : Geo} (hD : G.Disj)
    {m0 : Mem} {g : Cnt} {L : List Blk} {out : split_out} (h : SplitRes E G m0 g L out) :
    (L.flatMap (blkPos G) ++ blkPos G g.rblk).Perm (G.laneM ++ G.laneZ) := by
  have h1 := h.fullm
  have h2 := h.fullz
  rw [List.perm_ext_iff_of_nodup]
  · intro x
    rw [List.mem_append, List.mem_append, Geo.mem_laneM, Geo.mem_laneZ, mem_blkPos,
      List.mem_flatMap]
    constructor
    · rintro (⟨q, hq, hx⟩ | hx)
      · have := h.blk_done hq ((mem_blkPos G q x).1 hx)
        unfold Geo.zone at this
        omega
      · have := h.rest_zone hx
        unfold Geo.zone at this
        omega
    · intro hx
      rcases h.blk_or_rest x (by unfold Geo.zone; omega) with ⟨q, hq, hh⟩ | hh
      · exact Or.inl ⟨q, hq, (mem_blkPos G q x).2 hh⟩
      · exact Or.inr hh
  · refine List.Nodup.append (Tiled.nodup G hD L 0 0 g.em g.ez h.tiled (by omega) (by omega))
      (nodup_blkPos G hD g.rblk (by show g.em + g.rm ≤ G.nm; omega)
        (by show g.ez + g.rz ≤ G.nz; omega)) ?_
    intro x hx hy
    obtain ⟨q, hq, hxq⟩ := List.mem_flatMap.1 hx
    exact h.rest_not_blk hD ((mem_blkPos G _ x).1 hy)
      (h.blk_done hq ((mem_blkPos G q x).1 hxq))
  · refine List.Nodup.append G.nodup_laneM G.nodup_laneZ ?_
    intro x hx hy
    rw [Geo.mem_laneM] at hx
    rw [Geo.mem_laneZ] at hy
    unfold Geo.Disj at hD
    omega

theorem nodesOf_flatMap_parts (G : Geo) (m : Mem) : ∀ L : List Blk,
    (nodesOf G L).flatMap (sysParts m) = (L.flatMap (blkPos G)).map m
  | [] => rfl
  | q :: t => by
    simp only [nodesOf, List.flatMap_cons, List.map_append, nodesOf_flatMap_parts G m t]
    unfold sysParts
    rw [sysPos_compNode]

/-- The particles found in the emitted views and in the rest after the split are the particles
of the view before the split. -/
theorem split_parts_perm (ts : particle → particle → ℤ → DOUBLE) (fuel : ℕ) (clevel : ℤ)
    (s : sys) (dt : DOUBLE) (mem : Mem) (diag : diagnostics) (hwf : WF s) (hn : 2 ≤ s.n)
    (hfuel : s.n ≤ fuel) :
    ∃ out, split_cc ts fuel clevel s dt mem diag = .ok out ∧
      ((ccViews out.c).flatMap (sysParts out.mem) ++ sysParts out.mem out.r).Perm
        (sysParts mem s) := by
  obtain ⟨out, L, g, hrun, hres⟩ := split_cc_main ts fuel clevel s dt mem diag hwf hn hfuel
  refine ⟨out, hrun, ?_⟩
  obtain ⟨hv, hr⟩ := hres.views
  have e1 : (ccViews out.c).flatMap (sysParts out.mem) ++ sysParts out.mem out.r =
      (L.flatMap (blkPos (geo s)) ++ blkPos (geo s) g.rblk).map out.mem := by
    rw [List.map_append, hv, nodesOf_flatMap_parts]
    unfold sysParts
    rw [hr]
  rw [e1]
  refine ((hres.positions_perm hwf.2.2.2).map out.mem).trans ?_
  unfold sysParts
  rw [sysPos_input hwf, List.map_append, List.map_append]
  exact hres.lanes.massive.append hres.lanes.massless

/-- C1 (conservation of identity): for every well-formed view `s` of at least two particles,
every `dt` and every time-step function, `split_cc` returns, and the particle ids found in the
views of the list `c` together with `r` are, counted with multiplicity, the ids of `s` before
the call; the same holds of the whole particle records. -/
theorem C1_identity_conserved (ts : particle → particle → ℤ → DOUBLE) (fuel : ℕ) (clevel : ℤ)
    (s : sys) (dt : DOUBLE) (mem : Mem) (diag : diagnostics) (hwf : WF s) (hn : 2 ≤ s.n)
    (hfuel : s.n ≤ fuel) :
    ∃ out, split_cc ts fuel clevel s dt mem diag = .ok out ∧
      (((ccViews out.c).flatMap (sysParts out.mem) ++ sysParts out.mem out.r).map
          particle.id).Perm ((sysParts mem s).map particle.id) ∧
      ((ccViews out.c).flatMap (sysParts out.mem) ++ sysParts out.mem out.r).Perm
        (sysParts mem s) := by
  obtain ⟨out, hrun, hp⟩ := split_parts_perm ts fuel clevel s dt mem diag hwf hn hfuel
  exact ⟨out, hrun, hp.map _, hp⟩

theorem pairwise_nodesOf (G : Geo) (P : List ℤ → List ℤ → Prop) : ∀ L : List Blk,
    L.Pairwise (fun q r => P (blkPos G q) (blkPos G r)) →
    (nodesOf G L).Pairwise (fun va vb => P (sysPos va) (sysPos vb))
  | [], _ => List.Pairwise.nil
  | q :: t, h => by
    obtain ⟨h1, h2⟩ := List.pairwise_cons.1 h
    refine List.Pairwise.cons (fun v hv => ?_) (pairwise_nodesOf G P t h2)
    obtain ⟨r, hr, nx, e⟩ := mem_nodesOf G t v hv
    rw [e, sysPos_compNode, sysPos_compNode]
    exact h1 r hr

theorem sep_both {ts : particle → particle → ℤ → DOUBLE} {dir : ℤ} {dt : DOUBLE}
    (hsym : ∀ (p q : particle) (d : ℤ), ts p q d = ts q p d) {m : Mem} {i j : ℤ}
    (h : Sep2 (fast ts dir dt) m i j) :
    ¬ ts (m i) (m j) dir ≤ dt ∧ ¬ ts (m j) (m i) dir ≤ dt := by
  unfold Sep2 Ed fast at h
  rcases h with h | h
  · exact ⟨h, by rw [hsym]; exact h⟩
  · exact ⟨by rw [hsym]; exact h, h⟩

/-- Two addresses of the view that do not lie in one emitted component hold particles that
are not joined in at least one direction. -/
theorem SplitRes.sep {E : particle → particle → Prop} {G : Geo} {m0 : Mem} {g : Cnt}
    {L : List Blk} {out : split_out} (h : SplitRes E G m0 g L out) {i j : ℤ}
    (hi : G.zone 0 G.nm 0 G.nz i) (hj : G.zone 0 G.nm 0 G.nz j) (hij : i ≠ j)
    (hne : ¬ ∃ q ∈ L, q.has G i ∧ q.has G j) : Sep2 E out.mem i j := by
  rcases h.sepFin i j ((h.done_iff i).2 hi) ((h.done_iff j).2 hj) hij with h1 | h1
  · exact absurd h1 hne
  · exact h1

theorem SplitRes.blk_zone {E : particle → particle → Prop} {G : Geo} {m0 : Mem} {g : Cnt}
    {L : List Blk} {out : split_out} (h : SplitRes E G m0 g L out) {q : Blk} (hq : q ∈ L)
    {x : ℤ} (hx : q.has G x) : G.zone 0 G.nm 0 G.nz x := by
  have h1 := h.fullm
  have h2 := h.fullz
  have := h.blk_done hq hx
  unfold Geo.zone at this ⊢
  omega

theorem SplitRes.rest_all {E : particle → particle → Prop} {G : Geo} {m0 : Mem} {g : Cnt}
    {L : List Blk} {out : split_out} (h : SplitRes E G m0 g L out)
    {x : ℤ} (hx : g.rblk.has G x) : G.zone 0 G.nm 0 G.nz x := by
  have := h.rest_zone hx
  unfold Geo.zone at this ⊢
  omega

/-- C2 (edge separation): for a time-step function symmetric in its two particles, after
`split_cc` every two particles that lie in two different views of the list `c`, or one in a
view of `c` and one in `r`, or both in `r`, have `timestep_ij >= |dt|` for `dir = sign(dt)`. -/
theorem C2_edge_separation (ts : particle → particle → ℤ → DOUBLE) (fuel : ℕ) (clevel : ℤ)
    (s : sys) (dt : DOUBLE) (mem : Mem) (diag : diagnostics)
    (hsym : ∀ (p q : particle) (d : ℤ), ts p q d = ts q p d) (hwf : WF s) (hn : 2 ≤ s.n)
    (hfuel : s.n ≤ fuel) :
    ∃ out, split_cc ts fuel clevel s dt mem diag = .ok out ∧
      (ccViews out.c).Pairwise (fun va vb => ∀ i ∈ sysPos va, ∀ j ∈ sysPos vb,
        |dt| ≤ ts (out.mem i) (out.mem j) (SIGN dt) ∧
        |dt| ≤ ts (out.mem j) (out.mem i) (SIGN dt)) ∧
      (∀ v ∈ ccViews out.c, ∀ i ∈ sysPos v, ∀ j ∈ sysPos out.r,
        |dt| ≤ ts (out.mem i) (out.mem j) (SIGN dt) ∧
        |dt| ≤ ts (out.mem j) (out.mem i) (SIGN dt)) ∧
      (∀ i ∈ sysPos out.r, ∀ j ∈ sysPos out.r, i ≠ j →
        |dt| ≤ ts (out.mem i) (out.mem j) (SIGN dt)) := by
  obtain ⟨out, L, g, hrun, hres⟩ := split_cc_main ts fuel clevel s dt mem diag hwf hn hfuel
  obtain ⟨hv, hr⟩ := hres.views
  have hD := hwf.2.2.2
  have hle : ∀ i j, Sep2 (fast ts (SIGN dt) |dt|) out.mem i j →
      |dt| ≤ ts (out.mem i) (out.mem j) (SIGN dt) ∧
      |dt| ≤ ts (out.mem j) (out.mem i) (SIGN dt) := by
    intro i j h
    obtain ⟨a, b⟩ := sep_both hsym h
    exact ⟨le_of_lt (not_le.1 a), le_of_lt (not_le.1 b)⟩
  refine ⟨out, hrun, ?_, ?_, ?_⟩
  · rw [hv]
    refine pairwise_nodesOf (geo s) (fun A B => ∀ i ∈ A, ∀ j ∈ B,
      |dt| ≤ ts (out.mem i) (out.mem j) (SIGN dt) ∧
      |dt| ≤ ts (out.mem j) (out.mem i) (SIGN dt)) L ?_
    have hpw := Tiled.pairwise L 0 0 g.em g.ez hres.tiled
    refine hpw.imp_of_mem ?_
    intro q r hq hr' hb i hi j hj
    rw [mem_blkPos] at hi hj
    have hmr := Tiled.mem L 0 0 g.em g.ez hres.tiled r hr'
    have h1 := hres.fullm
    have h2 := hres.fullz
    refine hle i j (hres.sep (hres.blk_zone hq hi) (hres.blk_zone hr' hj) ?_ ?_)
    · rintro rfl
      exact before_disjoint hD hb (by omega) (by omega) i hi hj
    · rintro ⟨p, hp, hpi, hpj⟩
      have e1 := Tiled.unique (geo s) hD hres.tiled (by omega) (by omega) hp hq hpi hi
      have e2 := Tiled.unique (geo s) hD hres.tiled (by omega) (by omega) hp hr' hpj hj
      rw [e1] at e2
      rw [e2] at hi
      exact before_disjoint hD (e2 ▸ hb) (by omega) (by omega) i hi (e2 ▸ hi)
  · intro v hvm i hi j hj
    rw [hv] at hvm
    obtain ⟨q, hq, nx, e⟩ := mem_nodesOf (geo s) L v hvm
    rw [e, sysPos_compNode, mem_blkPos] at hi
    rw [hr, mem_blkPos] at hj
    refine hle i j (hres.sep (hres.blk_zone hq hi) (hres.rest_all hj) ?_ ?_)
    · rintro rfl
      exact hres.rest_not_blk hD hj (hres.blk_done hq hi)
    · rintro ⟨p, hp, _, hpj⟩
      exact hres.rest_not_blk hD hj (hres.blk_done hp hpj)
  · intro i hi j hj hij
    rw [hr, mem_blkPos] at hi hj
    refine (hle i j (hres.sep (hres.rest_all hi) (hres.rest_all hj) hij ?_)).1
    rintro ⟨p, hp, hpi, _⟩
    exact hres.rest_not_blk hD hi (hres.blk_done hp hpi)

theorem UStep.symm {E : particle → particle → Prop} {mem : Mem} {S : ℤ → Prop} :
    Symmetric (UStep E mem S) := by
  rintro a b ⟨ha, hb, hab, he⟩
  exact ⟨hb, ha, fun h => hab h.symm, he.symm⟩

/-- A component of at least two particles has two different addresses. -/
theorem blk_two {G : Geo} (hD : G.Disj) {q : Blk} (h1 : q.a + q.vm ≤ G.nm)
    (h2 : q.b + q.vz ≤ G.nz) (h : 2 ≤ q.vm + q.vz) (s0 : ℤ) :
    ∃ x, q.has G x ∧ x ≠ s0 := by
  unfold Geo.Disj at hD
  by_cases h0 : s0 = G.P + q.a
  · by_cases hm : 2 ≤ q.vm
    · exact ⟨G.P + q.a + 1, by unfold Blk.has Geo.zone; omega, by omega⟩
    · by_cases hm1 : q.vm = 1
      · exact ⟨G.Z + q.b, by unfold Blk.has Geo.zone; omega, by omega⟩
      · by_cases hz0 : s0 = G.Z + q.b
        · exact ⟨G.Z + q.b + 1, by unfold Blk.has Geo.zone; omega, by omega⟩
        · exact ⟨G.Z + q.b, by unfold Blk.has Geo.zone; omega, fun h => hz0 h.symm⟩
  · by_cases hm : 1 ≤ q.vm
    · exact ⟨G.P + q.a, by unfold Blk.has Geo.zone; omega, fun h => h0 h.symm⟩
    · by_cases hz0 : s0 = G.Z + q.b
      · exact ⟨G.Z + q.b + 1, by unfold Blk.has Geo.zone; omega, by omega⟩
      · exact ⟨G.Z + q.b, by unfold Blk.has Geo.zone; omega, fun h => hz0 h.symm⟩

/-- In a connected set with two different addresses every address has a neighbour. -/
theorem Conn.neighbour {E : particle → particle → Prop} {m : Mem} {S : ℤ → Prop}
    (h : Conn E m S) (h2 : ∀ s0, ∃ x, S x ∧ x ≠ s0) {i : ℤ} (hi : S i) :
    ∃ y, S y ∧ y ≠ i ∧ (Ed E m i y ∨ Ed E m y i) := by
  obtain ⟨s0, hs0, hr⟩ := h
  by_cases his : i = s0
  · obtain ⟨x, hx, hxs⟩ := h2 s0
    rcases Relation.ReflTransGen.cases_head (hr x hx) with h1 | ⟨c, ⟨_, hc, hne, he⟩, _⟩
    · exact absurd h1.symm hxs
    · rw [his]
      exact ⟨c, hc, fun h => hne h.symm, Or.inl he⟩
  · rcases Relation.ReflTransGen.cases_tail (hr i hi) with h1 | ⟨c, _, ⟨hc, _, hne, he⟩⟩
    · exact absurd h1 his
    · exact ⟨c, hc, hne, Or.inr he⟩

/-- In a connected set any two addresses are joined by an undirected chain. -/
theorem Conn.chain {E : particle → particle → Prop} {m : Mem} {S : ℤ → Prop}
    (h : Conn E m S) {i j : ℤ} (hi : S i) (hj : S j) :
    Relation.ReflTransGen (UStep E m S) i j := by
  obtain ⟨s0, hs0, hr⟩ := h
  have hu : ∀ x, S x → Relation.ReflTransGen (UStep E m S) s0 x := fun x hx =>
    Relation.ReflTransGen.mono (fun a b ⟨ha, hb, hab, he⟩ => ⟨ha, hb, hab, Or.inl he⟩) (hr x hx)
  exact (Relation.ReflTransGen.symmetric UStep.symm (hu i hi)).trans (hu j hj)

/-- C3 (components are connected): every view emitted in the list `c` has `n >= 2`; any two of
its particles are joined by a chain of particles of the same view in which consecutive
particles have a time step `<= |dt|` (in one direction or the other, which is the same
for a symmetric time-step function); and it holds two particles `p`, `q` with
`timestep_ij(p, q, dir) <= |dt|`. -/
theorem C3_components_connected (ts : particle → particle → ℤ → DOUBLE) (fuel : ℕ)
    (clevel : ℤ) (s : sys) (dt : DOUBLE) (mem : Mem) (diag : diagnostics) (hwf : WF s)
    (hn : 2 ≤ s.n) (hfuel : s.n ≤ fuel) :
    ∃ out, split_cc ts fuel clevel s dt mem diag = .ok out ∧
      ∀ v ∈ ccViews out.c, 2 ≤ v.n ∧
        (∀ i ∈ sysPos v, ∀ j ∈ sysPos v,
          Relation.ReflTransGen
            (UStep (fast ts (SIGN dt) |dt|) out.mem (fun x => x ∈ sysPos v)) i j) ∧
        (∃ i ∈ sysPos v, ∃ j ∈ sysPos v, i ≠ j ∧
          ts (out.mem i) (out.mem j) (SIGN dt) ≤ |dt|) := by
  obtain ⟨out, L, g, hrun, hres⟩ := split_cc_main ts fuel clevel s dt mem diag hwf hn hfuel
  obtain ⟨hv, hr⟩ := hres.views
  have hD := hwf.2.2.2
  refine ⟨out, hrun, fun v hvm => ?_⟩
  rw [hv] at hvm
  obtain ⟨q, hq, nx, e⟩ := mem_nodesOf (geo s) L v hvm
  have hm := Tiled.mem L 0 0 g.em g.ez hres.tiled q hq
  have h1 := hres.fullm
  have h2 := hres.fullz
  have hconn : Conn (fast ts (SIGN dt) |dt|) out.mem (fun x => x ∈ sysPos v) :=
    (hres.connAll q hq).congr (fun _ _ => rfl) (fun x => by
      rw [e, sysPos_compNode, mem_blkPos])
  have htwo : ∀ s0, ∃ x, x ∈ sysPos v ∧ x ≠ s0 := by
    intro s0
    obtain ⟨x, hx, hne⟩ := blk_two hD (q := q) (by omega) (by omega) (by omega) s0
    exact ⟨x, by rw [e, sysPos_compNode, mem_blkPos]; exact hx, hne⟩
  refine ⟨?_, fun i hi j hj => hconn.chain hi hj, ?_⟩
  · rw [e]; show 2 ≤ q.vm + q.vz; omega
  · obtain ⟨s0, hs0, hr0⟩ := hconn
    obtain ⟨x, hx, hxs⟩ := htwo s0
    rcases Relation.ReflTransGen.cases_head (hr0 x hx) with h3 | ⟨c, ⟨_, hc, hne, he⟩, _⟩
    · exact absurd h3.symm hxs
    · exact ⟨s0, hs0, c, hc, hne, he⟩

/-- C4 (the rest is the set of singletons): for a symmetric time-step function, a particle of
the view lies in `r` after `split_cc` if and only if no other particle of the view has
`timestep_ij <= |dt|` with it. -/
theorem C4_rest_is_singletons (ts : particle → particle → ℤ → DOUBLE) (fuel : ℕ)
    (clevel : ℤ) (s : sys) (dt : DOUBLE) (mem : Mem) (diag : diagnostics)
    (hsym : ∀ (p q : particle) (d : ℤ), ts p q d = ts q p d) (hwf : WF s) (hn : 2 ≤ s.n)
    (hfuel : s.n ≤ fuel) :
    ∃ out, split_cc ts fuel clevel s dt mem diag = .ok out ∧
      ∀ i ∈ sysPos s, (i ∈ sysPos out.r ↔
        ∀ j ∈ sysPos s, j ≠ i → ¬ ts (out.mem i) (out.mem j) (SIGN dt) ≤ |dt|) := by
  obtain ⟨out, L, g, hrun, hres⟩ := split_cc_main ts fuel clevel s dt mem diag hwf hn hfuel
  obtain ⟨hv, hr⟩ := hres.views
  have hD := hwf.2.2.2
  have h1 := hres.fullm
  have h2 := hres.fullz
  refine ⟨out, hrun, fun i hi => ?_⟩
  rw [mem_sysPos_input hwf] at hi
  rw [hr, mem_blkPos]
  constructor
  · intro hir j hj hji
    rw [mem_sysPos_input hwf] at hj
    refine (sep_both hsym (hres.sep hi hj (fun h => hji h.symm) ?_)).1
    rintro ⟨p, hp, hpi, _⟩
    exact hres.rest_not_blk hD hir (hres.blk_done hp hpi)
  · intro hiso
    rcases hres.blk_or_rest i hi with ⟨q, hq, hqi⟩ | h
    · exfalso
      have hm := Tiled.mem L 0 0 g.em g.ez hres.tiled q hq
      obtain ⟨y, hy, hne, he⟩ := (hres.connAll q hq).neighbour
        (fun s0 => blk_two hD (q := q) (by omega) (by omega) (by omega) s0) hqi
      have hyS : y ∈ sysPos s := (mem_sysPos_input hwf y).2 (hres.blk_zone hq hy)
      refine hiso y hyS hne ?_
      rcases he with he | he
      · exact he
      · unfold Ed fast at he
        rw [hsym]; exact he
    · exact h

/-- Every view that the split hands back, a component or the rest, is a span of each of the
two ranges of the view that was split. -/
theorem SplitRes.view_cases {E : particle → particle → Prop} {G : Geo} {m0 : Mem} {g : Cnt}
    {L : List Blk} {out : split_out} (h : SplitRes E G m0 g L out) (v : sys)
    (hv : v ∈ ccViews out.c ++ [out.r]) :
    ∃ (q : Blk) (nx : Option sys), v = compNode G q nx ∧ q.a + q.vm ≤ G.nm ∧
      q.b + q.vz ≤ G.nz := by
  have h1 := h.fullm
  have h2 := h.fullz
  rcases List.mem_append.1 hv with hv | hv
  · rw [h.views.1] at hv
    obtain ⟨q, hq, nx, e⟩ := mem_nodesOf G L v hv
    have := Tiled.mem L 0 0 g.em g.ez h.tiled q hq
    exact ⟨q, nx, e, by omega, by omega⟩
  · rw [List.mem_singleton.1 hv, h.r_eq]
    exact ⟨_, none, rfl, by show g.em + g.rm ≤ G.nm; omega, by show g.ez + g.rz ≤ G.nz; omega⟩

theorem compNode_n (G : Geo) (q : Blk) (nx : Option sys) :
    (compNode G q nx).n = q.vm + q.vz := rfl

theorem compNode_nzero (G : Geo) (q : Blk) (nx : Option sys) :
    (compNode G q nx).nzero = q.vz := rfl

theorem compNode_part (G : Geo) (q : Blk) (nx : Option sys) :
    (compNode G q nx).part =
      if 0 < q.vm then some (G.P + q.a) else if 0 < q.vz then some (G.Z + q.b) else none := rfl

theorem compNode_last (G : Geo) (q : Blk) (nx : Option sys) :
    (compNode G q nx).last = if 0 < q.vm then some (G.P + q.a + q.vm - 1) else none := rfl

theorem compNode_zeropart (G : Geo) (q : Blk) (nx : Option sys) :
    (compNode G q nx).zeropart = if 0 < q.vz then some (G.Z + q.b) else none := rfl

theorem compNode_lastzero (G : Geo) (q : Blk) (nx : Option sys) :
    (compNode G q nx).lastzero = if 0 < q.vz then some (G.Z + q.b + q.vz - 1) else none := rfl

theorem input_last {s : sys} (hwf : WF s) :
    (0 < (geo s).nm → s.last.addr = (geo s).P + (geo s).nm - 1) ∧
      (0 < (geo s).nz → s.lastzero.addr = (geo s).Z + (geo s).nz - 1) := by
  obtain ⟨w1, w2, w3, _⟩ := hwf
  constructor
  · intro h
    obtain ⟨a, b⟩ := w2 h
    obtain ⟨p, hp⟩ := Option.ne_none_iff_exists'.1 a
    simp [b, hp, Ptr.addr, Ptr.add, geo]; ring
  · intro h
    obtain ⟨a, b⟩ := w3 h
    obtain ⟨p, hp⟩ := Option.ne_none_iff_exists'.1 a
    simp [b, hp, Ptr.addr, Ptr.add, geo]; ring

/-- C5 (layout): every view that `split_cc` emits, each view of the list `c` and `r`,
satisfies the range invariants: with massive particles `last = part + (n - nzero) - 1`, with
massless particles `lastzero = zeropart + nzero - 1`, without massive particles
`part = zeropart`, and both ranges lie inside `[s.part .. s.last]` and
`[s.zeropart .. s.lastzero]`.  This covers the `last` pointer of the rest. -/
theorem C5_layout (ts : particle → particle → ℤ → DOUBLE) (fuel : ℕ) (clevel : ℤ)
    (s : sys) (dt : DOUBLE) (mem : Mem) (diag : diagnostics) (hwf : WF s) (hn : 2 ≤ s.n)
    (hfuel : s.n ≤ fuel) :
    ∃ out, split_cc ts fuel clevel s dt mem diag = .ok out ∧
      ∀ v ∈ ccViews out.c ++ [out.r],
        v.nzero ≤ v.n ∧
        (0 < v.n - v.nzero →
          v.part ≠ none ∧ v.last = v.part.add (((v.n - v.nzero : ℕ) : ℤ) - 1) ∧
          s.part.addr ≤ v.part.addr ∧ v.last.addr ≤ s.last.addr) ∧
        (0 < v.nzero →
          v.zeropart ≠ none ∧ v.lastzero = v.zeropart.add ((v.nzero : ℤ) - 1) ∧
          s.zeropart.addr ≤ v.zeropart.addr ∧ v.lastzero.addr ≤ s.lastzero.addr) ∧
        (v.n - v.nzero = 0 → v.part = v.zeropart) := by
  obtain ⟨out, L, g, hrun, hres⟩ := split_cc_main ts fuel clevel s dt mem diag hwf hn hfuel
  refine ⟨out, hrun, fun v hv => ?_⟩
  obtain ⟨q, nx, e, b1, b2⟩ := hres.view_cases v hv
  obtain ⟨l1, l2⟩ := input_last hwf
  have eP : s.part.addr = (geo s).P := rfl
  have eZ : s.zeropart.addr = (geo s).Z := rfl
  rw [e]
  simp only [compNode_n, compNode_nzero, compNode_part, compNode_last, compNode_zeropart,
    compNode_lastzero, Nat.add_sub_cancel]
  refine ⟨by omega, fun hm => ?_, fun hz => ?_, fun hm => ?_⟩
  · rw [eP, l1 (by omega)]
    simp [hm, Ptr.add, Ptr.addr]
    refine ⟨by ring, by omega⟩
  · rw [eZ, l2 (by omega)]
    simp [hz, Ptr.add, Ptr.addr]
    refine ⟨by ring, by omega⟩
  · simp [hm]

theorem LanesPerm.mass {G : Geo} {m0 m : Mem} (h : LanesPerm G m0 m)
    (hmass : ∀ x ∈ G.laneM, 0 < (m0 x).mass) (hzero : ∀ x ∈ G.laneZ, (m0 x).mass = 0) :
    (∀ x ∈ G.laneM, 0 < (m x).mass) ∧ (∀ x ∈ G.laneZ, (m x).mass = 0) := by
  constructor
  · intro x hx
    have : m x ∈ G.laneM.map m0 := h.massive.subset (List.mem_map_of_mem m hx)
    obtain ⟨y, hy, e⟩ := List.mem_map.1 this
    rw [← e]; exact hmass y hy
  · intro x hx
    have : m x ∈ G.laneZ.map m0 := h.massless.subset (List.mem_map_of_mem m hx)
    obtain ⟨y, hy, e⟩ := List.mem_map.1 this
    rw [← e]; exact hzero y hy

/-- C6 (massless bookkeeping): when the massive range of the input holds only particles of
mass `> 0` and its massless range only particles of mass `0`, every view that `split_cc`
emits has `nzero` equal to the number of massless particles it holds, its first `n - nzero`
particles are massive and its last `nzero` particles are massless. -/
theorem C6_massless_bookkeeping (ts : particle → particle → ℤ → DOUBLE) (fuel : ℕ)
    (clevel : ℤ) (s : sys) (dt : DOUBLE) (mem : Mem) (diag : diagnostics)
    (hmass : ∀ x ∈ (geo s).laneM, 0 < (mem x).mass)
    (hzero : ∀ x ∈ (geo s).laneZ, (mem x).mass = 0) (hwf : WF s) (hn : 2 ≤ s.n)
    (hfuel : s.n ≤ fuel) :
    ∃ out, split_cc ts fuel clevel s dt mem diag = .ok out ∧
      ∀ v ∈ ccViews out.c ++ [out.r],
        v.nzero = (sysParts out.mem v).countP (fun p => decide (p.mass = 0)) ∧
        (∀ i, i < v.n - v.nzero → 0 < (out.mem (GETPART v i)).mass) ∧
        (∀ i, v.n - v.nzero ≤ i → i < v.n → (out.mem (GETPART v i)).mass = 0) := by
  obtain ⟨out, L, g, hrun, hres⟩ := split_cc_main ts fuel clevel s dt mem diag hwf hn hfuel
  refine ⟨out, hrun, fun v hv => ?_⟩
  obtain ⟨q, nx, e, b1, b2⟩ := hres.view_cases v hv
  obtain ⟨hM, hZ⟩ := hres.lanes.mass hmass hzero
  have hgm : ∀ i, i < q.vm → 0 < (out.mem ((geo s).P + q.a + (i : ℤ))).mass := by
    intro i hi
    exact hM _ (((geo s).mem_laneM _).2 ⟨by omega, by omega⟩)
  have hgz : ∀ i, i < q.vz → (out.mem ((geo s).Z + q.b + (i : ℤ))).mass = 0 := by
    intro i hi
    exact hZ _ (((geo s).mem_laneZ _).2 ⟨by omega, by omega⟩)
  have hn1 : v.n = q.vm + q.vz := by rw [e]; rfl
  have hn2 : v.nzero = q.vz := by rw [e]; rfl
  have hG1 : ∀ i, i < q.vm → GETPART v i = (geo s).P + q.a + (i : ℤ) := by
    intro i hi
    have h0 : 0 < q.vm := by omega
    rw [e]
    simp [GETPART, compNode_n, compNode_nzero, compNode_part, hi, h0, Ptr.addr]
  have hG2 : ∀ i, q.vm ≤ i → i < q.vm + q.vz →
      GETPART v i = (geo s).Z + q.b + ((i - q.vm : ℕ) : ℤ) := by
    intro i hi hi2
    have h0 : 0 < q.vz := by omega
    have h1 : ¬ i < q.vm := by omega
    rw [e]
    simp [GETPART, compNode_n, compNode_nzero, compNode_zeropart, h1, h0, Ptr.addr]
  refine ⟨?_, ?_, ?_⟩
  · unfold sysParts
    rw [e, sysPos_compNode, ← e, hn2]
    unfold blkPos
    rw [List.map_append, List.countP_append, List.map_map, List.map_map]
    have c1 : List.countP (fun p => decide (p.mass = 0))
        (List.map (out.mem ∘ fun (i : ℕ) => (geo s).P + ↑q.a + (i : ℤ)) (List.range q.vm)) = 0 := by
      rw [List.countP_eq_zero]
      intro p hp
      obtain ⟨i, hi, rfl⟩ := List.mem_map.1 hp
      have := hgm i (List.mem_range.1 hi)
      simp only [Function.comp, decide_eq_true_eq]
      exact ne_of_gt this
    have c2 : List.countP (fun p => decide (p.mass = 0))
        (List.map (out.mem ∘ fun (i : ℕ) => (geo s).Z + ↑q.b + (i : ℤ)) (List.range q.vz)) =
        q.vz := by
      have hl : (List.map (out.mem ∘ fun (i : ℕ) => (geo s).Z + ↑q.b + (i : ℤ))
          (List.range q.vz)).length = q.vz := by simp
      conv_rhs => rw [← hl]
      rw [List.countP_eq_length]
      intro p hp
      obtain ⟨i, hi, rfl⟩ := List.mem_map.1 hp
      have := hgz i (List.mem_range.1 hi)
      simp only [Function.comp, decide_eq_true_eq]
      exact this
    rw [c1, c2, Nat.zero_add]
  · intro i hi
    rw [hn1, hn2, Nat.add_sub_cancel] at hi
    rw [hG1 i hi]
    exact hgm i hi
  · intro i hi hi2
    rw [hn1, hn2, Nat.add_sub_cancel] at hi
    rw [hn1] at hi2
    rw [hG2 i hi hi2]
    exact hgz _ (by omega)

/-! ## Contiguity, input checks -/

theorem outcome.of_check {α : Type} {P : α → Bool} {o : outcome α} (h : o.check P = true) :
    ∃ a, o = .ok a ∧ P a = true := by
  cases o with
  | ok a => exact ⟨a, rfl, h⟩
  | fatal _ _ => simp [outcome.check] at h
  | out_of_fuel => simp [outcome.check] at h

theorem pairTs_symm (pairs : List (ℕ × ℕ)) (tight slow : DOUBLE) (p q : particle) (d : ℤ) :
    pairTs pairs tight slow p q d = pairTs pairs tight slow q p d := by
  unfold pairTs
  by_cases h : (p.id, q.id) ∈ pairs ∨ (q.id, p.id) ∈ pairs
  · rw [if_pos h, if_pos h.symm]
  · rw [if_neg h, if_neg (fun h' => h h'.symm)]

theorem WF_compNode {G : Geo} (hD : G.Disj) (q : Blk) (nx : Option sys)
    (h1 : q.a + q.vm ≤ G.nm) (h2 : q.b + q.vz ≤ G.nz) : WF (compNode G q nx) := by
  unfold WF
  simp only [compNode_n, compNode_nzero, compNode_part, compNode_last, compNode_zeropart,
    compNode_lastzero, Nat.add_sub_cancel]
  refine ⟨by omega, fun hm => ?_, fun hz => ?_, ?_⟩
  · simp [hm, Ptr.add]; ring
  · simp [hz, Ptr.add]; ring
  · unfold Geo.Disj at hD ⊢
    simp only [geo, compNode_n, compNode_nzero, compNode_part, compNode_zeropart,
      Nat.add_sub_cancel]
    by_cases hm : 0 < q.vm <;> by_cases hz : 0 < q.vz
    · simp only [hm, hz, if_true, Ptr.addr, Option.getD_some]; omega
    · right; left; omega
    · left; omega
    · left; omega

/-- C7, as the code has it: every component that `split_cc` emits is a well-formed view of at
least two particles made of a run of the massive range and a run of the massless range of the
input; the two runs need not be adjacent, and `split_cc` takes the component as its input all
the same: called on it, it returns normally. -/
theorem C7_components_are_views (ts : particle → particle → ℤ → DOUBLE) (fuel : ℕ)
    (clevel : ℤ) (s : sys) (dt : DOUBLE) (mem : Mem) (diag : diagnostics) (hwf : WF s)
    (hn : 2 ≤ s.n) (hfuel : s.n ≤ fuel) :
    ∃ out, split_cc ts fuel clevel s dt mem diag = .ok out ∧
      ∀ v ∈ ccViews out.c, WF v ∧ 2 ≤ v.n ∧
        ∀ (fuel1 : ℕ) (clevel1 : ℤ) (dt1 : DOUBLE) (mem1 : Mem) (diag1 : diagnostics),
          v.n ≤ fuel1 → ∃ out1, split_cc ts fuel1 clevel1 v dt1 mem1 diag1 = .ok out1 := by
  obtain ⟨out, L, g, hrun, hres⟩ := split_cc_main ts fuel clevel s dt mem diag hwf hn hfuel
  refine ⟨out, hrun, fun v hv => ?_⟩
  rw [hres.views.1] at hv
  obtain ⟨q, hq, nx, e⟩ := mem_nodesOf (geo s) L v hv
  have hm := Tiled.mem L 0 0 g.em g.ez hres.tiled q hq
  have h1 := hres.fullm
  have h2 := hres.fullz
  have hwfv : WF v := by rw [e]; exact WF_compNode hwf.2.2.2 q nx (by omega) (by omega)
  have hn2 : 2 ≤ v.n := by rw [e, compNode_n]; omega
  refine ⟨hwfv, hn2, fun fuel1 clevel1 dt1 mem1 diag1 hf => ?_⟩
  obtain ⟨out1, _, _, hrun1, _⟩ := split_cc_main ts fuel1 clevel1 v dt1 mem1 diag1 hwfv hn2 hf
  exact ⟨out1, hrun1⟩

/-- C7 fails as stated: of three particles, two massive at addresses `0`, `1` and one massless
at address `2`, with only the pair of ids `0`, `2` within the step, `split_cc` emits the
component of the particles at addresses `0` and `2`: its massless run starts at `2`, not
behind its massive run at `1`. -/
theorem C7_counterexample :
    ∃ out, split_cc (pairTs [(0, 2)] (1 / 100) 1) 3 0 (viewAt0 3 1) (1 / 10) (idStore [2])
        diag0 = .ok out ∧
      ∃ v ∈ ccViews out.c, 0 < v.n - v.nzero ∧ 0 < v.nzero ∧ v.last = some 0 ∧
        v.zeropart = some 2 ∧ v.zeropart ≠ v.last.add 1 := by
  have h : (split_cc (pairTs [(0, 2)] (1 / 100) 1) 3 0 (viewAt0 3 1) (1 / 10) (idStore [2])
      diag0).check (fun out => (ccViews out.c).any (fun v =>
        decide (0 < v.n - v.nzero ∧ 0 < v.nzero ∧ v.last = some 0 ∧ v.zeropart = some 2 ∧
          v.zeropart ≠ v.last.add 1))) = true := by decide!
  obtain ⟨out, hrun, hP⟩ := outcome.of_check h
  refine ⟨out, hrun, ?_⟩
  obtain ⟨v, hv, hd⟩ := List.any_eq_true.1 hP
  exact ⟨v, hv, of_decide_eq_true hd⟩

/-- C8, as the code has it: `split_cc` has no check of contiguity.  On every well-formed view
of at least two particles that has massive and massless particles and whose ranges are not
adjacent it returns normally, with a split. -/
theorem C8_noncontiguous_accepted (ts : particle → particle → ℤ → DOUBLE) (fuel : ℕ)
    (clevel : ℤ) (s : sys) (dt : DOUBLE) (mem : Mem) (diag : diagnostics) (hwf : WF s)
    (hm : 0 < s.n - s.nzero) (hz : 0 < s.nzero) (hgap : s.zeropart ≠ s.last.add 1)
    (hfuel : s.n ≤ fuel) :
    ∃ out, split_cc ts fuel clevel s dt mem diag = .ok out := by
  obtain ⟨out, _, _, hrun, _⟩ :=
    split_cc_main ts fuel clevel s dt mem diag hwf (by omega) hfuel
  exact ⟨out, hrun⟩

/-- C8 fails as stated: on a view of a massive particle at address `0` and a massless particle
at address `5`, `split_cc` returns normally. -/
theorem C8_counterexample :
    0 < gapView.n - gapView.nzero ∧ 0 < gapView.nzero ∧
      gapView.zeropart ≠ gapView.last.add 1 ∧
      ∃ out, split_cc (pairTs [] (1 / 100) 1) 2 0 gapView (1 / 10) (idStore [5]) diag0 =
        .ok out := by
  refine ⟨by decide, by decide, by decide, ?_⟩
  have h : (split_cc (pairTs [] (1 / 100) 1) 2 0 gapView (1 / 10) (idStore [5])
      diag0).check (fun _ => true) = true := by decide!
  obtain ⟨out, hrun, _⟩ := outcome.of_check h
  exact ⟨out, hrun⟩

/-- C9 (aborts): on a well-formed view `split_cc` ends in `ENDRUN` if and only if `s.n <= 1`:
then it is fatal with the store untouched; with `s.n >= 2` no `ENDRUN` is reached and the
call returns normally. -/
theorem C9_abort_iff_small (ts : particle → particle → ℤ → DOUBLE) (fuel : ℕ) (clevel : ℤ)
    (s : sys) (dt : DOUBLE) (mem : Mem) (diag : diagnostics) (hwf : WF s)
    (hfuel : s.n ≤ fuel) :
    (s.n ≤ 1 → split_cc ts fuel clevel s dt mem diag = .fatal .not_right mem) ∧
      (2 ≤ s.n → ∃ out, split_cc ts fuel clevel s dt mem diag = .ok out) ∧
      ((∃ msg m, split_cc ts fuel clevel s dt mem diag = .fatal msg m) ↔ s.n ≤ 1) := by
  have h1 : s.n ≤ 1 → split_cc ts fuel clevel s dt mem diag = .fatal .not_right mem := by
    intro h
    unfold split_cc
    simp [h]
  have h2 : 2 ≤ s.n → ∃ out, split_cc ts fuel clevel s dt mem diag = .ok out := by
    intro h
    obtain ⟨out, _, _, hrun, _⟩ := split_cc_main ts fuel clevel s dt mem diag hwf h hfuel
    exact ⟨out, hrun⟩
  refine ⟨h1, h2, ?_, fun h => ⟨_, _, h1 h⟩⟩
  rintro ⟨msg, m, hf⟩
  by_contra hn
  obtain ⟨out, hrun⟩ := h2 (by omega)
  rw [hrun] at hf
  cases hf

/-! ## Termination -/

theorem lp_add (N : ℕ) (x k : ℤ) : (lp N x).add k = lp N (x + k) := by
  unfold lp Ptr.add
  split_ifs <;> simp

theorem outerReach_inv {ts : particle → particle → ℤ → DOUBLE} {dir : ℤ} {dt : DOUBLE}
    {clevel : ℤ} {fuel : ℕ} {s : sys} (hwf : WF s) (hf : s.n ≤ fuel) {mem : Mem}
    {diag : diagnostics} {st : split_state}
    (h : OuterReach ts dir dt clevel fuel s.n (split_init s mem diag) st) :
    ∃ g L, Inv (fast ts dir dt) (geo s) mem g L st ∧ g.Head := by
  induction h with
  | init => exact ⟨Cnt.zero, [], init_inv _ hwf mem diag, ⟨rfl, rfl, rfl, rfl⟩⟩
  | step hr hlt hrun ih =>
    obtain ⟨g, L, hI, h0⟩ := ih
    have htot := geo_total hwf
    obtain ⟨g1, L1, st1, hrun1, hI1, h1, _⟩ :=
      outer_pass_inv ts dir dt clevel hwf.2.2.2 fuel hI h0 (by omega) (by omega)
    rw [hrun] at hrun1
    cases hrun1
    exact ⟨g1, L1, hI1, h1⟩

theorem innerReach_inv {ts : particle → particle → ℤ → DOUBLE} {dir : ℤ} {dt : DOUBLE}
    {clevel : ℤ} {fuel : ℕ} {s : sys} (hwf : WF s) (hf : s.n ≤ fuel) {mem : Mem}
    {diag : diagnostics} {st : split_state}
    (h : InnerReach ts dir dt clevel fuel s.n (split_init s mem diag) st) :
    ∃ g L, Inv (fast ts dir dt) (geo s) mem g L st ∧ InnerX g st := by
  induction h with
  | start hr hlt =>
    obtain ⟨g, L, hI, h0⟩ := outerReach_inv hwf hf hr
    have htot := geo_total hwf
    have hp := hI.cur.processed
    obtain ⟨hI1, hX1⟩ := startup_inv hwf.2.2.2 hI h0 (by omega)
    exact ⟨_, L, hI1, hX1⟩
  | step hr hpos hrun ih =>
    obtain ⟨g, L, hI, hX⟩ := ih
    have hs := hX.stack_size
    obtain ⟨jm, jz, st1, hrun1, hI1, hX1, _⟩ :=
      inner_pass_inv ts dir dt clevel hwf.2.2.2 hI hX (by omega)
    rw [hrun] at hrun1
    cases hrun1
    exact ⟨_, L, hI1, hX1⟩

/-- C10 (termination): on a well-formed view of at least two particles and with fuel for every
particle the loops of `split_cc` end and the call returns with `processed == s.n`; at the head
of every pass of the outer loop `processed <= s.n`, and a pass that is entered raises
`processed` by the size `comp_size >= 1` of the component it found; every pass of the inner
loop succeeds, raises `comp_size` by one and advances exactly one of `comp_next` and
`compzero_next` by one particle. -/
theorem C10_termination (ts : particle → particle → ℤ → DOUBLE) (fuel : ℕ) (clevel : ℤ)
    (s : sys) (dt : DOUBLE) (mem : Mem) (diag : diagnostics) (hwf : WF s) (hn : 2 ≤ s.n)
    (hfuel : s.n ≤ fuel) :
    (∃ out, split_cc ts fuel clevel s dt mem diag = .ok out ∧ out.processed = s.n) ∧
      (∀ st, OuterReach ts (SIGN dt) |dt| clevel fuel s.n
          (split_init s mem (diag.tstep_incr clevel)) st →
        st.processed ≤ s.n ∧
        (st.processed < s.n → ∃ st1, outer_pass ts (SIGN dt) |dt| clevel fuel st = .ok st1 ∧
          st1.processed = st.processed + st1.comp_size ∧ 1 ≤ st1.comp_size ∧
          st1.processed ≤ s.n)) ∧
      (∀ st, InnerReach ts (SIGN dt) |dt| clevel fuel s.n
          (split_init s mem (diag.tstep_incr clevel)) st → st.stack_size > 0 →
        ∃ st1, inner_pass ts (SIGN dt) |dt| clevel st = .ok st1 ∧
          st1.comp_size = st.comp_size + 1 ∧
          ((st1.comp_next = st.comp_next.add 1 ∧ st1.compzero_next = st.compzero_next) ∨
            (st1.comp_next = st.comp_next ∧ st1.compzero_next = st.compzero_next.add 1))) := by
  have htot := geo_total hwf
  refine ⟨?_, ?_, ?_⟩
  · obtain ⟨out, L, g, hrun, hres⟩ := split_cc_main ts fuel clevel s dt mem diag hwf hn hfuel
    exact ⟨out, hrun, by rw [hres.processed, htot]⟩
  · intro st hr
    obtain ⟨g, L, hI, h0⟩ := outerReach_inv hwf hfuel hr
    have hp := hI.cur.processed
    have hb := hI.cur.bound
    have hbz := hI.cur.boundzero
    refine ⟨by omega, fun hlt => ?_⟩
    obtain ⟨g1, L1, st1, hrun1, hI1, h1, _, hsz, hge⟩ :=
      outer_pass_inv ts (SIGN dt) |dt| clevel hwf.2.2.2 fuel hI h0 (by omega) (by omega)
    have hp1 := hI1.cur.processed
    have hb1 := hI1.cur.bound
    have hbz1 := hI1.cur.boundzero
    exact ⟨st1, hrun1, hsz, hge, by omega⟩
  · intro st hr hpos
    obtain ⟨g, L, hI, hX⟩ := innerReach_inv hwf hfuel hr
    have hs := hX.stack_size
    obtain ⟨jm, jz, st1, hrun1, hI1, hX1, _⟩ :=
      inner_pass_inv ts (SIGN dt) |dt| clevel hwf.2.2.2 hI hX (by omega)
    refine ⟨st1, hrun1, ?_, ?_⟩
    · rw [hX1.comp_size, hX.comp_size]
      by_cases hk : 0 < g.km <;> simp [Cnt.push, Cnt.pop, hk] <;> omega
    · rw [hI1.cur.comp_next, hI1.cur.compzero_next, hI.cur.comp_next, hI.cur.compzero_next,
        lp_add, lp_add]
      by_cases hk : 0 < g.km
      · left
        simp only [Cnt.push, Cnt.pop, hk, decide_True, if_true]
        exact ⟨lp_congr _ (by push_cast; ring), trivial⟩
      · right
        simp only [Cnt.push, Cnt.pop, hk, decide_False, Bool.false_eq_true, if_false]
        exact ⟨trivial, lp_congr _ (by push_cast; ring)⟩

/-! ## Instances of the claims -/

theorem C1_witness :
    WF (viewAt0 3 1) ∧
      ∃ out, split_cc (pairTs [(0, 2)] (1 / 100) 1) 3 0 (viewAt0 3 1) (1 / 10) (idStore [2])
          diag0 = .ok out ∧
        (((ccViews out.c).flatMap (sysParts out.mem) ++ sysParts out.mem out.r).map
            particle.id).Perm ((sysParts (idStore [2]) (viewAt0 3 1)).map particle.id) ∧
        ((ccViews out.c).flatMap (sysParts out.mem) ++ sysParts out.mem out.r).Perm
          (sysParts (idStore [2]) (viewAt0 3 1)) :=
  ⟨by decide, C1_identity_conserved (pairTs [(0, 2)] (1 / 100) 1) 3 0 (viewAt0 3 1) (1 / 10)
    (idStore [2]) diag0 (by decide) (by decide) (by decide)⟩

theorem C3_witness :
    (∃ out, split_cc chainTs 6 0 (viewAt0 6 0) (1 / 50) (idStore []) diag0 = .ok out ∧
        (ccViews out.c).map sys.n = [6] ∧ out.r.n = 0) ∧
      ∃ out, split_cc chainTs 6 0 (viewAt0 6 0) (1 / 50) (idStore []) diag0 = .ok out ∧
        ∀ v ∈ ccViews out.c, 2 ≤ v.n ∧
          (∀ i ∈ sysPos v, ∀ j ∈ sysPos v,
            Relation.ReflTransGen
              (UStep (fast chainTs (SIGN (1 / 50)) |1 / 50|) out.mem (fun x => x ∈ sysPos v))
              i j) ∧
          (∃ i ∈ sysPos v, ∃ j ∈ sysPos v, i ≠ j ∧
            chainTs (out.mem i) (out.mem j) (SIGN (1 / 50)) ≤ |1 / 50|) := by
  refine ⟨?_, C3_components_connected chainTs 6 0 (viewAt0 6 0) (1 / 50) (idStore []) diag0
    (by decide) (by decide) (by decide)⟩
  have h : (split_cc chainTs 6 0 (viewAt0 6 0) (1 / 50) (idStore []) diag0).check
      (fun out => decide ((ccViews out.c).map sys.n = [6] ∧ out.r.n = 0)) = true := by decide!
  obtain ⟨out, hrun, hP⟩ := outcome.of_check h
  exact ⟨out, hrun, of_decide_eq_true hP⟩

theorem C4_witness :
    (∃ out, split_cc oneTightTs 10 0 (viewAt0 10 0) (1 / 10) (idStore []) diag0 = .ok out ∧
        (ccViews out.c).map sys.n = [2] ∧ (ccViews out.c).map (sysIds out.mem) = [[0, 1]] ∧
        out.r.n = 8) ∧
      ∃ out, split_cc oneTightTs 10 0 (viewAt0 10 0) (1 / 10) (idStore []) diag0 = .ok out ∧
        ∀ i ∈ sysPos (viewAt0 10 0), (i ∈ sysPos out.r ↔
          ∀ j ∈ sysPos (viewAt0 10 0), j ≠ i →
            ¬ oneTightTs (out.mem i) (out.mem j) (SIGN (1 / 10)) ≤ |1 / 10|) := by
  refine ⟨?_, C4_rest_is_singletons oneTightTs 10 0 (viewAt0 10 0) (1 / 10) (idStore []) diag0
    (pairTs_symm _ _ _) (by decide) (by decide) (by decide)⟩
  have h : (split_cc oneTightTs 10 0 (viewAt0 10 0) (1 / 10) (idStore []) diag0).check
      (fun out => decide ((ccViews out.c).map sys.n = [2] ∧
        (ccViews out.c).map (sysIds out.mem) = [[0, 1]] ∧ out.r.n = 8)) = true := by decide!
  obtain ⟨out, hrun, hP⟩ := outcome.of_check h
  exact ⟨out, hrun, of_decide_eq_true hP⟩

theorem C2_witness :
    ∃ out, split_cc (pairTs [(0, 1), (2, 3)] (1 / 100) 1) 5 0 (viewAt0 5 0) (1 / 10)
        (idStore []) diag0 = .ok out ∧
      (ccViews out.c).Pairwise (fun va vb => ∀ i ∈ sysPos va, ∀ j ∈ sysPos vb,
        |(1 / 10 : DOUBLE)| ≤ pairTs [(0, 1), (2, 3)] (1 / 100) 1 (out.mem i) (out.mem j)
          (SIGN (1 / 10)) ∧
        |(1 / 10 : DOUBLE)| ≤ pairTs [(0, 1), (2, 3)] (1 / 100) 1 (out.mem j) (out.mem i)
          (SIGN (1 / 10))) ∧
      (∀ v ∈ ccViews out.c, ∀ i ∈ sysPos v, ∀ j ∈ sysPos out.r,
        |(1 / 10 : DOUBLE)| ≤ pairTs [(0, 1), (2, 3)] (1 / 100) 1 (out.mem i) (out.mem j)
          (SIGN (1 / 10)) ∧
        |(1 / 10 : DOUBLE)| ≤ pairTs [(0, 1), (2, 3)] (1 / 100) 1 (out.mem j) (out.mem i)
          (SIGN (1 / 10))) ∧
      (∀ i ∈ sysPos out.r, ∀ j ∈ sysPos out.r, i ≠ j →
        |(1 / 10 : DOUBLE)| ≤ pairTs [(0, 1), (2, 3)] (1 / 100) 1 (out.mem i) (out.mem j)
          (SIGN (1 / 10))) :=
  C2_edge_separation (pairTs [(0, 1), (2, 3)] (1 / 100) 1) 5 0 (viewAt0 5 0) (1 / 10)
    (idStore []) diag0 (pairTs_symm _ _ _) (by decide) (by decide) (by decide)

theorem C5_witness :
    WF (viewAt0 4 2) ∧
      ∃ out, split_cc (pairTs [(1, 3)] (1 / 100) 1) 4 0 (viewAt0 4 2) (1 / 10)
          (idStore [2, 3]) diag0 = .ok out ∧
        ∀ v ∈ ccViews out.c ++ [out.r],
          v.nzero ≤ v.n ∧
          (0 < v.n - v.nzero →
            v.part ≠ none ∧ v.last = v.part.add (((v.n - v.nzero : ℕ) : ℤ) - 1) ∧
            (viewAt0 4 2).part.addr ≤ v.part.addr ∧ v.last.addr ≤ (viewAt0 4 2).last.addr) ∧
          (0 < v.nzero →
            v.zeropart ≠ none ∧ v.lastzero = v.zeropart.add ((v.nzero : ℤ) - 1) ∧
            (viewAt0 4 2).zeropart.addr ≤ v.zeropart.addr ∧
            v.lastzero.addr ≤ (viewAt0 4 2).lastzero.addr) ∧
          (v.n - v.nzero = 0 → v.part = v.zeropart) :=
  ⟨by decide, C5_layout (pairTs [(1, 3)] (1 / 100) 1) 4 0 (viewAt0 4 2) (1 / 10)
    (idStore [2, 3]) diag0 (by decide) (by decide) (by decide)⟩

theorem C6_witness :
    (∃ out, split_cc oneTightTs 8 0 (viewAt0 8 3) (1 / 10) (idStore [5, 6, 7]) diag0 =
          .ok out ∧
        (ccViews out.c).map (fun v => (v.n, v.nzero)) = [(2, 0)] ∧
        out.r.n = 6 ∧ out.r.nzero = 3) ∧
      ∃ out, split_cc oneTightTs 8 0 (viewAt0 8 3) (1 / 10) (idStore [5, 6, 7]) diag0 =
          .ok out ∧
        ∀ v ∈ ccViews out.c ++ [out.r],
          v.nzero = (sysParts out.mem v).countP (fun p => decide (p.mass = 0)) ∧
          (∀ i, i < v.n - v.nzero → 0 < (out.mem (GETPART v i)).mass) ∧
          (∀ i, v.n - v.nzero ≤ i → i < v.n → (out.mem (GETPART v i)).mass = 0) := by
  refine ⟨?_, C6_massless_bookkeeping oneTightTs 8 0 (viewAt0 8 3) (1 / 10)
    (idStore [5, 6, 7]) diag0 (by decide!) (by decide!) (by decide) (by decide) (by decide)⟩
  have h : (split_cc oneTightTs 8 0 (viewAt0 8 3) (1 / 10) (idStore [5, 6, 7]) diag0).check
      (fun out => decide ((ccViews out.c).map (fun v => (v.n, v.nzero)) = [(2, 0)] ∧
        out.r.n = 6 ∧ out.r.nzero = 3)) = true := by decide!
  obtain ⟨out, hrun, hP⟩ := outcome.of_check h
  exact ⟨out, hrun, of_decide_eq_true hP⟩

theorem C7_witness :
    WF (viewAt0 3 1) ∧
      ∃ out, split_cc (pairTs [(0, 2)] (1 / 100) 1) 3 0 (viewAt0 3 1) (1 / 10) (idStore [2])
          diag0 = .ok out ∧
        ∀ v ∈ ccViews out.c, WF v ∧ 2 ≤ v.n ∧
          ∀ (fuel1 : ℕ) (clevel1 : ℤ) (dt1 : DOUBLE) (mem1 : Mem) (diag1 : diagnostics),
            v.n ≤ fuel1 → ∃ out1, split_cc (pairTs [(0, 2)] (1 / 100) 1) fuel1 clevel1 v dt1
              mem1 diag1 = .ok out1 :=
  ⟨by decide, C7_components_are_views (pairTs [(0, 2)] (1 / 100) 1) 3 0 (viewAt0 3 1) (1 / 10)
    (idStore [2]) diag0 (by decide) (by decide) (by decide)⟩

theorem C8_witness :
    WF gapView ∧ gapView.zeropart ≠ gapView.last.add 1 ∧
      ∃ out, split_cc (pairTs [(0, 5)] (1 / 100) 1) 2 0 gapView (1 / 10) (idStore [5]) diag0 =
        .ok out :=
  ⟨by decide, by decide, C8_noncontiguous_accepted (pairTs [(0, 5)] (1 / 100) 1) 2 0 gapView
    (1 / 10) (idStore [5]) diag0 (by decide) (by decide) (by decide) (by decide) (by decide)⟩

theorem C9_witness :
    WF (viewAt0 1 0) ∧ WF (viewAt0 2 0) ∧
      split_cc oneTightTs 2 0 (viewAt0 1 0) (1 / 10) (idStore []) diag0 =
        .fatal .not_right (idStore []) ∧
      ∃ out, split_cc oneTightTs 2 0 (viewAt0 2 0) (1 / 10) (idStore []) diag0 = .ok out :=
  ⟨by decide, by decide,
    (C9_abort_iff_small oneTightTs 2 0 (viewAt0 1 0) (1 / 10) (idStore []) diag0 (by decide)
      (by decide)).1 (by decide),
    (C9_abort_iff_small oneTightTs 2 0 (viewAt0 2 0) (1 / 10) (idStore []) diag0 (by decide)
      (by decide)).2.1 (by decide)⟩

theorem C10_witness :
    WF (viewAt0 4 1) ∧
      ∃ out, split_cc (pairTs [(0, 3)] (1 / 100) 1) 4 0 (viewAt0 4 1) (1 / 10) (idStore [3])
        diag0 = .ok out ∧ out.processed = (viewAt0 4 1).n :=
  ⟨by decide, (C10_termination (pairTs [(0, 3)] (1 / 100) 1) 4 0 (viewAt0 4 1) (1 / 10)
    (idStore [3]) diag0 (by decide) (by decide) (by decide)).1⟩

/-! ## The verifiers of a split -/

theorem loopE_ok {α ε : Type} (l : List α) (f : α → Except ε Unit) :
    loopE l f = .ok () ↔ ∀ a ∈ l, f a = .ok () := by
  unfold loopE
  induction l with
  | nil => simp [foldE]
  | cons a t ih =>
    simp only [foldE, List.mem_cons, forall_eq_or_imp]
    cases h : f a with
    | ok u => simp [ih]
    | error e => simp

theorem except_unit_cases {ε : Type} (x : Except ε Unit) : x = .ok () ∨ ∃ e, x = .error e := by
  cases x with
  | ok u => exact Or.inl rfl
  | error e => exact Or.inr ⟨e, rfl⟩

/-- C19 (time-step verifier): `split_cc_verify_ts` returns normally exactly when
`timestep_ij(p, q, dir) >= |dt|` for every pair of a particle `p` of a component and a
particle `q` of another component of the list, for every pair of a particle `p` of a
component and a particle `q` of `r`, and for every pair `p`, `q` of particles of `r` at two
different indices; it ends in `ENDRUN` exactly when one such pair has
`timestep_ij(p, q, dir) < |dt|`. -/
theorem C19_verify_ts (ts : particle → particle → ℤ → DOUBLE) (mem : Mem) (c r : sys)
    (dt : DOUBLE) :
    (split_cc_verify_ts ts mem c r dt = .ok () ↔
      (∀ (a b : ℕ) (ci cj : sys), (ccViews c)[a]? = some ci → (ccViews c)[b]? = some cj → a ≠ b →
        ∀ i < ci.n, ∀ j < cj.n,
          |dt| ≤ ts (mem (GETPART ci i)) (mem (GETPART cj j)) (SIGN dt)) ∧
      (∀ ci ∈ ccViews c, ∀ i < ci.n, ∀ j < r.n,
          |dt| ≤ ts (mem (GETPART ci i)) (mem (GETPART r j)) (SIGN dt)) ∧
      (∀ i < r.n, ∀ j < r.n, i ≠ j →
          |dt| ≤ ts (mem (GETPART r i)) (mem (GETPART r j)) (SIGN dt))) ∧
    ((∃ e, split_cc_verify_ts ts mem c r dt = .error e) ↔
      (∃ (a b : ℕ) (ci cj : sys), (ccViews c)[a]? = some ci ∧ (ccViews c)[b]? = some cj ∧ a ≠ b ∧
        ∃ i < ci.n, ∃ j < cj.n,
          ts (mem (GETPART ci i)) (mem (GETPART cj j)) (SIGN dt) < |dt|) ∨
      (∃ ci ∈ ccViews c, ∃ i < ci.n, ∃ j < r.n,
          ts (mem (GETPART ci i)) (mem (GETPART r j)) (SIGN dt) < |dt|) ∨
      (∃ i < r.n, ∃ j < r.n, i ≠ j ∧
          ts (mem (GETPART r i)) (mem (GETPART r j)) (SIGN dt) < |dt|)) := by
  have key : split_cc_verify_ts ts mem c r dt = .ok () ↔
      (∀ (a b : ℕ) (ci cj : sys), (ccViews c)[a]? = some ci → (ccViews c)[b]? = some cj → a ≠ b →
        ∀ i < ci.n, ∀ j < cj.n,
          |dt| ≤ ts (mem (GETPART ci i)) (mem (GETPART cj j)) (SIGN dt)) ∧
      (∀ ci ∈ ccViews c, ∀ i < ci.n, ∀ j < r.n,
          |dt| ≤ ts (mem (GETPART ci i)) (mem (GETPART r j)) (SIGN dt)) ∧
      (∀ i < r.n, ∀ j < r.n, i ≠ j →
          |dt| ≤ ts (mem (GETPART r i)) (mem (GETPART r j)) (SIGN dt)) := by
    have h1 : loopE (ccViews c).enum (fun ci => loopE (List.range ci.2.n) (fun i =>
        loopE (ccViews c).enum (fun cj =>
          if ci.1 = cj.1 then (.ok () : Except verify_end Unit)
          else loopE (List.range cj.2.n) (fun j =>
            if |dt| > ts (mem (GETPART ci.2 i)) (mem (GETPART cj.2 j)) (SIGN dt) then
              .error .cc_underflow
            else .ok ())))) = .ok () ↔
        (∀ (a b : ℕ) (ci cj : sys), (ccViews c)[a]? = some ci → (ccViews c)[b]? = some cj →
          a ≠ b → ∀ i < ci.n, ∀ j < cj.n,
            |dt| ≤ ts (mem (GETPART ci i)) (mem (GETPART cj j)) (SIGN dt)) := by
      rw [loopE_ok]
      constructor
      · intro h a b ci cj ha hb hab i hi j hj
        have h2 := (loopE_ok _ _).1 (h (a, ci) (List.mk_mem_enum_iff_getElem?.2 ha)) i
          (List.mem_range.2 hi)
        have h3 := (loopE_ok _ _).1 h2 (b, cj) (List.mk_mem_enum_iff_getElem?.2 hb)
        rw [if_neg hab] at h3
        have h4 := (loopE_ok _ _).1 h3 j (List.mem_range.2 hj)
        by_contra hlt
        rw [if_pos (not_le.1 hlt)] at h4
        cases h4
      · rintro h ⟨a, ci⟩ ha
        rw [loopE_ok]
        intro i hi
        rw [loopE_ok]
        rintro ⟨b, cj⟩ hb
        by_cases hab : a = b
        · rw [if_pos hab]
        · rw [if_neg hab, loopE_ok]
          intro j hj
          have := h a b ci cj (List.mk_mem_enum_iff_getElem?.1 ha)
            (List.mk_mem_enum_iff_getElem?.1 hb) hab i (List.mem_range.1 hi) j
            (List.mem_range.1 hj)
          rw [if_neg (not_lt.2 this)]
    have h2 : loopE (ccViews c).enum (fun ci => loopE (List.range ci.2.n) (fun i =>
        loopE (List.range r.n) (fun j =>
          if ts (mem (GETPART ci.2 i)) (mem (GETPART r j)) (SIGN dt) < |dt| then
            (.error .cr_underflow : Except verify_end Unit)
          else .ok ()))) = .ok () ↔
        (∀ ci ∈ ccViews c, ∀ i < ci.n, ∀ j < r.n,
          |dt| ≤ ts (mem (GETPART ci i)) (mem (GETPART r j)) (SIGN dt)) := by
      rw [loopE_ok]
      constructor
      · intro h ci hci i hi j hj
        obtain ⟨a, ha⟩ := List.getElem?_of_mem hci
        have h2 := (loopE_ok _ _).1 (h (a, ci) (List.mk_mem_enum_iff_getElem?.2 ha)) i
          (List.mem_range.2 hi)
        have h4 := (loopE_ok _ _).1 h2 j (List.mem_range.2 hj)
        by_contra hlt
        rw [if_pos (not_le.1 hlt)] at h4
        cases h4
      · rintro h ⟨a, ci⟩ ha
        rw [loopE_ok]
        intro i hi
        rw [loopE_ok]
        intro j hj
        have := h ci (List.getElem?_mem (List.mk_mem_enum_iff_getElem?.1 ha)) i
          (List.mem_range.1 hi) j (List.mem_range.1 hj)
        rw [if_neg (not_lt.2 this)]
    have h3 : loopE (List.range r.n) (fun i => loopE (List.range r.n) (fun j =>
        if i = j then (.ok () : Except verify_end Unit)
        else if ts (mem (GETPART r i)) (mem (GETPART r j)) (SIGN dt) < |dt| then
          .error .rr_underflow
        else .ok ())) = .ok () ↔
        (∀ i < r.n, ∀ j < r.n, i ≠ j →
          |dt| ≤ ts (mem (GETPART r i)) (mem (GETPART r j)) (SIGN dt)) := by
      rw [loopE_ok]
      constructor
      · intro h i hi j hj hij
        have h4 := (loopE_ok _ _).1 (h i (List.mem_range.2 hi)) j (List.mem_range.2 hj)
        rw [if_neg hij] at h4
        by_contra hlt
        rw [if_pos (not_le.1 hlt)] at h4
        cases h4
      · intro h i hi
        rw [loopE_ok]
        intro j hj
        by_cases hij : i = j
        · rw [if_pos hij]
        · rw [if_neg hij, if_neg (not_lt.2 (h i (List.mem_range.1 hi) j (List.mem_range.1 hj)
            hij))]
    rw [← h1, ← h2, ← h3]
    unfold split_cc_verify_ts
    simp only []
    rcases except_unit_cases (loopE (ccViews c).enum (fun ci => loopE (List.range ci.2.n)
        (fun i => loopE (ccViews c).enum (fun cj =>
          if ci.1 = cj.1 then (.ok () : Except verify_end Unit)
          else loopE (List.range cj.2.n) (fun j =>
            if |dt| > ts (mem (GETPART ci.2 i)) (mem (GETPART cj.2 j)) (SIGN dt) then
              .error .cc_underflow
            else .ok ()))))) with e1 | ⟨e, e1⟩
    · rw [e1]
      simp only [true_and]
      rcases except_unit_cases (loopE (ccViews c).enum (fun ci =>
          loopE (List.range ci.2.n) (fun i => loopE (List.range r.n) (fun j =>
            if ts (mem (GETPART ci.2 i)) (mem (GETPART r j)) (SIGN dt) < |dt| then
              (.error .cr_underflow : Except verify_end Unit)
            else .ok ())))) with e2 | ⟨e, e2⟩
      · rw [e2]
        simp only [true_and]
      · rw [e2]
        simp
    · rw [e1]
      simp
  refine ⟨key, ?_⟩
  rcases except_unit_cases (split_cc_verify_ts ts mem c r dt) with e1 | ⟨e, e1⟩
  · have hk := key.1 e1
    rw [e1]
    constructor
    · rintro ⟨e, he⟩
      cases he
    · rintro (⟨a, b, ci, cj, ha, hb, hab, i, hi, j, hj, hlt⟩ | ⟨ci, hci, i, hi, j, hj, hlt⟩ |
        ⟨i, hi, j, hj, hij, hlt⟩)
      · exact absurd (hk.1 a b ci cj ha hb hab i hi j hj) (not_le.2 hlt)
      · exact absurd (hk.2.1 ci hci i hi j hj) (not_le.2 hlt)
      · exact absurd (hk.2.2 i hi j hj hij) (not_le.2 hlt)
  · have hk : ¬ _ := fun h => by
      have := key.2 h
      rw [e1] at this
      cases this
    refine ⟨fun _ => ?_, fun _ => ⟨e, e1⟩⟩
    by_contra hno
    push_neg at hno
    exact hk ⟨fun a b ci cj ha hb hab i hi j hj => hno.1 a b ci cj ha hb hab i hi j hj,
      fun ci hci i hi j hj => hno.2.1 ci hci i hi j hj,
      fun i hi j hj hij => hno.2.2 i hi j hj hij⟩

theorem foldl_count (mem : Mem) (pid : ℕ) (g : ℕ → ℤ) : ∀ (l : List ℕ) (f0 : ℕ),
    l.foldl (fun f k => if pid = (mem (g k)).id then f + 1 else f) f0 =
      f0 + ((l.map g).map mem).countP (fun q => decide (pid = q.id))
  | [], f0 => by simp
  | k :: t, f0 => by
    rw [List.foldl_cons, foldl_count mem pid g t, List.map_cons, List.map_cons,
      List.countP_cons]
    by_cases h : pid = (mem (g k)).id
    · simp [h]; omega
    · simp [h]

theorem count_found_eq (mem : Mem) (pid : ℕ) (v : sys) (f0 : ℕ) :
    count_found mem pid v f0 = f0 + idCount mem pid [v] := by
  unfold count_found idCount sysParts sysPos
  rw [foldl_count]
  simp

theorem idCount_cons (mem : Mem) (pid : ℕ) (v : sys) (vs : List sys) :
    idCount mem pid (v :: vs) = idCount mem pid [v] + idCount mem pid vs := by
  unfold idCount
  simp [List.flatMap_cons, List.countP_append]

theorem idCount_append (mem : Mem) (pid : ℕ) (us vs : List sys) :
    idCount mem pid (us ++ vs) = idCount mem pid us + idCount mem pid vs := by
  unfold idCount
  simp [List.flatMap_append, List.countP_append]

theorem verify_cc_ok (zm : Mem → sys → Bool) (mem : Mem) (pid : ℕ) (acc : ℕ × ℕ) (cj : sys)
    (h : viewOk zm mem cj) :
    verify_cc zm mem pid acc cj = .ok (acc.1 + cj.n, acc.2 + idCount mem pid [cj]) := by
  obtain ⟨h1, h2, h3⟩ := h
  unfold verify_cc
  rw [if_neg (by simp [h1])]
  simp only []
  rw [if_neg (fun hh => hh.2 (h2 hh.1).symm), if_neg (fun hh => hh.2 (h3 hh.1).symm),
    count_found_eq]

theorem verify_cc_error (zm : Mem → sys → Bool) (mem : Mem) (pid : ℕ) (acc : ℕ × ℕ)
    (cj : sys) (h : ¬ viewOk zm mem cj) : ∃ e, verify_cc zm mem pid acc cj = .error e := by
  unfold verify_cc
  by_cases h1 : zm mem cj = false
  · exact ⟨_, if_pos h1⟩
  · rw [if_neg h1]
    simp only []
    by_cases h2 : cj.n - cj.nzero > 0 ∧ some (GETPART cj (cj.n - cj.nzero - 1)) ≠ cj.last
    · exact ⟨_, if_pos h2⟩
    · rw [if_neg h2]
      by_cases h3 : cj.nzero > 0 ∧ some (GETPART cj (cj.n - 1)) ≠ cj.lastzero
      · exact ⟨_, if_pos h3⟩
      · exfalso
        refine h ⟨by simpa using h1, fun hp => ?_, fun hp => ?_⟩
        · by_contra hne
          exact h2 ⟨hp, fun e => hne e.symm⟩
        · by_contra hne
          exact h3 ⟨hp, fun e => hne e.symm⟩

theorem verify_cc_fold_ok (zm : Mem → sys → Bool) (mem : Mem) (pid : ℕ) :
    ∀ (l : List sys) (acc : ℕ × ℕ), (∀ cj ∈ l, viewOk zm mem cj) →
      foldE l acc (verify_cc zm mem pid) =
        .ok (acc.1 + (l.map sys.n).sum, acc.2 + idCount mem pid l)
  | [], acc, _ => by simp [foldE, idCount]
  | cj :: t, acc, h => by
    rw [foldE, verify_cc_ok zm mem pid acc cj (h cj (List.mem_cons_self _ _))]
    simp only []
    rw [verify_cc_fold_ok zm mem pid t _ (fun x hx => h x (List.mem_cons_of_mem _ hx)),
      idCount_cons mem pid cj t]
    simp only [List.map_cons, List.sum_cons, Nat.add_assoc]

theorem verify_cc_fold_error (zm : Mem → sys → Bool) (mem : Mem) (pid : ℕ) :
    ∀ (l : List sys) (acc : ℕ × ℕ), (∃ cj ∈ l, ¬ viewOk zm mem cj) →
      ∃ e, foldE l acc (verify_cc zm mem pid) = .error e
  | [], acc, h => by simp at h
  | cj :: t, acc, h => by
    rw [foldE]
    by_cases hc : viewOk zm mem cj
    · rw [verify_cc_ok zm mem pid acc cj hc]
      simp only []
      obtain ⟨x, hx, hbad⟩ := h
      rcases List.mem_cons.1 hx with e | hx
      · rw [e] at hbad
        exact absurd hc hbad
      · exact verify_cc_fold_error zm mem pid t _ ⟨x, hx, hbad⟩
    · obtain ⟨e, he⟩ := verify_cc_error zm mem pid acc cj hc
      rw [he]
      exact ⟨e, rfl⟩

theorem verify_particle_ok (zm : Mem → sys → Bool) (smem : Mem) (s : sys) (mem : Mem)
    (c r : sys) (pc0 i : ℕ) (h : particleOk zm smem s mem c r i) :
    verify_particle zm smem s mem c r pc0 i = .ok (((ccViews c).map sys.n).sum) := by
  obtain ⟨h1, h2, h3⟩ := h
  unfold verify_particle
  simp only []
  rw [verify_cc_fold_ok zm mem _ (ccViews c) (0, 0) h1]
  simp only []
  rw [if_neg (by simp [h2]), count_found_eq, Nat.zero_add, ← idCount_append, if_neg (by simp [h3]),
    Nat.zero_add]

theorem verify_particle_error (zm : Mem → sys → Bool) (smem : Mem) (s : sys) (mem : Mem)
    (c r : sys) (pc0 i : ℕ) (h : ¬ particleOk zm smem s mem c r i) :
    ∃ e, verify_particle zm smem s mem c r pc0 i = .error e := by
  unfold verify_particle
  simp only []
  by_cases h1 : ∀ cj ∈ ccViews c, viewOk zm mem cj
  · rw [verify_cc_fold_ok zm mem _ (ccViews c) (0, 0) h1]
    simp only []
    by_cases h2 : zm mem r = false
    · exact ⟨_, if_pos h2⟩
    · rw [if_neg h2, count_found_eq, Nat.zero_add, ← idCount_append]
      by_cases h3 : idCount mem (smem (GETPART s i)).id (ccViews c ++ [r]) ≠ 1
      · exact ⟨_, if_pos h3⟩
      · exact absurd ⟨h1, by simpa using h2, by simpa using h3⟩ h
  · push_neg at h1
    obtain ⟨e, he⟩ := verify_cc_fold_error zm mem (smem (GETPART s i)).id (ccViews c) (0, 0) h1
    rw [he]
    exact ⟨e, rfl⟩

theorem foldE_const_ok {α σ ε : Type} (f : σ → α → Except ε σ) (v : σ) :
    ∀ (l : List α) (s0 : σ), l ≠ [] → (∀ a ∈ l, ∀ s, f s a = .ok v) → foldE l s0 f = .ok v
  | [], _, h, _ => absurd rfl h
  | a :: t, s0, _, h => by
    rw [foldE, h a (List.mem_cons_self _ _)]
    simp only []
    cases t with
    | nil => rfl
    | cons b u =>
      exact foldE_const_ok f v (b :: u) v (by simp) (fun x hx => h x (List.mem_cons_of_mem _ hx))

theorem foldE_error {α σ ε : Type} (f : σ → α → Except ε σ) :
    ∀ (l : List α) (s0 : σ), (∃ a ∈ l, ∀ s, ∃ e, f s a = .error e) →
      ∃ e, foldE l s0 f = .error e
  | [], _, h => by simp at h
  | a :: t, s0, h => by
    rw [foldE]
    cases hfa : f s0 a with
    | error e => exact ⟨e, rfl⟩
    | ok s1 =>
      simp only []
      obtain ⟨x, hx, hbad⟩ := h
      rcases List.mem_cons.1 hx with e | hx
      · rw [e] at hbad
        obtain ⟨e1, he1⟩ := hbad s0
        rw [hfa] at he1
        cases he1
      · exact foldE_error f t s1 ⟨x, hx, hbad⟩

theorem split_cc_verify_iff (zm : Mem → sys → Bool) (smem : Mem) (s : sys) (mem : Mem)
    (c r : sys) (hs : 1 ≤ s.n) :
    split_cc_verify zm smem s mem c r = .ok () ↔
      (∀ i < s.n, particleOk zm smem s mem c r i) ∧
        ((ccViews c).map sys.n).sum + r.n = s.n := by
  unfold split_cc_verify
  by_cases hall : ∀ i < s.n, particleOk zm smem s mem c r i
  · rw [foldE_const_ok (verify_particle zm smem s mem c r) (((ccViews c).map sys.n).sum)
      (List.range s.n) 0 (by
        intro h
        have := congrArg List.length h
        simp at this
        omega)
      (fun i hi pc0 => verify_particle_ok zm smem s mem c r pc0 i
        (hall i (List.mem_range.1 hi)))]
    simp only []
    by_cases hsum : ((ccViews c).map sys.n).sum + r.n = s.n
    · simp only [hsum, ne_eq, not_true_eq_false, if_false, and_true, true_iff]
      exact hall
    · simp [hsum]
  · have hall2 := hall
    push_neg at hall2
    obtain ⟨i, hi, hbad⟩ := hall2
    obtain ⟨e, he⟩ := foldE_error (verify_particle zm smem s mem c r) (List.range s.n) 0
      ⟨i, List.mem_range.2 hi, fun pc0 => verify_particle_error zm smem s mem c r pc0 i hbad⟩
    rw [he]
    simp only []
    constructor
    · intro h; cases h
    · intro h; exact absurd h.1 hall

theorem idCount_one_pos (mem : Mem) (pid : ℕ) (v : sys) :
    0 < idCount mem pid [v] ↔ pid ∈ (sysParts mem v).map particle.id := by
  unfold idCount
  rw [List.flatMap_cons, List.flatMap_nil, List.append_nil, List.countP_pos_iff, List.mem_map]
  constructor
  · rintro ⟨q, hq, e⟩
    exact ⟨q, hq, (of_decide_eq_true e).symm⟩
  · rintro ⟨q, hq, e⟩
    exact ⟨q, hq, decide_eq_true e.symm⟩

theorem holders_le (mem : Mem) (pid : ℕ) : ∀ vs : List sys,
    (vs.filter (fun v => decide (pid ∈ (sysParts mem v).map particle.id))).length ≤
        idCount mem pid vs ∧
      (0 < idCount mem pid vs →
        0 < (vs.filter (fun v => decide (pid ∈ (sysParts mem v).map particle.id))).length)
  | [] => by simp [idCount]
  | v :: t => by
    obtain ⟨ih1, ih2⟩ := holders_le mem pid t
    have hp := idCount_one_pos mem pid v
    rw [idCount_cons, List.filter_cons]
    by_cases hv : pid ∈ (sysParts mem v).map particle.id
    · have := hp.2 hv
      simp only [hv, decide_True, if_true, List.length_cons]
      exact ⟨by omega, fun _ => by omega⟩
    · have : ¬ 0 < idCount mem pid [v] := fun h => hv (hp.1 h)
      simp only [hv, decide_False, Bool.false_eq_true, if_false]
      exact ⟨by omega, fun h => ih2 (by omega)⟩

/-- C20 (membership verifier): on a snapshot `s` of at least one particle `split_cc_verify`
ends in `ENDRUN` whenever the id of a particle of `s` does not occur exactly once among the
particles of the views of `c` and of `r`, whenever the sizes of these views do not add up to
`s.n`, and whenever the `last` or the `lastzero` pointer of a component is not the address of
its last massive or last massless particle; when it returns, the id of every particle of `s`
occurs once, and in exactly one of the views. -/
theorem C20_verify_membership (zm : Mem → sys → Bool) (smem : Mem) (s : sys) (mem : Mem)
    (c r : sys) (hs : 1 ≤ s.n) :
    ((∃ i < s.n, idCount mem (smem (GETPART s i)).id (ccViews c ++ [r]) ≠ 1) →
        ∃ e, split_cc_verify zm smem s mem c r = .error e) ∧
      (((ccViews c).map sys.n).sum + r.n ≠ s.n →
        ∃ e, split_cc_verify zm smem s mem c r = .error e) ∧
      ((∃ cj ∈ ccViews c,
          (0 < cj.n - cj.nzero ∧ cj.last ≠ some (GETPART cj (cj.n - cj.nzero - 1))) ∨
          (0 < cj.nzero ∧ cj.lastzero ≠ some (GETPART cj (cj.n - 1)))) →
        ∃ e, split_cc_verify zm smem s mem c r = .error e) ∧
      (split_cc_verify zm smem s mem c r = .ok () →
        ∀ i < s.n, idCount mem (smem (GETPART s i)).id (ccViews c ++ [r]) = 1 ∧
          ((ccViews c ++ [r]).filter (fun v =>
            decide ((smem (GETPART s i)).id ∈ (sysParts mem v).map particle.id))).length =
            1) := by
  have hiff := split_cc_verify_iff zm smem s mem c r hs
  have herr : ¬ split_cc_verify zm smem s mem c r = .ok () →
      ∃ e, split_cc_verify zm smem s mem c r = .error e := by
    intro h
    rcases except_unit_cases (split_cc_verify zm smem s mem c r) with e | e
    · exact absurd e h
    · exact e
  refine ⟨?_, ?_, ?_, ?_⟩
  · rintro ⟨i, hi, hne⟩
    exact herr (fun hok => hne ((hiff.1 hok).1 i hi).2.2)
  · intro hne
    exact herr (fun hok => hne (hiff.1 hok).2)
  · rintro ⟨cj, hcj, hbad⟩
    refine herr (fun hok => ?_)
    obtain ⟨_, h2, h3⟩ := ((hiff.1 hok).1 0 (by omega)).1 cj hcj
    rcases hbad with ⟨hp, hne⟩ | ⟨hp, hne⟩
    · exact hne (h2 hp)
    · exact hne (h3 hp)
  · intro hok i hi
    have h1 := ((hiff.1 hok).1 i hi).2.2
    obtain ⟨a, b⟩ := holders_le mem (smem (GETPART s i)).id (ccViews c ++ [r])
    exact ⟨h1, by omega⟩

/-! ## One frame of the evolver -/

theorem ext_trace (B : build) (k : call) (st : frame_out) :
    (ext B k st).trace = st.trace ++ [k] := rfl

theorem ext_diag (B : build) (k : call) (st : frame_out) : (ext B k st).diag = st.diag := rfl

theorem foldl_trace {α : Type} (g : frame_out → α → frame_out) (h : α → List call)
    (hg : ∀ st a, (g st a).trace = st.trace ++ h a) : ∀ (l : List α) (st : frame_out),
    (l.foldl g st).trace = st.trace ++ l.flatMap h
  | [], st => by simp
  | a :: t, st => by
    rw [List.foldl_cons, foldl_trace g h hg t, hg, List.flatMap_cons, List.append_assoc]

theorem foldl_diag {α : Type} (g : frame_out → α → frame_out)
    (hg : ∀ st a, (g st a).diag = st.diag) : ∀ (l : List α) (st : frame_out),
    (l.foldl g st).diag = st.diag
  | [], st => rfl
  | a :: t, st => by rw [List.foldl_cons, foldl_diag g hg t, hg]

theorem evolve_child_trace (B : build) (clevel : ℤ) (s : sys) (nc : ℕ) (t0 t1 h : DOUBLE)
    (inttype : inttag) (recentersub : ℤ) (st : frame_out) (ci : sys) :
    (evolve_child B clevel s nc t0 t1 h inttype recentersub st ci).trace =
      st.trace ++ [call.evolve_cc2 (clevel + 1) ci t0 t1 h inttype recentersub
        (B.OPENMP && TASKCONDITION nc s)] := by
  unfold evolve_child
  by_cases hc : (B.OPENMP && TASKCONDITION nc s) = true
  · rw [if_pos hc, hc]; rfl
  · rw [if_neg hc, Bool.eq_false_iff.2 hc]; rfl

theorem kick_cc_trace (B : build) (clevel : ℤ) (dt : DOUBLE) (cs : List (ℕ × sys))
    (st : frame_out) :
    (kick_cc B clevel dt cs st).trace = st.trace ++ cs.flatMap (fun ci => cs.flatMap (fun cj =>
      if ci.1 ≠ cj.1 then [call.kick clevel ci.2 cj.2 dt] else [])) := by
  unfold kick_cc
  refine foldl_trace _ _ (fun st1 ci => ?_) cs st
  refine foldl_trace _ _ (fun st2 cj => ?_) cs st1
  by_cases h : ci.1 ≠ cj.1
  · rw [if_pos h, if_pos h]; rfl
  · rw [if_neg h, if_neg h, List.append_nil]

theorem kick_cc_diag (B : build) (clevel : ℤ) (dt : DOUBLE) (cs : List (ℕ × sys))
    (st : frame_out) : (kick_cc B clevel dt cs st).diag = st.diag := by
  unfold kick_cc
  refine foldl_diag _ (fun st1 ci => ?_) cs st
  refine foldl_diag _ (fun st2 cj => ?_) cs st1
  by_cases h : ci.1 ≠ cj.1
  · rw [if_pos h]; rfl
  · rw [if_neg h]

theorem kick_cr_trace (B : build) (clevel : ℤ) (dt : DOUBLE) (r : sys) (cs : List sys)
    (st : frame_out) :
    (kick_cr B clevel dt r cs st).trace = st.trace ++
      cs.flatMap (fun ci => [call.kick clevel r ci dt, call.kick clevel ci r dt]) := by
  unfold kick_cr
  refine foldl_trace _ _ (fun st1 ci => ?_) cs st
  simp [ext_trace]

theorem kick_cr_diag (B : build) (clevel : ℤ) (dt : DOUBLE) (r : sys) (cs : List sys)
    (st : frame_out) : (kick_cr B clevel dt r cs st).diag = st.diag := by
  unfold kick_cr
  refine foldl_diag _ (fun st1 ci => ?_) cs st
  rfl

theorem children_trace (B : build) (clevel : ℤ) (s : sys) (nc : ℕ) (t0 t1 h : DOUBLE)
    (inttype : inttag) (recentersub : ℤ) (cs : List sys) (st : frame_out) :
    (cs.foldl (evolve_child B clevel s nc t0 t1 h inttype recentersub) st).trace =
      st.trace ++ cs.map (fun ci => call.evolve_cc2 (clevel + 1) ci t0 t1 h inttype
        recentersub (B.OPENMP && TASKCONDITION nc s)) := by
  rw [foldl_trace _ (fun ci => [call.evolve_cc2 (clevel + 1) ci t0 t1 h inttype
    recentersub (B.OPENMP && TASKCONDITION nc s)])
    (fun st1 ci => evolve_child_trace B clevel s nc t0 t1 h inttype recentersub st1 ci)]
  congr 1
  induction cs with
  | nil => rfl
  | cons a t ih => simp [List.flatMap_cons, ih]

theorem rest_and_kicks_trace (B : build) (clevel : ℤ) (stime etime dt : DOUBLE) (c r : sys)
    (st : frame_out) :
    (rest_and_kicks B clevel stime etime dt c r st).trace = st.trace ++
      ((if r.n > 0 then [call.drift clevel r (stime + dt / 2) (dt / 2)] else []) ++
        (ccViews c).enum.flatMap (fun ci => (ccViews c).enum.flatMap (fun cj =>
          if ci.1 ≠ cj.1 then [call.kick clevel ci.2 cj.2 dt] else [])) ++
        (if r.n > 0 then
          (ccViews c).flatMap (fun ci => [call.kick clevel r ci dt, call.kick clevel ci r dt]) ++
            [call.kick clevel r r dt, call.drift clevel r etime (dt / 2)]
        else [])) := by
  unfold rest_and_kicks
  by_cases hr : r.n > 0
  · simp only [hr, if_true, ext_trace, kick_cr_trace, kick_cc_trace, List.append_assoc]
    rfl
  · simp only [hr, if_false, kick_cc_trace, List.append_nil, List.nil_append]

theorem rest_and_kicks_diag (B : build) (clevel : ℤ) (stime etime dt : DOUBLE) (c r : sys)
    (st : frame_out) : (rest_and_kicks B clevel stime etime dt c r st).diag = st.diag := by
  unfold rest_and_kicks
  by_cases hr : r.n > 0
  · simp only [hr, if_true, ext_diag, kick_cr_diag, kick_cc_diag]
  · simp only [hr, if_false, kick_cc_diag]

/-- The trace of the scheme is the schedule. -/
theorem scheme_trace (B : build) (clevel : ℤ) (s : sys) (stime etime dt : DOUBLE)
    (inttype : inttag) (ccc : Bool) (c r : sys) (st : frame_out) :
    (evolve_cc2_scheme B clevel s stime etime dt inttype ccc c r st).trace =
      st.trace ++ schedule clevel s stime etime dt inttype
        (B.OPENMP && TASKCONDITION (ccViews c).length s) ccc c r := by
  unfold evolve_cc2_scheme schedule recentersub_of
  simp only [ext_trace]
  have e0 : (if IS_ZEROSYS c = true then
      ({ st with diag := { st.diag with deepsteps := st.diag.deepsteps + 1,
                                        simtime := st.diag.simtime + dt } } : frame_out)
      else st).trace = st.trace := by
    by_cases hz : IS_ZEROSYS c = true
    · rw [if_pos hz]
    · rw [if_neg hz]
  by_cases hc : ccc = true
  · simp only [hc, if_true, ext_trace, children_trace, rest_and_kicks_trace, e0,
      List.append_assoc]
  · simp only [hc, if_false, children_trace, rest_and_kicks_trace, e0, List.append_assoc,
      List.nil_append, Bool.false_eq_true]

theorem children_ntasks (B : build) (clevel : ℤ) (s : sys) (nc : ℕ) (t0 t1 h : DOUBLE)
    (inttype : inttag) (recentersub : ℤ) : ∀ (cs : List sys) (st : frame_out),
    (cs.foldl (evolve_child B clevel s nc t0 t1 h inttype recentersub) st).diag.ntasks clevel =
      st.diag.ntasks clevel +
        (if (B.OPENMP && TASKCONDITION nc s) = true then cs.length else 0)
  | [], st => by simp
  | ci :: t, st => by
    rw [List.foldl_cons, children_ntasks B clevel s nc t0 t1 h inttype recentersub t]
    unfold evolve_child
    by_cases hc : (B.OPENMP && TASKCONDITION nc s) = true
    · simp only [hc, if_true, ext_diag, diagnostics.task_add, List.length_cons]
      omega
    · simp only [hc, if_false, ext_diag, Bool.false_eq_true]

theorem children_taskcount (B : build) (clevel : ℤ) (s : sys) (nc : ℕ) (t0 t1 h : DOUBLE)
    (inttype : inttag) (recentersub : ℤ) : ∀ (cs : List sys) (st : frame_out),
    (cs.foldl (evolve_child B clevel s nc t0 t1 h inttype recentersub) st).diag.taskcount
        clevel =
      st.diag.taskcount clevel +
        (if (B.OPENMP && TASKCONDITION nc s) = true then (cs.map sys.n).sum else 0)
  | [], st => by simp
  | ci :: t, st => by
    rw [List.foldl_cons, children_taskcount B clevel s nc t0 t1 h inttype recentersub t]
    unfold evolve_child
    by_cases hc : (B.OPENMP && TASKCONDITION nc s) = true
    · simp only [hc, if_true, ext_diag, diagnostics.task_add, List.map_cons, List.sum_cons]
      omega
    · simp only [hc, if_false, ext_diag, Bool.false_eq_true]

/-- The task counters of level `clevel` after the scheme. -/
theorem scheme_tasks (B : build) (clevel : ℤ) (s : sys) (stime etime dt : DOUBLE)
    (inttype : inttag) (ccc : Bool) (c r : sys) (st : frame_out) :
    ((evolve_cc2_scheme B clevel s stime etime dt inttype ccc c r st).diag.ntasks clevel =
        st.diag.ntasks clevel +
          (if (B.OPENMP && TASKCONDITION (ccViews c).length s) = true then
            2 * (ccViews c).length else 0)) ∧
      ((evolve_cc2_scheme B clevel s stime etime dt inttype ccc c r st).diag.taskcount clevel =
        st.diag.taskcount clevel +
          (if (B.OPENMP && TASKCONDITION (ccViews c).length s) = true then
            2 * ((ccViews c).map sys.n).sum else 0)) := by
  unfold evolve_cc2_scheme
  have e1 : ∀ (x : frame_out),
      (if ccc = true then ext B (call.move_system s 1) x else x).diag = x.diag := by
    intro x
    by_cases h : ccc = true
    · rw [if_pos h]; rfl
    · rw [if_neg h]
  have e0 : (if IS_ZEROSYS c = true then
      ({ st with diag := { st.diag with deepsteps := st.diag.deepsteps + 1,
                                        simtime := st.diag.simtime + dt } } : frame_out)
      else st).diag.ntasks = st.diag.ntasks ∧
      (if IS_ZEROSYS c = true then
      ({ st with diag := { st.diag with deepsteps := st.diag.deepsteps + 1,
                                        simtime := st.diag.simtime + dt } } : frame_out)
      else st).diag.taskcount = st.diag.taskcount := by
    by_cases hz : IS_ZEROSYS c = true
    · rw [if_pos hz]; exact ⟨rfl, rfl⟩
    · rw [if_neg hz]; exact ⟨rfl, rfl⟩
  simp only [ext_diag, e1, children_ntasks, children_taskcount, rest_and_kicks_diag, e0.1,
    e0.2]
  by_cases hc : (B.OPENMP && TASKCONDITION (ccViews c).length s) = true
  · simp only [hc, if_true]
    constructor <;> omega
  · simp only [hc, if_false, Bool.false_eq_true, Nat.add_zero, and_self]

theorem prologue_kinds (clevel : ℤ) (s : sys) (stime etime dt : DOUBLE) (ccc : Bool) :
    ∀ k ∈ prologue clevel s stime etime dt ccc, k.kind.is_leaf = false := by
  intro k hk
  unfold prologue at hk
  by_cases hc : ccc = true
  · simp only [hc, if_true, List.mem_append, List.mem_cons, List.mem_singleton,
      List.not_mem_nil, or_false] at hk
    rcases hk with (rfl | rfl | rfl) | rfl <;> rfl
  · simp only [hc, if_false, List.mem_append, List.mem_cons, List.mem_singleton,
      List.not_mem_nil, or_false, Bool.false_eq_true] at hk
    rcases hk with rfl | rfl <;> rfl

theorem schedule_kinds (clevel : ℤ) (s : sys) (stime etime dt : DOUBLE) (inttype : inttag)
    (task ccc : Bool) (c r : sys) :
    ∀ k ∈ schedule clevel s stime etime dt inttype task ccc c r, k.kind.is_leaf = false := by
  intro k hk
  unfold schedule at hk
  simp only [List.mem_append, List.mem_map, List.mem_flatMap, List.mem_singleton] at hk
  rcases hk with (((((⟨ci, _, rfl⟩ | h) | ⟨ci, _, cj, _, h⟩) | h) | ⟨ci, _, rfl⟩) | h) | rfl
  · rfl
  · by_cases hr : r.n > 0
    · rw [if_pos hr, List.mem_singleton] at h
      rw [h]; rfl
    · rw [if_neg hr] at h
      cases h
  · by_cases hne : ci.1 ≠ cj.1
    · rw [if_pos hne, List.mem_singleton] at h
      rw [h]; rfl
    · rw [if_neg hne] at h
      cases h
  · by_cases hr : r.n > 0
    · rw [if_pos hr] at h
      simp only [List.mem_append, List.mem_flatMap, List.mem_cons, List.mem_singleton,
        List.not_mem_nil, or_false] at h
      rcases h with ⟨ci, _, rfl | rfl⟩ | rfl | rfl <;> rfl
    · rw [if_neg hr] at h
      cases h
  · rfl
  · by_cases hc : ccc = true
    · rw [if_pos hc, List.mem_singleton] at h
      rw [h]; rfl
    · rw [if_neg hc] at h
      cases h
  · rfl

/-- A frame of `evolve_cc2` that takes no shortcut and returns has run the split, and its
calls are the prologue and the schedule of that split. -/
theorem frame_spec (B : build) (fuel : ℕ) (clevel : ℤ) (s : sys) (stime etime dt : DOUBLE)
    (inttype : inttag) (recenter : ℤ) (mem : Mem) (diag : diagnostics)
    (hk : ¬ ((s.n = 2 ∨ UINT_sub B.UINT_BITS s.n s.nzero ≤ 1) ∧
      (inttype = .CCC_KEPLER ∨ inttype = .CC_KEPLER)))
    (hb : ¬ (s.n ≤ BS_SUBSYS_SIZE ∧ (inttype = .CCC_BS ∨ inttype = .CC_BS)))
    (ha : ¬ (s.n ≤ BS_SUBSYS_SIZE ∧ (inttype = .CCC_BSA ∨ inttype = .CC_BSA)))
    {out : frame_out}
    (hrun : evolve_cc2 B fuel clevel s stime etime dt inttype recenter mem diag = .ok out) :
    ∃ m1 o, split_cc B.timestep_ij fuel clevel s dt m1 diag = .ok o ∧
      out.trace = prologue clevel s stime etime dt (decide (recenter ≠ 0) && is_ccc inttype) ++
        schedule clevel s stime etime dt inttype
          (B.OPENMP && TASKCONDITION (ccViews o.c).length s)
          (decide (recenter ≠ 0) && is_ccc inttype) o.c o.r ∧
      out.diag.ntasks clevel = o.diag.ntasks clevel +
        (if (B.OPENMP && TASKCONDITION (ccViews o.c).length s) = true then
          2 * (ccViews o.c).length else 0) ∧
      out.diag.taskcount clevel = o.diag.taskcount clevel +
        (if (B.OPENMP && TASKCONDITION (ccViews o.c).length s) = true then
          2 * ((ccViews o.c).map sys.n).sum else 0) := by
  unfold evolve_cc2 at hrun
  simp only [if_neg hk, if_neg hb, if_neg ha] at hrun
  have hd : (if (decide (recenter ≠ 0) && is_ccc inttype) = true then
      ext B (call.move_system s (-1)) (ext B (call.system_center_of_mass s)
        (ext B (call.CHECK_TIMESTEP etime stime dt clevel) ⟨[], mem, diag⟩))
      else ext B (call.CHECK_TIMESTEP etime stime dt clevel) ⟨[], mem, diag⟩).diag = diag := by
    by_cases hc : (decide (recenter ≠ 0) && is_ccc inttype) = true
    · rw [if_pos hc]; rfl
    · rw [if_neg hc]; rfl
  have ht : (if (decide (recenter ≠ 0) && is_ccc inttype) = true then
      ext B (call.move_system s (-1)) (ext B (call.system_center_of_mass s)
        (ext B (call.CHECK_TIMESTEP etime stime dt clevel) ⟨[], mem, diag⟩))
      else ext B (call.CHECK_TIMESTEP etime stime dt clevel) ⟨[], mem, diag⟩).trace ++
        [call.split_cc clevel s dt] =
      prologue clevel s stime etime dt (decide (recenter ≠ 0) && is_ccc inttype) := by
    unfold prologue
    by_cases hc : (decide (recenter ≠ 0) && is_ccc inttype) = true
    · rw [if_pos hc, if_pos hc]; rfl
    · rw [if_neg hc, if_neg hc]; rfl
  rw [hd] at hrun
  generalize (if (decide (recenter ≠ 0) && is_ccc inttype) = true then
      ext B (call.move_system s (-1)) (ext B (call.system_center_of_mass s)
        (ext B (call.CHECK_TIMESTEP etime stime dt clevel) ⟨[], mem, diag⟩))
      else ext B (call.CHECK_TIMESTEP etime stime dt clevel) ⟨[], mem, diag⟩) = st1 at hrun ht
  cases hsp : split_cc B.timestep_ij fuel clevel s dt st1.mem diag with
  | fatal msg m => rw [hsp] at hrun; cases hrun
  | out_of_fuel => rw [hsp] at hrun; cases hrun
  | ok o =>
    rw [hsp] at hrun
    simp only [] at hrun
    cases hch : consistency_checks B st1.mem s dt o with
    | error e => rw [hch] at hrun; cases hrun
    | ok u =>
      rw [hch] at hrun
      simp only [Except.ok.injEq] at hrun
      refine ⟨st1.mem, o, hsp, ?_, ?_, ?_⟩
      · rw [← hrun, scheme_trace, ht]
      · rw [← hrun, (scheme_tasks _ _ _ _ _ _ _ _ _ _ _).1]
      · rw [← hrun, (scheme_tasks _ _ _ _ _ _ _ _ _ _ _).2]

/-- Without the consistency checks a frame of `evolve_cc2` on a well-formed view of at least
two particles returns. -/
theorem frame_returns (B : build) (fuel : ℕ) (clevel : ℤ) (s : sys) (stime etime dt : DOUBLE)
    (inttype : inttag) (recenter : ℤ) (mem : Mem) (diag : diagnostics)
    (hB : B.CONSISTENCY_CHECKS = false) (hwf : WF s) (hn : 2 ≤ s.n) (hfuel : s.n ≤ fuel) :
    ∃ out, evolve_cc2 B fuel clevel s stime etime dt inttype recenter mem diag = .ok out := by
  unfold evolve_cc2
  simp only []
  split_ifs with h1 h2 h3
  · exact ⟨_, rfl⟩
  · exact ⟨_, rfl⟩
  · exact ⟨_, rfl⟩
  · obtain ⟨o, _, _, hsp, _⟩ := split_cc_main B.timestep_ij fuel clevel s dt
      (ext B (call.move_system s (-1)) (ext B (call.system_center_of_mass s)
        (ext B (call.CHECK_TIMESTEP etime stime dt clevel) ⟨[], mem, diag⟩))).mem
      (ext B (call.move_system s (-1)) (ext B (call.system_center_of_mass s)
        (ext B (call.CHECK_TIMESTEP etime stime dt clevel) ⟨[], mem, diag⟩))).diag hwf hn hfuel
    rw [hsp]
    simp only [consistency_checks, hB, Bool.false_eq_true, if_false]
    exact ⟨_, rfl⟩
  · obtain ⟨o, _, _, hsp, _⟩ := split_cc_main B.timestep_ij fuel clevel s dt
      (ext B (call.CHECK_TIMESTEP etime stime dt clevel) ⟨[], mem, diag⟩).mem
      (ext B (call.CHECK_TIMESTEP etime stime dt clevel) ⟨[], mem, diag⟩).diag hwf hn hfuel
    rw [hsp]
    simp only [consistency_checks, hB, Bool.false_eq_true, if_false]
    exact ⟨_, rfl⟩

/-- The difference of `UINT` is the difference of the naturals when it does not wrap. -/
theorem UINT_sub_of_le (bits : ℕ) {a b : ℕ} (hle : b ≤ a) (hlt : a < 2 ^ bits) :
    UINT_sub bits a b = a - b := by
  unfold UINT_sub
  have hb : b % 2 ^ bits = b := Nat.mod_eq_of_lt (by omega)
  rw [hb]
  have e : a + (2 ^ bits - b) = (a - b) + 2 ^ bits := by omega
  rw [e, Nat.add_mod_right]
  exact Nat.mod_eq_of_lt (by omega)

/-- On a well-formed view of at least two particles and with fuel for the split, a frame of
`evolve_cc2` that takes no shortcut returns, or is ended by one of the two verifiers when the
build has the consistency checks: it is ended neither by `split_cc` nor by the fuel. -/
theorem frame_total (B : build) (fuel : ℕ) (clevel : ℤ) (s : sys) (stime etime dt : DOUBLE)
    (inttype : inttag) (recenter : ℤ) (mem : Mem) (diag : diagnostics)
    (hk : ¬ ((s.n = 2 ∨ UINT_sub B.UINT_BITS s.n s.nzero ≤ 1) ∧
      (inttype = .CCC_KEPLER ∨ inttype = .CC_KEPLER)))
    (hb : ¬ (s.n ≤ BS_SUBSYS_SIZE ∧ (inttype = .CCC_BS ∨ inttype = .CC_BS)))
    (ha : ¬ (s.n ≤ BS_SUBSYS_SIZE ∧ (inttype = .CCC_BSA ∨ inttype = .CC_BSA)))
    (hwf : WF s) (hn : 2 ≤ s.n) (hfuel : s.n ≤ fuel) :
    (∃ out, evolve_cc2 B fuel clevel s stime etime dt inttype recenter mem diag = .ok out) ∨
      (B.CONSISTENCY_CHECKS = true ∧
        ∃ e, evolve_cc2 B fuel clevel s stime etime dt inttype recenter mem diag =
          .error (.verify e)) := by
  unfold evolve_cc2
  simp only [if_neg hk, if_neg hb, if_neg ha]
  generalize (if (decide (recenter ≠ 0) && is_ccc inttype) = true then
      ext B (call.move_system s (-1)) (ext B (call.system_center_of_mass s)
        (ext B (call.CHECK_TIMESTEP etime stime dt clevel) ⟨[], mem, diag⟩))
      else ext B (call.CHECK_TIMESTEP etime stime dt clevel) ⟨[], mem, diag⟩) = st1
  obtain ⟨o, _, _, hsp, _⟩ :=
    split_cc_main B.timestep_ij fuel clevel s dt st1.mem st1.diag hwf hn hfuel
  rw [hsp]
  simp only []
  cases hch : consistency_checks B st1.mem s dt o with
  | error e =>
    right
    refine ⟨?_, e, rfl⟩
    by_contra hB
    simp [consistency_checks, hB] at hch
  | ok u =>
    left
    exact ⟨_, rfl⟩

theorem of_frame_check {P : frame_out → Bool} {o : Except frame_stop frame_out}
    (h : frame_check P o = true) : ∃ a, o = .ok a ∧ P a = true := by
  cases o with
  | ok a => exact ⟨a, rfl, h⟩
  | error e => simp [frame_check] at h

theorem frame_kinds (B : build) (fuel : ℕ) (clevel : ℤ) (s : sys) (stime etime dt : DOUBLE)
    (inttype : inttag) (recenter : ℤ) (mem : Mem) (diag : diagnostics)
    (hk : ¬ ((s.n = 2 ∨ UINT_sub B.UINT_BITS s.n s.nzero ≤ 1) ∧
      (inttype = .CCC_KEPLER ∨ inttype = .CC_KEPLER)))
    (hb : ¬ (s.n ≤ BS_SUBSYS_SIZE ∧ (inttype = .CCC_BS ∨ inttype = .CC_BS)))
    (ha : ¬ (s.n ≤ BS_SUBSYS_SIZE ∧ (inttype = .CCC_BSA ∨ inttype = .CC_BSA)))
    {out : frame_out}
    (hrun : evolve_cc2 B fuel clevel s stime etime dt inttype recenter mem diag = .ok out) :
    ∀ k ∈ out.trace, k.kind.is_leaf = false := by
  obtain ⟨m1, o, _, ht, _⟩ :=
    frame_spec B fuel clevel s stime etime dt inttype recenter mem diag hk hb ha hrun
  intro k hkm
  rw [ht] at hkm
  rcases List.mem_append.1 hkm with h | h
  · exact prologue_kinds _ _ _ _ _ _ k h
  · exact schedule_kinds _ _ _ _ _ _ _ _ _ _ k h

/-- C14 (Kepler shortcut): for every call of `evolve_cc2` with `s.n == 2` or
`s.n - s.nzero <= 1`, the test of the code on the `UINT` difference, and `inttype` one of
`CC_KEPLER`, `CCC_KEPLER`, the frame issues, after the macro `CHECK_TIMESTEP`, the one call
`evolve_kepler(clevel, s, stime, etime, dt)` and returns: no split, drift, kick,
centre-of-mass helper or call of itself.  On a view with `nzero <= n` the difference is the
number of massive particles.  A frame with another tag never calls `evolve_kepler`. -/
theorem C14_kepler_shortcut (B : build) (fuel : ℕ) (clevel : ℤ) (s : sys)
    (stime etime dt : DOUBLE) (inttype : inttag) (recenter : ℤ) (mem : Mem)
    (diag : diagnostics) :
    ((s.n = 2 ∨ UINT_sub B.UINT_BITS s.n s.nzero ≤ 1) →
        (inttype = .CC_KEPLER ∨ inttype = .CCC_KEPLER) →
        ∃ out, evolve_cc2 B fuel clevel s stime etime dt inttype recenter mem diag = .ok out ∧
          out.trace = [call.CHECK_TIMESTEP etime stime dt clevel,
            call.evolve_kepler clevel s stime etime dt]) ∧
      (s.nzero ≤ s.n → s.n < 2 ^ B.UINT_BITS → (s.n = 2 ∨ s.n - s.nzero ≤ 1) →
        (inttype = .CC_KEPLER ∨ inttype = .CCC_KEPLER) →
        ∃ out, evolve_cc2 B fuel clevel s stime etime dt inttype recenter mem diag = .ok out ∧
          out.trace = [call.CHECK_TIMESTEP etime stime dt clevel,
            call.evolve_kepler clevel s stime etime dt]) ∧
      (inttype ≠ .CC_KEPLER → inttype ≠ .CCC_KEPLER →
        ∀ out, evolve_cc2 B fuel clevel s stime etime dt inttype recenter mem diag = .ok out →
          ∀ k ∈ out.trace, k.kind ≠ .evolve_kepler) := by
  have key : (s.n = 2 ∨ UINT_sub B.UINT_BITS s.n s.nzero ≤ 1) →
      (inttype = .CC_KEPLER ∨ inttype = .CCC_KEPLER) →
      ∃ out, evolve_cc2 B fuel clevel s stime etime dt inttype recenter mem diag = .ok out ∧
        out.trace = [call.CHECK_TIMESTEP etime stime dt clevel,
          call.evolve_kepler clevel s stime etime dt] := by
    intro hs ht
    refine ⟨ext B (call.evolve_kepler clevel s stime etime dt)
      (ext B (call.CHECK_TIMESTEP etime stime dt clevel) ⟨[], mem, diag⟩), ?_, rfl⟩
    unfold evolve_cc2
    simp only []
    rw [if_pos ⟨hs, ht.symm⟩]
  refine ⟨key, fun hle hlt hs ht => key ?_ ht, ?_⟩
  · rw [UINT_sub_of_le _ hle hlt]
    exact hs
  · intro h1 h2 out hrun k hkm
    have hk : ¬ ((s.n = 2 ∨ UINT_sub B.UINT_BITS s.n s.nzero ≤ 1) ∧
        (inttype = .CCC_KEPLER ∨ inttype = .CC_KEPLER)) := by
      rintro ⟨_, h | h⟩
      · exact h2 h
      · exact h1 h
    by_cases hb : s.n ≤ BS_SUBSYS_SIZE ∧ (inttype = .CCC_BS ∨ inttype = .CC_BS)
    · unfold evolve_cc2 at hrun
      simp only [if_neg hk, if_pos hb, Except.ok.injEq] at hrun
      rw [← hrun] at hkm
      simp only [ext_trace, List.nil_append, List.cons_append, List.mem_cons,
        List.mem_singleton, List.not_mem_nil, or_false] at hkm
      rcases hkm with rfl | rfl <;> simp [call.kind]
    · by_cases ha : s.n ≤ BS_SUBSYS_SIZE ∧ (inttype = .CCC_BSA ∨ inttype = .CC_BSA)
      · unfold evolve_cc2 at hrun
        simp only [if_neg hk, if_neg hb, if_pos ha, Except.ok.injEq] at hrun
        rw [← hrun] at hkm
        simp only [ext_trace, List.nil_append, List.cons_append, List.mem_cons,
          List.mem_singleton, List.not_mem_nil, or_false] at hkm
        rcases hkm with rfl | rfl <;> simp [call.kind]
      · have := frame_kinds B fuel clevel s stime etime dt inttype recenter mem diag hk hb ha
          hrun k hkm
        intro e
        rw [e] at this
        cases this

theorem C14_witness :
    (∃ out, evolve_cc2 (evalBuild false (pairTs [] (1 / 100) 1)) 2 0 (viewAt0 2 0) 0 6
        6 .CCC_KEPLER 1 (idStore []) diag0 = .ok out ∧
      out.trace = [call.CHECK_TIMESTEP 6 0 6 0, call.evolve_kepler 0 (viewAt0 2 0) 0 6 6]) ∧
    (∃ out, evolve_cc2 (evalBuild false (pairTs [] (1 / 100) 1)) 5 0 (viewAt0 5 4) 0 6
        6 .CC_KEPLER 1 (idStore [1, 2, 3, 4]) diag0 = .ok out ∧
      out.trace = [call.CHECK_TIMESTEP 6 0 6 0, call.evolve_kepler 0 (viewAt0 5 4) 0 6 6]) :=
  ⟨(C14_kepler_shortcut (evalBuild false (pairTs [] (1 / 100) 1)) 2 0 (viewAt0 2 0) 0 6
      6 .CCC_KEPLER 1 (idStore []) diag0).1 (Or.inl rfl) (Or.inr rfl),
    (C14_kepler_shortcut (evalBuild false (pairTs [] (1 / 100) 1)) 5 0 (viewAt0 5 4) 0 6
      6 .CC_KEPLER 1 (idStore [1, 2, 3, 4]) diag0).2.1 (by decide) (by decide)
      (Or.inr (by decide)) (Or.inl rfl)⟩

/-- C15 (Bulirsch-Stoer shortcut): with `s.n <= BS_SUBSYS_SIZE` (`= 10`) a frame with the
tag `CC_BS` or `CCC_BS` issues, after `CHECK_TIMESTEP`, the one call
`evolve_bs(clevel, s, stime, etime, dt)`, one with the tag `CC_BSA` or `CCC_BSA` the one
call `evolve_bs_adaptive(clevel, s, stime, etime, dt, 1)`, and returns.  With
`s.n > BS_SUBSYS_SIZE` and one of these tags a frame that returns has called no leaf
integrator and has run the split and its schedule; and without the consistency checks, on a
well-formed view and with fuel for the split, the frame returns. -/
theorem C15_bs_shortcut (B : build) (fuel : ℕ) (clevel : ℤ) (s : sys)
    (stime etime dt : DOUBLE) (inttype : inttag) (recenter : ℤ) (mem : Mem)
    (diag : diagnostics) :
    (s.n ≤ BS_SUBSYS_SIZE → (inttype = .CC_BS ∨ inttype = .CCC_BS) →
        ∃ out, evolve_cc2 B fuel clevel s stime etime dt inttype recenter mem diag = .ok out ∧
          out.trace = [call.CHECK_TIMESTEP etime stime dt clevel,
            call.evolve_bs clevel s stime etime dt]) ∧
      (s.n ≤ BS_SUBSYS_SIZE → (inttype = .CC_BSA ∨ inttype = .CCC_BSA) →
        ∃ out, evolve_cc2 B fuel clevel s stime etime dt inttype recenter mem diag = .ok out ∧
          out.trace = [call.CHECK_TIMESTEP etime stime dt clevel,
            call.evolve_bs_adaptive clevel s stime etime dt 1]) ∧
      (BS_SUBSYS_SIZE < s.n →
        (inttype = .CC_BS ∨ inttype = .CCC_BS ∨ inttype = .CC_BSA ∨ inttype = .CCC_BSA) →
        (∀ out, evolve_cc2 B fuel clevel s stime etime dt inttype recenter mem diag = .ok out →
          (∀ k ∈ out.trace, k.kind.is_leaf = false) ∧
          ∃ m1 o, split_cc B.timestep_ij fuel clevel s dt m1 diag = .ok o ∧
            out.trace =
              prologue clevel s stime etime dt (decide (recenter ≠ 0) && is_ccc inttype) ++
              schedule clevel s stime etime dt inttype
                (B.OPENMP && TASKCONDITION (ccViews o.c).length s)
                (decide (recenter ≠ 0) && is_ccc inttype) o.c o.r) ∧
        (B.CONSISTENCY_CHECKS = false → WF s → s.n ≤ fuel →
          ∃ out, evolve_cc2 B fuel clevel s stime etime dt inttype recenter mem diag =
            .ok out)) := by
  refine ⟨?_, ?_, ?_⟩
  · intro hs ht
    have hk : ¬ ((s.n = 2 ∨ UINT_sub B.UINT_BITS s.n s.nzero ≤ 1) ∧
        (inttype = .CCC_KEPLER ∨ inttype = .CC_KEPLER)) := by
      rintro ⟨_, h | h⟩ <;> rcases ht with e | e <;> rw [e] at h <;> cases h
    refine ⟨ext B (call.evolve_bs clevel s stime etime dt)
      (ext B (call.CHECK_TIMESTEP etime stime dt clevel) ⟨[], mem, diag⟩), ?_, rfl⟩
    unfold evolve_cc2
    simp only []
    rw [if_neg hk, if_pos ⟨hs, ht.symm⟩]
  · intro hs ht
    have hk : ¬ ((s.n = 2 ∨ UINT_sub B.UINT_BITS s.n s.nzero ≤ 1) ∧
        (inttype = .CCC_KEPLER ∨ inttype = .CC_KEPLER)) := by
      rintro ⟨_, h | h⟩ <;> rcases ht with e | e <;> rw [e] at h <;> cases h
    have hb : ¬ (s.n ≤ BS_SUBSYS_SIZE ∧ (inttype = .CCC_BS ∨ inttype = .CC_BS)) := by
      rintro ⟨_, h | h⟩ <;> rcases ht with e | e <;> rw [e] at h <;> cases h
    refine ⟨ext B (call.evolve_bs_adaptive clevel s stime etime dt 1)
      (ext B (call.CHECK_TIMESTEP etime stime dt clevel) ⟨[], mem, diag⟩), ?_, rfl⟩
    unfold evolve_cc2
    simp only []
    rw [if_neg hk, if_neg hb, if_pos ⟨hs, ht.symm⟩]
  · intro hs ht
    have hk : ¬ ((s.n = 2 ∨ UINT_sub B.UINT_BITS s.n s.nzero ≤ 1) ∧
        (inttype = .CCC_KEPLER ∨ inttype = .CC_KEPLER)) := by
      rintro ⟨_, h | h⟩ <;> rcases ht with e | e | e | e <;> rw [e] at h <;> cases h
    have hb : ¬ (s.n ≤ BS_SUBSYS_SIZE ∧ (inttype = .CCC_BS ∨ inttype = .CC_BS)) :=
      fun h => absurd h.1 (by omega)
    have ha : ¬ (s.n ≤ BS_SUBSYS_SIZE ∧ (inttype = .CCC_BSA ∨ inttype = .CC_BSA)) :=
      fun h => absurd h.1 (by omega)
    refine ⟨fun out hrun => ⟨frame_kinds B fuel clevel s stime etime dt inttype recenter mem
      diag hk hb ha hrun, ?_⟩, fun hB hwf hf => ?_⟩
    · obtain ⟨m1, o, hsp, htr, _⟩ :=
        frame_spec B fuel clevel s stime etime dt inttype recenter mem diag hk hb ha hrun
      exact ⟨m1, o, hsp, htr⟩
    · exact frame_returns B fuel clevel s stime etime dt inttype recenter mem diag hB hwf
        (by unfold BS_SUBSYS_SIZE at hs; omega) hf

theorem C15_witness :
    (∃ out, evolve_cc2 (evalBuild false (pairTs [(0, 1)] (1 / 100) 1)) 3 0 (viewAt0 3 0) 0 1
        1 .CC_BS 0 (idStore []) diag0 = .ok out ∧
      out.trace = [call.CHECK_TIMESTEP 1 0 1 0, call.evolve_bs 0 (viewAt0 3 0) 0 1 1]) ∧
    (∃ out, evolve_cc2 (evalBuild false (pairTs [(0, 1)] (1 / 100) 1)) 3 0 (viewAt0 3 0) 0 1
        1 .CCC_BSA 0 (idStore []) diag0 = .ok out ∧
      out.trace =
        [call.CHECK_TIMESTEP 1 0 1 0, call.evolve_bs_adaptive 0 (viewAt0 3 0) 0 1 1 1]) :=
  ⟨(C15_bs_shortcut (evalBuild false (pairTs [(0, 1)] (1 / 100) 1)) 3 0 (viewAt0 3 0) 0 1
      1 .CC_BS 0 (idStore []) diag0).1 (by decide) (Or.inl rfl),
    (C15_bs_shortcut (evalBuild false (pairTs [(0, 1)] (1 / 100) 1)) 3 0 (viewAt0 3 0) 0 1
      1 .CCC_BSA 0 (idStore []) diag0).2.1 (by decide) (Or.inr rfl)⟩

/-- C16, as the code has it: on a well-formed view of at least two particles and with fuel
for the split, a frame of `evolve_cc2` that takes no shortcut returns or, in a build with the
consistency checks only, is ended by one of the two verifiers; without the checks it returns.
A frame that returns has split `s` into the list `c` and the rest `r`, and its calls after
the split are, in this order:
`evolve_cc2(clevel+1, ci, stime, stime+dt/2, dt/2, inttype, recentersub)` for every
component in list order; `drift(r, stime+dt/2, dt/2)`; `kick(ci, cj, dt)` for every ordered
pair of two components; `kick(r, ci, dt)` and `kick(ci, r, dt)` for every component;
`kick(r, r, dt)`; `drift(r, etime, dt/2)`; the second half steps
`evolve_cc2(clevel+1, ci, stime+dt/2, etime, dt/2, inttype, recentersub)`; where every call
on `r` is made only when `r.n > 0`, and `recentersub` is `1` if there are two components or
more or `r.n > 0`, and `0` otherwise.  With an empty list and `r.n > 0` this is one
drift, kick, drift of `r` and no call of `evolve_cc2`. -/
theorem C16_operator_schedule (B : build) (fuel : ℕ) (clevel : ℤ) (s : sys)
    (stime etime dt : DOUBLE) (inttype : inttag) (recenter : ℤ) (mem : Mem)
    (diag : diagnostics)
    (hk : ¬ ((s.n = 2 ∨ UINT_sub B.UINT_BITS s.n s.nzero ≤ 1) ∧
      (inttype = .CCC_KEPLER ∨ inttype = .CC_KEPLER)))
    (hb : ¬ (s.n ≤ BS_SUBSYS_SIZE ∧ (inttype = .CCC_BS ∨ inttype = .CC_BS)))
    (ha : ¬ (s.n ≤ BS_SUBSYS_SIZE ∧ (inttype = .CCC_BSA ∨ inttype = .CC_BSA)))
    (hwf : WF s) (hn : 2 ≤ s.n) (hfuel : s.n ≤ fuel) :
    ((∃ out, evolve_cc2 B fuel clevel s stime etime dt inttype recenter mem diag = .ok out) ∨
      (B.CONSISTENCY_CHECKS = true ∧
        ∃ e, evolve_cc2 B fuel clevel s stime etime dt inttype recenter mem diag =
          .error (.verify e))) ∧
    (B.CONSISTENCY_CHECKS = false →
      ∃ out, evolve_cc2 B fuel clevel s stime etime dt inttype recenter mem diag = .ok out) ∧
    ∀ out, evolve_cc2 B fuel clevel s stime etime dt inttype recenter mem diag = .ok out →
      ∃ m1 o, split_cc B.timestep_ij fuel clevel s dt m1 diag = .ok o ∧
        out.trace =
          prologue clevel s stime etime dt (decide (recenter ≠ 0) && is_ccc inttype) ++
          schedule clevel s stime etime dt inttype
            (B.OPENMP && TASKCONDITION (ccViews o.c).length s)
            (decide (recenter ≠ 0) && is_ccc inttype) o.c o.r ∧
        (ccViews o.c = [] → 0 < o.r.n →
          out.trace =
            prologue clevel s stime etime dt (decide (recenter ≠ 0) && is_ccc inttype) ++
            [call.drift clevel o.r (stime + dt / 2) (dt / 2), call.kick clevel o.r o.r dt,
              call.drift clevel o.r etime (dt / 2)] ++
            (if (decide (recenter ≠ 0) && is_ccc inttype) = true then [call.move_system s 1]
              else []) ++
            [call.free_sys o.c.next_cc]) := by
  refine ⟨frame_total B fuel clevel s stime etime dt inttype recenter mem diag hk hb ha hwf hn
    hfuel, fun hB => frame_returns B fuel clevel s stime etime dt inttype recenter mem diag hB
      hwf hn hfuel, fun out hrun => ?_⟩
  obtain ⟨m1, o, hsp, htr, _⟩ :=
    frame_spec B fuel clevel s stime etime dt inttype recenter mem diag hk hb ha hrun
  refine ⟨m1, o, hsp, htr, fun hc hr => ?_⟩
  rw [htr]
  unfold schedule
  simp [hc, hr]

/-- C16 fails as stated: on two particles that form one component the rest is empty, and
the frame issues no drift and no kick: its calls are `CHECK_TIMESTEP`, `split_cc`, the two
half steps of the component and `free_sys`. -/
theorem C16_counterexample :
    ∃ out, evolve_cc2 (evalBuild false (pairTs [(0, 1)] (1 / 100) 1)) 2 0 (viewAt0 2 0) 0 1
        1 .CC 0 (idStore []) diag0 = .ok out ∧
      out.trace.map call.kind =
        [.CHECK_TIMESTEP, .split_cc, .evolve_cc2, .evolve_cc2, .free_sys] ∧
      ∀ k ∈ out.trace, k.kind ≠ .drift ∧ k.kind ≠ .kick := by
  have h : frame_check (fun out => decide (out.trace.map call.kind =
      [.CHECK_TIMESTEP, .split_cc, .evolve_cc2, .evolve_cc2, .free_sys]))
      (evolve_cc2 (evalBuild false (pairTs [(0, 1)] (1 / 100) 1)) 2 0 (viewAt0 2 0) 0 1
        1 .CC 0 (idStore []) diag0) = true := by decide!
  obtain ⟨out, hrun, hP⟩ := of_frame_check h
  have hkinds := of_decide_eq_true hP
  refine ⟨out, hrun, hkinds, fun k hk => ?_⟩
  have : k.kind ∈ out.trace.map call.kind := List.mem_map_of_mem _ hk
  rw [hkinds] at this
  simp only [List.mem_cons, List.mem_singleton, List.not_mem_nil, or_false] at this
  rcases this with e | e | e | e | e <;> rw [e] <;> exact ⟨by decide, by decide⟩

theorem C16_witness :
    ∃ out, evolve_cc2 (evalBuild false (pairTs [] 10 10)) 8 0 (viewAt0 8 0) 0 1 1 .CC 0
        (idStore []) diag0 = .ok out ∧
      out.trace.map call.kind = [.CHECK_TIMESTEP, .split_cc, .drift, .kick, .drift, .free_sys] ∧
      ∃ m1 o, split_cc (pairTs [] 10 10) 8 0 (viewAt0 8 0) 1 m1 diag0 = .ok o ∧
        out.trace = prologue 0 (viewAt0 8 0) 0 1 1 false ++
          schedule 0 (viewAt0 8 0) 0 1 1 .CC false false o.c o.r := by
  have h : frame_check (fun out => decide (out.trace.map call.kind =
      [.CHECK_TIMESTEP, .split_cc, .drift, .kick, .drift, .free_sys]))
      (evolve_cc2 (evalBuild false (pairTs [] 10 10)) 8 0 (viewAt0 8 0) 0 1 1 .CC 0
        (idStore []) diag0) = true := by decide!
  obtain ⟨out, hrun, hP⟩ := of_frame_check h
  obtain ⟨m1, o, hsp, htr, _⟩ := (C16_operator_schedule (evalBuild false (pairTs [] 10 10)) 8 0
    (viewAt0 8 0) 0 1 1 .CC 0 (idStore []) diag0 (by decide) (by decide) (by decide)
    (by decide) (by decide) (by decide)).2.2 out hrun
  exact ⟨out, hrun, of_decide_eq_true hP, m1, o, hsp, htr⟩

theorem schedule_children (clevel : ℤ) (s : sys) (stime etime dt : DOUBLE) (inttype : inttag)
    (T ccc : Bool) (c r : sys) (l : ℤ) (ci : sys) (a b h : DOUBLE) (it : inttag) (rs : ℤ)
    (task : Bool)
    (hmem : call.evolve_cc2 l ci a b h it rs task ∈
      prologue clevel s stime etime dt ccc ++
        schedule clevel s stime etime dt inttype T ccc c r) :
    ci ∈ ccViews c ∧ task = T := by
  rcases List.mem_append.1 hmem with h1 | h1
  · exfalso
    unfold prologue at h1
    by_cases hc : ccc = true
    · simp [hc] at h1
    · simp [hc] at h1
  · unfold schedule at h1
    simp only [List.mem_append, List.mem_map, List.mem_flatMap, List.mem_singleton] at h1
    rcases h1 with (((((⟨cj, hcj, e⟩ | h2) | ⟨ca, _, cb, _, h2⟩) | h2) | ⟨cj, hcj, e⟩) | h2) | e
    · cases e
      exact ⟨hcj, rfl⟩
    · exfalso
      by_cases hr : r.n > 0
      · simp [hr] at h2
      · simp [hr] at h2
    · exfalso
      by_cases hne : ca.1 ≠ cb.1
      · rw [if_pos hne] at h2
        simp at h2
      · rw [if_neg hne] at h2
        cases h2
    · exfalso
      by_cases hr : r.n > 0
      · simp [hr] at h2
      · simp [hr] at h2
    · cases e
      exact ⟨hcj, rfl⟩
    · exfalso
      by_cases hc : ccc = true
      · simp [hc] at h2
      · simp [hc] at h2
    · cases e

theorem filter_children (cs : List sys) (f : sys → call)
    (hf : ∀ ci, (f ci).kind = .evolve_cc2) :
    ((cs.map f).filter (fun k => decide (k.kind = .evolve_cc2))).length = cs.length := by
  rw [List.filter_eq_self.2]
  · simp
  · intro k hk
    obtain ⟨ci, _, rfl⟩ := List.mem_map.1 hk
    simp [hf]

theorem filter_others (l : List call) (h : ∀ k ∈ l, k.kind ≠ .evolve_cc2) :
    (l.filter (fun k => decide (k.kind = .evolve_cc2))).length = 0 := by
  rw [List.filter_eq_nil_iff.2]
  · rfl
  · intro k hk
    simp [h k hk]

theorem schedule_count (clevel : ℤ) (s : sys) (stime etime dt : DOUBLE) (inttype : inttag)
    (T ccc : Bool) (c r : sys) :
    ((prologue clevel s stime etime dt ccc ++
        schedule clevel s stime etime dt inttype T ccc c r).filter
      (fun k => decide (k.kind = .evolve_cc2))).length = 2 * (ccViews c).length := by
  unfold schedule
  simp only [List.filter_append, List.length_append]
  rw [filter_children (ccViews c) (fun ci => call.evolve_cc2 (clevel + 1) ci stime
      (stime + dt / 2) (dt / 2) inttype (recentersub_of c r) T) (fun _ => rfl),
    filter_children (ccViews c) (fun ci => call.evolve_cc2 (clevel + 1) ci (stime + dt / 2)
      etime (dt / 2) inttype (recentersub_of c r) T) (fun _ => rfl),
    filter_others (prologue clevel s stime etime dt ccc), filter_others [call.free_sys c.next_cc],
    filter_others (if r.n > 0 then [call.drift clevel r (stime + dt / 2) (dt / 2)] else []),
    filter_others (if ccc = true then [call.move_system s 1] else []),
    filter_others ((ccViews c).enum.flatMap (fun ci => (ccViews c).enum.flatMap (fun cj =>
      if ci.1 ≠ cj.1 then [call.kick clevel ci.2 cj.2 dt] else []))),
    filter_others (if r.n > 0 then
      (ccViews c).flatMap (fun ci => [call.kick clevel r ci dt, call.kick clevel ci r dt]) ++
        [call.kick clevel r r dt, call.drift clevel r etime (dt / 2)]
    else [])]
  · omega
  · intro k hk
    by_cases hr : r.n > 0
    · rw [if_pos hr] at hk
      simp only [List.mem_append, List.mem_flatMap, List.mem_cons, List.mem_singleton,
        List.not_mem_nil, or_false] at hk
      rcases hk with ⟨ci, _, rfl | rfl⟩ | rfl | rfl <;> simp [call.kind]
    · rw [if_neg hr] at hk
      cases hk
  · intro k hk
    simp only [List.mem_flatMap] at hk
    obtain ⟨ca, _, cb, _, h2⟩ := hk
    by_cases hne : ca.1 ≠ cb.1
    · rw [if_pos hne, List.mem_singleton] at h2
      rw [h2]; simp [call.kind]
    · rw [if_neg hne] at h2
      cases h2
  · intro k hk
    by_cases hc : ccc = true
    · rw [if_pos hc, List.mem_singleton] at hk
      rw [hk]; simp [call.kind]
    · rw [if_neg hc] at hk
      cases hk
  · intro k hk
    by_cases hr : r.n > 0
    · rw [if_pos hr, List.mem_singleton] at hk
      rw [hk]; simp [call.kind]
    · rw [if_neg hr] at hk
      cases hk
  · intro k hk
    rw [List.mem_singleton] at hk
    rw [hk]; simp [call.kind]
  · intro k hk
    unfold prologue at hk
    by_cases hc : ccc = true
    · simp only [hc, if_true, List.mem_append, List.mem_cons, List.mem_singleton,
        List.not_mem_nil, or_false] at hk
      rcases hk with (rfl | rfl | rfl) | rfl <;> simp [call.kind]
    · simp only [hc, if_false, List.mem_append, List.mem_cons, List.mem_singleton,
        List.not_mem_nil, or_false, Bool.false_eq_true] at hk
      rcases hk with rfl | rfl <;> simp [call.kind]

/-- C17, as the code has it: on a well-formed view of at least two particles and with fuel
for the split, a frame of `evolve_cc2` that takes no shortcut returns or, in a build with the
consistency checks only, is ended by one of the two verifiers; without the checks it returns.
In a frame that returns, the half steps are the calls of `evolve_cc2` on the components of
the split, two for each component, and every one of them is dispatched as a task exactly
when the build has `_OPENMP`, the split gave more than one component and the size `s.n` of
the view that was split, not the size of the component, is above `BS_SUBSYS_SIZE`; the
counters `ntasks[clevel]` and `taskcount[clevel]` grow by `1` and by `ci.n` for every half
step that is a task, and not at all otherwise. -/
theorem C17_task_dispatch (B : build) (fuel : ℕ) (clevel : ℤ) (s : sys)
    (stime etime dt : DOUBLE) (inttype : inttag) (recenter : ℤ) (mem : Mem)
    (diag : diagnostics)
    (hk : ¬ ((s.n = 2 ∨ UINT_sub B.UINT_BITS s.n s.nzero ≤ 1) ∧
      (inttype = .CCC_KEPLER ∨ inttype = .CC_KEPLER)))
    (hb : ¬ (s.n ≤ BS_SUBSYS_SIZE ∧ (inttype = .CCC_BS ∨ inttype = .CC_BS)))
    (ha : ¬ (s.n ≤ BS_SUBSYS_SIZE ∧ (inttype = .CCC_BSA ∨ inttype = .CC_BSA)))
    (hwf : WF s) (hn : 2 ≤ s.n) (hfuel : s.n ≤ fuel) :
    ((∃ out, evolve_cc2 B fuel clevel s stime etime dt inttype recenter mem diag = .ok out) ∨
      (B.CONSISTENCY_CHECKS = true ∧
        ∃ e, evolve_cc2 B fuel clevel s stime etime dt inttype recenter mem diag =
          .error (.verify e))) ∧
    (B.CONSISTENCY_CHECKS = false →
      ∃ out, evolve_cc2 B fuel clevel s stime etime dt inttype recenter mem diag = .ok out) ∧
    ∀ out, evolve_cc2 B fuel clevel s stime etime dt inttype recenter mem diag = .ok out →
      ∃ m1 o, split_cc B.timestep_ij fuel clevel s dt m1 diag = .ok o ∧
        (∀ (l : ℤ) (ci : sys) (a b h : DOUBLE) (it : inttag) (rs : ℤ) (task : Bool),
          call.evolve_cc2 l ci a b h it rs task ∈ out.trace →
            ci ∈ ccViews o.c ∧
            task = (B.OPENMP && decide ((ccViews o.c).length > 1) &&
              decide (s.n > BS_SUBSYS_SIZE))) ∧
        (out.trace.filter (fun k => decide (k.kind = .evolve_cc2))).length =
          2 * (ccViews o.c).length ∧
        out.diag.ntasks clevel = o.diag.ntasks clevel +
          (if (B.OPENMP && decide ((ccViews o.c).length > 1) &&
              decide (s.n > BS_SUBSYS_SIZE)) = true then 2 * (ccViews o.c).length else 0) ∧
        out.diag.taskcount clevel = o.diag.taskcount clevel +
          (if (B.OPENMP && decide ((ccViews o.c).length > 1) &&
              decide (s.n > BS_SUBSYS_SIZE)) = true then 2 * ((ccViews o.c).map sys.n).sum
            else 0) := by
  refine ⟨frame_total B fuel clevel s stime etime dt inttype recenter mem diag hk hb ha hwf hn
    hfuel, fun hB => frame_returns B fuel clevel s stime etime dt inttype recenter mem diag hB
      hwf hn hfuel, fun out hrun => ?_⟩
  obtain ⟨m1, o, hsp, htr, hnt, htc⟩ :=
    frame_spec B fuel clevel s stime etime dt inttype recenter mem diag hk hb ha hrun
  have hT : (B.OPENMP && TASKCONDITION (ccViews o.c).length s) =
      (B.OPENMP && decide ((ccViews o.c).length > 1) && decide (s.n > BS_SUBSYS_SIZE)) := by
    unfold TASKCONDITION
    rw [Bool.and_assoc]
  rw [hT] at htr hnt htc
  refine ⟨m1, o, hsp, ?_, ?_, hnt, htc⟩
  · intro l ci a b h it rs task hmem
    rw [htr] at hmem
    exact schedule_children _ _ _ _ _ _ _ _ _ _ l ci a b h it rs task hmem
  · rw [htr]
    exact schedule_count _ _ _ _ _ _ _ _ _ _

/-- C17 fails as stated: of twelve particles with the two tight pairs of ids `0`, `1` and
`2`, `3`, the split gives two components of two particles each; in a build with `_OPENMP`
the four half steps are all dispatched as tasks, and `ntasks[0]` grows by `4`, although no
component has more than `BS_SUBSYS_SIZE` particles. -/
theorem C17_counterexample :
    ∃ out, evolve_cc2 (evalBuild true (pairTs [(0, 1), (2, 3)] (1 / 100) 1)) 12 0
        (viewAt0 12 0) 0 (1 / 10) (1 / 10) .CC 0 (idStore []) diag0 = .ok out ∧
      (out.trace.filter (fun k => decide (k.kind = .evolve_cc2))).length = 4 ∧
      (out.trace.filter call.small_task).length = 4 ∧ out.diag.ntasks 0 = 4 ∧
      out.diag.taskcount 0 = 8 := by
  have h : frame_check (fun out => decide (
        (out.trace.filter (fun k => decide (k.kind = .evolve_cc2))).length = 4 ∧
        (out.trace.filter call.small_task).length = 4 ∧ out.diag.ntasks 0 = 4 ∧
        out.diag.taskcount 0 = 8))
      (evolve_cc2 (evalBuild true (pairTs [(0, 1), (2, 3)] (1 / 100) 1)) 12 0
        (viewAt0 12 0) 0 (1 / 10) (1 / 10) .CC 0 (idStore []) diag0) = true := by decide!
  obtain ⟨out, hrun, hP⟩ := of_frame_check h
  exact ⟨out, hrun, of_decide_eq_true hP⟩

theorem C17_witness :
    ∃ out, evolve_cc2 (evalBuild false (pairTs [(0, 1), (2, 3)] (1 / 100) 1)) 5 0
        (viewAt0 5 0) 0 (1 / 10) (1 / 10) .CCC 1 (idStore []) diag0 = .ok out ∧
      (out.trace.filter (fun k => decide (k.kind = .evolve_cc2))).length = 4 ∧
      ∀ (l : ℤ) (ci : sys) (a b h : DOUBLE) (it : inttag) (rs : ℤ) (task : Bool),
        call.evolve_cc2 l ci a b h it rs task ∈ out.trace → task = false := by
  have h : frame_check (fun out => decide (
        (out.trace.filter (fun k => decide (k.kind = .evolve_cc2))).length = 4))
      (evolve_cc2 (evalBuild false (pairTs [(0, 1), (2, 3)] (1 / 100) 1)) 5 0
        (viewAt0 5 0) 0 (1 / 10) (1 / 10) .CCC 1 (idStore []) diag0) = true := by decide!
  obtain ⟨out, hrun, hP⟩ := of_frame_check h
  obtain ⟨m1, o, _, hflag, _⟩ := (C17_task_dispatch
    (evalBuild false (pairTs [(0, 1), (2, 3)] (1 / 100) 1)) 5 0 (viewAt0 5 0) 0 (1 / 10)
    (1 / 10) .CCC 1 (idStore []) diag0 (by decide) (by decide) (by decide) (by decide)
    (by decide) (by decide)).2.2 out hrun
  refine ⟨out, hrun, of_decide_eq_true hP, fun l ci a b h it rs task hmem => ?_⟩
  rw [(hflag l ci a b h it rs task hmem).2]
  rfl

theorem C19_witness :
    (∃ out, split_cc (pairTs [(0, 1), (2, 3)] (1 / 100) 1) 5 0 (viewAt0 5 0) (1 / 10)
        (idStore []) diag0 = .ok out ∧
      split_cc_verify_ts (pairTs [(0, 1), (2, 3)] (1 / 100) 1) out.mem out.c out.r (1 / 10) =
        .ok ()) ∧
    ∃ e, split_cc_verify_ts (pairTs [(0, 1)] (1 / 100) 1) (idStore []) zerosys (viewAt0 2 0)
      (1 / 10) = .error e := by
  refine ⟨?_, (C19_verify_ts (pairTs [(0, 1)] (1 / 100) 1) (idStore []) zerosys
    (viewAt0 2 0) (1 / 10)).2.2 (Or.inr (Or.inr ⟨0, by decide, 1, by decide, by decide,
      by decide!⟩))⟩
  have h : (split_cc (pairTs [(0, 1), (2, 3)] (1 / 100) 1) 5 0 (viewAt0 5 0) (1 / 10)
      (idStore []) diag0).check (fun out => verify_check
        (split_cc_verify_ts (pairTs [(0, 1), (2, 3)] (1 / 100) 1) out.mem out.c out.r
          (1 / 10))) = true := by decide!
  obtain ⟨out, hrun, hP⟩ := outcome.of_check h
  refine ⟨out, hrun, ?_⟩
  rcases except_unit_cases (split_cc_verify_ts (pairTs [(0, 1), (2, 3)] (1 / 100) 1) out.mem
    out.c out.r (1 / 10)) with e | ⟨e, he⟩
  · exact e
  · rw [he] at hP
    cases hP

theorem C20_witness :
    (∃ out, split_cc (pairTs [(0, 1), (2, 3)] (1 / 100) 1) 5 0 (viewAt0 5 0) (1 / 10)
        (idStore []) diag0 = .ok out ∧
      split_cc_verify (fun _ _ => true) (idStore []) (viewAt0 5 0) out.mem out.c out.r =
        .ok ()) ∧
    ∃ e, split_cc_verify (fun _ _ => true) (idStore []) (viewAt0 3 0) (idStore []) zerosys
      (viewAt0 2 0) = .error e := by
  refine ⟨?_, (C20_verify_membership (fun _ _ => true) (idStore []) (viewAt0 3 0) (idStore [])
    zerosys (viewAt0 2 0) (by decide)).2.1 (by decide)⟩
  have h : (split_cc (pairTs [(0, 1), (2, 3)] (1 / 100) 1) 5 0 (viewAt0 5 0) (1 / 10)
      (idStore []) diag0).check (fun out => verify_check
        (split_cc_verify (fun _ _ => true) (idStore []) (viewAt0 5 0) out.mem out.c out.r)) =
      true := by decide!
  obtain ⟨out, hrun, hP⟩ := outcome.of_check h
  refine ⟨out, hrun, ?_⟩
  rcases except_unit_cases (split_cc_verify (fun _ _ => true) (idStore []) (viewAt0 5 0)
    out.mem out.c out.r) with e | ⟨e, he⟩
  · exact e
  · rw [he] at hP
    cases hP

/-! ## Splits of connected views, empty results -/

theorem lastNode_linkCC (G : Geo) : ∀ L : List Blk, lastNode (linkCC G L) = zerosys
  | [] => rfl
  | q :: t => by
    have ih := lastNode_linkCC G t
    simp only [linkCC, compNode, lastNode]
    exact ih

theorem linkCC_eq_zerosys (G : Geo) (L : List Blk) : linkCC G L = zerosys ↔ L = [] := by
  cases L with
  | nil => simp [linkCC]
  | cons q t =>
    simp only [linkCC, compNode, zerosys, reduceCtorEq, iff_false]
    intro h
    injection h with _ _ _ _ h5 _ _
    cases h5

theorem perm_symm_fix {S : ℤ → Prop} {π : Equiv.Perm ℤ} (f : ∀ x, ¬ S x → π x = x) :
    ∀ x, ¬ S x → π.symm x = x := by
  intro x hx
  have := f x hx
  conv_lhs => rw [← this]
  exact π.symm_apply_apply x

/-- Undirected chains survive a permutation of the store inside `S`. -/
theorem chain_transport {E : particle → particle → Prop} {S : ℤ → Prop} {a b : Mem}
    (h : MemPerm S a b)
    (hc : ∀ x y, S x → S y → Relation.ReflTransGen (UStep E a S) x y) :
    ∀ x y, S x → S y → Relation.ReflTransGen (UStep E b S) x y := by
  obtain ⟨π, f, e⟩ := h
  intro x y hx hy
  have hpx : S (π x) := perm_maps_into f hx
  have hpy : S (π y) := perm_maps_into f hy
  have hlift := Relation.ReflTransGen.lift (p := UStep E b S) π.symm (fun u v huv => by
    obtain ⟨hu, hv, huv1, he⟩ := huv
    refine ⟨perm_maps_into (perm_symm_fix f) hu, perm_maps_into (perm_symm_fix f) hv,
      fun hh => huv1 (π.symm.injective hh), ?_⟩
    unfold Ed at he ⊢
    rw [e, e, Equiv.apply_symm_apply, Equiv.apply_symm_apply]
    exact he) (hc (π x) (π y) hpx hpy)
  rw [Equiv.symm_apply_apply, Equiv.symm_apply_apply] at hlift
  exact hlift

/-- Two addresses joined by an undirected chain inside the view lie in one emitted component,
when the time-step function is symmetric. -/
theorem chain_same_blk {ts : particle → particle → ℤ → DOUBLE} {dir : ℤ} {dt : DOUBLE}
    (hsym : ∀ (p q : particle) (d : ℤ), ts p q d = ts q p d) {G : Geo} (hD : G.Disj)
    {m0 : Mem} {g : Cnt} {L : List Blk} {out : split_out}
    (h : SplitRes (fast ts dir dt) G m0 g L out) {x y : ℤ}
    (hxy : Relation.ReflTransGen (UStep (fast ts dir dt) out.mem (G.zone 0 G.nm 0 G.nz)) x y) :
    x = y ∨ ∃ q ∈ L, q.has G x ∧ q.has G y := by
  have h1 := h.fullm
  have h2 := h.fullz
  induction hxy with
  | refl => exact Or.inl rfl
  | tail hab hbc ih =>
    rename_i b c
    obtain ⟨hb, hc, hne, he⟩ := hbc
    have hblk : ∃ q ∈ L, q.has G b ∧ q.has G c := by
      by_contra hno
      have hs := sep_both hsym (h.sep hb hc hne hno)
      rcases he with he | he
      · exact hs.1 he
      · exact hs.2 he
    right
    rcases ih with rfl | ⟨q, hq, hqx, hqb⟩
    · exact hblk
    · obtain ⟨r, hr, hrb, hrc⟩ := hblk
      have := Tiled.unique G hD h.tiled (by omega) (by omega) hq hr hqb hrb
      subst this
      exact ⟨q, hq, hqx, hrc⟩

theorem blk_full {G : Geo} (hD : G.Disj) {q : Blk} (h1 : q.a + q.vm ≤ G.nm)
    (h2 : q.b + q.vz ≤ G.nz) (hall : ∀ z, G.zone 0 G.nm 0 G.nz z → q.has G z) :
    q.vm = G.nm ∧ q.vz = G.nz := by
  unfold Geo.Disj at hD
  constructor
  · by_contra hne
    have hz : G.zone 0 G.nm 0 G.nz (G.P + (G.nm : ℤ) - 1) := by
      unfold Geo.zone; omega
    have hp : G.zone 0 G.nm 0 G.nz G.P := by
      unfold Geo.zone; omega
    have := hall _ hz
    have := hall _ hp
    unfold Blk.has Geo.zone at *
    omega
  · by_contra hne
    have hz : G.zone 0 G.nm 0 G.nz (G.Z + (G.nz : ℤ) - 1) := by
      unfold Geo.zone; omega
    have hp : G.zone 0 G.nm 0 G.nz G.Z := by
      unfold Geo.zone; omega
    have := hall _ hz
    have := hall _ hp
    unfold Blk.has Geo.zone at *
    omega

/-- A view whose particles are all joined by undirected chains comes out of the split, for a
symmetric time-step function, as one component, with nothing in the rest. -/
theorem connected_split {ts : particle → particle → ℤ → DOUBLE} {dir : ℤ} {dt : DOUBLE}
    (hsym : ∀ (p q : particle) (d : ℤ), ts p q d = ts q p d) {G : Geo} (hD : G.Disj)
    (hG : 2 ≤ G.nm + G.nz) {m0 : Mem} {g : Cnt} {L : List Blk} {out : split_out}
    (h : SplitRes (fast ts dir dt) G m0 g L out)
    (hc : ∀ x y, G.zone 0 G.nm 0 G.nz x → G.zone 0 G.nm 0 G.nz y →
      Relation.ReflTransGen (UStep (fast ts dir dt) out.mem (G.zone 0 G.nm 0 G.nz)) x y) :
    L = [⟨0, G.nm, 0, G.nz⟩] ∧ g.rm = 0 ∧ g.rz = 0 := by
  have h1 := h.fullm
  have h2 := h.fullz
  -- two different addresses of the view
  obtain ⟨x0, hx0, -⟩ := blk_two hD (q := ⟨0, G.nm, 0, G.nz⟩) (by simp) (by simp)
    (by simpa using hG) 0
  obtain ⟨x1, hx1, hne⟩ := blk_two hD (q := ⟨0, G.nm, 0, G.nz⟩) (by simp) (by simp)
    (by simpa using hG) x0
  have hz0 : G.zone 0 G.nm 0 G.nz x0 := by
    unfold Blk.has at hx0; simpa using hx0
  have hz1 : G.zone 0 G.nm 0 G.nz x1 := by
    unfold Blk.has at hx1; simpa using hx1
  rcases chain_same_blk hsym hD h (hc x0 x1 hz0 hz1) with e | ⟨q, hq, hq0, hq1⟩
  · exact absurd e.symm hne
  · have hall : ∀ z, G.zone 0 G.nm 0 G.nz z → q.has G z := by
      intro z hz
      rcases chain_same_blk hsym hD h (hc x0 z hz0 hz) with e | ⟨r, hr, hr0, hrz⟩
      · rw [← e]; exact hq0
      · have := Tiled.unique G hD h.tiled (by omega) (by omega) hq hr hq0 hr0
        rw [this]; exact hrz
    have hm := Tiled.mem L 0 0 g.em g.ez h.tiled q hq
    obtain ⟨f1, f2⟩ := blk_full hD (by omega) (by omega) hall
    have hqe : q = ⟨0, G.nm, 0, G.nz⟩ := by
      cases q with
      | mk a vm b vz =>
        simp only at f1 f2 hm
        simp only [Blk.mk.injEq]
        omega
    refine ⟨?_, by omega, by omega⟩
    have hem : g.em = G.nm := by omega
    have hez : g.ez = G.nz := by omega
    cases hL : L with
    | nil => rw [hL] at hq; cases hq
    | cons p t =>
      have ht := h.tiled
      rw [hL] at ht
      obtain ⟨t1, t2, t3, t4⟩ := ht
      have hp : p ∈ L := by rw [hL]; exact List.mem_cons_self _ _
      have hmp := Tiled.mem L 0 0 g.em g.ez h.tiled p hp
      -- the first component holds an address of the view, so it is `q`
      obtain ⟨xp, hxp, -⟩ := blk_two hD (q := p) (by omega) (by omega) t3 0
      have hzp : G.zone 0 G.nm 0 G.nz xp := by
        unfold Blk.has Geo.zone at hxp
        unfold Geo.zone
        omega
      have hpq := Tiled.unique G hD h.tiled (by omega) (by omega) hp hq hxp (hall xp hzp)
      cases ht2 : t with
      | nil => rw [hpq, hqe]
      | cons r u =>
        exfalso
        rw [ht2] at t4
        obtain ⟨u1, u2, u3, u4⟩ := t4
        have := Tiled.le u _ _ g.em g.ez u4
        rw [hpq, hqe] at this u1 u2
        simp only at this u1 u2
        omega

theorem mem_nodesOf_of_mem (G : Geo) : ∀ (L : List Blk) (q : Blk), q ∈ L →
    ∃ nx, compNode G q nx ∈ nodesOf G L
  | [], q, h => by cases h
  | p :: t, q, h => by
    rcases List.mem_cons.1 h with rfl | h
    · exact ⟨_, List.mem_cons_self _ _⟩
    · obtain ⟨nx, hnx⟩ := mem_nodesOf_of_mem G t q h
      exact ⟨nx, List.mem_cons_of_mem _ hnx⟩

theorem compNode_rest_zerosys (G : Geo) (a b : ℕ) : compNode G ⟨a, 0, b, 0⟩ none = zerosys := by
  simp [compNode, zerosys]

theorem zone_compNode (G : Geo) (q : Blk) (nx : Option sys) (x : ℤ) :
    (geo (compNode G q nx)).zone 0 (geo (compNode G q nx)).nm 0 (geo (compNode G q nx)).nz x ↔
      q.has G x := by
  unfold geo Blk.has Geo.zone
  simp only [compNode_n, compNode_nzero, compNode_part, compNode_zeropart, Nat.add_sub_cancel]
  by_cases hm : 0 < q.vm <;> by_cases hz : 0 < q.vz <;>
    simp only [hm, hz, if_true, if_false, Ptr.addr, Option.getD_some, Option.getD_none] <;>
    constructor <;> intro h <;> push_cast at h ⊢ <;> omega

/-- C13 (empty results): after `split_cc` the head `c` is `zerosys` exactly when the list has
no view, that is when no non-trivial component was found; this is the case whenever no two
particles of the view have `timestep_ij <= |dt|`, and for a symmetric time-step function only
then.  When `c` is `zerosys`, `r` covers the whole view, `r.n = s.n` and
`r.nzero = s.nzero`.  The rest `r` is `zerosys` exactly when every particle of the view lies
in a view of the list.  And the list headed by `c` always ends in a node equal to
`zerosys`. -/
theorem C13_empty_results (ts : particle → particle → ℤ → DOUBLE) (fuel : ℕ) (clevel : ℤ)
    (s : sys) (dt : DOUBLE) (mem : Mem) (diag : diagnostics) (hwf : WF s) (hn : 2 ≤ s.n)
    (hfuel : s.n ≤ fuel) :
    ∃ out, split_cc ts fuel clevel s dt mem diag = .ok out ∧
      (out.c = zerosys ↔ ccViews out.c = []) ∧
      ((∀ i ∈ sysPos s, ∀ j ∈ sysPos s, i ≠ j → ¬ ts (mem i) (mem j) (SIGN dt) ≤ |dt|) →
        out.c = zerosys) ∧
      ((∀ (p q : particle) (d : ℤ), ts p q d = ts q p d) → out.c = zerosys →
        ∀ i ∈ sysPos s, ∀ j ∈ sysPos s, i ≠ j → ¬ ts (mem i) (mem j) (SIGN dt) ≤ |dt|) ∧
      (out.c = zerosys → out.r.n = s.n ∧ out.r.nzero = s.nzero ∧ sysPos out.r = sysPos s) ∧
      (out.r = zerosys ↔ ∀ i ∈ sysPos s, ∃ v ∈ ccViews out.c, i ∈ sysPos v) ∧
      lastNode out.c = zerosys := by
  obtain ⟨out, L, g, hrun, hres⟩ := split_cc_main ts fuel clevel s dt mem diag hwf hn hfuel
  obtain ⟨hv, hr⟩ := hres.views
  have hD := hwf.2.2.2
  have h1 := hres.fullm
  have h2 := hres.fullz
  have htot := geo_total hwf
  have hcL : out.c = zerosys ↔ L = [] := by rw [hres.c_eq]; exact linkCC_eq_zerosys _ L
  have hvL : ccViews out.c = [] ↔ L = [] := by
    rw [hv]
    cases L with
    | nil => simp [nodesOf]
    | cons q t => simp [nodesOf]
  obtain ⟨π, f, e⟩ := hres.perm
  refine ⟨out, hrun, hcL.trans hvL.symm, ?_, ?_, ?_, ?_, ?_⟩
  · rw [hcL]
    · intro hno
      by_contra hL
      obtain ⟨q, hq⟩ := List.exists_mem_of_ne_nil L hL
      have hm := Tiled.mem L 0 0 g.em g.ez hres.tiled q hq
      obtain ⟨x, hx, -⟩ := blk_two hD (q := q) (by omega) (by omega) (by omega) 0
      obtain ⟨y, hy, hne, he⟩ := (hres.connAll q hq).neighbour
        (fun s0 => blk_two hD (q := q) (by omega) (by omega) (by omega) s0) hx
      have hzx := hres.blk_zone hq hx
      have hzy := hres.blk_zone hq hy
      have hpx : π x ∈ sysPos s := (mem_sysPos_input hwf _).2 (perm_maps_into f hzx)
      have hpy : π y ∈ sysPos s := (mem_sysPos_input hwf _).2 (perm_maps_into f hzy)
      have hpne : π x ≠ π y := fun hh => hne (π.injective hh).symm
      unfold Ed fast at he
      rw [e, e] at he
      rcases he with he | he
      · exact hno _ hpx _ hpy hpne he
      · exact hno _ hpy _ hpx (fun hh => hpne hh.symm) he
  · intro hsym
    rw [hcL]
    · intro hL i hi j hj hij
      rw [mem_sysPos_input hwf] at hi hj
      have ha : (geo s).zone 0 (geo s).nm 0 (geo s).nz (π.symm i) :=
        perm_maps_into (perm_symm_fix f) hi
      have hb : (geo s).zone 0 (geo s).nm 0 (geo s).nz (π.symm j) :=
        perm_maps_into (perm_symm_fix f) hj
      have hs := (sep_both hsym (hres.sep ha hb (fun hh => hij (π.symm.injective hh))
        (by rw [hL]; simp))).1
      rw [e, e, Equiv.apply_symm_apply, Equiv.apply_symm_apply] at hs
      exact hs
  · intro hc
    have hL := hcL.1 hc
    have ht := hres.tiled
    rw [hL] at ht
    obtain ⟨t1, t2⟩ := ht
    have hrm : g.rm = (geo s).nm := by omega
    have hrz : g.rz = (geo s).nz := by omega
    have hw := hwf.1
    refine ⟨?_, ?_, ?_⟩
    · rw [hres.r_eq, compNode_n]
      show g.rm + g.rz = s.n
      omega
    · rw [hres.r_eq, compNode_nzero]
      show g.rz = s.nzero
      rw [hrz]; rfl
    · rw [hr, sysPos_input hwf]
      unfold blkPos Cnt.rblk Geo.laneM Geo.laneZ
      simp only [← t1, ← t2, hrm, hrz, Nat.cast_zero, add_zero]
  · constructor
    · intro hz i hi
      have hn0 : out.r.n = 0 := by rw [hz]; rfl
      rw [hres.r_eq, compNode_n] at hn0
      simp only at hn0
      rw [mem_sysPos_input hwf] at hi
      rcases hres.blk_or_rest i hi with ⟨q, hq, hqi⟩ | hrest
      · obtain ⟨nx, hnx⟩ := mem_nodesOf_of_mem (geo s) L q hq
        refine ⟨_, by rw [hv]; exact hnx, ?_⟩
        rw [sysPos_compNode, mem_blkPos]
        exact hqi
      · exfalso
        unfold Cnt.rblk Blk.has Geo.zone at hrest
        simp only at hrest
        omega
    · intro hall
      have hrm : g.rm = 0 ∧ g.rz = 0 := by
        by_contra hne
        obtain ⟨x, hx, -⟩ : ∃ x, g.rblk.has (geo s) x ∧ True := by
          by_cases hm : 0 < g.rm
          · exact ⟨(geo s).P + g.em, by unfold Cnt.rblk Blk.has Geo.zone; simp only; omega,
              trivial⟩
          · exact ⟨(geo s).Z + g.ez, by unfold Cnt.rblk Blk.has Geo.zone; simp only; omega,
              trivial⟩
        obtain ⟨v, hvm, hiv⟩ := hall x ((mem_sysPos_input hwf x).2 (hres.rest_all hx))
        rw [hv] at hvm
        obtain ⟨q, hq, nx, rfl⟩ := mem_nodesOf (geo s) L v hvm
        rw [sysPos_compNode, mem_blkPos] at hiv
        exact hres.rest_not_blk hD hx (hres.blk_done hq hiv)
      rw [hres.r_eq, hrm.1, hrm.2]
      exact compNode_rest_zerosys _ _ _
  · rw [hres.c_eq]
    exact lastNode_linkCC _ L

/-- C11 (idempotence of the split): for a symmetric time-step function, `split_cc` called
again with the same `dt` on a component `v` that it has emitted, in the store that it has
left, returns a list of exactly one view, which has the `n`, `nzero`, `part`, `last`,
`zeropart` and `lastzero` of `v` and holds the particle ids of `v`, and a rest equal to
`zerosys`, so `r.n = 0`. -/
theorem C11_idempotence (ts : particle → particle → ℤ → DOUBLE) (fuel : ℕ) (clevel : ℤ)
    (s : sys) (dt : DOUBLE) (mem : Mem) (diag : diagnostics)
    (hsym : ∀ (p q : particle) (d : ℤ), ts p q d = ts q p d) (hwf : WF s) (hn : 2 ≤ s.n)
    (hfuel : s.n ≤ fuel) :
    ∃ out, split_cc ts fuel clevel s dt mem diag = .ok out ∧
      ∀ v ∈ ccViews out.c, ∀ (fuel1 : ℕ) (clevel1 : ℤ) (diag1 : diagnostics), v.n ≤ fuel1 →
        ∃ out1 v1, split_cc ts fuel1 clevel1 v dt out.mem diag1 = .ok out1 ∧
          ccViews out1.c = [v1] ∧ v1.n = v.n ∧ v1.nzero = v.nzero ∧ v1.part = v.part ∧
          v1.last = v.last ∧ v1.zeropart = v.zeropart ∧ v1.lastzero = v.lastzero ∧
          ((sysParts out1.mem v1).map particle.id).Perm
            ((sysParts out.mem v).map particle.id) ∧
          out1.r = zerosys ∧ out1.r.n = 0 := by
  obtain ⟨out, L, g, hrun, hres⟩ := split_cc_main ts fuel clevel s dt mem diag hwf hn hfuel
  refine ⟨out, hrun, fun v hv fuel1 clevel1 diag1 hf => ?_⟩
  rw [hres.views.1] at hv
  obtain ⟨q, hq, nx, e⟩ := mem_nodesOf (geo s) L v hv
  subst e
  have hm := Tiled.mem L 0 0 g.em g.ez hres.tiled q hq
  have h1 := hres.fullm
  have h2 := hres.fullz
  have hwfv : WF (compNode (geo s) q nx) := WF_compNode hwf.2.2.2 q nx (by omega) (by omega)
  have hn2 : 2 ≤ (compNode (geo s) q nx).n := by rw [compNode_n]; omega
  obtain ⟨out1, L1, g1, hrun1, hres1⟩ :=
    split_cc_main ts fuel1 clevel1 (compNode (geo s) q nx) dt out.mem diag1 hwfv hn2 hf
  have htotv := geo_total hwfv
  -- the component is connected in the store that the first split has left
  have hconn : Conn (fast ts (SIGN dt) |dt|) out.mem
      ((geo (compNode (geo s) q nx)).zone 0 (geo (compNode (geo s) q nx)).nm 0
        (geo (compNode (geo s) q nx)).nz) :=
    (hres.connAll q hq).congr (fun _ _ => rfl) (fun x =>
      (zone_compNode (geo s) q nx x).symm)
  have hchain := chain_transport hres1.perm (fun x y hx hy => hconn.chain hx hy)
  obtain ⟨hL1, hrm, hrz⟩ := connected_split hsym hwfv.2.2.2 (by omega) hres1 hchain
  have hr1 : out1.r = zerosys := by
    rw [hres1.r_eq, hrm, hrz]
    exact compNode_rest_zerosys _ _ _
  generalize hv0 : compNode (geo s) q nx = v at *
  have hnm : (geo v).nm = q.vm := by
    rw [← hv0]; show q.vm + q.vz - q.vz = q.vm; omega
  have hnz : (geo v).nz = q.vz := by rw [← hv0]; rfl
  have hP : 0 < q.vm → (geo v).P = (geo s).P + q.a := by
    intro h
    rw [← hv0]
    simp [geo, compNode_part, h, Ptr.addr]
  have hZ : 0 < q.vz → (geo v).Z = (geo s).Z + q.b := by
    intro h
    rw [← hv0]
    simp [geo, compNode_zeropart, h, Ptr.addr]
  refine ⟨out1, compNode (geo v) ⟨0, (geo v).nm, 0, (geo v).nz⟩ (some (linkCC (geo v) [])),
    hrun1, ?_, ?_, ?_, ?_, ?_, ?_, ?_, ?_, hr1, by rw [hr1]; rfl⟩
  · rw [hres1.views.1, hL1]
    rfl
  · rw [compNode_n]; exact htotv
  · rw [compNode_nzero]; rfl
  · rw [compNode_part]
    simp only [hnm, hnz]
    have hfld : v.part = (compNode (geo s) q nx).part := by rw [hv0]
    rw [hfld, compNode_part]
    by_cases a1 : 0 < q.vm
    · simp [a1, hP a1]
    · by_cases a2 : 0 < q.vz
      · simp [a1, a2, hZ a2]
      · simp [a1, a2]
  · rw [compNode_last]
    simp only [hnm]
    have hfld : v.last = (compNode (geo s) q nx).last := by rw [hv0]
    rw [hfld, compNode_last]
    by_cases a1 : 0 < q.vm
    · simp [a1, hP a1]
    · simp [a1]
  · rw [compNode_zeropart]
    simp only [hnz]
    have hfld : v.zeropart = (compNode (geo s) q nx).zeropart := by rw [hv0]
    rw [hfld, compNode_zeropart]
    by_cases a2 : 0 < q.vz
    · simp [a2, hZ a2]
    · simp [a2]
  · rw [compNode_lastzero]
    simp only [hnz]
    have hfld : v.lastzero = (compNode (geo s) q nx).lastzero := by rw [hv0]
    rw [hfld, compNode_lastzero]
    by_cases a2 : 0 < q.vz
    · simp [a2, hZ a2]
    · simp [a2]
  · apply List.Perm.map
    unfold sysParts
    have e1 : sysPos (compNode (geo v) ⟨0, (geo v).nm, 0, (geo v).nz⟩
        (some (linkCC (geo v) []))) = sysPos v := by
      rw [sysPos_compNode, sysPos_input hwfv]
      unfold blkPos Geo.laneM Geo.laneZ
      simp only [Nat.cast_zero, add_zero]
    rw [e1, sysPos_input hwfv, List.map_append, List.map_append]
    exact hres1.lanes.massive.append hres1.lanes.massless

theorem C11_witness :
    (∃ out, split_cc chainTs 6 0 (viewAt0 6 2) (1 / 50) (idStore [4, 5]) diag0 = .ok out ∧
      (ccViews out.c).all (fun v =>
        (split_cc chainTs 6 0 v (1 / 50) out.mem diag0).check (fun out1 =>
          decide ((ccViews out1.c).map (fun v1 => (v1.n, v1.nzero, v1.part, v1.last))
            = [(v.n, v.nzero, v.part, v.last)] ∧ out1.r.n = 0))) = true) ∧
    ∃ out, split_cc chainTs 6 0 (viewAt0 6 2) (1 / 50) (idStore [4, 5]) diag0 = .ok out ∧
      ∀ v ∈ ccViews out.c, ∀ (fuel1 : ℕ) (clevel1 : ℤ) (diag1 : diagnostics), v.n ≤ fuel1 →
        ∃ out1 v1, split_cc chainTs fuel1 clevel1 v (1 / 50) out.mem diag1 = .ok out1 ∧
          ccViews out1.c = [v1] ∧ v1.n = v.n ∧ v1.nzero = v.nzero ∧ v1.part = v.part ∧
          v1.last = v.last ∧ v1.zeropart = v.zeropart ∧ v1.lastzero = v.lastzero ∧
          ((sysParts out1.mem v1).map particle.id).Perm
            ((sysParts out.mem v).map particle.id) ∧
          out1.r = zerosys ∧ out1.r.n = 0 := by
  refine ⟨?_, C11_idempotence chainTs 6 0 (viewAt0 6 2) (1 / 50) (idStore [4, 5]) diag0
    (pairTs_symm _ _ _) (by decide) (by decide) (by decide)⟩
  have h : (split_cc chainTs 6 0 (viewAt0 6 2) (1 / 50) (idStore [4, 5]) diag0).check
      (fun out => (ccViews out.c).all (fun v =>
        (split_cc chainTs 6 0 v (1 / 50) out.mem diag0).check (fun out1 =>
          decide ((ccViews out1.c).map (fun v1 => (v1.n, v1.nzero, v1.part, v1.last))
            = [(v.n, v.nzero, v.part, v.last)] ∧ out1.r.n = 0)))) = true := by decide!
  obtain ⟨out, hrun, hP⟩ := outcome.of_check h
  exact ⟨out, hrun, hP⟩

theorem C13_witness :
    (∃ out, split_cc (pairTs [] 10 10) 8 0 (viewAt0 8 0) 1 (idStore []) diag0 = .ok out ∧
      IS_ZEROSYS out.c = true ∧ out.r.n = 8 ∧ out.r.nzero = 0 ∧
      sysPos out.r = sysPos (viewAt0 8 0)) ∧
    ∃ out, split_cc (pairTs [] 10 10) 8 0 (viewAt0 8 0) 1 (idStore []) diag0 = .ok out ∧
      (out.c = zerosys ↔ ccViews out.c = []) ∧
      ((∀ i ∈ sysPos (viewAt0 8 0), ∀ j ∈ sysPos (viewAt0 8 0), i ≠ j →
          ¬ pairTs [] 10 10 (idStore [] i) (idStore [] j) (SIGN 1) ≤ |1|) →
        out.c = zerosys) ∧
      ((∀ (p q : particle) (d : ℤ), pairTs [] 10 10 p q d = pairTs [] 10 10 q p d) →
        out.c = zerosys →
        ∀ i ∈ sysPos (viewAt0 8 0), ∀ j ∈ sysPos (viewAt0 8 0), i ≠ j →
          ¬ pairTs [] 10 10 (idStore [] i) (idStore [] j) (SIGN 1) ≤ |1|) ∧
      (out.c = zerosys → out.r.n = (viewAt0 8 0).n ∧ out.r.nzero = (viewAt0 8 0).nzero ∧
        sysPos out.r = sysPos (viewAt0 8 0)) ∧
      (out.r = zerosys ↔ ∀ i ∈ sysPos (viewAt0 8 0), ∃ v ∈ ccViews out.c, i ∈ sysPos v) ∧
      lastNode out.c = zerosys := by
  refine ⟨?_, C13_empty_results (pairTs [] 10 10) 8 0 (viewAt0 8 0) 1 (idStore []) diag0
    (by decide) (by decide) (by decide)⟩
  have h : (split_cc (pairTs [] 10 10) 8 0 (viewAt0 8 0) 1 (idStore []) diag0).check
      (fun out => IS_ZEROSYS out.c && decide (out.r.n = 8 ∧ out.r.nzero = 0 ∧
        sysPos out.r = sysPos (viewAt0 8 0))) = true := by decide!
  obtain ⟨out, hrun, hP⟩ := outcome.of_check h
  rw [Bool.and_eq_true] at hP
  exact ⟨out, hrun, hP.1, of_decide_eq_true hP.2⟩

/-! ## The direction of time -/

theorem Agree.perm {ts ts1 : particle → particle → ℤ → DOUBLE} {dir dir1 : ℤ}
    {S : ℤ → Prop} {m m1 : Mem} (h : Agree ts ts1 dir dir1 S m) (hp : MemPerm S m m1) :
    Agree ts ts1 dir dir1 S m1 := by
  obtain ⟨π, f, e⟩ := hp
  intro x y hx hy
  rw [e, e]
  exact h _ _ (perm_maps_into f hx) (perm_maps_into f hy)

theorem probe_loop_local {ts ts1 : particle → particle → ℤ → DOUBLE} {dir dir1 : ℤ}
    (dt : DOUBLE) (clevel : ℤ) {S : ℤ → Prop} (act : ℤ) (hact : S act) :
    ∀ (k : ℕ) (i : ℤ) (p : probe_state), p.next ≤ i →
      (∀ j, p.next ≤ j → j < i + k → S j) → Agree ts ts1 dir dir1 S p.mem →
      probe_loop ts dir dt clevel act k i p = probe_loop ts1 dir1 dt clevel act k i p := by
  intro k
  induction k with
  | zero => intro i p _ _ _; rfl
  | succ k ih =>
    intro i p h1 hS hA
    have hi : S i := hS i h1 (by push_cast; omega)
    have hnx : S p.next := hS p.next (le_refl _) (by push_cast; omega)
    simp only [probe_loop]
    rw [hA act i hact hi]
    by_cases hE : ts1 (p.mem act) (p.mem i) dir1 ≤ dt
    · rw [if_pos hE, if_pos hE]
      exact ih (i + 1) _ (by simp; omega) (fun j hj1 hj2 => hS j (by simp at hj1; omega)
        (by push_cast; omega)) (hA.perm (MemPerm.swap p.mem hnx hi))
    · rw [if_neg hE, if_neg hE]
      exact ih (i + 1) _ (by simp; omega) (fun j hj1 hj2 => hS j (by simpa using hj1)
        (by push_cast; omega)) hA

theorem probe_massive_local {ts ts1 : particle → particle → ℤ → DOUBLE} {dir dir1 : ℤ}
    (dt : DOUBLE) (clevel : ℤ) {G : Geo} {g : Cnt} {st : split_state} (hc : Cur G g st)
    (act : ℤ) (hact : G.zone 0 G.nm 0 G.nz act)
    (hA : Agree ts ts1 dir dir1 (G.zone 0 G.nm 0 G.nz) st.mem) :
    probe_massive ts dir dt clevel act st = probe_massive ts1 dir1 dt clevel act st := by
  obtain ⟨h1, h2, h3, h4, h5, h6, h7, h8, h9⟩ := hc
  unfold probe_massive
  by_cases hn : st.stack_next ≠ none
  · rw [if_pos hn, if_pos hn]
    have hnm : 0 < G.nm := by
      by_contra h0
      rw [h2] at hn
      simp [lp, h0] at hn
    have hpl := @probe_loop_local ts ts1 dir dir1 dt clevel _
      act hact (st.rest_next.addr - st.stack_next.addr + 1).toNat st.stack_next.addr
      ⟨st.mem, st.stack_next.addr, st.stack_size, st.diag⟩ (le_refl _) (by
        intro j hj1 hj2
        simp only [h2, h3, lp, hnm, if_true, Ptr.addr, Option.getD_some] at hj1 hj2
        unfold Geo.zone
        omega) hA
    rw [hpl]
  · rw [if_neg hn, if_neg hn]

theorem probe_massless_local {ts ts1 : particle → particle → ℤ → DOUBLE} {dir dir1 : ℤ}
    (dt : DOUBLE) (clevel : ℤ) {G : Geo} {g : Cnt} {st : split_state} (hc : Cur G g st)
    (act : ℤ) (hact : G.zone 0 G.nm 0 G.nz act)
    (hA : Agree ts ts1 dir dir1 (G.zone 0 G.nm 0 G.nz) st.mem) :
    probe_massless ts dir dt clevel act st = probe_massless ts1 dir1 dt clevel act st := by
  obtain ⟨h1, h2, h3, h4, h5, h6, h7, h8, h9⟩ := hc
  unfold probe_massless
  by_cases hn : st.stackzero_next ≠ none
  · rw [if_pos hn, if_pos hn]
    have hnz : 0 < G.nz := by
      by_contra h0
      rw [h6] at hn
      simp [lp, h0] at hn
    have hpl := @probe_loop_local ts ts1 dir dir1 dt clevel _
      act hact (st.restzero_next.addr - st.stackzero_next.addr + 1).toNat
      st.stackzero_next.addr ⟨st.mem, st.stackzero_next.addr, st.stack_size, st.diag⟩
      (le_refl _) (by
        intro j hj1 hj2
        simp only [h6, h7, lp, hnz, if_true, Ptr.addr, Option.getD_some] at hj1 hj2
        unfold Geo.zone
        omega) hA
    rw [hpl]
  · rw [if_neg hn, if_neg hn]

theorem inner_pass_local {ts ts1 : particle → particle → ℤ → DOUBLE} {dir dir1 : ℤ}
    (dt : DOUBLE) (clevel : ℤ) {G : Geo} (hD : G.Disj) {g : Cnt} {st : split_state}
    (hc : Cur G g st) (hpos : 0 < g.km + g.kz)
    (hA : Agree ts ts1 dir dir1 (G.zone 0 G.nm 0 G.nz) st.mem) :
    inner_pass ts dir dt clevel st = inner_pass ts1 dir1 dt clevel st := by
  obtain ⟨hsel, haddr⟩ := select_active_spec hc hpos
  have hb := hc.bound
  have hbz := hc.boundzero
  have hc0 : Cur G g { st with active := select_active st } :=
    ⟨hc.1, hc.2, hc.3, hc.4, hc.5, hc.6, hc.7, hc.8, hc.9⟩
  have hactS : G.zone 0 G.nm 0 G.nz (g.act G) := by
    unfold Cnt.act Geo.zone
    split_ifs with hk
    · left; omega
    · right; omega
  have hactm : 0 < G.nm → g.act G < G.P + (g.em + g.vm + g.km : ℕ) ∨
      G.P + G.nm - g.rm ≤ g.act G := by
    intro hn
    unfold Cnt.act
    unfold Geo.Disj at hD
    split_ifs with hk
    · left; push_cast; omega
    · push_cast; omega
  obtain ⟨jm, c1, -, -, -, -, -, -, p1, -, -⟩ :=
    probe_massive_spec ts dir dt clevel (g.act G) hc0 hactm
  have hA1 : Agree ts ts1 dir dir1 (G.zone 0 G.nm 0 G.nz)
      (probe_massive ts dir dt clevel (g.act G) { st with active := select_active st }).mem :=
    hA.perm (p1.mono (fun x hx => by unfold Geo.zone; omega))
  unfold inner_pass
  simp only [haddr]
  rw [← probe_massive_local dt clevel hc0 (g.act G) hactS hA,
    ← probe_massless_local dt clevel c1 (g.act G) hactS hA1]

theorem inner_loop_local {ts ts1 : particle → particle → ℤ → DOUBLE} {dir dir1 : ℤ}
    (dt : DOUBLE) (clevel : ℤ) {G : Geo} (hD : G.Disj) {m0 : Mem} {L : List Blk}
    (hA : Agree ts ts1 dir dir1 (G.zone 0 G.nm 0 G.nz) m0) :
    ∀ (fuel : ℕ) (g : Cnt) (st : split_state), Inv (fast ts dir dt) G m0 g L st →
      InnerX g st →
      inner_loop ts dir dt clevel fuel st = inner_loop ts1 dir1 dt clevel fuel st := by
  intro fuel
  induction fuel with
  | zero => intro g st _ _; rfl
  | succ fuel ih =>
    intro g st hI hX
    simp only [inner_loop]
    by_cases hs : st.stack_size > 0
    · rw [if_pos hs, if_pos hs]
      have hpos : 0 < g.km + g.kz := by rw [← hX.stack_size]; exact hs
      rw [← inner_pass_local dt clevel hD hI.cur hpos (hA.perm hI.perm)]
      obtain ⟨jm, jz, st1, hrun, hI1, hX1, _⟩ := inner_pass_inv ts dir dt clevel hD hI hX hpos
      rw [hrun]
      exact ih _ st1 hI1 hX1
    · rw [if_neg hs, if_neg hs]

theorem outer_pass_local {ts ts1 : particle → particle → ℤ → DOUBLE} {dir dir1 : ℤ}
    (dt : DOUBLE) (clevel : ℤ) {G : Geo} (hD : G.Disj) {m0 : Mem} {g : Cnt} {L : List Blk}
    {st : split_state} (fuel : ℕ)
    (hA : Agree ts ts1 dir dir1 (G.zone 0 G.nm 0 G.nz) m0)
    (hI : Inv (fast ts dir dt) G m0 g L st) (h0 : g.Head)
    (hlt : st.processed < G.nm + G.nz) :
    outer_pass ts dir dt clevel fuel st = outer_pass ts1 dir1 dt clevel fuel st := by
  have hp := hI.cur.processed
  obtain ⟨hI1, hX1⟩ := startup_inv hD hI h0 (by omega)
  unfold outer_pass
  simp only []
  rw [inner_loop_local dt clevel hD hA fuel _ _ hI1 hX1]

theorem outer_loop_local {ts ts1 : particle → particle → ℤ → DOUBLE} {dir dir1 : ℤ}
    (dt : DOUBLE) (clevel : ℤ) {G : Geo} (hD : G.Disj) {m0 : Mem} (fuel : ℕ)
    (hf : G.nm + G.nz ≤ fuel) (hA : Agree ts ts1 dir dir1 (G.zone 0 G.nm 0 G.nz) m0) :
    ∀ (k : ℕ) (g : Cnt) (L : List Blk) (st : split_state),
      Inv (fast ts dir dt) G m0 g L st → g.Head →
      outer_loop ts dir dt clevel (G.nm + G.nz) fuel k st =
        outer_loop ts1 dir1 dt clevel (G.nm + G.nz) fuel k st := by
  intro k
  induction k with
  | zero => intro g L st _ _; rfl
  | succ k ih =>
    intro g L st hI h0
    simp only [outer_loop]
    by_cases hlt : st.processed < G.nm + G.nz
    · rw [if_pos hlt, if_pos hlt, ← outer_pass_local dt clevel hD fuel hA hI h0 hlt]
      obtain ⟨g1, L1, st1, hrun, hI1, h1, _⟩ :=
        outer_pass_inv ts dir dt clevel hD fuel hI h0 hlt hf
      rw [hrun]
      exact ih g1 L1 st1 hI1 h1
    · rw [if_neg hlt, if_neg hlt]

/-- The split depends on the time-step function and the direction only through the values
on the pairs of particles of the view. -/
theorem split_cc_local (ts ts1 : particle → particle → ℤ → DOUBLE) (fuel : ℕ) (clevel : ℤ)
    (s : sys) (dt dt1 : DOUBLE) (mem : Mem) (diag : diagnostics) (hwf : WF s)
    (hfuel : s.n ≤ fuel) (habs : |dt| = |dt1|)
    (hA : ∀ i ∈ sysPos s, ∀ j ∈ sysPos s,
      ts (mem i) (mem j) (SIGN dt) = ts1 (mem i) (mem j) (SIGN dt1)) :
    split_cc ts fuel clevel s dt mem diag = split_cc ts1 fuel clevel s dt1 mem diag := by
  have htot := geo_total hwf
  have hA1 : Agree ts ts1 (SIGN dt) (SIGN dt1) ((geo s).zone 0 (geo s).nm 0 (geo s).nz) mem :=
    fun x y hx hy => hA x ((mem_sysPos_input hwf x).2 hx) y ((mem_sysPos_input hwf y).2 hy)
  have := outer_loop_local |dt| clevel hwf.2.2.2 fuel (by omega) hA1 fuel Cnt.zero []
    (split_init s mem (diag.tstep_incr clevel)) (init_inv _ hwf mem _) ⟨rfl, rfl, rfl, rfl⟩
  rw [htot] at this
  unfold split_cc
  simp only []
  rw [this, habs]

theorem probe_loop_dir {ts ts1 : particle → particle → ℤ → DOUBLE} {dir dir1 : ℤ}
    (h : ∀ p q, ts p q dir = ts1 p q dir1) (dt : DOUBLE) (clevel : ℤ) (act : ℤ) :
    ∀ (k : ℕ) (i : ℤ) (p : probe_state),
      probe_loop ts dir dt clevel act k i p = probe_loop ts1 dir1 dt clevel act k i p := by
  intro k
  induction k with
  | zero => intro i p; rfl
  | succ k ih =>
    intro i p
    simp only [probe_loop]
    rw [h, ih, ih]

theorem inner_pass_dir {ts ts1 : particle → particle → ℤ → DOUBLE} {dir dir1 : ℤ}
    (h : ∀ p q, ts p q dir = ts1 p q dir1) (dt : DOUBLE) (clevel : ℤ) (st : split_state) :
    inner_pass ts dir dt clevel st = inner_pass ts1 dir1 dt clevel st := by
  unfold inner_pass probe_massless probe_massive
  simp only [probe_loop_dir h]

theorem inner_loop_dir {ts ts1 : particle → particle → ℤ → DOUBLE} {dir dir1 : ℤ}
    (h : ∀ p q, ts p q dir = ts1 p q dir1) (dt : DOUBLE) (clevel : ℤ) :
    ∀ (fuel : ℕ) (st : split_state),
      inner_loop ts dir dt clevel fuel st = inner_loop ts1 dir1 dt clevel fuel st := by
  intro fuel
  induction fuel with
  | zero => intro st; rfl
  | succ fuel ih =>
    intro st
    simp only [inner_loop]
    rw [inner_pass_dir h]
    by_cases hs : st.stack_size > 0
    · rw [if_pos hs, if_pos hs]
      cases inner_pass ts1 dir1 dt clevel st with
      | ok st1 => exact ih st1
      | fatal msg m => rfl
      | out_of_fuel => rfl
    · rw [if_neg hs, if_neg hs]

theorem outer_pass_dir {ts ts1 : particle → particle → ℤ → DOUBLE} {dir dir1 : ℤ}
    (h : ∀ p q, ts p q dir = ts1 p q dir1) (dt : DOUBLE) (clevel : ℤ) (fuel : ℕ)
    (st : split_state) :
    outer_pass ts dir dt clevel fuel st = outer_pass ts1 dir1 dt clevel fuel st := by
  unfold outer_pass
  simp only [inner_loop_dir h]

theorem outer_loop_dir {ts ts1 : particle → particle → ℤ → DOUBLE} {dir dir1 : ℤ}
    (h : ∀ p q, ts p q dir = ts1 p q dir1) (dt : DOUBLE) (clevel : ℤ) (n fuel : ℕ) :
    ∀ (k : ℕ) (st : split_state),
      outer_loop ts dir dt clevel n fuel k st = outer_loop ts1 dir1 dt clevel n fuel k st := by
  intro k
  induction k with
  | zero => intro st; rfl
  | succ k ih =>
    intro st
    simp only [outer_loop]
    rw [outer_pass_dir h]
    by_cases hs : st.processed < n
    · rw [if_pos hs, if_pos hs]
      cases outer_pass ts1 dir1 dt clevel fuel st with
      | ok st1 => exact ih st1
      | fatal msg m => rfl
      | out_of_fuel => rfl
    · rw [if_neg hs, if_neg hs]

theorem SIGN_neg (x : DOUBLE) : SIGN (-x) = - SIGN x := by
  unfold SIGN
  by_cases h1 : 0 < x
  · have h2 : ¬ 0 < -x := by linarith
    have h3 : -x < 0 := by linarith
    simp [h1, h2, h3]
  · by_cases h2 : x < 0
    · have h3 : 0 < -x := by linarith
      simp [h1, h2, h3]
    · have h3 : ¬ 0 < -x := by linarith
      have h4 : ¬ -x < 0 := by linarith
      simp [h1, h2, h3, h4]

theorem SIGN_cases (x : DOUBLE) : SIGN x = 1 ∨ SIGN x = -1 ∨ SIGN x = 0 := by
  unfold SIGN
  split_ifs <;> simp

/-- C12 (reversibility in structure): `split_cc` called with `-dt` is `split_cc` called with
`dt` and with the time-step function read in the opposite direction: the two runs use the
same threshold `|dt|` and differ in nothing but `dir`.  Hence, on a well-formed view of at
least two particles whose pairs of particles all have
`timestep_ij(p, q, 1) = timestep_ij(p, q, -1)`, the two runs return the same result: the same
store, the same list `c`, the same `r` and the same diagnostics. -/
theorem C12_reversibility (ts : particle → particle → ℤ → DOUBLE) (fuel : ℕ) (clevel : ℤ)
    (s : sys) (dt : DOUBLE) (mem : Mem) (diag : diagnostics) (hwf : WF s) (hn : 2 ≤ s.n)
    (hfuel : s.n ≤ fuel)
    (hrev : ∀ i ∈ sysPos s, ∀ j ∈ sysPos s, ts (mem i) (mem j) 1 = ts (mem i) (mem j) (-1)) :
    split_cc ts fuel clevel s (-dt) mem diag =
        split_cc (fun p q d => ts p q (-d)) fuel clevel s dt mem diag ∧
      ∃ out, split_cc ts fuel clevel s dt mem diag = .ok out ∧
        split_cc ts fuel clevel s (-dt) mem diag = .ok out := by
  constructor
  · unfold split_cc
    simp only [abs_neg]
    rw [@outer_loop_dir ts (fun p q d => ts p q (-d)) (SIGN (-dt)) (SIGN dt)
      (fun p q => by rw [SIGN_neg])]
  · obtain ⟨out, _, _, hrun, _⟩ := split_cc_main ts fuel clevel s dt mem diag hwf hn hfuel
    refine ⟨out, hrun, ?_⟩
    rw [← hrun]
    refine split_cc_local ts ts fuel clevel s (-dt) dt mem diag hwf hfuel (abs_neg dt) ?_
    intro i hi j hj
    rw [SIGN_neg]
    rcases SIGN_cases dt with h | h | h
    · rw [h]; exact (hrev i hi j hj).symm
    · rw [h]; simpa using hrev i hi j hj
    · rw [h]; simp

theorem C12_witness :
    farTs (idStore [] 100) (idStore [] 0) 1 ≠ farTs (idStore [] 100) (idStore [] 0) (-1) ∧
      ∃ out, split_cc farTs 4 0 (viewAt0 4 0) (1 / 10) (idStore []) diag0 = .ok out ∧
        split_cc farTs 4 0 (viewAt0 4 0) (-(1 / 10)) (idStore []) diag0 = .ok out :=
  ⟨by decide!, (C12_reversibility farTs 4 0 (viewAt0 4 0) (1 / 10) (idStore []) diag0
    (by decide) (by decide) (by decide) (by decide!)).2⟩

/-! ## Order and tiling of the split -/

theorem massivePos_compNode (G : Geo) (q : Blk) (nx : Option sys) :
    massivePos (compNode G q nx) = (List.range' q.a q.vm).map (fun (i : ℕ) => G.P + (i : ℤ)) := by
  unfold massivePos
  rw [compNode_n, compNode_nzero, compNode_part, Nat.add_sub_cancel, List.range'_eq_map_range,
    List.map_map]
  apply List.map_congr_left
  intro i hi
  have h := List.mem_range.1 hi
  have hq : 0 < q.vm := by omega
  simp [hq, Ptr.addr]
  ring

theorem masslessPos_compNode (G : Geo) (q : Blk) (nx : Option sys) :
    masslessPos (compNode G q nx) =
      (List.range' q.b q.vz).map (fun (i : ℕ) => G.Z + (i : ℤ)) := by
  unfold masslessPos
  rw [compNode_nzero, compNode_zeropart, List.range'_eq_map_range, List.map_map]
  apply List.map_congr_left
  intro i hi
  have h := List.mem_range.1 hi
  have hq : 0 < q.vz := by omega
  simp [hq, Ptr.addr]
  ring

theorem Tiled.massive_span (G : Geo) : ∀ (L : List Blk) (a b e f : ℕ), Tiled a b L e f →
    (nodesOf G L).flatMap massivePos =
      (List.range' a (e - a)).map (fun (i : ℕ) => G.P + (i : ℤ))
  | [], a, b, e, f, h => by
    obtain ⟨h1, h2⟩ := h
    subst h1
    simp [nodesOf]
  | q :: t, a, b, e, f, h => by
    obtain ⟨h1, h2, h3, h4⟩ := h
    have hle := Tiled.le t _ _ e f h4
    simp only [nodesOf, List.flatMap_cons]
    rw [Tiled.massive_span G t _ _ e f h4, massivePos_compNode, ← List.map_append, h1]
    congr 1
    have : e - a = (e - (a + q.vm)) + q.vm := by omega
    rw [this, List.range'_append_1]

theorem Tiled.massless_span (G : Geo) : ∀ (L : List Blk) (a b e f : ℕ), Tiled a b L e f →
    (nodesOf G L).flatMap masslessPos =
      (List.range' b (f - b)).map (fun (i : ℕ) => G.Z + (i : ℤ))
  | [], a, b, e, f, h => by
    obtain ⟨h1, h2⟩ := h
    subst h2
    simp [nodesOf]
  | q :: t, a, b, e, f, h => by
    obtain ⟨h1, h2, h3, h4⟩ := h
    have hle := Tiled.le t _ _ e f h4
    simp only [nodesOf, List.flatMap_cons]
    rw [Tiled.massless_span G t _ _ e f h4, masslessPos_compNode, ← List.map_append, h2]
    congr 1
    have : f - b = (f - (b + q.vz)) + q.vz := by omega
    rw [this, List.range'_append_1]

theorem Spans.node (G : Geo) (q : Blk) (nx : Option sys) (t : List sys) (em ez : ℤ)
    (h : Spans (G.P + (q.a + q.vm : ℕ)) (G.Z + (q.b + q.vz : ℕ)) t em ez) :
    Spans (G.P + q.a) (G.Z + q.b) (compNode G q nx :: t) em ez := by
  refine ⟨?_, ?_, ?_, ?_⟩
  · rw [compNode_n, compNode_nzero]; omega
  · rw [compNode_n, compNode_nzero, Nat.add_sub_cancel, compNode_part, compNode_last]
    intro hq
    simp [hq]
  · rw [compNode_nzero, compNode_zeropart, compNode_lastzero]
    intro hq
    simp [hq]
  · rw [compNode_n, compNode_nzero, Nat.add_sub_cancel]
    push_cast at h
    rw [add_assoc, add_assoc]
    exact h

theorem Tiled.spans (G : Geo) (rest : List sys) (em ez : ℤ) :
    ∀ (L : List Blk) (a b e f : ℕ), Tiled a b L e f →
      Spans (G.P + e) (G.Z + f) rest em ez →
      Spans (G.P + a) (G.Z + b) (nodesOf G L ++ rest) em ez
  | [], a, b, e, f, h, hr => by
    obtain ⟨h1, h2⟩ := h
    subst h1 h2
    simpa [nodesOf] using hr
  | q :: t, a, b, e, f, h, hr => by
    obtain ⟨h1, h2, h3, h4⟩ := h
    have ih := Tiled.spans G rest em ez t _ _ e f h4 hr
    simp only [nodesOf, List.cons_append]
    subst h1 h2
    exact Spans.node G q _ _ em ez ih

/-- The spans of a list that tiles both ranges are in ascending order. -/
theorem Spans.ascending : ∀ (l : List sys) (pm pz em ez : ℤ), Spans pm pz l em ez →
    (pm ≤ em ∧ pz ≤ ez) ∧
    (∀ v ∈ l, (∀ x ∈ massivePos v, pm ≤ x ∧ x < em) ∧ (∀ x ∈ masslessPos v, pz ≤ x ∧ x < ez)) ∧
    l.Pairwise (fun va vb => (∀ x ∈ massivePos va, ∀ y ∈ massivePos vb, x < y) ∧
      (∀ x ∈ masslessPos va, ∀ y ∈ masslessPos vb, x < y))
  | [], pm, pz, em, ez, h => by
    obtain ⟨h1, h2⟩ := h
    subst h1 h2
    simp
  | v :: t, pm, pz, em, ez, h => by
    obtain ⟨h1, h2, h3, h4⟩ := h
    obtain ⟨⟨i1, i2⟩, i3, i4⟩ := Spans.ascending t _ _ em ez h4
    have hm : ∀ x ∈ massivePos v, pm ≤ x ∧ x < pm + ((v.n - v.nzero : ℕ) : ℤ) := by
      intro x hx
      obtain ⟨i, hi, rfl⟩ := List.mem_map.1 hx
      have hi := List.mem_range.1 hi
      obtain ⟨e1, _⟩ := h2 (by omega)
      simp only [e1, Ptr.addr, Option.getD_some]
      omega
    have hz : ∀ x ∈ masslessPos v, pz ≤ x ∧ x < pz + (v.nzero : ℤ) := by
      intro x hx
      obtain ⟨i, hi, rfl⟩ := List.mem_map.1 hx
      have hi := List.mem_range.1 hi
      obtain ⟨e1, _⟩ := h3 (by omega)
      simp only [e1, Ptr.addr, Option.getD_some]
      omega
    refine ⟨⟨by omega, by omega⟩, ?_, ?_⟩
    · intro w hw
      rcases List.mem_cons.1 hw with rfl | hw
      · exact ⟨fun x hx => ⟨(hm x hx).1, by have := (hm x hx).2; omega⟩,
          fun x hx => ⟨(hz x hx).1, by have := (hz x hx).2; omega⟩⟩
      · obtain ⟨j1, j2⟩ := i3 w hw
        exact ⟨fun x hx => ⟨by have := (j1 x hx).1; omega, (j1 x hx).2⟩,
          fun x hx => ⟨by have := (j2 x hx).1; omega, (j2 x hx).2⟩⟩
    · refine List.Pairwise.cons (fun w hw => ?_) i4
      obtain ⟨j1, j2⟩ := i3 w hw
      exact ⟨fun x hx y hy => by have := (hm x hx).2; have := (j1 y hy).1; omega,
        fun x hx y hy => by have := (hz x hx).2; have := (j2 y hy).1; omega⟩

/-- C21 (order and tiling of the split): after `split_cc` on `s`, the massive spans of the
views of the list `c`, taken in list order and followed by the massive span of `r`, are the
addresses `s.part, s.part + 1, .., s.last` in this order, and the massless spans likewise are
the addresses `s.zeropart .. s.lastzero`: the spans are adjacent, those of `c` tile the front of
each range from its first address and that of `r` is the remaining suffix, which ends at
`s.last` (at `s.lastzero`); every span is given by its first and last pointer, and a view that
comes earlier in the list lies at smaller addresses in both ranges. -/
theorem C21_order_and_tiling (ts : particle → particle → ℤ → DOUBLE) (fuel : ℕ) (clevel : ℤ)
    (s : sys) (dt : DOUBLE) (mem : Mem) (diag : diagnostics) (hwf : WF s) (hn : 2 ≤ s.n)
    (hfuel : s.n ≤ fuel) :
    ∃ out, split_cc ts fuel clevel s dt mem diag = .ok out ∧
      (ccViews out.c ++ [out.r]).flatMap massivePos = massivePos s ∧
      (ccViews out.c ++ [out.r]).flatMap masslessPos = masslessPos s ∧
      Spans s.part.addr s.zeropart.addr (ccViews out.c ++ [out.r])
        (s.part.addr + ((s.n - s.nzero : ℕ) : ℤ)) (s.zeropart.addr + (s.nzero : ℤ)) ∧
      (0 < out.r.n - out.r.nzero → out.r.last = s.last) ∧
      (0 < out.r.nzero → out.r.lastzero = s.lastzero) ∧
      (ccViews out.c ++ [out.r]).Pairwise (fun va vb =>
        (∀ x ∈ massivePos va, ∀ y ∈ massivePos vb, x < y) ∧
        (∀ x ∈ masslessPos va, ∀ y ∈ masslessPos vb, x < y)) := by
  obtain ⟨out, L, g, hrun, hres⟩ := split_cc_main ts fuel clevel s dt mem diag hwf hn hfuel
  have hv : ccViews out.c = nodesOf (geo s) L := hres.views.1
  have hfm := hres.fullm
  have hfz := hres.fullz
  have hle := Tiled.le L 0 0 g.em g.ez hres.tiled
  have hsp : Spans s.part.addr s.zeropart.addr (ccViews out.c ++ [out.r])
      (s.part.addr + ((s.n - s.nzero : ℕ) : ℤ)) (s.zeropart.addr + (s.nzero : ℤ)) := by
    have hr : Spans ((geo s).P + g.em) ((geo s).Z + g.ez) [out.r]
        (s.part.addr + ((s.n - s.nzero : ℕ) : ℤ)) (s.zeropart.addr + (s.nzero : ℤ)) := by
      rw [hres.r_eq]
      refine Spans.node (geo s) ⟨g.em, g.rm, g.ez, g.rz⟩ none [] _ _ ⟨?_, ?_⟩
      · show s.part.addr + ((g.em + g.rm : ℕ) : ℤ) = _
        rw [hfm]; rfl
      · show s.zeropart.addr + ((g.ez + g.rz : ℕ) : ℤ) = _
        rw [hfz]; rfl
    have := Tiled.spans (geo s) [out.r] _ _ L 0 0 g.em g.ez hres.tiled hr
    rw [hv]
    simpa [geo] using this
  obtain ⟨l1, l2⟩ := input_last hwf
  refine ⟨out, hrun, ?_, ?_, hsp, ?_, ?_, (Spans.ascending _ _ _ _ _ hsp).2.2⟩
  · rw [List.flatMap_append, hv, Tiled.massive_span (geo s) L 0 0 g.em g.ez hres.tiled,
      List.flatMap_singleton, hres.r_eq, massivePos_compNode, ← List.map_append]
    have e : List.range' 0 (g.em - 0) ++ List.range' g.em g.rm = List.range (s.n - s.nzero) := by
      rw [List.range_eq_range', show s.n - s.nzero = (geo s).nm from rfl, ← hfm, Nat.sub_zero,
        Nat.add_comm g.em g.rm, ← List.range'_append_1, Nat.zero_add]
    rw [e]
    rfl
  · rw [List.flatMap_append, hv, Tiled.massless_span (geo s) L 0 0 g.em g.ez hres.tiled,
      List.flatMap_singleton, hres.r_eq, masslessPos_compNode, ← List.map_append]
    have e : List.range' 0 (g.ez - 0) ++ List.range' g.ez g.rz = List.range s.nzero := by
      rw [List.range_eq_range', show s.nzero = (geo s).nz from rfl, ← hfz, Nat.sub_zero,
        Nat.add_comm g.ez g.rz, ← List.range'_append_1, Nat.zero_add]
    rw [e]
    rfl
  · rw [hres.r_eq, compNode_n, compNode_nzero, compNode_last, Nat.add_sub_cancel]
    intro hq
    have hq1 : 0 < g.rm := hq
    have h1 := l1 (by omega)
    obtain ⟨w1, w2, w3, _⟩ := hwf
    obtain ⟨a, b⟩ := w2 (by show 0 < (geo s).nm; omega)
    obtain ⟨p, hp⟩ := Option.ne_none_iff_exists'.1 a
    rw [b, hp]
    simp only [hq1, if_true, Ptr.add, Option.map_some']
    congr 1
    have e1 : (geo s).P = p := by simp [geo, hp, Ptr.addr]
    have e2 : ((geo s).nm : ℤ) = ((s.n - s.nzero : ℕ) : ℤ) := rfl
    show (geo s).P + (g.em : ℤ) + (g.rm : ℤ) - 1 = p + (((s.n - s.nzero : ℕ) : ℤ) - 1)
    rw [e1, ← e2, ← hfm]; push_cast; ring
  · rw [hres.r_eq, compNode_nzero, compNode_lastzero]
    intro hq
    have hq1 : 0 < g.rz := hq
    obtain ⟨w1, w2, w3, _⟩ := hwf
    obtain ⟨a, b⟩ := w3 (by show 0 < (geo s).nz; omega)
    obtain ⟨p, hp⟩ := Option.ne_none_iff_exists'.1 a
    rw [b, hp]
    simp only [hq1, if_true, Ptr.add, Option.map_some']
    congr 1
    have e1 : (geo s).Z = p := by simp [geo, hp, Ptr.addr]
    have e2 : ((geo s).nz : ℤ) = (s.nzero : ℤ) := rfl
    show (geo s).Z + (g.ez : ℤ) + (g.rz : ℤ) - 1 = p + ((s.nzero : ℤ) - 1)
    rw [e1, ← e2, ← hfz]; push_cast; ring

theorem C21_witness :
    (∃ out, split_cc twoBinariesTs 12 0 (viewAt0 12 0) (1 / 10) (idStore []) diag0 = .ok out ∧
        (ccViews out.c).map (sysIds out.mem) = [[0, 1], [2, 3]] ∧
        (ccViews out.c).map massivePos = [[0, 1], [2, 3]] ∧
        out.r.n = 8 ∧ massivePos out.r = [4, 5, 6, 7, 8, 9, 10, 11]) ∧
      ∃ out, split_cc twoBinariesTs 12 0 (viewAt0 12 0) (1 / 10) (idStore []) diag0 = .ok out ∧
        (ccViews out.c ++ [out.r]).flatMap massivePos = massivePos (viewAt0 12 0) ∧
        (ccViews out.c ++ [out.r]).flatMap masslessPos = masslessPos (viewAt0 12 0) ∧
        Spans (viewAt0 12 0).part.addr (viewAt0 12 0).zeropart.addr (ccViews out.c ++ [out.r])
          ((viewAt0 12 0).part.addr + (((viewAt0 12 0).n - (viewAt0 12 0).nzero : ℕ) : ℤ))
          ((viewAt0 12 0).zeropart.addr + ((viewAt0 12 0).nzero : ℤ)) ∧
        (0 < out.r.n - out.r.nzero → out.r.last = (viewAt0 12 0).last) ∧
        (0 < out.r.nzero → out.r.lastzero = (viewAt0 12 0).lastzero) ∧
        (ccViews out.c ++ [out.r]).Pairwise (fun va vb =>
          (∀ x ∈ massivePos va, ∀ y ∈ massivePos vb, x < y) ∧
          (∀ x ∈ masslessPos va, ∀ y ∈ masslessPos vb, x < y)) := by
  refine ⟨?_, C21_order_and_tiling twoBinariesTs 12 0 (viewAt0 12 0) (1 / 10) (idStore [])
    diag0 (by decide) (by decide) (by decide)⟩
  have h : (split_cc twoBinariesTs 12 0 (viewAt0 12 0) (1 / 10) (idStore []) diag0).check
      (fun out => decide ((ccViews out.c).map (sysIds out.mem) = [[0, 1], [2, 3]] ∧
        (ccViews out.c).map massivePos = [[0, 1], [2, 3]] ∧
        out.r.n = 8 ∧ massivePos out.r = [4, 5, 6, 7, 8, 9, 10, 11])) = true := by decide!
  obtain ⟨out, hrun, hP⟩ := outcome.of_check h
  exact ⟨out, hrun, of_decide_eq_true hP⟩

/-! ## The calls of the time-step function and the swaps of a split -/

theorem probe_loop_events_spec (ts : particle → particle → ℤ → DOUBLE) (dir : ℤ) (dt : DOUBLE)
    (clevel : ℤ) (act : ℤ) :
    ∀ (k : ℕ) (i : ℤ) (p : probe_state), p.next ≤ i → (act < p.next ∨ i + k ≤ act) →
      (probe_loop_events ts dir dt clevel act k i p).filterMap split_event.probed =
        (List.range k).map (fun (j : ℕ) => (p.mem act, p.mem (i + (j : ℤ)))) ∧
      ∀ e ∈ probe_loop_events ts dir dt clevel act k i p, ∀ x ∈ e.written,
        p.next ≤ x ∧ x < i + k := by
  intro k
  induction k with
  | zero =>
    intro i p _ _
    simp [probe_loop_events]
  | succ k ih =>
    intro i p h1 hact
    have hlist : (List.range (k + 1)).map (fun (j : ℕ) => (p.mem act, p.mem (i + (j : ℤ)))) =
        (p.mem act, p.mem i) ::
          (List.range k).map (fun (j : ℕ) => (p.mem act, p.mem (i + 1 + (j : ℤ)))) := by
      rw [List.range_succ_eq_map, List.map_cons, List.map_map]
      simp only [Nat.cast_zero, add_zero, Function.comp_def, Nat.succ_eq_add_one, Nat.cast_add,
        Nat.cast_one]
      congr 1
      apply List.map_congr_left
      intro j _
      rw [show i + ((j : ℤ) + 1) = i + 1 + (j : ℤ) by ring]
    by_cases hE : ts (p.mem act) (p.mem i) dir ≤ dt
    · have hstep : probe_loop_events ts dir dt clevel act (k + 1) i p =
          .probe (p.mem act) (p.mem i) :: .swap p.next i ::
            probe_loop_events ts dir dt clevel act k (i + 1)
              { mem := SWAP p.mem p.next i, next := p.next + 1,
                stack_size := p.stack_size + 1, diag := p.diag.tcount_add clevel 1 } := by
        simp [probe_loop_events, hE]
      obtain ⟨e1, e2⟩ := ih (i + 1)
        { mem := SWAP p.mem p.next i, next := p.next + 1, stack_size := p.stack_size + 1,
          diag := p.diag.tcount_add clevel 1 } (by simp; omega) (by simp; omega)
      simp only at e1 e2
      have hact1 : SWAP p.mem p.next i act = p.mem act :=
        SWAP_other _ (by omega) (by omega)
      rw [hstep, hlist]
      constructor
      · simp only [List.filterMap_cons, split_event.probed]
        rw [e1, hact1]
        congr 1
        apply List.map_congr_left
        intro j _
        rw [SWAP_other _ (by omega) (by omega)]
      · intro e he x hx
        rcases List.mem_cons.1 he with rfl | he
        · simp [split_event.written] at hx
        · rcases List.mem_cons.1 he with rfl | he
          · simp only [split_event.written, List.mem_cons, List.mem_singleton,
              List.not_mem_nil, or_false] at hx
            push_cast
            rcases hx with rfl | rfl <;> omega
          · have := e2 e he x hx
            push_cast
            omega
    · have hstep : probe_loop_events ts dir dt clevel act (k + 1) i p =
          .probe (p.mem act) (p.mem i) ::
            probe_loop_events ts dir dt clevel act k (i + 1)
              { p with diag := p.diag.tcount_add clevel 1 } := by
        simp [probe_loop_events, hE]
      obtain ⟨e1, e2⟩ := ih (i + 1) { p with diag := p.diag.tcount_add clevel 1 }
        (by simp; omega) (by simp; omega)
      simp only at e1 e2
      rw [hstep, hlist]
      constructor
      · simp only [List.filterMap_cons, split_event.probed]
        rw [e1]
      · intro e he x hx
        rcases List.mem_cons.1 he with rfl | he
        · simp [split_event.written] at hx
        · have := e2 e he x hx
          push_cast
          omega

theorem probe_massive_events_spec (ts : particle → particle → ℤ → DOUBLE) (dir : ℤ)
    (dt : DOUBLE) (clevel : ℤ) (act : ℤ) {G : Geo} {g : Cnt} {st : split_state}
    (hc : Cur G g st)
    (hact : 0 < G.nm → act < G.P + (g.em + g.vm + g.km : ℕ) ∨ G.P + G.nm - g.rm ≤ act) :
    (probe_massive_events ts dir dt clevel act st).filterMap split_event.probed =
        (List.range (G.nm - g.rm - (g.em + g.vm + g.km))).map
          (fun (j : ℕ) => (st.mem act, st.mem (G.P + ((g.em + g.vm + g.km : ℕ) : ℤ) + (j : ℤ)))) ∧
      ∀ e ∈ probe_massive_events ts dir dt clevel act st, ∀ x ∈ e.written,
        G.P + ((g.em + g.vm + g.km : ℕ) : ℤ) ≤ x ∧ x < G.P + G.nm - g.rm := by
  obtain ⟨h1, h2, h3, h4, h5, h6, h7, h8, h9⟩ := hc
  by_cases hn : 0 < G.nm
  · have hk : (st.rest_next.addr - st.stack_next.addr + 1).toNat =
        G.nm - g.rm - (g.em + g.vm + g.km) := by
      simp [h2, h3, lp, hn, Ptr.addr]; omega
    have ha : st.stack_next.addr = G.P + ((g.em + g.vm + g.km : ℕ) : ℤ) := by
      simp [h2, lp, hn, Ptr.addr]; ring
    have hne : st.stack_next ≠ none := by simp [h2, lp, hn]
    obtain ⟨e1, e2⟩ := probe_loop_events_spec ts dir dt clevel act
      (G.nm - g.rm - (g.em + g.vm + g.km)) (G.P + ((g.em + g.vm + g.km : ℕ) : ℤ))
      ⟨st.mem, G.P + ((g.em + g.vm + g.km : ℕ) : ℤ), st.stack_size, st.diag⟩ (le_refl _)
      (by simp only; rcases hact hn with h | h
          · left; exact h
          · right; omega)
    simp only at e1 e2
    unfold probe_massive_events
    rw [if_pos hne, hk, ha]
    refine ⟨e1, fun e he x hx => ?_⟩
    have := e2 e he x hx
    omega
  · have hn0 : G.nm = 0 := by omega
    have : probe_massive_events ts dir dt clevel act st = [] := by
      simp [probe_massive_events, h2, lp, hn]
    rw [this]
    simp [hn0]

theorem probe_massless_events_spec (ts : particle → particle → ℤ → DOUBLE) (dir : ℤ)
    (dt : DOUBLE) (clevel : ℤ) (act : ℤ) {G : Geo} {g : Cnt} {st : split_state}
    (hc : Cur G g st)
    (hact : 0 < G.nz → act < G.Z + (g.ez + g.vz + g.kz : ℕ) ∨ G.Z + G.nz - g.rz ≤ act) :
    (probe_massless_events ts dir dt clevel act st).filterMap split_event.probed =
        (List.range (G.nz - g.rz - (g.ez + g.vz + g.kz))).map
          (fun (j : ℕ) => (st.mem act, st.mem (G.Z + ((g.ez + g.vz + g.kz : ℕ) : ℤ) + (j : ℤ)))) ∧
      ∀ e ∈ probe_massless_events ts dir dt clevel act st, ∀ x ∈ e.written,
        G.Z + ((g.ez + g.vz + g.kz : ℕ) : ℤ) ≤ x ∧ x < G.Z + G.nz - g.rz := by
  obtain ⟨h1, h2, h3, h4, h5, h6, h7, h8, h9⟩ := hc
  by_cases hn : 0 < G.nz
  · have hk : (st.restzero_next.addr - st.stackzero_next.addr + 1).toNat =
        G.nz - g.rz - (g.ez + g.vz + g.kz) := by
      simp [h6, h7, lp, hn, Ptr.addr]; omega
    have ha : st.stackzero_next.addr = G.Z + ((g.ez + g.vz + g.kz : ℕ) : ℤ) := by
      simp [h6, lp, hn, Ptr.addr]; ring
    have hne : st.stackzero_next ≠ none := by simp [h6, lp, hn]
    obtain ⟨e1, e2⟩ := probe_loop_events_spec ts dir dt clevel act
      (G.nz - g.rz - (g.ez + g.vz + g.kz)) (G.Z + ((g.ez + g.vz + g.kz : ℕ) : ℤ))
      ⟨st.mem, G.Z + ((g.ez + g.vz + g.kz : ℕ) : ℤ), st.stack_size, st.diag⟩ (le_refl _)
      (by simp only; rcases hact hn with h | h
          · left; exact h
          · right; omega)
    simp only at e1 e2
    unfold probe_massless_events
    rw [if_pos hne, hk, ha]
    refine ⟨e1, fun e he x hx => ?_⟩
    have := e2 e he x hx
    omega
  · have hn0 : G.nz = 0 := by omega
    have : probe_massless_events ts dir dt clevel act st = [] := by
      simp [probe_massless_events, h6, lp, hn]
    rw [this]
    simp [hn0]

theorem mem_unvList {G : Geo} {g : Cnt} (hb : g.em + g.vm + g.km + g.rm ≤ G.nm)
    (hbz : g.ez + g.vz + g.kz + g.rz ≤ G.nz) (x : ℤ) : x ∈ unvList G g ↔ Unv G g x := by
  unfold unvList Unv Geo.zone
  simp only [List.mem_append, List.mem_map, List.mem_range]
  constructor
  · rintro (⟨j, hj, rfl⟩ | ⟨j, hj, rfl⟩)
    · left; push_cast; omega
    · right; push_cast; omega
  · rintro (⟨h1, h2⟩ | ⟨h1, h2⟩)
    · left
      refine ⟨(x - (G.P + ((g.em + g.vm + g.km : ℕ) : ℤ))).toNat, ?_, ?_⟩ <;> push_cast at * <;>
        omega
    · right
      refine ⟨(x - (G.Z + ((g.ez + g.vz + g.kz : ℕ) : ℤ))).toNat, ?_, ?_⟩ <;> push_cast at * <;>
        omega

theorem nodup_unvList {G : Geo} (hD : G.Disj) {g : Cnt}
    (hb : g.em + g.vm + g.km + g.rm ≤ G.nm) (hbz : g.ez + g.vz + g.kz + g.rz ≤ G.nz) :
    (unvList G g).Nodup := by
  unfold unvList
  refine List.Nodup.append ?_ ?_ ?_
  · refine (List.nodup_range _).map ?_
    intro a b h
    simp only at h
    omega
  · refine (List.nodup_range _).map ?_
    intro a b h
    simp only at h
    omega
  · intro x h1 h2
    obtain ⟨j, hj, rfl⟩ := List.mem_map.1 h1
    obtain ⟨j', hj', e⟩ := List.mem_map.1 h2
    have hj := List.mem_range.1 hj
    have hj' := List.mem_range.1 hj'
    unfold Geo.Disj at hD
    push_cast at e
    omega

theorem length_unvList (G : Geo) (g : Cnt) :
    (unvList G g).length =
      (G.nm - g.rm - (g.em + g.vm + g.km)) + (G.nz - g.rz - (g.ez + g.vz + g.kz)) := by
  simp [unvList]

/-- The calls of `timestep_ij` of one pass of the inner loop: the particle at the head of the
stack with every unvisited particle, once each, as the store holds them when the pass begins;
the swaps of the pass stay inside the unvisited zone. -/
theorem inner_pass_events_spec (ts : particle → particle → ℤ → DOUBLE) (dir : ℤ) (dt : DOUBLE)
    (clevel : ℤ) {G : Geo} (hD : G.Disj) {g : Cnt} {st : split_state} (hc : Cur G g st)
    (hpos : 0 < g.km + g.kz) :
    (inner_pass_events ts dir dt clevel st).filterMap split_event.probed =
        (unvList G g).map (fun x => (st.mem (g.act G), st.mem x)) ∧
      ∀ e ∈ inner_pass_events ts dir dt clevel st, ∀ x ∈ e.written, Unv G g x := by
  obtain ⟨hsel, haddr⟩ := select_active_spec hc hpos
  have hb := hc.bound
  have hbz := hc.boundzero
  have hc0 : Cur G g { st with active := select_active st } :=
    ⟨hc.1, hc.2, hc.3, hc.4, hc.5, hc.6, hc.7, hc.8, hc.9⟩
  have hactm : 0 < G.nm → g.act G < G.P + (g.em + g.vm + g.km : ℕ) ∨
      G.P + G.nm - g.rm ≤ g.act G := by
    intro hn
    unfold Cnt.act
    unfold Geo.Disj at hD
    split_ifs with hk
    · left; push_cast; omega
    · push_cast; omega
  have hactz : 0 < G.nz → g.act G < G.Z + (g.ez + g.vz + g.kz : ℕ) ∨
      G.Z + G.nz - g.rz ≤ g.act G := by
    intro hn
    unfold Cnt.act
    unfold Geo.Disj at hD
    split_ifs with hk
    · push_cast; omega
    · left; push_cast; omega
  obtain ⟨jm, c1, d1, s1, k1, a1, z1, w1, p1, _, _⟩ :=
    probe_massive_spec ts dir dt clevel (g.act G) hc0 hactm
  obtain ⟨m1, m2⟩ := probe_massive_events_spec ts dir dt clevel (g.act G) hc0 hactm
  obtain ⟨n1, n2⟩ := probe_massless_events_spec ts dir dt clevel (g.act G) c1 hactz
  simp only at n1 n2
  have hact_ne : select_active st ≠ .NULL := by
    rw [hsel]; split_ifs <;> simp
  have hev : inner_pass_events ts dir dt clevel st =
      probe_massive_events ts dir dt clevel (g.act G) { st with active := select_active st } ++
        probe_massless_events ts dir dt clevel (g.act G)
          (probe_massive ts dir dt clevel (g.act G) { st with active := select_active st }) := by
    unfold inner_pass_events
    simp only [hact_ne, if_false, haddr]
  have hframe : ∀ x, ¬ (G.P + ((g.em + g.vm + g.km : ℕ) : ℤ) ≤ x ∧ x < G.P + G.nm - g.rm) →
      (probe_massive ts dir dt clevel (g.act G) { st with active := select_active st }).mem x =
        st.mem x := fun x hx => p1.frame hx
  rw [hev]
  constructor
  · rw [List.filterMap_append, m1, n1]
    unfold unvList
    rw [List.map_append, List.map_map, List.map_map]
    congr 1
    apply List.map_congr_left
    intro j hj
    have hj := List.mem_range.1 hj
    simp only [Function.comp_def]
    rw [hframe, hframe]
    · unfold Geo.Disj at hD; push_cast; omega
    · intro h
      by_cases hn : 0 < G.nm
      · rcases hactm hn with h' | h' <;> omega
      · omega
  · intro e he x hx
    rcases List.mem_append.1 he with he | he
    · have := m2 e he x hx
      unfold Unv Geo.zone
      left; push_cast at this ⊢; omega
    · have := n2 e he x hx
      unfold Unv Geo.zone
      right; push_cast at this ⊢; omega

theorem Tracked.retarget {G : Geo} {m0 : Mem} {g g1 : Cnt} {m : Mem} {PL : List (ℤ × ℤ)}
    (h : Tracked G m0 g m PL) (hP : ∀ x, Popped G g x → Popped G g1 x) :
    Tracked G m0 g1 m PL := by
  obtain ⟨π, f, e, hp⟩ := h
  refine ⟨π, f, e, fun ab hab => ?_⟩
  obtain ⟨x, hx, ex⟩ := hp ab hab
  exact ⟨x, hP x hx, ex⟩

theorem Tracked.demote {G : Geo} (hD : G.Disj) {m0 : Mem} {g g1 : Cnt} {m : Mem}
    {PL : List (ℤ × ℤ)} {σ ρ : ℤ} (h : Tracked G m0 g m PL) (hR : DemRel G g g1 σ ρ) :
    Tracked G m0 g1 (SWAP m σ ρ) PL := by
  obtain ⟨π, f, e, hp⟩ := h
  obtain ⟨hb, hbz, k1, k2, ⟨z1, z2, z3, z4⟩, hc⟩ := hR
  unfold Geo.Disj at hD
  have hσ : G.zone 0 G.nm 0 G.nz σ := by unfold Geo.zone; omega
  have hρ : G.zone 0 G.nm 0 G.nz ρ := by unfold Geo.zone; omega
  obtain ⟨π1, f1, e1⟩ := MemPerm.swap m hσ hρ
  have hsw : ∀ x, SWAP m σ ρ x = m (Equiv.swap σ ρ x) := by
    intro x
    by_cases h1 : x = σ
    · subst h1; simp [SWAP]
    · by_cases h2 : x = ρ
      · subst h2; simp [SWAP, h1]
      · simp [SWAP, h1, h2, Equiv.swap_apply_of_ne_of_ne h1 h2]
  refine ⟨π * Equiv.swap σ ρ, fun x hx => ?_, fun x => ?_, fun ab hab => ?_⟩
  · have h1 : x ≠ σ := by rintro rfl; exact hx hσ
    have h2 : x ≠ ρ := by rintro rfl; exact hx hρ
    simp [Equiv.Perm.mul_apply, Equiv.swap_apply_of_ne_of_ne h1 h2, f x hx]
  · rw [hsw, e]; rfl
  · obtain ⟨x, hx, ex⟩ := hp ab hab
    refine ⟨Equiv.swap σ ρ x, ?_, by simp [Equiv.Perm.mul_apply, ex]⟩
    unfold Popped Geo.zone at hx ⊢
    by_cases h1 : x = σ
    · subst h1
      rw [Equiv.swap_apply_left]
      omega
    · by_cases h2 : x = ρ
      · subst h2
        rw [Equiv.swap_apply_right]
        omega
      · rw [Equiv.swap_apply_of_ne_of_ne h1 h2]
        omega

theorem popped_pop {G : Geo} (hD : G.Disj) {g : Cnt}
    (hb : g.em + g.vm + g.km + g.rm ≤ G.nm) (hbz : g.ez + g.vz + g.kz + g.rz ≤ G.nz)
    (hpos : 0 < g.km + g.kz) (jm jz : ℕ) (x : ℤ) :
    Popped G ((g.push jm jz).pop (decide (0 < g.km))) x ↔ Popped G g x ∨ x = g.act G := by
  unfold Geo.Disj at hD
  by_cases hk : 0 < g.km
  · simp only [Popped, Geo.zone, Cnt.push, Cnt.pop, Cnt.act, hk, decide_True, if_true]
    omega
  · simp only [Popped, Geo.zone, Cnt.push, Cnt.pop, Cnt.act, hk, decide_False,
      Bool.false_eq_true, if_false]
    omega

/-- One pass of the inner loop probes pairs that have not been probed before. -/
theorem Tracked.pass {G : Geo} (hD : G.Disj) {m0 : Mem} {g g1 : Cnt} {m m1 : Mem}
    {PL : List (ℤ × ℤ)} (hb : g.em + g.vm + g.km + g.rm ≤ G.nm)
    (hbz : g.ez + g.vz + g.kz + g.rz ≤ G.nz) (hpos : 0 < g.km + g.kz)
    (hT : Tracked G m0 g m PL) (hO : ProbesOk G PL) (hU : MemPerm (Unv G g) m m1)
    (hP : ∀ x, Popped G g1 x ↔ Popped G g x ∨ x = g.act G) :
    ∃ PL1 : List (ℤ × ℤ),
      (unvList G g).map (fun x => (m (g.act G), m x)) =
        PL1.map (fun ab => (m0 ab.1, m0 ab.2)) ∧
      PL1.length = (unvList G g).length ∧
      Tracked G m0 g1 m1 (PL ++ PL1) ∧ ProbesOk G (PL ++ PL1) := by
  obtain ⟨π, f, e, hp⟩ := hT
  obtain ⟨σ, fσ, eσ⟩ := hU
  obtain ⟨hz, hpw⟩ := hO
  have hmem := mem_unvList hb hbz
  have hactz : G.zone 0 G.nm 0 G.nz (g.act G) := by
    unfold Geo.zone Cnt.act; split_ifs <;> omega
  have hactU : ¬ Unv G g (g.act G) := by
    unfold Geo.Disj at hD
    unfold Unv Geo.zone Cnt.act; split_ifs <;> omega
  have hactP : ¬ Popped G g (g.act G) := by
    unfold Geo.Disj at hD
    unfold Popped Geo.zone Cnt.act; split_ifs <;> omega
  have hUz : ∀ x, Unv G g x → G.zone 0 G.nm 0 G.nz x := by
    intro x hx; unfold Unv Geo.zone at hx; unfold Geo.zone; omega
  have hUP : ∀ x, Unv G g x → ¬ Popped G g x := by
    intro x hx
    unfold Geo.Disj at hD
    unfold Unv Geo.zone at hx; unfold Popped Geo.zone; omega
  refine ⟨(unvList G g).map (fun x => (π (g.act G), π x)), ?_, by simp, ?_, ?_, ?_⟩
  · rw [List.map_map]
    apply List.map_congr_left
    intro x _
    simp only [Function.comp_def, e]
  · refine ⟨π * σ, fun x hx => ?_, fun x => ?_, fun ab hab => ?_⟩
    · have : ¬ Unv G g x := fun h => hx (hUz x h)
      simp [Equiv.Perm.mul_apply, fσ x this, f x hx]
    · rw [eσ, e]; rfl
    · rcases List.mem_append.1 hab with hab | hab
      · obtain ⟨x, hx, ex⟩ := hp ab hab
        refine ⟨x, (hP x).2 (Or.inl hx), ?_⟩
        have : ¬ Unv G g x := fun h => hUP x h hx
        simp [Equiv.Perm.mul_apply, fσ x this, ex]
      · obtain ⟨y, hy, rfl⟩ := List.mem_map.1 hab
        refine ⟨g.act G, (hP _).2 (Or.inr rfl), ?_⟩
        simp [Equiv.Perm.mul_apply, fσ _ hactU]
  · intro ab hab
    rcases List.mem_append.1 hab with hab | hab
    · exact hz ab hab
    · obtain ⟨y, hy, rfl⟩ := List.mem_map.1 hab
      have hyU := (hmem y).1 hy
      refine ⟨perm_maps_into f hactz, perm_maps_into f (hUz y hyU), ?_⟩
      simp only
      intro h
      have := π.injective h
      rw [← this] at hyU
      exact hactU hyU
  · rw [List.pairwise_append]
    refine ⟨hpw, ?_, ?_⟩
    · rw [List.pairwise_map]
      refine (nodup_unvList hD hb hbz).imp_of_mem ?_
      intro a b ha hb' hab hs
      have haU := (hmem a).1 ha
      have hbU := (hmem b).1 hb'
      rcases hs with ⟨_, h2⟩ | ⟨h1, _⟩
      · exact hab (π.injective h2)
      · simp only at h1
        have := π.injective h1
        rw [this] at hactU
        exact hactU hbU
    · intro p hp1 q hq hs
      obtain ⟨y, hy, rfl⟩ := List.mem_map.1 hq
      obtain ⟨x, hx, ex⟩ := hp p hp1
      have hyU := (hmem y).1 hy
      rcases hs with ⟨h1, _⟩ | ⟨h1, _⟩
      · simp only at h1
        rw [← ex] at h1
        have := π.injective h1
        rw [this] at hx
        exact hactP hx
      · simp only at h1
        rw [← ex] at h1
        have := π.injective h1
        rw [this] at hx
        exact hUP y hyU hx

theorem EvRes.nil {G : Geo} {m0 : Mem} (clevel : ℤ) {PL : List (ℤ × ℤ)} (d : diagnostics)
    {g : Cnt} {m : Mem} (hT : Tracked G m0 g m PL) (hO : ProbesOk G PL) :
    EvRes G m0 clevel [] PL [] d d g m :=
  ⟨by simp [tcount_add_zero], by simp, by simp, by simpa using hT, by simpa using hO⟩

theorem EvRes.seq {G : Geo} {m0 : Mem} {clevel : ℤ} {ev1 ev2 : List split_event}
    {PL PL1 PL2 : List (ℤ × ℤ)} {d d1 d2 : diagnostics} {g1 g2 : Cnt} {m1 m2 : Mem}
    (h1 : EvRes G m0 clevel ev1 PL PL1 d d1 g1 m1)
    (h2 : EvRes G m0 clevel ev2 (PL ++ PL1) PL2 d1 d2 g2 m2) :
    EvRes G m0 clevel (ev1 ++ ev2) PL (PL1 ++ PL2) d d2 g2 m2 := by
  refine ⟨?_, ?_, ?_, ?_, ?_⟩
  · rw [h2.diag, h1.diag, tcount_add_add, List.length_append]
  · rw [List.filterMap_append, h1.probes, h2.probes, List.map_append]
  · intro e he x hx
    rcases List.mem_append.1 he with he | he
    · exact h1.writes e he x hx
    · exact h2.writes e he x hx
  · rw [← List.append_assoc]; exact h2.tracked
  · rw [← List.append_assoc]; exact h2.ok

theorem NoFast.store {E : particle → particle → Prop} {G : Geo} {m0 m : Mem}
    (h : NoFast E G m0) (hp : MemPerm (G.zone 0 G.nm 0 G.nz) m0 m) : NoFast E G m := by
  obtain ⟨π, f, e⟩ := hp
  intro x y hx hy hxy
  rw [e x, e y]
  exact h _ _ (perm_maps_into f hx) (perm_maps_into f hy) (fun hh => hxy (π.injective hh))

/-- One pass of the inner loop, with its events. -/
theorem inner_pass_ev (ts : particle → particle → ℤ → DOUBLE) (dir : ℤ) (dt : DOUBLE)
    (clevel : ℤ) {G : Geo} (hD : G.Disj) {m0 : Mem} {g : Cnt} {L : List Blk}
    {st : split_state} {PL : List (ℤ × ℤ)} (hI : Inv (fast ts dir dt) G m0 g L st)
    (hX : InnerX g st) (hpos : 0 < g.km + g.kz) (hT : Tracked G m0 g st.mem PL)
    (hO : ProbesOk G PL) :
    ∃ (jm jz : ℕ) (st1 : split_state) (PL1 : List (ℤ × ℤ)),
      inner_pass ts dir dt clevel st = .ok st1 ∧
      Inv (fast ts dir dt) G m0 ((g.push jm jz).pop (decide (0 < g.km))) L st1 ∧
      InnerX ((g.push jm jz).pop (decide (0 < g.km))) st1 ∧
      EvRes G m0 clevel (inner_pass_events ts dir dt clevel st) PL PL1 st.diag st1.diag
        ((g.push jm jz).pop (decide (0 < g.km))) st1.mem ∧
      PL1.length = (unvList G g).length ∧
      (NoFast (fast ts dir dt) G m0 → jm = 0 ∧ jz = 0) := by
  obtain ⟨jm, jz, st1, hrun, hI1, hX1, hd⟩ := inner_pass_inv ts dir dt clevel hD hI hX hpos
  obtain ⟨jm', jz', st1', m1, hrun', c1, s1, z1, w1, k1, a1, d1, p1, p2, e1, n1⟩ :=
    inner_pass_spec ts dir dt clevel hD hI.cur hX.stack_size hpos
  have hst : st1' = st1 := by
    have := hrun'.symm.trans hrun
    injection this
  subst hst
  have hb := hI.cur.bound
  have hbz := hI.cur.boundzero
  have hU : MemPerm (Unv G g) st.mem st1'.mem :=
    (p1.mono (fun x hx => by unfold Geo.zone at hx; unfold Unv Geo.zone; omega)).trans
      (p2.mono (fun x hx => by unfold Geo.zone at hx; unfold Unv Geo.zone; omega))
  obtain ⟨v1, v2⟩ := inner_pass_events_spec ts dir dt clevel hD hI.cur hpos
  obtain ⟨PL1, q1, q2, q3, q4⟩ := Tracked.pass hD hb hbz hpos hT hO hU
    (popped_pop hD hb hbz hpos jm jz)
  refine ⟨jm, jz, st1', PL1, hrun, hI1, hX1, ⟨?_, ?_, ?_, q3, q4⟩, q2, ?_⟩
  · rw [hd, q2, length_unvList]
  · rw [v1, q1]
  · intro e he x hx
    have := v2 e he x hx
    unfold Unv Geo.zone at this; unfold Geo.zone; omega
  · intro hN
    have hN1 := hN.store hI1.perm
    have hactU : ¬ Unv G g (g.act G) := by
      unfold Geo.Disj at hD
      unfold Unv Geo.zone Cnt.act; split_ifs <;> omega
    have hactz : G.zone 0 G.nm 0 G.nz (g.act G) := by
      unfold Geo.zone Cnt.act; split_ifs <;> omega
    have hfr : st1'.mem (g.act G) = st.mem (g.act G) := hU.frame hactU
    have hj : jm' = 0 ∧ jz' = 0 := by
      by_contra hne
      have hne' : 0 < jm' ∨ 0 < jz' := by omega
      have hc1b := c1.bound
      have hc1z := c1.boundzero
      have hex : ∃ x, G.zone (g.em + g.vm + g.km) (g.em + g.vm + g.km + jm')
          (g.ez + g.vz + g.kz) (g.ez + g.vz + g.kz + jz') x := by
        rcases hne' with h | h
        · exact ⟨G.P + ((g.em + g.vm + g.km : ℕ) : ℤ), Or.inl ⟨le_refl _, by push_cast; omega⟩⟩
        · exact ⟨G.Z + ((g.ez + g.vz + g.kz : ℕ) : ℤ), Or.inr ⟨le_refl _, by push_cast; omega⟩⟩
      obtain ⟨x, hx⟩ := hex
      have hfast := e1 x hx
      rw [← hfr] at hfast
      have hB : g.em + g.vm + g.km + jm' + g.rm ≤ G.nm ∧
          g.ez + g.vz + g.kz + jz' + g.rz ≤ G.nz := by
        by_cases hk : 0 < g.km
        · simp only [Cnt.push, Cnt.pop, hk, decide_True, if_true] at hc1b hc1z
          omega
        · simp only [Cnt.push, Cnt.pop, hk, decide_False, Bool.false_eq_true, if_false]
            at hc1b hc1z
          omega
      clear hc1b hc1z
      have hxz : G.zone 0 G.nm 0 G.nz x := by
        unfold Geo.zone at hx ⊢; omega
      have hxa : g.act G ≠ x := by
        intro h
        rw [← h] at hx
        unfold Geo.Disj at hD
        unfold Geo.zone Cnt.act at hx
        split_ifs at hx <;> omega
      exact hN1 _ _ hactz hxz hxa hfast
    have h1 := hX1.stack_size
    rw [s1, hj.1, hj.2] at h1
    by_cases hk : 0 < g.km
    · simp only [Cnt.push, Cnt.pop, hk, decide_True, if_true] at h1
      omega
    · simp only [Cnt.push, Cnt.pop, hk, decide_False, Bool.false_eq_true, if_false] at h1
      omega

/-- The inner loop, with its events. -/
theorem inner_loop_ev (ts : particle → particle → ℤ → DOUBLE) (dir : ℤ) (dt : DOUBLE)
    (clevel : ℤ) {G : Geo} (hD : G.Disj) {m0 : Mem} {L : List Blk} :
    ∀ (fuel : ℕ) (g : Cnt) (st : split_state) (PL : List (ℤ × ℤ)),
      Inv (fast ts dir dt) G m0 g L st → InnerX g st →
      (G.nm - g.em - g.rm - g.vm) + (G.nz - g.ez - g.rz - g.vz) ≤ fuel →
      Tracked G m0 g st.mem PL → ProbesOk G PL →
      ∃ (g1 : Cnt) (st1 : split_state) (PL1 : List (ℤ × ℤ)),
        inner_loop ts dir dt clevel fuel st = .ok st1 ∧
        Inv (fast ts dir dt) G m0 g1 L st1 ∧ InnerX g1 st1 ∧
        g1.km = 0 ∧ g1.kz = 0 ∧ g1.em = g.em ∧ g1.rm = g.rm ∧ g1.ez = g.ez ∧ g1.rz = g.rz ∧
        g.vm + g.vz ≤ g1.vm + g1.vz ∧ (0 < g.km + g.kz → 1 ≤ g1.vm + g1.vz) ∧
        EvRes G m0 clevel (inner_loop_events ts dir dt clevel fuel st) PL PL1 st.diag st1.diag
          g1 st1.mem ∧
        (g.km + g.kz = 0 → PL1 = [] ∧ g1.vm + g1.vz = g.vm + g.vz) ∧
        (NoFast (fast ts dir dt) G m0 → g.km + g.kz = 1 →
          PL1.length = (unvList G g).length ∧ g1.vm + g1.vz = g.vm + g.vz + 1) := by
  intro fuel
  induction fuel with
  | zero =>
    intro g st PL hI hX hf hT hO
    have hb := hI.cur.bound
    have hbz := hI.cur.boundzero
    have hs := hX.stack_size
    refine ⟨g, st, [], ?_, hI, hX, by omega, by omega, rfl, rfl, rfl, rfl, le_refl _, by omega,
      ?_, fun _ => ⟨rfl, rfl⟩, fun _ h => by omega⟩
    · have : ¬ st.stack_size > 0 := by omega
      simp [inner_loop, this]
    · have : inner_loop_events ts dir dt clevel 0 st = [] := by simp [inner_loop_events]
      rw [this]
      exact EvRes.nil clevel st.diag hT hO
  | succ fuel ih =>
    intro g st PL hI hX hf hT hO
    by_cases hpos : 0 < g.km + g.kz
    · obtain ⟨jm, jz, st1, PL1, hrun, hI1, hX1, hE1, hlen, hNF⟩ :=
        inner_pass_ev ts dir dt clevel hD hI hX hpos hT hO
      have hR := popRel_of_spec hI.cur.bound hI.cur.boundzero hI1.cur.bound hI1.cur.boundzero hpos
      obtain ⟨hb, hbz, hb1, hbz1, q1, q2, q3, q4, q5, q6, q7⟩ := hR
      obtain ⟨g2, st2, PL2, hrun2, hI2, hX2, k1, k2, r1, r2, r3, r4, r5, r6, hE2, hA, hB⟩ :=
        ih _ st1 (PL ++ PL1) hI1 hX1 (by omega) hE1.tracked hE1.ok
      have hs : st.stack_size > 0 := by rw [hX.stack_size]; exact hpos
      refine ⟨g2, st2, PL1 ++ PL2, ?_, hI2, hX2, k1, k2, by omega, by omega, by omega, by omega,
        by omega, by omega, ?_, fun h => by omega, fun hN h1 => ?_⟩
      · simp [inner_loop, hs, hrun, hrun2]
      · have : inner_loop_events ts dir dt clevel (fuel + 1) st =
            inner_pass_events ts dir dt clevel st ++
              inner_loop_events ts dir dt clevel fuel st1 := by
          simp [inner_loop_events, hs, hrun]
        rw [this]
        exact hE1.seq hE2
      · obtain ⟨j1, j2⟩ := hNF hN
        subst j1 j2
        have hk0 : ((g.push 0 0).pop (decide (0 < g.km))).km +
            ((g.push 0 0).pop (decide (0 < g.km))).kz = 0 := by
          by_cases hk : 0 < g.km
          · simp only [Cnt.push, Cnt.pop, hk, decide_True, if_true]; omega
          · simp only [Cnt.push, Cnt.pop, hk, decide_False, Bool.false_eq_true, if_false]; omega
        obtain ⟨a1, a2⟩ := hA hk0
        subst a1
        rw [List.append_nil]
        refine ⟨hlen, ?_⟩
        rw [a2]
        rcases q7 with ⟨_, h1, h2, _⟩ | ⟨_, _, h1, h2, _⟩ <;> omega
    · have hs := hX.stack_size
      refine ⟨g, st, [], ?_, hI, hX, by omega, by omega, rfl, rfl, rfl, rfl, le_refl _, by omega,
        ?_, fun _ => ⟨rfl, rfl⟩, fun _ h => by omega⟩
      · have : ¬ st.stack_size > 0 := by omega
        simp [inner_loop, this]
      · have : inner_loop_events ts dir dt clevel (fuel + 1) st = [] := by
          have : ¬ st.stack_size > 0 := by omega
          simp [inner_loop_events, this]
        rw [this]
        exact EvRes.nil clevel st.diag hT hO

theorem EvRes.moved {G : Geo} {m0 : Mem} {clevel : ℤ} {evs : List split_event}
    {PL PL1 : List (ℤ × ℤ)} {d d1 d2 : diagnostics} {g1 g2 : Cnt} {m1 m2 : Mem}
    (h : EvRes G m0 clevel evs PL PL1 d d1 g1 m1) (hd : d2 = d1) (hm : m2 = m1)
    (hP : ∀ x, Popped G g1 x → Popped G g2 x) :
    EvRes G m0 clevel evs PL PL1 d d2 g2 m2 := by
  subst hd hm
  exact ⟨h.diag, h.probes, h.writes, h.tracked.retarget hP, h.ok⟩

theorem EvRes.one_swap {G : Geo} (hD : G.Disj) {m0 : Mem} (clevel : ℤ) {PL : List (ℤ × ℤ)}
    (d : diagnostics) {g g1 : Cnt} {m : Mem} {σ ρ : ℤ} (hT : Tracked G m0 g m PL)
    (hO : ProbesOk G PL) (hR : DemRel G g g1 σ ρ) :
    EvRes G m0 clevel [.swap σ ρ] PL [] d d g1 (SWAP m σ ρ) := by
  refine ⟨by simp [tcount_add_zero], by simp [split_event.probed], ?_,
    by simpa using hT.demote hD hR, by simpa using hO⟩
  obtain ⟨hl1, hl2⟩ := demote_live hR
  intro e he x hx
  rw [List.mem_singleton] at he
  subst he
  simp only [split_event.written, List.mem_cons, List.mem_singleton, List.not_mem_nil,
    or_false] at hx
  have hb := hR.hb
  have hbz := hR.hbz
  unfold Live Geo.zone at hl1 hl2
  unfold Geo.zone
  rcases hx with rfl | rfl <;> omega

theorem demote_events_spec {G : Geo} {g : Cnt} {st : split_state} (hc : Cur G g st)
    (hk : g.km = 0 ∧ g.kz = 0) (h1 : g.vm + g.vz = 1)
    (ha : (st.active = .comp_next ∧ 1 ≤ g.vm) ∨ (st.active = .compzero_next ∧ 1 ≤ g.vz)) :
    demote_events { st with processed := st.processed + st.comp_size } =
      [.swap (g.seedAddr G) (g.restAddr G)] := by
  obtain ⟨c1, c2, c3, c4, c5, c6, c7, c8, c9⟩ := hc
  obtain ⟨k1, k2⟩ := hk
  rcases ha with ⟨ha, hv⟩ | ⟨ha, hv⟩
  · have hn : 0 < G.nm := by omega
    have hvm : g.vm = 1 := by omega
    have e1 : g.seedAddr G = G.P + g.em := by simp [Cnt.seedAddr, hv]
    have e2 : g.restAddr G = G.P + G.nm - 1 - g.rm := by simp [Cnt.restAddr, hv]
    rw [e1, e2]
    simp only [hvm, Nat.cast_one] at c1
    simp only [demote_events, ha, if_true, c1, c3, lp, hn, Ptr.add, Ptr.addr, Option.map_some',
      Option.getD_some]
    congr 2
    ring
  · have hn : 0 < G.nz := by omega
    have hvm : g.vm = 0 := by omega
    have hvz : g.vz = 1 := by omega
    have e1 : g.seedAddr G = G.Z + g.ez := by simp [Cnt.seedAddr, hvm]
    have e2 : g.restAddr G = G.Z + G.nz - 1 - g.rz := by simp [Cnt.restAddr, hvm]
    rw [e1, e2]
    simp only [hvz, Nat.cast_one] at c5
    have hne : ¬ (active_ref.compzero_next = active_ref.comp_next) := by decide
    simp only [demote_events, ha, hne, if_false, c5, c7, lp, hn, if_true, Ptr.add, Ptr.addr,
      Option.map_some', Option.getD_some]
    congr 2
    ring

/-- One pass of the outer loop, with its events. -/
theorem outer_pass_ev (ts : particle → particle → ℤ → DOUBLE) (dir : ℤ) (dt : DOUBLE)
    (clevel : ℤ) {G : Geo} (hD : G.Disj) {m0 : Mem} {g : Cnt} {L : List Blk}
    {st : split_state} {PL : List (ℤ × ℤ)} (fuel : ℕ)
    (hI : Inv (fast ts dir dt) G m0 g L st) (h0 : g.Head)
    (hlt : st.processed < G.nm + G.nz) (hf : G.nm + G.nz ≤ fuel)
    (hT : Tracked G m0 g st.mem PL) (hO : ProbesOk G PL) :
    ∃ (g1 : Cnt) (L1 : List Blk) (st1 : split_state) (PL1 : List (ℤ × ℤ)),
      outer_pass ts dir dt clevel fuel st = .ok st1 ∧
      Inv (fast ts dir dt) G m0 g1 L1 st1 ∧ g1.Head ∧ st.processed < st1.processed ∧
      EvRes G m0 clevel (outer_pass_events ts dir dt clevel fuel st) PL PL1 st.diag st1.diag
        g1 st1.mem ∧
      (NoFast (fast ts dir dt) G m0 →
        PL1.length = G.nm + G.nz - st.processed - 1 ∧ st1.processed = st.processed + 1) := by
  have hp := hI.cur.processed
  have hlt' : g.em + g.rm + g.ez + g.rz < G.nm + G.nz := by omega
  obtain ⟨z1, z2, z3, z4⟩ := h0
  have hcons1 : st.stack_next = st.comp_next := by
    rw [hI.cur.stack_next, hI.cur.comp_next, z2]; simp
  have hcons2 : st.stackzero_next = st.compzero_next := by
    rw [hI.cur.stackzero_next, hI.cur.compzero_next, z4]; simp
  obtain ⟨_, _, _, _, hsm, _, hsd, himp⟩ := startup_spec hI.cur ⟨z1, z2, z3, z4⟩ hlt'
  obtain ⟨hI1, hX1⟩ := startup_inv hD hI ⟨z1, z2, z3, z4⟩ hlt'
  obtain ⟨q1, q2, q3, q4, q5, q6, q7, q8, q9⟩ :=
    seed_rel ⟨z1, z2, z3, z4⟩ hI.cur.bound hI.cur.boundzero hlt'
  have hT1 : Tracked G m0 (g.seed G) (startup_stack st).mem PL := by
    rw [hsm]
    refine hT.retarget (fun x hx => ?_)
    unfold Popped at hx ⊢
    rw [q1, q2, q3, q4, q5, q6]
    rw [z1, z3] at hx
    exact hx
  obtain ⟨g2, st2, PL2, hrun, hI2, hX2, k1, k2, r1, r2, r3, r4, r5, r6, hE2, _, hB⟩ :=
    inner_loop_ev ts dir dt clevel hD fuel (g.seed G) (startup_stack st) PL hI1 hX1 (by omega)
      hT1 hO
  rw [hsd] at hE2
  have hsz := hX2.comp_size
  have hge : 1 ≤ g2.vm + g2.vz := r6 (by omega)
  have hp2 := hI2.cur.processed
  have hlenU : (unvList G (g.seed G)).length = G.nm + G.nz - st.processed - 1 := by
    rw [length_unvList]
    omega
  by_cases hbig : st2.comp_size > 1
  · obtain ⟨c1, l1, e1, d1⟩ :=
      emit_spec hI2.cur ⟨k1, k2⟩ hX2.comp_size hX2.compzero_size hI2.clist
    have hI3 := emit_inv hI2 hX2 ⟨k1, k2⟩ (by omega)
    refine ⟨g2.emitted, L ++ [g2.blk],
      emit_component { st2 with processed := st2.processed + st2.comp_size }, PL2, ?_,
      hI3, emitted_head g2, ?_, ?_, fun hN => ?_⟩
    · unfold outer_pass
      simp [hcons1, hcons2, himp, hrun, hbig]
    · have := hI3.cur.processed
      rw [this]
      show st.processed < (g2.em + g2.vm) + g2.rm + (g2.ez + g2.vz) + g2.rz
      omega
    · have hev : outer_pass_events ts dir dt clevel fuel st =
          inner_loop_events ts dir dt clevel fuel (startup_stack st) := by
        unfold outer_pass_events
        simp [hcons1, hcons2, himp, hrun, hbig]
      rw [hev]
      refine hE2.moved d1 e1 (fun x hx => ?_)
      unfold Popped Cnt.emitted at *
      simpa using hx
    · exfalso
      have := (hB hN q7).2
      omega
  · have h1 : g2.vm + g2.vz = 1 := by omega
    have hR := demRel_of hI2.cur.bound hI2.cur.boundzero ⟨k1, k2⟩ h1
    obtain ⟨c1, l1, e1, d1⟩ :=
      demote_spec hI2.cur ⟨k1, k2⟩ h1 hX2.comp_size (hX2.active (by omega))
    have hI3 := demote_inv hD hI2 hX2 ⟨k1, k2⟩ h1
    have hproc : (demote_to_rest
        { st2 with processed := st2.processed + st2.comp_size }).processed =
          st.processed + 1 := by
      have := hI3.cur.processed
      rw [this]
      unfold Cnt.demoted
      split_ifs <;> simp <;> omega
    refine ⟨g2.demoted, L,
      demote_to_rest { st2 with processed := st2.processed + st2.comp_size }, PL2, ?_,
      hI3, hR.head, by omega, ?_, fun hN => ⟨?_, hproc⟩⟩
    · unfold outer_pass
      simp [hcons1, hcons2, himp, hrun, hbig]
    · have hev : outer_pass_events ts dir dt clevel fuel st =
          inner_loop_events ts dir dt clevel fuel (startup_stack st) ++
            [.swap (g2.seedAddr G) (g2.restAddr G)] := by
        unfold outer_pass_events
        simp only [hcons1, hcons2, himp, hrun, hbig, ne_eq, not_true_eq_false, if_false]
        rw [demote_events_spec hI2.cur ⟨k1, k2⟩ h1 (hX2.active (by omega))]
      rw [hev, e1, d1]
      have := hE2.seq (EvRes.one_swap hD clevel st2.diag hE2.tracked hE2.ok hR)
      simpa using this
    · rw [(hB hN q7).1, hlenU]

/-- The outer loop, with its events. -/
theorem outer_loop_ev (ts : particle → particle → ℤ → DOUBLE) (dir : ℤ) (dt : DOUBLE)
    (clevel : ℤ) {G : Geo} (hD : G.Disj) {m0 : Mem} (fuel : ℕ) (hf : G.nm + G.nz ≤ fuel) :
    ∀ (k : ℕ) (g : Cnt) (L : List Blk) (st : split_state) (PL : List (ℤ × ℤ)),
      Inv (fast ts dir dt) G m0 g L st → g.Head → G.nm + G.nz - st.processed ≤ k →
      Tracked G m0 g st.mem PL → ProbesOk G PL →
      ∃ (g1 : Cnt) (L1 : List Blk) (st1 : split_state) (PL1 : List (ℤ × ℤ)),
        outer_loop ts dir dt clevel (G.nm + G.nz) fuel k st = .ok st1 ∧
        Inv (fast ts dir dt) G m0 g1 L1 st1 ∧ g1.Head ∧ st1.processed = G.nm + G.nz ∧
        EvRes G m0 clevel (outer_loop_events ts dir dt clevel (G.nm + G.nz) fuel k st) PL PL1
          st.diag st1.diag g1 st1.mem ∧
        (NoFast (fast ts dir dt) G m0 →
          PL1.length = (G.nm + G.nz - st.processed).choose 2) := by
  intro k
  induction k with
  | zero =>
    intro g L st PL hI h0 hk hT hO
    have hp := hI.cur.processed
    have hb := hI.cur.bound
    have hbz := hI.cur.boundzero
    have hnlt : ¬ st.processed < G.nm + G.nz := by omega
    have he : G.nm + G.nz - st.processed = 0 := by omega
    refine ⟨g, L, st, [], by simp [outer_loop, hnlt], hI, h0, by omega, ?_, fun _ => ?_⟩
    · have : outer_loop_events ts dir dt clevel (G.nm + G.nz) fuel 0 st = [] := by
        simp [outer_loop_events]
      rw [this]
      exact EvRes.nil clevel st.diag hT hO
    · rw [he]; rfl
  | succ k ih =>
    intro g L st PL hI h0 hk hT hO
    have hp := hI.cur.processed
    have hb := hI.cur.bound
    have hbz := hI.cur.boundzero
    by_cases hlt : st.processed < G.nm + G.nz
    · obtain ⟨g1, L1, st1, PL1, hrun, hI1, h1, hprog, hE1, hN1⟩ :=
        outer_pass_ev ts dir dt clevel hD fuel hI h0 hlt hf hT hO
      obtain ⟨g2, L2, st2, PL2, hrun2, hI2, h2, hp2, hE2, hN2⟩ :=
        ih g1 L1 st1 (PL ++ PL1) hI1 h1 (by omega) hE1.tracked hE1.ok
      refine ⟨g2, L2, st2, PL1 ++ PL2, by simp [outer_loop, hlt, hrun, hrun2], hI2, h2, hp2,
        ?_, fun hN => ?_⟩
      · have : outer_loop_events ts dir dt clevel (G.nm + G.nz) fuel (k + 1) st =
            outer_pass_events ts dir dt clevel fuel st ++
              outer_loop_events ts dir dt clevel (G.nm + G.nz) fuel k st1 := by
          simp [outer_loop_events, hlt, hrun]
        rw [this]
        exact hE1.seq hE2
      · obtain ⟨a1, a2⟩ := hN1 hN
        rw [List.length_append, a1, hN2 hN, a2]
        have e : G.nm + G.nz - st.processed = (G.nm + G.nz - (st.processed + 1)) + 1 := by omega
        rw [e, Nat.choose_succ_succ, Nat.choose_one_right]
        congr 1
    · have he : G.nm + G.nz - st.processed = 0 := by omega
      refine ⟨g, L, st, [], by simp [outer_loop, hlt], hI, h0, by omega, ?_, fun _ => ?_⟩
      · have : outer_loop_events ts dir dt clevel (G.nm + G.nz) fuel (k + 1) st = [] := by
          simp [outer_loop_events, hlt]
        rw [this]
        exact EvRes.nil clevel st.diag hT hO
      · rw [he]; rfl

/-- The whole split, with its events: the result, the pairs that have been probed, given by
the addresses that the two particles had at the call, and the swaps. -/
theorem split_cc_ev (ts : particle → particle → ℤ → DOUBLE) (fuel : ℕ) (clevel : ℤ)
    (s : sys) (dt : DOUBLE) (mem : Mem) (diag : diagnostics) (hwf : WF s) (hn : 2 ≤ s.n)
    (hfuel : s.n ≤ fuel) :
    ∃ (out : split_out) (L : List Blk) (g : Cnt) (PL : List (ℤ × ℤ)),
      split_cc ts fuel clevel s dt mem diag = .ok out ∧
      SplitRes (fast ts (SIGN dt) |dt|) (geo s) mem g L out ∧
      out.diag = (diag.tstep_incr clevel).tcount_add clevel PL.length ∧
      (split_cc_events ts fuel clevel s dt mem diag).filterMap split_event.probed =
        PL.map (fun ab => (mem ab.1, mem ab.2)) ∧
      (∀ e ∈ split_cc_events ts fuel clevel s dt mem diag, ∀ x ∈ e.written,
        (geo s).zone 0 (geo s).nm 0 (geo s).nz x) ∧
      ProbesOk (geo s) PL ∧
      (NoFast (fast ts (SIGN dt) |dt|) (geo s) mem → PL.length = s.n.choose 2) := by
  have htot := geo_total hwf
  have hT0 : Tracked (geo s) mem Cnt.zero
      (split_init s mem (diag.tstep_incr clevel)).mem [] :=
    ⟨1, fun _ _ => rfl, fun _ => rfl, fun ab hab => by simp at hab⟩
  have hO0 : ProbesOk (geo s) [] := ⟨fun ab hab => by simp at hab, List.Pairwise.nil⟩
  obtain ⟨g1, L1, st1, PL1, hrun, hI1, h1, hp1, hE, hN⟩ :=
    outer_loop_ev ts (SIGN dt) |dt| clevel hwf.2.2.2 fuel (by omega) fuel Cnt.zero []
      (split_init s mem (diag.tstep_incr clevel)) []
      (init_inv _ hwf mem _) ⟨rfl, rfl, rfl, rfl⟩ (by omega) hT0 hO0
  obtain ⟨out, hfin, hres, hd⟩ := split_finish_ok hwf hI1 h1 hp1
  have hn1 : ¬ s.n ≤ 1 := by omega
  rw [htot] at hrun hE
  refine ⟨out, L1, g1, PL1, ?_, hres, ?_, ?_, ?_, ?_, fun hNF => ?_⟩
  · unfold split_cc
    simp only [hn1, if_false, hrun, hfin]
  · rw [hd, hE.diag]; rfl
  · have := hE.probes
    unfold split_cc_events
    simp only [hn1, if_false]
    exact this
  · have := hE.writes
    unfold split_cc_events
    simp only [hn1, if_false]
    exact this
  · simpa using hE.ok
  · have := hN hNF
    rw [this, htot]
    rfl

theorem zone_iff_sysPos {s : sys} (hwf : WF s) (x : ℤ) :
    (geo s).zone 0 (geo s).nm 0 (geo s).nz x ↔ x ∈ sysPos s := by
  rw [sysPos_input hwf, List.mem_append, Geo.mem_laneM, Geo.mem_laneZ]
  unfold Geo.zone
  simp

/-- A list of probed pairs is no longer than the number of unordered pairs of addresses. -/
theorem ProbesOk.length_le {G : Geo} {PL : List (ℤ × ℤ)} (h : ProbesOk G PL) :
    PL.length ≤ (G.nm + G.nz).choose 2 := by
  obtain ⟨hz, hpw⟩ := h
  have hnd : (PL.map (fun ab => s(ab.1, ab.2))).Nodup := by
    unfold List.Nodup
    rw [List.pairwise_map]
    refine hpw.imp ?_
    intro p q hpq he
    apply hpq
    rcases Sym2.eq_iff.1 he with h | h
    · exact Or.inl h
    · exact Or.inr h
  have hsub : (PL.map (fun ab => s(ab.1, ab.2))).toFinset ⊆
      ((G.laneM ++ G.laneZ).toFinset.offDiag).image Sym2.mk := by
    intro e he
    rw [List.mem_toFinset] at he
    obtain ⟨ab, hab, rfl⟩ := List.mem_map.1 he
    obtain ⟨h1, h2, h3⟩ := hz ab hab
    refine Finset.mem_image.2 ⟨(ab.1, ab.2), Finset.mem_offDiag.2 ⟨?_, ?_, h3⟩, rfl⟩
    · rw [List.mem_toFinset, List.mem_append, Geo.mem_laneM, Geo.mem_laneZ]
      unfold Geo.zone at h1; omega
    · rw [List.mem_toFinset, List.mem_append, Geo.mem_laneM, Geo.mem_laneZ]
      unfold Geo.zone at h2; omega
  have hcard := Finset.card_le_card hsub
  rw [List.toFinset_card_of_nodup hnd, List.length_map, Sym2.card_image_offDiag] at hcard
  refine hcard.trans (Nat.choose_le_choose 2 ?_)
  refine (List.toFinset_card_le _).trans ?_
  simp [Geo.laneM, Geo.laneZ]

theorem tcount_add_tcount (d : diagnostics) (l : ℤ) (k : ℕ) :
    (d.tcount_add l k).tcount l = d.tcount l + k := by
  simp [diagnostics.tcount_add]

/-- C22 (probe count): on every well-formed view `s` of `n >= 2` particles, for every `dt` and
every time-step function, the calls of `timestep_ij` of one call of `split_cc` are calls on
pairs of particles of `s`, named by the addresses they have at the call: never a particle with
itself, and no unordered pair twice (for a store with pairwise distinct ids the same holds of
the pairs of ids); `tcount[clevel]` grows by the number of these calls, which is at most
`n (n - 1) / 2` and is `n (n - 1) / 2` when no pair of particles of `s` is within the step;
`tstep[clevel]` grows by exactly `1`, and no other level is counted. -/
theorem C22_probe_count (ts : particle → particle → ℤ → DOUBLE) (fuel : ℕ) (clevel : ℤ)
    (s : sys) (dt : DOUBLE) (mem : Mem) (diag : diagnostics) (hwf : WF s) (hn : 2 ≤ s.n)
    (hfuel : s.n ≤ fuel) :
    ∃ out, split_cc ts fuel clevel s dt mem diag = .ok out ∧
      (∃ PL : List (ℤ × ℤ),
        split_cc_probes ts fuel clevel s dt mem diag =
          PL.map (fun ab => (mem ab.1, mem ab.2)) ∧
        (∀ ab ∈ PL, ab.1 ∈ sysPos s ∧ ab.2 ∈ sysPos s ∧ ab.1 ≠ ab.2) ∧
        PL.Pairwise (fun p q => ¬ samePair p q)) ∧
      (((sysParts mem s).map particle.id).Nodup →
        (∀ pq ∈ split_cc_probes ts fuel clevel s dt mem diag, pq.1.id ≠ pq.2.id) ∧
        (split_cc_probes ts fuel clevel s dt mem diag).Pairwise (fun p q =>
          ¬ (p.1.id = q.1.id ∧ p.2.id = q.2.id) ∧ ¬ (p.1.id = q.2.id ∧ p.2.id = q.1.id))) ∧
      out.diag.tcount clevel =
        diag.tcount clevel + (split_cc_probes ts fuel clevel s dt mem diag).length ∧
      out.diag.tcount clevel ≤ diag.tcount clevel + s.n * (s.n - 1) / 2 ∧
      ((∀ x ∈ sysPos s, ∀ y ∈ sysPos s, x ≠ y → ¬ ts (mem x) (mem y) (SIGN dt) ≤ |dt|) →
        out.diag.tcount clevel = diag.tcount clevel + s.n * (s.n - 1) / 2) ∧
      out.diag.tstep clevel = diag.tstep clevel + 1 ∧
      (∀ l, l ≠ clevel → out.diag.tcount l = diag.tcount l ∧ out.diag.tstep l = diag.tstep l) := by
  obtain ⟨out, L, g, PL, hrun, hres, hd, hpr, hwr, hO, hN⟩ :=
    split_cc_ev ts fuel clevel s dt mem diag hwf hn hfuel
  have hlen : (split_cc_probes ts fuel clevel s dt mem diag).length = PL.length := by
    unfold split_cc_probes; rw [hpr, List.length_map]
  have hpos : ∀ ab ∈ PL, ab.1 ∈ sysPos s ∧ ab.2 ∈ sysPos s ∧ ab.1 ≠ ab.2 := fun ab hab =>
    ⟨(zone_iff_sysPos hwf _).1 (hO.1 ab hab).1, (zone_iff_sysPos hwf _).1 (hO.1 ab hab).2.1,
      (hO.1 ab hab).2.2⟩
  have hcount : out.diag.tcount clevel = diag.tcount clevel + PL.length := by
    rw [hd, tcount_add_tcount]
    simp [diagnostics.tstep_incr]
  have hle := hO.length_le
  rw [geo_total hwf, Nat.choose_two_right] at hle
  refine ⟨out, hrun, ⟨PL, hpr, hpos, hO.2⟩, fun hnd => ?_, by rw [hcount, hlen], by omega,
    fun hno => ?_, ?_, fun l hl => ?_⟩
  · have hinj : ∀ x ∈ sysPos s, ∀ y ∈ sysPos s, (mem x).id = (mem y).id → x = y := by
      unfold sysParts at hnd
      rw [List.map_map] at hnd
      exact fun x hx y hy h => List.inj_on_of_nodup_map hnd hx hy h
    unfold split_cc_probes
    rw [hpr]
    constructor
    · intro pq hpq
      obtain ⟨ab, hab, rfl⟩ := List.mem_map.1 hpq
      obtain ⟨h1, h2, h3⟩ := hpos ab hab
      exact fun h => h3 (hinj _ h1 _ h2 h)
    · rw [List.pairwise_map]
      refine hO.2.imp_of_mem ?_
      intro p q hp hq hpq
      obtain ⟨p1, p2, _⟩ := hpos p hp
      obtain ⟨q1, q2, _⟩ := hpos q hq
      constructor
      · rintro ⟨e1, e2⟩
        exact hpq (Or.inl ⟨hinj _ p1 _ q1 e1, hinj _ p2 _ q2 e2⟩)
      · rintro ⟨e1, e2⟩
        exact hpq (Or.inr ⟨hinj _ p1 _ q2 e1, hinj _ p2 _ q1 e2⟩)
  · have hNF : NoFast (fast ts (SIGN dt) |dt|) (geo s) mem := fun x y hx hy hxy =>
      hno x ((zone_iff_sysPos hwf x).1 hx) y ((zone_iff_sysPos hwf y).1 hy) hxy
    rw [hcount, hN hNF, Nat.choose_two_right]
  · rw [hd]
    simp [diagnostics.tcount_add, diagnostics.tstep_incr]
  · rw [hd]
    simp [diagnostics.tcount_add, diagnostics.tstep_incr, hl]

/-- C23 (frame of the split): on every well-formed view `s`, contiguous or not, over a store
of any size, every write of `split_cc` is a `SWAP` of two records at addresses of
`[s.part .. s.last]` or `[s.zeropart .. s.lastzero]`; on return the store is the store of the
call read through a permutation of these addresses, so that every address outside the two
ranges, those between the ranges of a view that is not contiguous included, holds the record
it held, and every record inside is a whole record of the call; massive records stay in the
massive range and massless ones in the massless range.  With `s.n <= 1` nothing is written. -/
theorem C23_frame (ts : particle → particle → ℤ → DOUBLE) (fuel : ℕ) (clevel : ℤ)
    (s : sys) (dt : DOUBLE) (mem : Mem) (diag : diagnostics) (hwf : WF s)
    (hfuel : s.n ≤ fuel) :
    (s.n ≤ 1 → split_cc ts fuel clevel s dt mem diag = .fatal .not_right mem ∧
      split_cc_events ts fuel clevel s dt mem diag = []) ∧
    (2 ≤ s.n → ∃ out, split_cc ts fuel clevel s dt mem diag = .ok out ∧
      (∀ e ∈ split_cc_events ts fuel clevel s dt mem diag, ∀ x ∈ e.written, x ∈ sysPos s) ∧
      (∀ x ∈ split_cc_writes ts fuel clevel s dt mem diag, x ∈ sysPos s) ∧
      (∀ x, x ∉ sysPos s → out.mem x = mem x) ∧
      (∃ π : Equiv.Perm ℤ, (∀ x, x ∉ sysPos s → π x = x) ∧ (∀ x, out.mem x = mem (π x))) ∧
      ((massivePos s).map out.mem).Perm ((massivePos s).map mem) ∧
      ((masslessPos s).map out.mem).Perm ((masslessPos s).map mem)) := by
  constructor
  · intro h1
    constructor
    · unfold split_cc; simp only [h1, if_true]
    · unfold split_cc_events; simp only [h1, if_true]
  · intro hn
    obtain ⟨out, L, g, PL, hrun, hres, hd, hpr, hwr, hO, hN⟩ :=
      split_cc_ev ts fuel clevel s dt mem diag hwf hn hfuel
    have hw : ∀ e ∈ split_cc_events ts fuel clevel s dt mem diag, ∀ x ∈ e.written,
        x ∈ sysPos s := fun e he x hx => (zone_iff_sysPos hwf x).1 (hwr e he x hx)
    obtain ⟨π, f, e⟩ := hres.perm
    refine ⟨out, hrun, hw, ?_, ?_, ⟨π, ?_, e⟩, hres.lanes.massive, hres.lanes.massless⟩
    · intro x hx
      unfold split_cc_writes at hx
      obtain ⟨ev, hev, hxe⟩ := List.mem_flatMap.1 hx
      exact hw ev hev x hxe
    · intro x hx
      exact hres.perm.frame (fun h => hx ((zone_iff_sysPos hwf x).1 h))
    · intro x hx
      exact f x (fun h => hx ((zone_iff_sysPos hwf x).1 h))

/-! ## Instances of the claims -/

theorem C22_witness :
    (∃ out, split_cc starTs 4 0 (viewAt0 4 0) (1 / 10) (idStore []) diag0 = .ok out ∧
        out.diag.tcount 0 = 5 ∧ out.diag.tstep 0 = 1) ∧
      (split_cc_probes starTs 4 0 (viewAt0 4 0) (1 / 10) (idStore []) diag0).map
          (fun pq => (pq.1.id, pq.2.id)) = [(0, 1), (0, 2), (0, 3), (1, 3), (2, 3)] ∧
      (∃ out, split_cc (pairTs [] (1 / 100) 1) 4 0 (viewAt0 4 0) (1 / 10) (idStore []) diag0 =
          .ok out ∧ out.diag.tcount 0 = 6 ∧ out.diag.tstep 0 = 1) ∧
      ∃ out, split_cc starTs 4 0 (viewAt0 4 0) (1 / 10) (idStore []) diag0 = .ok out ∧
        (∃ PL : List (ℤ × ℤ),
          split_cc_probes starTs 4 0 (viewAt0 4 0) (1 / 10) (idStore []) diag0 =
            PL.map (fun ab => (idStore [] ab.1, idStore [] ab.2)) ∧
          (∀ ab ∈ PL, ab.1 ∈ sysPos (viewAt0 4 0) ∧ ab.2 ∈ sysPos (viewAt0 4 0) ∧
            ab.1 ≠ ab.2) ∧
          PL.Pairwise (fun p q => ¬ samePair p q)) ∧
        (((sysParts (idStore []) (viewAt0 4 0)).map particle.id).Nodup →
          (∀ pq ∈ split_cc_probes starTs 4 0 (viewAt0 4 0) (1 / 10) (idStore []) diag0,
            pq.1.id ≠ pq.2.id) ∧
          (split_cc_probes starTs 4 0 (viewAt0 4 0) (1 / 10) (idStore []) diag0).Pairwise
            (fun p q => ¬ (p.1.id = q.1.id ∧ p.2.id = q.2.id) ∧
              ¬ (p.1.id = q.2.id ∧ p.2.id = q.1.id))) ∧
        out.diag.tcount 0 = diag0.tcount 0 +
          (split_cc_probes starTs 4 0 (viewAt0 4 0) (1 / 10) (idStore []) diag0).length ∧
        out.diag.tcount 0 ≤ diag0.tcount 0 + (viewAt0 4 0).n * ((viewAt0 4 0).n - 1) / 2 ∧
        ((∀ x ∈ sysPos (viewAt0 4 0), ∀ y ∈ sysPos (viewAt0 4 0), x ≠ y →
            ¬ starTs (idStore [] x) (idStore [] y) (SIGN (1 / 10)) ≤ |(1 / 10 : DOUBLE)|) →
          out.diag.tcount 0 =
            diag0.tcount 0 + (viewAt0 4 0).n * ((viewAt0 4 0).n - 1) / 2) ∧
        out.diag.tstep 0 = diag0.tstep 0 + 1 ∧
        (∀ l, l ≠ 0 → out.diag.tcount l = diag0.tcount l ∧
          out.diag.tstep l = diag0.tstep l) := by
  refine ⟨?_, by decide!, ?_, C22_probe_count starTs 4 0 (viewAt0 4 0) (1 / 10) (idStore [])
    diag0 (by decide) (by decide) (by decide)⟩
  · have h : (split_cc starTs 4 0 (viewAt0 4 0) (1 / 10) (idStore []) diag0).check
        (fun out => decide (out.diag.tcount 0 = 5 ∧ out.diag.tstep 0 = 1)) = true := by decide!
    obtain ⟨out, hrun, hP⟩ := outcome.of_check h
    exact ⟨out, hrun, of_decide_eq_true hP⟩
  · have h : (split_cc (pairTs [] (1 / 100) 1) 4 0 (viewAt0 4 0) (1 / 10) (idStore [])
        diag0).check
        (fun out => decide (out.diag.tcount 0 = 6 ∧ out.diag.tstep 0 = 1)) = true := by decide!
    obtain ⟨out, hrun, hP⟩ := outcome.of_check h
    exact ⟨out, hrun, of_decide_eq_true hP⟩

theorem C23_witness :
    WF gapView4 ∧ gapView4.zeropart ≠ gapView4.last.add 1 ∧
      split_cc_writes (pairTs [(1, 6)] (1 / 100) 1) 4 0 gapView4 (1 / 10) (idStore [5, 6])
        diag0 = [0, 1, 5, 6, 6, 6] ∧
      (∃ out, split_cc (pairTs [(1, 6)] (1 / 100) 1) 4 0 gapView4 (1 / 10) (idStore [5, 6])
          diag0 = .ok out ∧
        [-1, 2, 3, 4, 7].map (fun x => (out.mem x).id) = [0, 2, 3, 4, 7] ∧
        [0, 1, 5, 6].map (fun x => (out.mem x).id) = [1, 0, 6, 5]) ∧
      (gapView4.n ≤ 1 →
        split_cc (pairTs [(1, 6)] (1 / 100) 1) 4 0 gapView4 (1 / 10) (idStore [5, 6]) diag0 =
          .fatal .not_right (idStore [5, 6]) ∧
        split_cc_events (pairTs [(1, 6)] (1 / 100) 1) 4 0 gapView4 (1 / 10) (idStore [5, 6])
          diag0 = []) ∧
      (2 ≤ gapView4.n →
        ∃ out, split_cc (pairTs [(1, 6)] (1 / 100) 1) 4 0 gapView4 (1 / 10) (idStore [5, 6])
            diag0 = .ok out ∧
          (∀ e ∈ split_cc_events (pairTs [(1, 6)] (1 / 100) 1) 4 0 gapView4 (1 / 10)
            (idStore [5, 6]) diag0, ∀ x ∈ e.written, x ∈ sysPos gapView4) ∧
          (∀ x ∈ split_cc_writes (pairTs [(1, 6)] (1 / 100) 1) 4 0 gapView4 (1 / 10)
            (idStore [5, 6]) diag0, x ∈ sysPos gapView4) ∧
          (∀ x, x ∉ sysPos gapView4 → out.mem x = idStore [5, 6] x) ∧
          (∃ π : Equiv.Perm ℤ, (∀ x, x ∉ sysPos gapView4 → π x = x) ∧
            (∀ x, out.mem x = idStore [5, 6] (π x))) ∧
          ((massivePos gapView4).map out.mem).Perm ((massivePos gapView4).map (idStore [5, 6])) ∧
          ((masslessPos gapView4).map out.mem).Perm
            ((masslessPos gapView4).map (idStore [5, 6]))) := by
  refine ⟨by decide, by decide, by decide!, ?_, C23_frame (pairTs [(1, 6)] (1 / 100) 1) 4 0
    gapView4 (1 / 10) (idStore [5, 6]) diag0 (by decide) (by decide)⟩
  have h : (split_cc (pairTs [(1, 6)] (1 / 100) 1) 4 0 gapView4 (1 / 10) (idStore [5, 6])
      diag0).check (fun out => decide
        ([-1, 2, 3, 4, 7].map (fun x => (out.mem x).id) = [0, 2, 3, 4, 7] ∧
          [0, 1, 5, 6].map (fun x => (out.mem x).id) = [1, 0, 6, 5])) = true := by decide!
  obtain ⟨out, hrun, hP⟩ := outcome.of_check h
  exact ⟨out, hrun, of_decide_eq_true hP⟩

end EvolveCC
